import Mathlib

/-!
# Dictionary (zoheirdib/Dictionary): a trie over an intrusive multi-way tree

Shallow embedding of `Tree/ZDTree.h` and `ZDDictionary.h`.

* Nodes live in a store of cells addressed by natural numbers; a node pointer is an
  `Option Nat` (`none` is the null pointer).  Allocation hands out the next unused
  address, deallocation empties the cell.
* Every function that dereferences a pointer or checks an `assert` returns
  `Except Fault _`; a `while` loop over links is a recursion on a fuel argument and
  reports `Fault.out_of_fuel` when the fuel is spent before the loop condition fails.
  The public operations take the number of allocated addresses as fuel.
* A `std::string` that is erased from while a range-`for` walks over it is modelled by
  its character storage together with its current size (`CxxString`).
-/

namespace Dico

/-! ## Faults and the node store -/

/-- Ways in which a call can fail to return normally. -/
inductive Fault where
  | null_deref
  | dangling
  | assertion
  | out_of_fuel
  deriving DecidableEq, Repr

instance instDecidableEqExcept {ε α : Type} [DecidableEq ε] [DecidableEq α] :
    DecidableEq (Except ε α)
  | .ok a, .ok b =>
    if h : a = b then isTrue (congrArg Except.ok h)
    else isFalse (fun h2 => h (Except.ok.inj h2))
  | .error a, .error b =>
    if h : a = b then isTrue (congrArg Except.error h)
    else isFalse (fun h2 => h (Except.error.inj h2))
  | .ok _, .error _ => isFalse (fun h => Except.noConfusion h)
  | .error _, .ok _ => isFalse (fun h => Except.noConfusion h)

/-- `TreeNode<char>`: the five links and the payload. -/
structure TreeNode where
  parent : Option Nat
  first_child : Option Nat
  last_child : Option Nat
  prev_sibling : Option Nat
  next_sibling : Option Nat
  data : Char
  deriving DecidableEq, Repr

/-- `ZDTree<char>`: the node store, the allocator position and the two sentinels. -/
structure ZDTree where
  cells : Nat → Option TreeNode
  fresh : Nat
  head : Nat
  feet : Nat

/-- Dereference of a node pointer. -/
def ZDTree.read (t : ZDTree) : Option Nat → Except Fault TreeNode
  | none => .error .null_deref
  | some a =>
    match t.cells a with
    | none => .error .dangling
    | some n => .ok n

/-- Overwrite the cell at address `a`. -/
def ZDTree.write (t : ZDTree) (a : Nat) (n : TreeNode) : ZDTree :=
  { t with cells := fun k => if k = a then some n else t.cells k }

/-- Assignment to fields of the node behind pointer `p` (`p->field = value`). -/
def ZDTree.update (t : ZDTree) (p : Option Nat) (f : TreeNode → TreeNode) :
    Except Fault ZDTree :=
  match p with
  | none => .error .null_deref
  | some a =>
    match t.cells a with
    | none => .error .dangling
    | some n => .ok (t.write a (f n))

/-- `allocate` + `construct(tmp, x)`: a new node with null links holding `x`. -/
def ZDTree.allocate (t : ZDTree) (x : Char) : ZDTree × Nat :=
  ({ t with
      cells := fun k => if k = t.fresh then some ⟨none, none, none, none, none, x⟩
                        else t.cells k,
      fresh := t.fresh + 1 }, t.fresh)

/-- `destroy` + `deallocate`. -/
def ZDTree.deallocate (t : ZDTree) (a : Nat) : ZDTree :=
  { t with cells := fun k => if k = a then none else t.cells k }

/-! ## ZDTree -/

/-- `ZDTree::head_initialise` (the whole of the constructor `ZDTree()`). -/
def ZDTree.head_initialise : ZDTree :=
  { cells := fun k =>
      if k = 0 then some ⟨none, none, none, none, some 1, '\x00'⟩
      else if k = 1 then some ⟨none, none, none, some 0, none, '\x00'⟩
      else none,
    fresh := 2, head := 0, feet := 1 }

/-- `ZDTree::begin()`: `pre_order_iterator(head->next_sibling)`. -/
def ZDTree.begin (t : ZDTree) : Except Fault (Option Nat) := do
  let h ← t.read (some t.head)
  pure h.next_sibling

/-- `ZDTree::end()`: `pre_order_iterator(feet)`. -/
def ZDTree.end (t : ZDTree) : Option Nat := some t.feet

/-- `ZDTree::insert(position, const T& x)`: new node as previous sibling of `position`. -/
def ZDTree.insert (t : ZDTree) (position : Option Nat) (x : Char) :
    Except Fault (ZDTree × Option Nat) := do
  let position := if position = none then some t.feet else position
  if position = some t.head then throw Fault.assertion
  let (t, tmp) := t.allocate x
  let t ← t.update (some tmp) (fun n => { n with first_child := none })
  let t ← t.update (some tmp) (fun n => { n with last_child := none })
  let pn ← t.read position
  let t ← t.update (some tmp) (fun n => { n with parent := pn.parent })
  let t ← t.update (some tmp) (fun n => { n with next_sibling := position })
  let t ← t.update (some tmp) (fun n => { n with prev_sibling := pn.prev_sibling })
  let t ← t.update position (fun n => { n with prev_sibling := some tmp })
  let tn ← t.read (some tmp)
  let t ←
    if tn.prev_sibling = none then
      if tn.parent ≠ none then
        t.update tn.parent (fun n => { n with first_child := some tmp })
      else pure t
    else t.update tn.prev_sibling (fun n => { n with next_sibling := some tmp })
  pure (t, some tmp)

/-- `ZDTree::insert(position, T&& x)`: as `insert(position, const T& x)` without the
assertion; the node is default-constructed and `x` is swapped into its `data`. -/
def ZDTree.insert_move (t : ZDTree) (position : Option Nat) (x : Char) :
    Except Fault (ZDTree × Option Nat) := do
  let position := if position = none then some t.feet else position
  let (t, tmp) := t.allocate x
  let t ← t.update (some tmp) (fun n => { n with first_child := none })
  let t ← t.update (some tmp) (fun n => { n with last_child := none })
  let pn ← t.read position
  let t ← t.update (some tmp) (fun n => { n with parent := pn.parent })
  let t ← t.update (some tmp) (fun n => { n with next_sibling := position })
  let t ← t.update (some tmp) (fun n => { n with prev_sibling := pn.prev_sibling })
  let t ← t.update position (fun n => { n with prev_sibling := some tmp })
  let tn ← t.read (some tmp)
  let t ←
    if tn.prev_sibling = none then
      if tn.parent ≠ none then
        t.update tn.parent (fun n => { n with first_child := some tmp })
      else pure t
    else t.update tn.prev_sibling (fun n => { n with next_sibling := some tmp })
  pure (t, some tmp)

/-- `ZDTree::append_child(position, const T& x)`: new node as last child of `position`. -/
def ZDTree.append_child (t : ZDTree) (position : Option Nat) (x : Char) :
    Except Fault (ZDTree × Option Nat) := do
  if position = some t.head then throw Fault.assertion
  if position = some t.feet then throw Fault.assertion
  if position = none then throw Fault.assertion
  let (t, tmp) := t.allocate x
  let t ← t.update (some tmp) (fun n => { n with first_child := none })
  let t ← t.update (some tmp) (fun n => { n with last_child := none })
  let t ← t.update (some tmp) (fun n => { n with parent := position })
  let pn ← t.read position
  let t ←
    if pn.last_child ≠ none then
      t.update pn.last_child (fun n => { n with next_sibling := some tmp })
    else t.update position (fun n => { n with first_child := some tmp })
  let pn ← t.read position
  let t ← t.update (some tmp) (fun n => { n with prev_sibling := pn.last_child })
  let t ← t.update position (fun n => { n with last_child := some tmp })
  let t ← t.update (some tmp) (fun n => { n with next_sibling := none })
  pure (t, some tmp)

/-- The `while (node->next_sibling == 0)` loop of `pre_order_iterator::operator++`,
followed by the step to the next sibling; the result is null when the walk leaves
the top of the tree. -/
def ZDTree.next_skipping : Nat → ZDTree → Option Nat → Except Fault (Option Nat)
  | 0, _, _ => .error .out_of_fuel
  | fuel + 1, t, node => do
    let n ← t.read node
    if n.next_sibling = none then
      if n.parent = none then pure none
      else ZDTree.next_skipping fuel t n.parent
    else pure n.next_sibling

/-- `pre_order_iterator::operator++`; `skip` is the iterator's `skip_current_children_`. -/
def ZDTree.pre_incr (t : ZDTree) (node : Option Nat) (skip : Bool) :
    Except Fault (Option Nat) := do
  if node = none then throw Fault.assertion
  let n ← t.read node
  if !skip && n.first_child ≠ none then pure n.first_child
  else ZDTree.next_skipping (t.fresh + 1) t node

/-- The `while (node->last_child)` loop of `pre_order_iterator::operator--`. -/
def ZDTree.deepest_last : Nat → ZDTree → Option Nat → Except Fault (Option Nat)
  | 0, _, _ => .error .out_of_fuel
  | fuel + 1, t, node => do
    let n ← t.read node
    if n.last_child ≠ none then ZDTree.deepest_last fuel t n.last_child
    else pure node

/-- `pre_order_iterator::operator--`. -/
def ZDTree.pre_decr (t : ZDTree) (node : Option Nat) : Except Fault (Option Nat) := do
  if node = none then throw Fault.assertion
  let n ← t.read node
  if n.prev_sibling ≠ none then ZDTree.deepest_last (t.fresh + 1) t n.prev_sibling
  else pure n.parent

mutual
/-- `ZDTree::erase_children(it)`. -/
def ZDTree.erase_children : Nat → ZDTree → Option Nat → Except Fault ZDTree
  | _, t, none => pure t
  | 0, _, some _ => .error .out_of_fuel
  | fuel + 1, t, some a => do
    let n ← t.read (some a)
    let t ← ZDTree.erase_children_loop fuel t n.first_child
    let t ← t.update (some a) (fun n => { n with first_child := none })
    t.update (some a) (fun n => { n with last_child := none })
/-- The `while (cur != 0)` loop of `erase_children`. -/
def ZDTree.erase_children_loop : Nat → ZDTree → Option Nat → Except Fault ZDTree
  | _, t, none => pure t
  | 0, _, some _ => .error .out_of_fuel
  | fuel + 1, t, some prev => do
    let n ← t.read (some prev)
    let cur := n.next_sibling
    let t ← ZDTree.erase_children fuel t (some prev)
    ZDTree.erase_children_loop fuel (t.deallocate prev) cur
end

/-- `ZDTree::erase(it)`: erase the node and its descendants, return the position after
the erased subtree.  (The recursion of `erase_children` spends one unit of fuel for a
step down and one for a step to the next sibling, so twice the number of allocated
addresses is enough.) -/
def ZDTree.erase (t : ZDTree) (it : Option Nat) : Except Fault (ZDTree × Option Nat) := do
  let cur := it
  if cur = some t.head then throw Fault.assertion
  let ret ← t.pre_incr it true
  let t ← ZDTree.erase_children (2 * t.fresh + 1) t it
  let c ← t.read cur
  let t ←
    if c.prev_sibling = none then
      t.update c.parent (fun n => { n with first_child := c.next_sibling })
    else t.update c.prev_sibling (fun n => { n with next_sibling := c.next_sibling })
  let c ← t.read cur
  let t ←
    if c.next_sibling = none then
      t.update c.parent (fun n => { n with last_child := c.prev_sibling })
    else t.update c.next_sibling (fun n => { n with prev_sibling := c.prev_sibling })
  match cur with
  | none => throw Fault.null_deref
  | some a => pure (t.deallocate a, ret)

/-! ## std::string under a range-for -/

/-- Character storage of a `std::string` together with its current size.  A range-`for`
takes `begin()`/`end()` once, so it keeps reading the storage at the positions of the
original string even after `erase` has shortened it; `erase` moves the tail down in
place and writes the terminator, leaving the storage behind it as it was. -/
structure CxxString where
  buf : List Char
  size : Nat
  deriving DecidableEq, Repr

/-- Storage of a string holding `w` (with its terminator). -/
def CxxString.ofList (w : List Char) : CxxString := ⟨w ++ ['\x00'], w.length⟩

/-- The characters the string currently holds. -/
def CxxString.str (s : CxxString) : List Char := s.buf.take s.size

/-- The character a range-`for` over the original string reads at position `idx`. -/
def CxxString.at (s : CxxString) (idx : Nat) : Char := s.buf.getD idx '\x00'

/-- `word.erase(0, count)`. -/
def CxxString.erase (s : CxxString) (count : Nat) : CxxString :=
  let k := min count s.size
  ⟨(s.buf.drop k).take (s.size - k) ++ ['\x00'] ++ s.buf.drop (s.size - k + 1), s.size - k⟩

/-! ## ZDDictionary -/

/-- `::tolower` on a `char` in the C locale. -/
def tolower (c : Char) : Char :=
  if 'A'.val ≤ c.val ∧ c.val ≤ 'Z'.val then Char.ofNat (c.toNat + 32) else c

/-- `ZDDictionary::to_lower_case_word`. -/
def to_lower_case_word (upperCase : List Char) : List Char := upperCase.map tolower

/-- The member `FrenchAlphabet`. -/
def FrenchAlphabet : List Char :=
  ['a', 'b', 'c', 'd', 'e', 'f', 'g', 'h', 'i', 'j', 'k', 'l', 'm', 'n',
   'o', 'p', 'q', 'r', 's', 't', 'u', 'v', 'w', 'x', 'y', 'z']

/-- `ZDDictionary`: the member `m_internalTree`. -/
structure ZDDictionary where
  m_internalTree : ZDTree

/-- The `for (auto charr : FrenchAlphabet)` loop of the constructor. -/
def seed_alphabet (head : Option Nat) : List Char → ZDTree → Except Fault ZDTree
  | [], t => pure t
  | charr :: rest, t => do
    let (t, _) ← t.insert head charr
    seed_alphabet head rest t

/-- `ZDDictionary::ZDDictionary()`. -/
def ZDDictionary.new : Except Fault ZDDictionary := do
  let t := ZDTree.head_initialise
  let head ← t.begin
  let t ← seed_alphabet head FrenchAlphabet t
  pure ⟨t⟩

/-- `has_child(const iterator_base& node)`: the node has at least one child. -/
def has_child_node (t : ZDTree) (node : Option Nat) : Except Fault Bool := do
  let n ← t.read node
  pure (n.first_child ≠ none || n.last_child ≠ none)

/-- The `while (sib != tr.end(node.node))` loop of `has_child(tr, node, data)`. -/
def has_child_scan : Nat → ZDTree → Option Nat → Char → Except Fault (Bool × Option Nat)
  | _, _, none, _ => pure (false, none)
  | 0, _, some _, _ => .error .out_of_fuel
  | fuel + 1, t, some a, data => do
    let n ← t.read (some a)
    if n.data = data then pure (true, some a)
    else has_child_scan fuel t n.next_sibling data

/-- `has_child(tr, node, data)`: the first child of `node` holding `data`, if any. -/
def has_child (t : ZDTree) (node : Option Nat) (data : Char) :
    Except Fault (Bool × Option Nat) := do
  if (← has_child_node t node) then
    let n ← t.read node
    has_child_scan t.fresh t n.first_child data
  else pure (false, none)

/-- The private `insert_word(tr, node, word)`: walk down from `node`, appending the
characters that have no matching child. -/
def insert_word_at : ZDTree → Option Nat → List Char → Except Fault (ZDTree × Option Nat)
  | t, currentNode, [] => pure (t, currentNode)
  | t, currentNode, charr :: rest => do
    let result ← has_child t currentNode charr
    if !result.1 then
      let (t, n) ← t.append_child currentNode charr
      insert_word_at t n rest
    else insert_word_at t result.2 rest

/-- The `for` loop of the private exact `find_word(tr, node, word)`; `found` is the
tuple carried from one character to the next. -/
def find_word_at_loop (t : ZDTree) :
    Option Nat → List Char → Bool × Option Nat → Except Fault (Bool × Option Nat)
  | _, [], found => pure found
  | currentNode, charr :: rest, _ => do
    let found ← has_child t currentNode charr
    if found.1 then find_word_at_loop t found.2 rest found
    else pure (false, none)

/-- The private exact `find_word(tr, node, word)`. -/
def find_word_at (t : ZDTree) (node : Option Nat) (word : List Char) :
    Except Fault (Bool × Option Nat) :=
  find_word_at_loop t node word (false, none)

/-- The `for` loop of the private approximate `find_word(tr, node, word, max_error)`.
`self` stands for the function itself in the three recovery calls, `rest` is the part
of `word` still to be read and `count` the loop's counter. -/
def find_word_approx_loop
    (self : Option Nat → List Char → Int → Except Fault (Bool × Option Nat × Int))
    (t : ZDTree) (word : List Char) :
    List Char → Nat → Option Nat → Int → Bool × Option Nat × Int →
      Except Fault (Bool × Option Nat × Int)
  | [], _, _, _, las_found => pure las_found
  | charr :: rest, count, currentNode, max_error, _ =>
    if max_error > 0 then do
      let found_child ← has_child t currentNode charr
      if found_child.1 then
        find_word_approx_loop self t word rest (count + 1) found_child.2 max_error
          (found_child.1, found_child.2, max_error)
      else
        let max_error := max_error - 1
        let found_sub ← self currentNode (word.drop count) max_error
        let found_add ← self currentNode (word.drop count) max_error
        let cn ← t.read currentNode
        let found_del ← self cn.first_child (word.drop (count - 1)) max_error
        let las_found := found_add
        let las_found := if found_sub.1 then found_sub else las_found
        let las_found :=
          if found_add.1 && found_add.2.2 > las_found.2.2 then found_add else las_found
        let las_found :=
          if found_del.1 && found_del.2.2 > las_found.2.2 then found_del else las_found
        pure las_found
    else
      find_word_approx_loop self t word rest (count + 1) currentNode max_error
        (false, none, -1)

/-- The private approximate `find_word(tr, node, word, max_error)`, with a bound on the
depth of the recovery calls. -/
def find_word_approx_fuel (t : ZDTree) :
    Nat → Option Nat → List Char → Int → Except Fault (Bool × Option Nat × Int)
  | 0, _, _, _ => .error .out_of_fuel
  | fuel + 1, node, word, max_error =>
    if word.length = 0 then pure (false, none, -1)
    else
      find_word_approx_loop (find_word_approx_fuel t fuel) t word word 1 node max_error
        (false, none, -1)

/-- The private approximate `find_word(tr, node, word, max_error)`: every recovery call
lowers `max_error` by one and none is made once it is not positive. -/
def find_word_approx (t : ZDTree) (node : Option Nat) (word : List Char) (max_error : Int) :
    Except Fault (Bool × Option Nat × Int) :=
  find_word_approx_fuel t (max_error.toNat + 1) node word max_error

/-- The loop of the private `remove_word(tr, pre_begin_node, pre_end_node)`. -/
def remove_word_at_loop :
    Nat → ZDTree → Option Nat → Option Nat → Except Fault ZDTree
  | 0, _, _, _ => .error .out_of_fuel
  | fuel + 1, t, pre, pre_end_node =>
    if pre ≠ pre_end_node then do
      if !(← has_child_node t pre) then
        let toArase := pre
        let pre ← t.pre_decr pre
        let (t, _) ← t.erase toArase
        remove_word_at_loop fuel t pre pre_end_node
      else pure t
    else pure t

/-- The private `remove_word(tr, pre_begin_node, pre_end_node)`. -/
def remove_word_at (t : ZDTree) (pre_begin_node pre_end_node : Option Nat) :
    Except Fault (ZDTree × Bool) := do
  let t ← remove_word_at_loop (t.fresh + 1) t pre_begin_node pre_end_node
  pure (t, true)

/-- The `while (sib != m_internalTree.end())` loop of the public `insert_word`. -/
def insert_word_scan :
    Nat → ZDTree → Option Nat → Char → CxxString → Nat →
      Except Fault (ZDTree × CxxString × Bool)
  | 0, _, _, _, _, _ => .error .out_of_fuel
  | fuel + 1, t, sib, charr, word, count =>
    if sib ≠ t.end then do
      let n ← t.read sib
      if n.data = charr then
        let word := word.erase count
        let (t, _) ← insert_word_at t sib word.str
        pure (t, word, true)
      else insert_word_scan fuel t n.next_sibling charr word count
    else pure (t, word, false)

/-- The range-`for` of the public `insert_word`: `remaining` iterations are left and
the next one reads position `idx`. -/
def insert_word_for :
    Nat → Nat → ZDTree → CxxString → Nat → Except Fault (ZDTree × Bool)
  | 0, _, t, _, _ => pure (t, false)
  | remaining + 1, idx, t, word, count => do
    let charr := word.at idx
    let sib ← t.begin
    let (t, word, result) ← insert_word_scan (t.fresh + 1) t sib charr word count
    if result then pure (t, true)
    else insert_word_for remaining (idx + 1) t word (count + 1)

/-- `ZDDictionary::insert_word(std::string word)`. -/
def ZDDictionary.insert_word (d : ZDDictionary) (word : List Char) :
    Except Fault (ZDDictionary × Bool) := do
  let word := to_lower_case_word word
  let (t, result) ←
    insert_word_for word.length 0 d.m_internalTree (CxxString.ofList word) 1
  pure (⟨t⟩, result)

/-- The `while (sib != m_internalTree.end())` loop of the public `remove_word`. -/
def remove_word_scan :
    Nat → ZDTree → Option Nat → Char → CxxString → Nat → Bool →
      Except Fault (ZDTree × CxxString × Bool)
  | 0, _, _, _, _, _, _ => .error .out_of_fuel
  | fuel + 1, t, sib, charr, word, count, result =>
    if sib ≠ t.end then do
      let n ← t.read sib
      if n.data = charr then
        let word := word.erase count
        let found ← find_word_at t sib word.str
        if found.1 then
          let (t, result) ← remove_word_at t found.2 sib
          let n ← t.read sib
          remove_word_scan fuel t n.next_sibling charr word count result
        else remove_word_scan fuel t n.next_sibling charr word count result
      else remove_word_scan fuel t n.next_sibling charr word count result
    else pure (t, word, result)

/-- The range-`for` of the public `remove_word`. -/
def remove_word_for :
    Nat → Nat → ZDTree → CxxString → Nat → Except Fault (ZDTree × Bool)
  | 0, _, t, _, _ => pure (t, false)
  | remaining + 1, idx, t, word, count => do
    let charr := word.at idx
    let sib ← t.begin
    let (t, word, result) ← remove_word_scan (t.fresh + 1) t sib charr word count false
    if result then pure (t, true)
    else remove_word_for remaining (idx + 1) t word (count + 1)

/-- `ZDDictionary::remove_word(std::string word)`. -/
def ZDDictionary.remove_word (d : ZDDictionary) (word : List Char) :
    Except Fault (ZDDictionary × Bool) := do
  let word := to_lower_case_word word
  let (t, result) ←
    remove_word_for word.length 0 d.m_internalTree (CxxString.ofList word) 1
  pure (⟨t⟩, result)

/-- The `while (sib != m_internalTree.end())` loop of the public exact `find_word`. -/
def find_word_scan :
    Nat → ZDTree → Option Nat → Char → CxxString → Nat → Except Fault (CxxString × Bool)
  | 0, _, _, _, _, _ => .error .out_of_fuel
  | fuel + 1, t, sib, charr, word, count =>
    if sib ≠ t.end then do
      let n ← t.read sib
      if n.data = charr then
        let word := word.erase count
        let found ← find_word_at t sib word.str
        if found.1 then pure (word, true)
        else find_word_scan fuel t n.next_sibling charr word count
      else find_word_scan fuel t n.next_sibling charr word count
    else pure (word, false)

/-- The range-`for` of the public exact `find_word`. -/
def find_word_for : Nat → Nat → ZDTree → CxxString → Nat → Except Fault Bool
  | 0, _, _, _, _ => pure false
  | remaining + 1, idx, t, word, count => do
    let charr := word.at idx
    let sib ← t.begin
    let (word, result) ← find_word_scan (t.fresh + 1) t sib charr word count
    if result then pure true
    else find_word_for remaining (idx + 1) t word (count + 1)

/-- `ZDDictionary::find_word(std::string word)`. -/
def ZDDictionary.find_word (d : ZDDictionary) (word : List Char) : Except Fault Bool :=
  let word := to_lower_case_word word
  find_word_for word.length 0 d.m_internalTree (CxxString.ofList word) 1

/-- The `while (sib != end() && count_error < max_error)` loop of the public
approximate `find_word`. -/
def find_word_approx_scan :
    Nat → ZDTree → Option Nat → Char → CxxString → Nat → Int → Int →
      Except Fault (CxxString × Bool)
  | 0, _, _, _, _, _, _, _ => .error .out_of_fuel
  | fuel + 1, t, sib, charr, word, count, count_error, max_error =>
    if sib ≠ t.end ∧ count_error < max_error then do
      let n ← t.read sib
      if n.data = charr then
        let word := word.erase count
        let found ← find_word_approx t sib word.str (max_error - count_error)
        if found.1 then pure (word, true)
        else find_word_approx_scan fuel t n.next_sibling charr word count count_error max_error
      else find_word_approx_scan fuel t n.next_sibling charr word count count_error max_error
    else pure (word, false)

/-- The range-`for` of the public approximate `find_word`. -/
def find_word_approx_for :
    Nat → Nat → ZDTree → CxxString → Nat → Int → Int → Except Fault Bool
  | 0, _, _, _, _, _, _ => pure false
  | remaining + 1, idx, t, word, count, count_error, max_error => do
    let charr := word.at idx
    let sib ← t.begin
    let (word, result) ←
      find_word_approx_scan (t.fresh + 1) t sib charr word count count_error max_error
    if result then pure true
    else find_word_approx_for remaining (idx + 1) t word (count + 1) (count_error + 1) max_error

/-- `ZDDictionary::find_word(std::string word, int max_error)`. -/
def ZDDictionary.find_word_approx (d : ZDDictionary) (word : List Char) (max_error : Int) :
    Except Fault Bool :=
  let word := to_lower_case_word word
  find_word_approx_for word.length 0 d.m_internalTree (CxxString.ofList word) 1 0 max_error

/-! ## Abstract view of the node store: ordered forests

`Forest` is an ordered forest in first-child / next-sibling form; every node carries
the address of the cell that represents it. -/

/-- Ordered forest: a sibling list whose elements carry address, character, children. -/
inductive Forest where
  | nil : Forest
  | node (a : Nat) (c : Char) (kids : Forest) (rest : Forest) : Forest

namespace Forest

/-- Address of the first sibling. -/
def first : Forest → Option Nat
  | nil => none
  | node a _ _ _ => some a

/-- Address of the last sibling. -/
def last : Forest → Option Nat
  | nil => none
  | node a _ _ r =>
    match r.last with
    | some l => some l
    | none => some a

/-- The addresses of all nodes, in pre-order. -/
def addrs : Forest → List Nat
  | nil => []
  | node a _ k r => a :: (k.addrs ++ r.addrs)

/-- The addresses of the siblings at the top of the forest. -/
def tops : Forest → List Nat
  | nil => []
  | node a _ _ r => a :: r.tops

/-- The characters of the siblings at the top of the forest. -/
def topData : Forest → List Char
  | nil => []
  | node _ c _ r => c :: r.topData

/-- First top sibling holding `c`. -/
def findChar (c : Char) : Forest → Option Nat
  | nil => none
  | node a d _ r => if d = c then some a else r.findChar c

/-- Children of the top sibling with address `x` (empty when there is none). -/
def child (x : Nat) : Forest → Forest
  | nil => nil
  | node a _ k r => if a = x then k else r.child x

/-- Replace the children of the top sibling with address `x`. -/
def setChild : Forest → Nat → Forest → Forest
  | nil, _, _ => nil
  | node a d k r, x, k2 => if a = x then node a d k2 r else node a d k (r.setChild x k2)

/-- Remove the top sibling with address `x` (together with everything below it). -/
def eraseTop : Forest → Nat → Forest
  | nil, _ => nil
  | node a d k r, x => if a = x then r else node a d k (r.eraseTop x)

/-- Remove the node with address `x`, wherever it is, with everything below it. -/
def erase : Forest → Nat → Forest
  | nil, _ => nil
  | node a d k r, x => if a = x then r else node a d (k.erase x) (r.erase x)

/-- Address of the top sibling before `x` (`prev` when `x` is the first). -/
def prevTop : Forest → Option Nat → Nat → Option Nat
  | nil, prev, _ => prev
  | node a _ _ r, prev, x => if a = x then prev else r.prevTop (some a) x

/-- Address of the top sibling after `x`. -/
def nextTop : Forest → Nat → Option Nat
  | nil, _ => none
  | node a _ _ r, x => if a = x then r.first else r.nextTop x

/-- Concatenation of sibling lists. -/
def app : Forest → Forest → Forest
  | nil, g => g
  | node a d k r, g => node a d k (app r g)

/-- The chain `w[0] → w[1] → …` occupying consecutive addresses from `f`. -/
def chain : List Char → Nat → Forest
  | [], _ => nil
  | c :: w, f => node f c (chain w (f + 1)) nil

/-- Every sibling list in the forest holds pairwise distinct characters. -/
def Distinct : Forest → Prop
  | nil => True
  | node _ c k r => c ∉ r.topData ∧ k.Distinct ∧ r.Distinct

/-- Abstract effect of the private `insert_word` on the children of the start node:
follow matching children, then hang the remaining characters as a chain of new nodes
after the last child. -/
def grow : List Char → Forest → Nat → Forest
  | [], k, _ => k
  | c :: w, k, f =>
    match k.findChar c with
    | some x => k.setChild x (grow w (k.child x) f)
    | none => k.app (chain (c :: w) f)

/-- Number of characters of `w` that are matched by existing nodes when walking down
from a node with children `k`. -/
def shared : List Char → Forest → Nat
  | [], _ => 0
  | c :: w, k =>
    match k.findChar c with
    | some x => shared w (k.child x) + 1
    | none => 0

/-- Node reached by walking `w` down from a node with children `k`. -/
def walk : List Char → Forest → Option Nat
  | [], _ => none
  | c :: w, k =>
    match k.findChar c with
    | some x => if w = [] then some x else walk w (k.child x)
    | none => none

end Forest

/-- The cells of the nodes of `F` hold exactly the links that `F` prescribes, where
`par` is the parent of the siblings at the top and `prev` the node before the first. -/
def Sibs (m : Nat → Option TreeNode) : Forest → Option Nat → Option Nat → Prop
  | .nil, _, _ => True
  | .node a c k r, par, prev =>
    m a = some ⟨par, k.first, k.last, prev, r.first, c⟩ ∧
      Sibs m k (some a) none ∧ Sibs m r par (some a)

/-- Node `a` is allocated and its children are the forest `k`. -/
structure Owns (t : ZDTree) (a : Nat) (k : Forest) : Prop where
  live : ∃ n, t.cells a = some n ∧ n.first_child = k.first ∧ n.last_child = k.last
  sibs : Sibs t.cells k (some a) none
  nodup : (a :: k.addrs).Nodup
  bound : ∀ b ∈ a :: k.addrs, b < t.fresh

/-- No cell beyond the allocator position is in use. -/
def Clean (t : ZDTree) : Prop := ∀ b, t.fresh ≤ b → t.cells b = none

/-- Store `t2` arises from `t` by replacing the children `k` of node `a` by `k2`,
touching nothing else. -/
structure Regraft (t t2 : ZDTree) (a : Nat) (k k2 : Forest) : Prop where
  head_eq : t2.head = t.head
  feet_eq : t2.feet = t.feet
  fresh_le : t.fresh ≤ t2.fresh
  clean : Clean t2
  node : ∀ n, t.cells a = some n →
    t2.cells a = some { n with first_child := k2.first, last_child := k2.last }
  sibs : Sibs t2.cells k2 (some a) none
  frame : ∀ b, b < t.fresh → b ≠ a → b ∉ k.addrs → t2.cells b = t.cells b
  addrs : ∀ b ∈ k2.addrs, b ∈ k.addrs ∨ (t.fresh ≤ b ∧ b < t2.fresh)
  gone : ∀ b, b ∈ k.addrs ∨ t.fresh ≤ b → b ∉ k2.addrs → t2.cells b = none
  nodup : k2.addrs.Nodup

/-- Every node of `t` is still there in `t2` with the same character, parent and
previous sibling, and with the same next sibling and first child if it had one; the
sentinels are the same. -/
structure Keeps (t t2 : ZDTree) : Prop where
  head_eq : t2.head = t.head
  feet_eq : t2.feet = t.feet
  nodes : ∀ b n, t.cells b = some n → ∃ n2, t2.cells b = some n2 ∧ n2.data = n.data ∧
    n2.parent = n.parent ∧ n2.prev_sibling = n.prev_sibling ∧
    (n.next_sibling ≠ none → n2.next_sibling = n.next_sibling) ∧
    (n.first_child ≠ none → n2.first_child = n.first_child)

/-- The top-level sibling list of a tree whose nodes between the sentinels are `T`. -/
def Forest.full (t : ZDTree) (T : Forest) : Forest :=
  .node t.head '\x00' .nil (T.app (.node t.feet '\x00' .nil .nil))

/-- The store of `t` represents a dictionary whose top-level nodes, with everything
below them, are the forest `T`. -/
structure DictRep (t : ZDTree) (T : Forest) : Prop where
  sibs : Sibs t.cells (Forest.full t T) none none
  nodup : (Forest.full t T).addrs.Nodup
  bound : ∀ b ∈ (Forest.full t T).addrs, b < t.fresh
  tight : ∀ b, b ∉ (Forest.full t T).addrs → t.cells b = none
  letters : T.topData = FrenchAlphabet
  distinct : T.Distinct

/-- Abstract effect of the public `insert_word` on the top-level forest: the first
character held by a top-level node selects the node below which the rest is grown. -/
def Forest.insertWord (T : Forest) (f : Nat) : List Char → Forest × Bool
  | [] => (T, false)
  | c :: rest =>
    match T.findChar c with
    | some x => (T.setChild x (Forest.grow rest (T.child x) f), true)
    | none => Forest.insertWord T f rest

/-- Number of nodes the public `insert_word` allocates. -/
def Forest.insertCount (T : Forest) : List Char → Nat
  | [] => 0
  | c :: rest =>
    match T.findChar c with
    | some x => rest.length - Forest.shared rest (T.child x)
    | none => Forest.insertCount T rest

/-- Abstract course of the range-`for` of the public exact `find_word`. -/
def Forest.findFor (T : Forest) : Nat → Nat → CxxString → Nat → Bool
  | 0, _, _, _ => false
  | remaining + 1, idx, word, count =>
    match T.findChar (word.at idx) with
    | some x =>
      if (Forest.walk (word.erase count).str (T.child x)).isSome then true
      else Forest.findFor T remaining (idx + 1) (word.erase count) (count + 1)
    | none => Forest.findFor T remaining (idx + 1) word (count + 1)

/-- Childless siblings holding the given characters at consecutive addresses. -/
def Forest.leaves : List Char → Nat → Forest
  | [], _ => .nil
  | c :: cs, f => .node f c .nil (Forest.leaves cs (f + 1))

/-- The tree built by the constructor of `ZDDictionary`. -/
def newTree : ZDTree :=
  match ZDDictionary.new with
  | .ok d => d.m_internalTree
  | .error _ => ZDTree.head_initialise

/-- Decision procedure for `Sibs` on a store whose cells can be computed. -/
def Sibs.decide (m : Nat → Option TreeNode) :
    (F : Forest) → (par prev : Option Nat) → Decidable (Sibs m F par prev)
  | .nil, _, _ => isTrue trivial
  | .node a _ k r, par, _ =>
    @instDecidableAnd _ _ (inferInstanceAs (Decidable (m a = some _)))
      (@instDecidableAnd _ _ (Sibs.decide m k (some a) none) (Sibs.decide m r par (some a)))

instance instDecidableSibs (m : Nat → Option TreeNode) (F : Forest) (par prev : Option Nat) :
    Decidable (Sibs m F par prev) := Sibs.decide m F par prev

/-- Continuation of the climb of `operator++` at the parent of a sibling list. -/
def climb_on (t : ZDTree) (par : Option Nat) (g : Nat) : Except Fault (Option Nat) :=
  match par with
  | none => .ok none
  | some p => ZDTree.next_skipping g t (some p)

/-- Abstract course of the range-`for` of the public `remove_word`: the top-level node
and the deepest node of the first search that succeeds. -/
def Forest.removeTarget (T : Forest) : Nat → Nat → CxxString → Nat → Option (Nat × Nat)
  | 0, _, _, _ => none
  | remaining + 1, idx, word, count =>
    match T.findChar (word.at idx) with
    | some x =>
      match Forest.walk (word.erase count).str (T.child x) with
      | some e => some (x, e)
      | none => Forest.removeTarget T remaining (idx + 1) (word.erase count) (count + 1)
    | none => Forest.removeTarget T remaining (idx + 1) word (count + 1)

/-- States of a dictionary that a program can reach: a new dictionary, followed by any
calls of `insert_word` and `remove_word` that return (the two `find_word` never change
the tree). -/
inductive Reachable : ZDDictionary → Prop where
  | new {d : ZDDictionary} : ZDDictionary.new = .ok d → Reachable d
  | insert {d d2 : ZDDictionary} {w : List Char} {b : Bool} :
      Reachable d → d.insert_word w = .ok (d2, b) → Reachable d2
  | remove {d d2 : ZDDictionary} {w : List Char} {b : Bool} :
      Reachable d → d.remove_word w = .ok (d2, b) → Reachable d2

/-! ## Paths of the tree, read off the links -/

/-- `b` is reached from the pointer `p` by following `next_sibling` links. -/
inductive ZDTree.InChain (t : ZDTree) : Option Nat → Nat → Prop where
  | here (b : Nat) : ZDTree.InChain t (some b) b
  | next {x b : Nat} {n : TreeNode} :
      t.cells x = some n → ZDTree.InChain t n.next_sibling b → ZDTree.InChain t (some x) b

/-- Node `b` is a child of node `a` (it is in the sibling chain that starts at
`a.first_child`) and holds the character `c`. -/
def ZDTree.IsChild (t : ZDTree) (a b : Nat) (c : Char) : Prop :=
  ∃ n nb, t.cells a = some n ∧ t.InChain n.first_child b ∧ t.cells b = some nb ∧ nb.data = c

/-- Node `b` is a top-level node (it is in the sibling chain between `head` and `feet`)
and holds the character `c`. -/
def ZDTree.IsTop (t : ZDTree) (b : Nat) (c : Char) : Prop :=
  ∃ h nb, t.cells t.head = some h ∧ t.InChain h.next_sibling b ∧ b ≠ t.feet ∧
    t.cells b = some nb ∧ nb.data = c

/-- From node `a`, the characters of `w` lead child by child down to node `e`. -/
def ZDTree.PathFrom (t : ZDTree) : Nat → List Char → Nat → Prop
  | a, [], e => e = a
  | a, c :: w, e => ∃ b, t.IsChild a b c ∧ ZDTree.PathFrom t b w e

/-- The full path of the word `w` exists and ends at node `e`: a top-level node holding
`w[0]`, a child of it holding `w[1]`, and so on. -/
def ZDTree.PathTo (t : ZDTree) : List Char → Nat → Prop
  | [], _ => False
  | c :: w, e => ∃ a, t.IsTop a c ∧ t.PathFrom a w e

/-- The full path of the word `w` exists in the tree. -/
def ZDTree.HasPath (t : ZDTree) (w : List Char) : Prop := ∃ e, t.PathTo w e

/-- Abstract counterpart of `ZDTree.PathTo` on the top-level forest. -/
def Forest.pathTo (T : Forest) : List Char → Option Nat
  | [] => none
  | c :: w =>
    match T.findChar c with
    | some x => if w = [] then some x else Forest.walk w (T.child x)
    | none => none

/-- `insert_word` called for each word of a list in turn. -/
def ZDDictionary.insert_all : ZDDictionary → List (List Char) → Except Fault ZDDictionary
  | d, [] => .ok d
  | d, w :: ws => do
    let (d, _) ← d.insert_word w
    ZDDictionary.insert_all d ws

/-! ## The end of the shared prefix -/

/-- Children of the node reached by walking `u` down from a node with children `k`
(`k` itself when `u` is empty). -/
def Forest.walkKids : List Char → Forest → Forest
  | [], k => k
  | c :: u, k =>
    match k.findChar c with
    | some x => Forest.walkKids u (k.child x)
    | none => .nil

/-- Node reached by walking `u` down from the node `a` with children `k`. -/
def Forest.walkTo (a : Nat) (u : List Char) (k : Forest) : Option Nat :=
  if u = [] then some a else Forest.walk u k

/-! ## Trees in general: well-formedness, links, traversal -/

/-- The store of `t` holds exactly the two sentinels and the nodes of the ordered forest
`T` between them, each cell with the links that the forest prescribes. -/
structure TreeRep (t : ZDTree) (T : Forest) : Prop where
  sibs : Sibs t.cells (Forest.full t T) none none
  nodup : (Forest.full t T).addrs.Nodup
  bound : ∀ b ∈ (Forest.full t T).addrs, b < t.fresh
  tight : ∀ b, b ∉ (Forest.full t T).addrs → t.cells b = none

/-- A tree is well-formed when its store is an ordered forest between `head` and
`feet`. -/
def ZDTree.WellFormed (t : ZDTree) : Prop := ∃ T, TreeRep t T

/-- Children of the node with address `x`, wherever it is in the forest. -/
def Forest.sub (x : Nat) : Forest → Forest
  | .nil => .nil
  | .node a _ k r => if a = x then k else if x ∈ k.addrs then Forest.sub x k else Forest.sub x r

/-- Replace the children of the node with address `x`, wherever it is in the forest. -/
def Forest.graft : Forest → Nat → Forest → Forest
  | .nil, _, _ => .nil
  | .node a d k r, x, k2 =>
    if a = x then .node a d k2 r else .node a d (Forest.graft k x k2) (Forest.graft r x k2)

/-- Put a new childless node `new` holding `x` just before the node with address `p`,
wherever it is in the forest. -/
def Forest.insertBefore : Forest → Nat → Nat → Char → Forest
  | .nil, _, _, _ => .nil
  | .node a d k r, p, new, x =>
    if a = p then .node new x .nil (.node a d k r)
    else .node a d (Forest.insertBefore k p new x) (Forest.insertBefore r p new x)

/-- Following `next_sibling` from the pointer `p` visits the nodes `l` in turn and then
reaches the null pointer. -/
def ZDTree.NextWalk (t : ZDTree) : Option Nat → List Nat → Prop
  | p, [] => p = none
  | p, a :: l => p = some a ∧ ∃ n, t.cells a = some n ∧ ZDTree.NextWalk t n.next_sibling l

/-- Following `prev_sibling` from the pointer `p` visits the nodes `l` in turn and then
reaches the null pointer. -/
def ZDTree.PrevWalk (t : ZDTree) : Option Nat → List Nat → Prop
  | p, [] => p = none
  | p, a :: l => p = some a ∧ ∃ n, t.cells a = some n ∧ ZDTree.PrevWalk t n.prev_sibling l

/-- Node `b` is a descendant of node `n`: following `parent` from `b` reaches `n`. -/
inductive ZDTree.Below (t : ZDTree) (n : Nat) : Nat → Prop where
  | child {b : Nat} {r : TreeNode} :
      t.cells b = some r → r.parent = some n → ZDTree.Below t n b
  | deeper {b c : Nat} {r : TreeNode} :
      t.cells b = some r → r.parent = some c → ZDTree.Below t n c → ZDTree.Below t n b

/-- The linkage invariant of the node store: for every node, `first_child` and
`last_child` are both null or both set, following `next_sibling` from `first_child`
ends with `last_child` and then null, and every node met on the way has the node as
`parent`; `next_sibling` and `prev_sibling` are inverse to each other. -/
def ZDTree.LinkInv (t : ZDTree) : Prop :=
  (∀ a n, t.cells a = some n →
    (n.first_child = none ↔ n.last_child = none) ∧
    ∃ l, t.NextWalk n.first_child l ∧ l.getLast? = n.last_child ∧
      ∀ b ∈ l, ∃ nb, t.cells b = some nb ∧ nb.parent = some a) ∧
  (∀ a b na, t.cells a = some na → na.next_sibling = some b →
    ∃ nb, t.cells b = some nb ∧ nb.prev_sibling = some a) ∧
  (∀ a b nb, t.cells b = some nb → nb.prev_sibling = some a →
    ∃ na, t.cells a = some na ∧ na.next_sibling = some b)

/-- States of a `ZDTree` that a program can reach: the empty tree, followed by calls of
`insert` (at a node of the tree other than `head`, or at the null position),
`append_child`, `erase` and `erase_children` (at nodes of the tree other than the
sentinels) that return. -/
inductive TreeReachable : ZDTree → Prop where
  | init : TreeReachable ZDTree.head_initialise
  | insert {t t2 : ZDTree} {position r : Option Nat} {x : Char} :
      TreeReachable t →
      (position = none ∨ ∃ a, position = some a ∧ a ≠ t.head ∧ (t.cells a).isSome) →
      t.insert position x = .ok (t2, r) → TreeReachable t2
  | append_child {t t2 : ZDTree} {a : Nat} {r : Option Nat} {x : Char} :
      TreeReachable t → a ≠ t.head → a ≠ t.feet → (t.cells a).isSome →
      t.append_child (some a) x = .ok (t2, r) → TreeReachable t2
  | erase {t t2 : ZDTree} {a : Nat} {r : Option Nat} :
      TreeReachable t → a ≠ t.head → a ≠ t.feet → (t.cells a).isSome →
      t.erase (some a) = .ok (t2, r) → TreeReachable t2
  | erase_children {t t2 : ZDTree} {a : Nat} :
      TreeReachable t → a ≠ t.head → a ≠ t.feet → (t.cells a).isSome →
      ZDTree.erase_children (2 * t.fresh + 1) t (some a) = .ok t2 → TreeReachable t2

/-- The loop `for (it = begin(); it != end(); ++it)` started at `node`: the nodes
visited, in the order of the visits. -/
def ZDTree.traverse : Nat → ZDTree → Option Nat → Except Fault (List Nat)
  | 0, _, _ => .error .out_of_fuel
  | fuel + 1, t, node =>
    if node = t.end then pure []
    else
      match node with
      | none => .error .assertion
      | some a => do
        let next ← t.pre_incr node false
        let rest ← ZDTree.traverse fuel t next
        pure (a :: rest)

/-- Recursive pre-order listing of the nodes from `node` on: the node, the listing of
its children, then the listing of its next siblings, up to `feet`. -/
def ZDTree.preorder : Nat → ZDTree → Option Nat → Except Fault (List Nat)
  | 0, _, _ => .error .out_of_fuel
  | _ + 1, _, none => pure []
  | fuel + 1, t, some a =>
    if a = t.feet then pure []
    else do
      let n ← t.read (some a)
      let kids ← ZDTree.preorder fuel t n.first_child
      let rest ← ZDTree.preorder fuel t n.next_sibling
      pure (a :: (kids ++ rest))

/-! ## Unlinking a node -/

/-- What `erase` of a node with record `rx` does to the record `r` of another node `b`:
the previous sibling of the erased node gets its `next_sibling`, the next sibling its
`prev_sibling`, and the parent gets a new `first_child` (`last_child`) when the erased
node was the first (last) child. -/
def TreeNode.unlink (rx : TreeNode) (b : Nat) (r : TreeNode) : TreeNode :=
  { r with
    next_sibling := if rx.prev_sibling = some b then rx.next_sibling else r.next_sibling,
    prev_sibling := if rx.next_sibling = some b then rx.prev_sibling else r.prev_sibling,
    first_child :=
      if rx.prev_sibling = none ∧ rx.parent = some b then rx.next_sibling else r.first_child,
    last_child :=
      if rx.next_sibling = none ∧ rx.parent = some b then rx.prev_sibling else r.last_child }

/-! ## A small tree -/

/-- The tree after `insert(end(), 'a')` on the empty tree: one node, at address 2. -/
def oneNodeTree : ZDTree :=
  match ZDTree.head_initialise.insert none 'a' with
  | .ok (t, _) => t
  | .error _ => ZDTree.head_initialise

/-- The tree after `append_child` of 'b' to the node of `oneNodeTree`: node 2 with the
child 3. -/
def twoNodeTree : ZDTree :=
  match oneNodeTree.append_child (some 2) 'b' with
  | .ok (t, _) => t
  | .error _ => oneNodeTree

/-! ## The approximate search: recoveries -/

/-- The choice among the results of the three recovery searches in the private
approximate `find_word` (the assignments to `las_found` after the three calls). -/
def recovery_choice (found_sub found_add found_del : Bool × Option Nat × Int) :
    Bool × Option Nat × Int :=
  let las_found := found_add
  let las_found := if found_sub.1 then found_sub else las_found
  let las_found :=
    if found_add.1 && found_add.2.2 > las_found.2.2 then found_add else las_found
  let las_found :=
    if found_del.1 && found_del.2.2 > las_found.2.2 then found_del else las_found
  las_found

/-- Walking down from `node`, every character of `pre` is found by `has_child` among the
children of the node reached so far, and the walk ends at `cur`. -/
def Matched (t : ZDTree) : Option Nat → List Char → Option Nat → Prop
  | node, [], cur => cur = node
  | node, c :: w, cur => ∃ x, has_child t node c = .ok (true, x) ∧ Matched t x w cur

/-- The `for` loop of the private approximate `find_word` with the addition recovery
taken out: `found_add` keeps its initial value. -/
def find_word_approx_loop_no_add
    (self : Option Nat → List Char → Int → Except Fault (Bool × Option Nat × Int))
    (t : ZDTree) (word : List Char) :
    List Char → Nat → Option Nat → Int → Bool × Option Nat × Int →
      Except Fault (Bool × Option Nat × Int)
  | [], _, _, _, las_found => pure las_found
  | charr :: rest, count, currentNode, max_error, _ =>
    if max_error > 0 then do
      let found_child ← has_child t currentNode charr
      if found_child.1 then
        find_word_approx_loop_no_add self t word rest (count + 1) found_child.2 max_error
          (found_child.1, found_child.2, max_error)
      else
        let max_error := max_error - 1
        let found_sub ← self currentNode (word.drop count) max_error
        let found_add : Bool × Option Nat × Int := (false, none, -1)
        let cn ← t.read currentNode
        let found_del ← self cn.first_child (word.drop (count - 1)) max_error
        let las_found := found_add
        let las_found := if found_sub.1 then found_sub else las_found
        let las_found :=
          if found_add.1 && found_add.2.2 > las_found.2.2 then found_add else las_found
        let las_found :=
          if found_del.1 && found_del.2.2 > las_found.2.2 then found_del else las_found
        pure las_found
    else
      find_word_approx_loop_no_add self t word rest (count + 1) currentNode max_error
        (false, none, -1)

/-- The private approximate `find_word` with the addition recovery taken out, with a
bound on the depth of the recovery calls. -/
def find_word_approx_no_add_fuel (t : ZDTree) :
    Nat → Option Nat → List Char → Int → Except Fault (Bool × Option Nat × Int)
  | 0, _, _, _ => .error .out_of_fuel
  | fuel + 1, node, word, max_error =>
    if word.length = 0 then pure (false, none, -1)
    else
      find_word_approx_loop_no_add (find_word_approx_no_add_fuel t fuel) t word word 1 node
        max_error (false, none, -1)

/-- The private approximate `find_word` with the addition recovery taken out. -/
def find_word_approx_no_add (t : ZDTree) (node : Option Nat) (word : List Char)
    (max_error : Int) : Except Fault (Bool × Option Nat × Int) :=
  find_word_approx_no_add_fuel t (max_error.toNat + 1) node word max_error

/-- The tree of a new dictionary after `insert_word("abcd")`: the chain `a` (cell 2),
`b` (28), `c` (29), `d` (30). -/
def abcdTree : ZDTree :=
  match (do let d ← ZDDictionary.new; d.insert_all ["abcd".toList]) with
  | .ok d => d.m_internalTree
  | .error _ => newTree

/-! ## A dictionary holding a word and one of its suffixes -/

/-- The tree of a new dictionary after `insert_word("abcd")` and `insert_word("cd")`:
the chain `a` (cell 2), `b` (28), `c` (29), `d` (30), and `d` (31) below the top-level
`c` (cell 4). -/
def abcdCdTree : ZDTree :=
  match (do let d ← ZDDictionary.new; d.insert_all ["abcd".toList, "cd".toList]) with
  | .ok d => d.m_internalTree
  | .error _ => newTree

/-! ## ASCII lower-casing, as the specification words it -/

/-- The ASCII lower-case form of a character: each of the capital letters `A` to `Z` is
replaced by the small letter at the same place of the alphabet, every other character
is left as it is. -/
def ascii_lower (c : Char) : Char :=
  match ("ABCDEFGHIJKLMNOPQRSTUVWXYZ".toList.zip "abcdefghijklmnopqrstuvwxyz".toList).lookup c with
  | some l => l
  | none => c

/-- The ASCII lower-cased form of a word: every character replaced by its lower-case
form. -/
def ascii_lower_cased (w : List Char) : List Char := w.map ascii_lower

/-! ## Basic facts -/

@[simp] theorem bind_ok {ε α β : Type} (a : α) (f : α → Except ε β) :
    (bind (Except.ok a) f) = f a := rfl

@[simp] theorem bind_error {ε α β : Type} (e : ε) (f : α → Except ε β) :
    (bind (Except.error e : Except ε α) f) = Except.error e := rfl

@[simp] theorem pure_eq_ok {ε α : Type} (a : α) : (pure a : Except ε α) = Except.ok a := rfl

@[simp] theorem throw_eq_error {ε α : Type} (e : ε) :
    (throw e : Except ε α) = Except.error e := rfl

theorem nodup_length_le {l : List Nat} {n : Nat} (hn : l.Nodup) (hb : ∀ x ∈ l, x < n) :
    l.length ≤ n := by
  have h1 : l.toFinset.card = l.length := List.toFinset_card_of_nodup hn
  have h2 : l.toFinset ⊆ Finset.range n := by
    intro x hx
    simp only [List.mem_toFinset] at hx
    simpa using hb x hx
  have h3 := Finset.card_le_card h2
  simp only [Finset.card_range] at h3
  omega

theorem read_some {t : ZDTree} {a : Nat} {n : TreeNode} (h : t.cells a = some n) :
    t.read (some a) = .ok n := by
  simp [ZDTree.read, h]

namespace Forest

@[simp] theorem first_nil : (nil : Forest).first = none := rfl

@[simp] theorem first_node (a : Nat) (c : Char) (k r : Forest) :
    (node a c k r).first = some a := rfl

theorem tops_subset_addrs (F : Forest) : ∀ x ∈ F.tops, x ∈ F.addrs := by
  induction F with
  | nil => simp [tops]
  | node a c k r _ ihr =>
    intro x hx
    simp only [tops, List.mem_cons] at hx
    simp only [addrs, List.mem_cons, List.mem_append]
    rcases hx with hx | hx
    · exact Or.inl hx
    · exact Or.inr (Or.inr (ihr x hx))

theorem tops_length_le (F : Forest) : F.tops.length ≤ F.addrs.length := by
  induction F with
  | nil => simp [tops, addrs]
  | node a c k r _ ihr => simp only [tops, addrs, List.length_cons, List.length_append]; omega

theorem first_eq_none {F : Forest} : F.first = none ↔ F = nil := by
  cases F <;> simp [first]

theorem last_eq_none {F : Forest} : F.last = none ↔ F = nil := by
  cases F with
  | nil => simp [last]
  | node a c k r =>
    simp only [last]
    cases r.last <;> simp

theorem findChar_mem_tops {c : Char} {F : Forest} {x : Nat} (h : F.findChar c = some x) :
    x ∈ F.tops := by
  induction F with
  | nil => simp [findChar] at h
  | node a d k r _ ih =>
    simp only [findChar] at h
    simp only [tops, List.mem_cons]
    split at h
    · left; exact (Option.some.inj h).symm
    · right; exact ih h

theorem findChar_eq_none {c : Char} {F : Forest} : F.findChar c = none ↔ c ∉ F.topData := by
  induction F with
  | nil => simp [findChar, topData]
  | node a d k r _ ih =>
    simp only [findChar, topData, List.mem_cons, not_or]
    split
    · rename_i h; simp [h]
    · rename_i h; rw [ih]; constructor
      · intro h2; exact ⟨fun h3 => h h3.symm, h2⟩
      · intro h2; exact h2.2

end Forest

theorem Sibs.congr {m m2 : Nat → Option TreeNode} {F : Forest} :
    ∀ {par prev : Option Nat}, (∀ b ∈ F.addrs, m2 b = m b) → Sibs m F par prev →
      Sibs m2 F par prev := by
  induction F with
  | nil => intro _ _ _ _; trivial
  | node a c k r ihk ihr =>
    intro par prev h hs
    simp only [Forest.addrs, List.mem_cons, List.mem_append] at h
    refine ⟨?_, ?_, ?_⟩
    · rw [h a (Or.inl rfl)]; exact hs.1
    · exact ihk (fun b hb => h b (Or.inr (Or.inl hb))) hs.2.1
    · exact ihr (fun b hb => h b (Or.inr (Or.inr hb))) hs.2.2

/-- The scan of `has_child` finds the first sibling holding the character. -/
theorem has_child_scan_spec (t : ZDTree) (data : Char) (F : Forest) :
    ∀ (par prev : Option Nat) (fuel : Nat), Sibs t.cells F par prev → F.tops.length ≤ fuel →
      has_child_scan fuel t F.first data =
        .ok (match F.findChar data with
             | some x => (true, some x)
             | none => (false, none)) := by
  induction F with
  | nil => intro par prev fuel _ _; cases fuel <;> simp [has_child_scan, Forest.first, Forest.findChar]
  | node a c k r _ ihr =>
    intro par prev fuel hs hf
    simp only [Forest.tops, List.length_cons] at hf
    obtain ⟨fuel, rfl⟩ : ∃ f, fuel = f + 1 := ⟨fuel - 1, by omega⟩
    simp only [Forest.first, has_child_scan, read_some hs.1, bind_ok, Forest.findChar]
    by_cases hc : c = data
    · simp [hc]
    · simp only [hc, if_false]
      exact ihr par (some a) fuel hs.2.2 (by omega)

theorem has_child_spec {t : ZDTree} {a : Nat} {k : Forest} (h : Owns t a k) (data : Char) :
    has_child t (some a) data =
      .ok (match k.findChar data with
           | some x => (true, some x)
           | none => (false, none)) := by
  obtain ⟨n, hn, hf, hl⟩ := h.live
  have hlen : k.tops.length ≤ t.fresh := by
    have h1 : k.addrs.length ≤ t.fresh :=
      nodup_length_le (List.nodup_cons.mp h.nodup).2 (fun x hx => h.bound x (List.mem_cons_of_mem _ hx))
    have h2 : k.tops.length ≤ k.addrs.length := Forest.tops_length_le k
    omega
  have hr : t.read (some a) = .ok n := read_some hn
  simp only [has_child, has_child_node, hr, bind_ok, pure_eq_ok, hf, hl]
  cases k with
  | nil => simp [Forest.first, Forest.last, Forest.findChar]
  | node x c kx r =>
    have := has_child_scan_spec t data (.node x c kx r) (some a) none t.fresh h.sibs hlen
    simpa [Forest.first] using this

/-! ## append_child -/

theorem update_some {t : ZDTree} {a : Nat} {n : TreeNode} (f : TreeNode → TreeNode)
    (h : t.cells a = some n) : t.update (some a) f = .ok (t.write a (f n)) := by
  simp [ZDTree.update, h]

@[simp] theorem write_cells_same (t : ZDTree) (a : Nat) (n : TreeNode) :
    (t.write a n).cells a = some n := by simp [ZDTree.write]

theorem write_cells_other (t : ZDTree) {a b : Nat} (n : TreeNode) (h : b ≠ a) :
    (t.write a n).cells b = t.cells b := by simp [ZDTree.write, h]

@[simp] theorem write_fresh (t : ZDTree) (a : Nat) (n : TreeNode) :
    (t.write a n).fresh = t.fresh := rfl

@[simp] theorem write_head (t : ZDTree) (a : Nat) (n : TreeNode) :
    (t.write a n).head = t.head := rfl

@[simp] theorem write_feet (t : ZDTree) (a : Nat) (n : TreeNode) :
    (t.write a n).feet = t.feet := rfl

/-- What `append_child` does to the store when the parent has no child yet. -/
theorem append_child_first {t : ZDTree} {a : Nat} {n : TreeNode} (x : Char)
    (hn : t.cells a = some n) (hlast : n.last_child = none)
    (ha : a < t.fresh) (hh : a ≠ t.head) (hf : a ≠ t.feet) :
    ∃ t2, t.append_child (some a) x = .ok (t2, some t.fresh) ∧
      t2.fresh = t.fresh + 1 ∧ t2.head = t.head ∧ t2.feet = t.feet ∧
      t2.cells t.fresh = some ⟨some a, none, none, none, none, x⟩ ∧
      t2.cells a = some { n with first_child := some t.fresh, last_child := some t.fresh } ∧
      (∀ b, b ≠ t.fresh → b ≠ a → t2.cells b = t.cells b) := by
  have hne : a ≠ t.fresh := by omega
  have hne2 : t.fresh ≠ a := by omega
  simp [ZDTree.append_child, hh, hf, ZDTree.allocate, ZDTree.update, ZDTree.read,
    ZDTree.write, hn, hlast, hne, hne2]
  intro b hb1 hb2
  simp [hb1, hb2]

/-- What `append_child` does to the store when the parent already has children. -/
theorem append_child_more {t : ZDTree} {a l : Nat} {n nl : TreeNode} (x : Char)
    (hn : t.cells a = some n) (hlast : n.last_child = some l)
    (hl : t.cells l = some nl) (hla : l ≠ a) (hlf : l < t.fresh)
    (ha : a < t.fresh) (hh : a ≠ t.head) (hf : a ≠ t.feet) :
    ∃ t2, t.append_child (some a) x = .ok (t2, some t.fresh) ∧
      t2.fresh = t.fresh + 1 ∧ t2.head = t.head ∧ t2.feet = t.feet ∧
      t2.cells t.fresh = some ⟨some a, none, none, some l, none, x⟩ ∧
      t2.cells a = some { n with last_child := some t.fresh } ∧
      t2.cells l = some { nl with next_sibling := some t.fresh } ∧
      (∀ b, b ≠ t.fresh → b ≠ a → b ≠ l → t2.cells b = t.cells b) := by
  have hne : a ≠ t.fresh := by omega
  have hne2 : t.fresh ≠ a := by omega
  have hne3 : l ≠ t.fresh := by omega
  have hne4 : t.fresh ≠ l := by omega
  have hne5 : a ≠ l := fun h => hla h.symm
  simp [ZDTree.append_child, hh, hf, ZDTree.allocate, ZDTree.update, ZDTree.read,
    ZDTree.write, hn, hlast, hl, hne, hne2, hne3, hne4, hla, hne5]
  intro b hb1 hb2 hb3
  simp [hb1, hb2, hb3]

/-! ## Sibling lists: concatenation, lookup and replacement of children -/

namespace Forest

theorem last_mem_tops {F : Forest} {l : Nat} (h : F.last = some l) : l ∈ F.tops := by
  induction F with
  | nil => simp [last] at h
  | node a c k r _ ihr =>
    simp only [last] at h
    simp only [tops, List.mem_cons]
    cases hr : r.last with
    | none => rw [hr] at h; left; exact (Option.some.inj h).symm
    | some l2 => rw [hr] at h; right; exact ihr (by rw [hr, ← Option.some.inj h])

theorem first_mem_tops {F : Forest} {l : Nat} (h : F.first = some l) : l ∈ F.tops := by
  cases F with
  | nil => simp [first] at h
  | node a c k r => simp only [first] at h; simp [tops, Option.some.inj h]

@[simp] theorem addrs_app (F G : Forest) : (F.app G).addrs = F.addrs ++ G.addrs := by
  induction F with
  | nil => simp [app, addrs]
  | node a c k r _ ihr => simp [app, addrs, ihr]

@[simp] theorem tops_app (F G : Forest) : (F.app G).tops = F.tops ++ G.tops := by
  induction F with
  | nil => simp [app, tops]
  | node a c k r _ ihr => simp [app, tops, ihr]

@[simp] theorem topData_app (F G : Forest) : (F.app G).topData = F.topData ++ G.topData := by
  induction F with
  | nil => simp [app, topData]
  | node a c k r _ ihr => simp [app, topData, ihr]

theorem first_app (F G : Forest) :
    (F.app G).first = match F.first with | some x => some x | none => G.first := by
  cases F <;> simp [app, first]

theorem last_app (F G : Forest) :
    (F.app G).last = match G.last with | some x => some x | none => F.last := by
  induction F with
  | nil => cases h : G.last <;> simp [app, last, h]
  | node a c k r _ ihr =>
    simp only [app, last, ihr]
    cases hG : G.last <;> simp

@[simp] theorem tops_setChild (F : Forest) (x : Nat) (k2 : Forest) :
    (F.setChild x k2).tops = F.tops := by
  induction F with
  | nil => simp [setChild]
  | node a c k r _ ihr =>
    simp only [setChild]
    split <;> simp [tops, ihr]

@[simp] theorem topData_setChild (F : Forest) (x : Nat) (k2 : Forest) :
    (F.setChild x k2).topData = F.topData := by
  induction F with
  | nil => simp [setChild]
  | node a c k r _ ihr =>
    simp only [setChild]
    split <;> simp [topData, ihr]

@[simp] theorem first_setChild (F : Forest) (x : Nat) (k2 : Forest) :
    (F.setChild x k2).first = F.first := by
  cases F with
  | nil => simp [setChild]
  | node a c k r => simp only [setChild]; split <;> simp [first]

@[simp] theorem last_setChild (F : Forest) (x : Nat) (k2 : Forest) :
    (F.setChild x k2).last = F.last := by
  induction F with
  | nil => simp [setChild]
  | node a c k r _ ihr =>
    simp only [setChild]
    split <;> simp [last, ihr]

@[simp] theorem findChar_setChild (F : Forest) (x : Nat) (k2 : Forest) (c : Char) :
    (F.setChild x k2).findChar c = F.findChar c := by
  induction F with
  | nil => simp [setChild]
  | node a d k r _ ihr =>
    simp only [setChild]
    split <;> simp [findChar, ihr]

theorem child_addrs_subset (F : Forest) (x : Nat) : ∀ b ∈ (F.child x).addrs, b ∈ F.addrs := by
  induction F with
  | nil => simp [child, addrs]
  | node a c k r _ ihr =>
    intro b hb
    simp only [child] at hb
    simp only [addrs, List.mem_cons, List.mem_append]
    split at hb
    · exact Or.inr (Or.inl hb)
    · exact Or.inr (Or.inr (ihr b hb))

theorem not_mem_child_self {F : Forest} {x : Nat} (hn : F.addrs.Nodup) :
    x ∉ (F.child x).addrs := by
  induction F with
  | nil => simp [child, addrs]
  | node a c k r _ ihr =>
    simp only [addrs, List.nodup_cons, List.nodup_append, List.mem_append, not_or] at hn
    simp only [child]
    split
    · rename_i h; subst h; exact hn.1.1
    · exact ihr hn.2.2.1

theorem child_setChild_same {F : Forest} {x : Nat} (k2 : Forest) (hx : x ∈ F.tops) :
    (F.setChild x k2).child x = k2 := by
  induction F with
  | nil => simp [tops] at hx
  | node a c k r _ ihr =>
    simp only [tops, List.mem_cons] at hx
    simp only [setChild]
    by_cases h : a = x
    · simp [h, child]
    · simp only [h, if_false, child]
      rcases hx with hx | hx
      · exact absurd hx.symm h
      · exact ihr hx

theorem mem_addrs_setChild {F : Forest} {x : Nat} {k2 : Forest} {b : Nat}
    (h : b ∈ (F.setChild x k2).addrs) : b ∈ F.addrs ∨ b ∈ k2.addrs := by
  induction F with
  | nil => simp [setChild, addrs] at h
  | node a c k r _ ihr =>
    simp only [setChild] at h
    simp only [addrs, List.mem_cons, List.mem_append]
    split at h
    · simp only [addrs, List.mem_cons, List.mem_append] at h
      rcases h with h | h | h
      · exact Or.inl (Or.inl h)
      · exact Or.inr h
      · exact Or.inl (Or.inr (Or.inr h))
    · simp only [addrs, List.mem_cons, List.mem_append] at h
      rcases h with h | h | h
      · exact Or.inl (Or.inl h)
      · exact Or.inl (Or.inr (Or.inl h))
      · rcases ihr h with h2 | h2
        · exact Or.inl (Or.inr (Or.inr h2))
        · exact Or.inr h2

theorem mem_addrs_setChild_of_mem {F : Forest} {x : Nat} (k2 : Forest) {b : Nat}
    (h : b ∈ F.addrs) (hb : b ∉ (F.child x).addrs) : b ∈ (F.setChild x k2).addrs := by
  induction F with
  | nil => simp [addrs] at h
  | node a c k r _ ihr =>
    simp only [addrs, List.mem_cons, List.mem_append] at h
    simp only [child] at hb
    simp only [setChild]
    split
    · rename_i hax
      simp only [hax, if_true] at hb
      simp only [addrs, List.mem_cons, List.mem_append]
      rcases h with h | h | h
      · exact Or.inl h
      · exact absurd h hb
      · exact Or.inr (Or.inr h)
    · rename_i hax
      simp only [hax, if_false] at hb
      simp only [addrs, List.mem_cons, List.mem_append]
      rcases h with h | h | h
      · exact Or.inl h
      · exact Or.inr (Or.inl h)
      · exact Or.inr (Or.inr (ihr h hb))

theorem mem_addrs_setChild_of_new {F : Forest} {x : Nat} (k2 : Forest) {b : Nat}
    (hx : x ∈ F.tops) (hb : b ∈ k2.addrs) : b ∈ (F.setChild x k2).addrs := by
  induction F with
  | nil => simp [tops] at hx
  | node a c k r _ ihr =>
    simp only [tops, List.mem_cons] at hx
    simp only [setChild]
    split
    · simp only [addrs, List.mem_cons, List.mem_append]
      exact Or.inr (Or.inl hb)
    · rename_i hax
      simp only [addrs, List.mem_cons, List.mem_append]
      rcases hx with hx | hx
      · exact absurd hx.symm hax
      · exact Or.inr (Or.inr (ihr hx))

theorem nodup_setChild {F : Forest} {x : Nat} {k2 : Forest} (hn : F.addrs.Nodup)
    (h2 : k2.addrs.Nodup)
    (hnew : ∀ b ∈ k2.addrs, b ∈ (F.child x).addrs ∨ b ∉ F.addrs) :
    (F.setChild x k2).addrs.Nodup := by
  induction F with
  | nil => simp [setChild, addrs]
  | node a c k r _ ihr =>
    simp only [addrs, List.nodup_cons, List.nodup_append, List.mem_append, not_or] at hn
    obtain ⟨⟨hak, har⟩, hk, hr, hdis⟩ := hn
    simp only [setChild]
    by_cases hax : a = x
    · simp only [hax, if_true, addrs, List.nodup_cons, List.nodup_append, List.mem_append, not_or]
      simp only [child, hax, if_true] at hnew
      subst hax
      refine ⟨⟨?_, har⟩, h2, hr, ?_⟩
      · intro hin
        rcases hnew a hin with h | h
        · exact hak h
        · exact h (by simp [addrs])
      · intro b hb1 hb2
        rcases hnew b hb1 with h | h
        · exact hdis h hb2
        · exact h (by simp [addrs, hb2])
    · simp only [hax, if_false, addrs, List.nodup_cons, List.nodup_append, List.mem_append, not_or]
      simp only [child, hax, if_false] at hnew
      have hnew2 : ∀ b ∈ k2.addrs, b ∈ (r.child x).addrs ∨ b ∉ r.addrs := by
        intro b hb
        rcases hnew b hb with h | h
        · exact Or.inl h
        · right; intro hbr; exact h (by simp [addrs, hbr])
      refine ⟨⟨hak, ?_⟩, hk, ihr hr hnew2, ?_⟩
      · intro hin
        rcases mem_addrs_setChild hin with h | h
        · exact har h
        · rcases hnew a h with h3 | h3
          · exact har (child_addrs_subset r x a h3)
          · exact h3 (by simp [addrs])
      · intro b hb1 hb2
        rcases mem_addrs_setChild hb2 with h | h
        · exact hdis hb1 h
        · rcases hnew b h with h3 | h3
          · exact hdis hb1 (child_addrs_subset r x b h3)
          · exact h3 (by simp [addrs, hb1])

theorem app_setChild_leaf (k : Forest) (x : Nat) (c : Char) (g : Forest) (hx : x ∉ k.tops) :
    (k.app (node x c nil nil)).setChild x g = k.app (node x c g nil) := by
  induction k with
  | nil => simp [app, setChild]
  | node a d ka r _ ihr =>
    simp only [tops, List.mem_cons, not_or] at hx
    have : ¬ a = x := fun h => hx.1 h.symm
    simp [app, setChild, this, ihr hx.2]

end Forest

/-! ## Cells of a sibling list -/

theorem Sibs.live {m : Nat → Option TreeNode} {F : Forest} :
    ∀ {par prev : Option Nat}, Sibs m F par prev → ∀ b ∈ F.addrs, ∃ n, m b = some n := by
  induction F with
  | nil => intro _ _ _ b hb; simp [Forest.addrs] at hb
  | node a c k r ihk ihr =>
    intro par prev hs b hb
    simp only [Forest.addrs, List.mem_cons, List.mem_append] at hb
    rcases hb with hb | hb | hb
    · subst hb; exact ⟨_, hs.1⟩
    · exact ihk hs.2.1 b hb
    · exact ihr hs.2.2 b hb

/-- The cell of a top sibling and the cells of its children. -/
theorem Sibs.child_cells {m : Nat → Option TreeNode} {F : Forest} {x : Nat} :
    ∀ {par prev : Option Nat}, Sibs m F par prev → x ∈ F.tops →
      (∃ n, m x = some n ∧ n.parent = par ∧ n.first_child = (F.child x).first ∧
        n.last_child = (F.child x).last) ∧
      Sibs m (F.child x) (some x) none := by
  induction F with
  | nil => intro _ _ _ hx; simp [Forest.tops] at hx
  | node a c k r _ ihr =>
    intro par prev hs hx
    simp only [Forest.tops, List.mem_cons] at hx
    simp only [Forest.child]
    by_cases hax : a = x
    · subst hax
      simp only [if_true]
      exact ⟨⟨_, hs.1, rfl, rfl, rfl⟩, hs.2.1⟩
    · simp only [hax, if_false]
      rcases hx with hx | hx
      · exact absurd hx.symm hax
      · exact ihr hs.2.2 hx

theorem Forest.nodup_child {F : Forest} {x : Nat} (hn : F.addrs.Nodup) (hx : x ∈ F.tops) :
    (x :: (F.child x).addrs).Nodup := by
  induction F with
  | nil => simp [Forest.tops] at hx
  | node a c k r _ ihr =>
    simp only [Forest.addrs, List.nodup_cons, List.nodup_append, List.mem_append, not_or] at hn
    simp only [Forest.tops, List.mem_cons] at hx
    simp only [Forest.child]
    by_cases hax : a = x
    · subst hax
      simp only [if_true, List.nodup_cons]
      exact ⟨hn.1.1, hn.2.1⟩
    · simp only [hax, if_false]
      rcases hx with hx | hx
      · exact absurd hx.symm hax
      · exact ihr hn.2.2.1 hx

theorem Owns.descend {t : ZDTree} {a : Nat} {k : Forest} (h : Owns t a k) {x : Nat}
    (hx : x ∈ k.tops) : Owns t x (k.child x) := by
  obtain ⟨⟨n, hn, _, hf, hl⟩, hs⟩ := Sibs.child_cells h.sibs hx
  refine ⟨⟨n, hn, hf, hl⟩, hs, Forest.nodup_child (List.nodup_cons.mp h.nodup).2 hx, ?_⟩
  intro b hb
  simp only [List.mem_cons] at hb
  apply h.bound
  simp only [List.mem_cons]
  rcases hb with hb | hb
  · right; rw [hb]; exact Forest.tops_subset_addrs k x hx
  · right; exact Forest.child_addrs_subset k x b hb

/-- Appending a leaf at the end of a sibling list. -/
theorem Sibs.app_leaf {m m2 : Nat → Option TreeNode} {new : Nat} {x : Char} (k : Forest) :
    ∀ {par prev : Option Nat}, Sibs m k par prev → k.addrs.Nodup →
      m2 new = some ⟨par, none, none,
        (match k.last with | some l => some l | none => prev), none, x⟩ →
      (∀ b ∈ k.addrs, some b ≠ k.last → m2 b = m b) →
      (∀ l nl, k.last = some l → m l = some nl →
        m2 l = some { nl with next_sibling := some new }) →
      Sibs m2 (k.app (.node new x .nil .nil)) par prev := by
  induction k with
  | nil =>
    intro par prev _ _ hnew _ _
    simp only [Forest.last] at hnew
    exact ⟨by simpa [Forest.first, Forest.last] using hnew, trivial, trivial⟩
  | node a c ka r _ ihr =>
    intro par prev hs hn hnew hframe hlast
    simp only [Forest.addrs, List.nodup_cons, List.nodup_append, List.mem_append, not_or] at hn
    obtain ⟨⟨hak, har⟩, hka, hr, hdis⟩ := hn
    simp only [Forest.app]
    have hkids : Sibs m2 ka (some a) none := by
      refine Sibs.congr ?_ hs.2.1
      intro b hb
      apply hframe b (by simp [Forest.addrs, hb])
      intro hbl
      have hmem := Forest.last_mem_tops hbl.symm
      simp only [Forest.tops, List.mem_cons] at hmem
      rcases hmem with hmem | hmem
      · exact hak (hmem ▸ hb)
      · exact hdis hb (Forest.tops_subset_addrs r b hmem)
    cases hrl : r.last with
    | none =>
      have hrnil : r = .nil := Forest.last_eq_none.mp hrl
      subst hrnil
      have hl : (Forest.node a c ka .nil).last = some a := by simp [Forest.last]
      refine ⟨?_, hkids, ?_⟩
      · have := hlast a _ hl hs.1
        simpa [Forest.app, Forest.first] using this
      · simp only [hl] at hnew
        exact ⟨by simpa [Forest.app, Forest.first, Forest.last] using hnew, trivial, trivial⟩
    | some l =>
      have hl : (Forest.node a c ka r).last = some l := by simp [Forest.last, hrl]
      have hla : l ≠ a := by
        intro h
        exact har (h ▸ Forest.tops_subset_addrs r l (Forest.last_mem_tops hrl))
      refine ⟨?_, hkids, ?_⟩
      · rw [hframe a (by simp [Forest.addrs]) (by rw [hl]; intro h; exact hla (Option.some.inj h).symm)]
        have hfirst : (r.app (.node new x .nil .nil)).first = r.first := by
          rw [Forest.first_app]
          cases r with
          | nil => simp [Forest.last] at hrl
          | node _ _ _ _ => simp [Forest.first]
        rw [hfirst]; exact hs.1
      · apply ihr hs.2.2 hr
        · rw [hl] at hnew; rw [hrl]; exact hnew
        · intro b hb hbl
          exact hframe b (by simp [Forest.addrs, hb]) (by rw [hl, ← hrl]; exact hbl)
        · intro l2 nl hl2 hm
          exact hlast l2 nl (by rw [hl, ← hrl]; exact hl2) hm

/-- Replacing the children of one sibling, given the cells of the new children. -/
theorem Sibs.setChild_cells {m m2 : Nat → Option TreeNode} {x : Nat} {k2 : Forest} (F : Forest) :
    ∀ {par prev : Option Nat}, Sibs m F par prev → F.addrs.Nodup → x ∈ F.tops →
      (∀ n, m x = some n →
        m2 x = some { n with first_child := k2.first, last_child := k2.last }) →
      Sibs m2 k2 (some x) none →
      (∀ b ∈ F.addrs, b ≠ x → b ∉ (F.child x).addrs → m2 b = m b) →
      Sibs m2 (F.setChild x k2) par prev := by
  induction F with
  | nil => intro _ _ _ _ hx; simp [Forest.tops] at hx
  | node a c k r _ ihr =>
    intro par prev hs hn hx hnode hsib hframe
    simp only [Forest.addrs, List.nodup_cons, List.nodup_append, List.mem_append, not_or] at hn
    obtain ⟨⟨hak, har⟩, hk, hr, hdis⟩ := hn
    simp only [Forest.tops, List.mem_cons] at hx
    simp only [Forest.setChild]
    by_cases hax : a = x
    · subst hax
      simp only [if_true]
      simp only [Forest.child, if_true] at hframe
      refine ⟨?_, hsib, ?_⟩
      · have := hnode _ hs.1
        simpa using this
      · refine Sibs.congr ?_ hs.2.2
        intro b hb
        apply hframe b (by simp [Forest.addrs, hb])
        · intro h; exact har (h ▸ hb)
        · intro h; exact hdis h hb
    · simp only [hax, if_false]
      simp only [Forest.child, hax, if_false] at hframe
      have hxr : x ∈ r.tops := by
        rcases hx with hx | hx
        · exact absurd hx.symm hax
        · exact hx
      refine ⟨?_, ?_, ?_⟩
      · rw [hframe a (by simp [Forest.addrs]) hax
          (fun h => har (Forest.child_addrs_subset r x a h))]
        rw [Forest.first_setChild]; exact hs.1
      · refine Sibs.congr ?_ hs.2.1
        intro b hb
        apply hframe b (by simp [Forest.addrs, hb])
        · intro h; exact hdis hb (h ▸ Forest.tops_subset_addrs r x hxr)
        · intro h; exact hdis hb (Forest.child_addrs_subset r x b h)
      · apply ihr hs.2.2 hr hxr hnode hsib
        intro b hb hbx hbc
        exact hframe b (by simp [Forest.addrs, hb]) hbx hbc

/-! ## Local changes below one node -/

theorem Regraft.same {t : ZDTree} {a : Nat} {k : Forest} (h : Owns t a k) (hc : Clean t) :
    Regraft t t a k k := by
  obtain ⟨n, hn, hf, hl⟩ := h.live
  refine ⟨rfl, rfl, le_refl _, hc, ?_, h.sibs, fun _ _ _ _ => rfl, fun b hb => Or.inl hb, ?_,
    (List.nodup_cons.mp h.nodup).2⟩
  · intro n2 hn2
    rw [hn2]
    rw [hn] at hn2
    cases Option.some.inj hn2
    rw [← hf, ← hl]
  · intro b hb hb2
    rcases hb with hb | hb
    · exact absurd hb hb2
    · exact hc b hb

theorem Regraft.owns_after {t t2 : ZDTree} {a : Nat} {k k2 : Forest} (h : Owns t a k)
    (r : Regraft t t2 a k k2) : Owns t2 a k2 := by
  obtain ⟨n, hn, _, _⟩ := h.live
  have hak : a ∉ k.addrs := (List.nodup_cons.mp h.nodup).1
  have hab : a < t.fresh := h.bound a (by simp)
  refine ⟨⟨_, r.node n hn, rfl, rfl⟩, r.sibs, ?_, ?_⟩
  · refine List.nodup_cons.mpr ⟨?_, r.nodup⟩
    intro ha
    rcases r.addrs a ha with h1 | h1
    · exact hak h1
    · omega
  · intro b hb
    simp only [List.mem_cons] at hb
    rcases hb with hb | hb
    · subst hb; have := r.fresh_le; omega
    · rcases r.addrs b hb with h1 | h1
      · have := h.bound b (by simp [h1]); have := r.fresh_le; omega
      · exact h1.2

theorem Regraft.chain_with {t t1 t2 : ZDTree} {a : Nat} {k k1 k2 : Forest} (h : Owns t a k)
    (r1 : Regraft t t1 a k k1) (r2 : Regraft t1 t2 a k1 k2) : Regraft t t2 a k k2 := by
  have hak : a ∉ k.addrs := (List.nodup_cons.mp h.nodup).1
  have hab : a < t.fresh := h.bound a (by simp)
  have hkb : ∀ b ∈ k.addrs, b < t.fresh := fun b hb => h.bound b (by simp [hb])
  have hf1 := r1.fresh_le
  have hf2 := r2.fresh_le
  refine ⟨by rw [r2.head_eq, r1.head_eq], by rw [r2.feet_eq, r1.feet_eq], by omega, r2.clean,
    ?_, r2.sibs, ?_, ?_, ?_, r2.nodup⟩
  · intro n hn
    have := r2.node _ (r1.node n hn)
    simpa using this
  · intro b hb hba hbk
    have h1 := r1.frame b hb hba hbk
    have hbk1 : b ∉ k1.addrs := by
      intro hin
      rcases r1.addrs b hin with h3 | h3
      · exact hbk h3
      · omega
    rw [r2.frame b (by omega) hba hbk1, h1]
  · intro b hb
    rcases r2.addrs b hb with h1 | h1
    · rcases r1.addrs b h1 with h3 | h3
      · exact Or.inl h3
      · exact Or.inr ⟨h3.1, by omega⟩
    · exact Or.inr ⟨by omega, h1.2⟩
  · intro b hb hb2
    by_cases hb1 : b ∈ k1.addrs
    · exact r2.gone b (Or.inl hb1) hb2
    · have hnone : t1.cells b = none := r1.gone b hb hb1
      by_cases hlt : b < t1.fresh
      · have hba : b ≠ a := by
          rcases hb with hb | hb
          · intro h; exact hak (h ▸ hb)
          · omega
        rw [r2.frame b hlt hba hb1, hnone]
      · exact r2.gone b (Or.inr (by omega)) hb2

/-- A change below a child is a change below its parent. -/
theorem Regraft.lift {t t2 : ZDTree} {a x : Nat} {k kx2 : Forest} (h : Owns t a k)
    (hx : x ∈ k.tops) (r : Regraft t t2 x (k.child x) kx2) :
    Regraft t t2 a k (k.setChild x kx2) := by
  obtain ⟨n, hn, hf, hl⟩ := h.live
  have hak : a ∉ k.addrs := (List.nodup_cons.mp h.nodup).1
  have hkn : k.addrs.Nodup := (List.nodup_cons.mp h.nodup).2
  have hab : a < t.fresh := h.bound a (by simp)
  have hkb : ∀ b ∈ k.addrs, b < t.fresh := fun b hb => h.bound b (by simp [hb])
  have hxk : x ∈ k.addrs := Forest.tops_subset_addrs k x hx
  have hax : a ≠ x := fun h => hak (h ▸ hxk)
  have hsub := Forest.child_addrs_subset k x
  have hnew : ∀ b ∈ kx2.addrs, b ∈ (k.child x).addrs ∨ b ∉ k.addrs := by
    intro b hb
    rcases r.addrs b hb with h1 | h1
    · exact Or.inl h1
    · right; intro hin; have := hkb b hin; omega
  refine ⟨r.head_eq, r.feet_eq, r.fresh_le, r.clean, ?_, ?_, ?_, ?_, ?_, ?_⟩
  · intro n2 hn2
    rw [r.frame a hab hax (fun hin => hak (hsub a hin)), hn2]
    rw [hn] at hn2
    cases Option.some.inj hn2
    simp only [Forest.first_setChild, Forest.last_setChild]
    rw [← hf, ← hl]
  · apply Sibs.setChild_cells k h.sibs hkn hx r.node r.sibs
    intro b hb hbx hbc
    exact r.frame b (hkb b hb) hbx hbc
  · intro b hb hba hbk
    exact r.frame b hb (fun h => hbk (h ▸ hxk)) (fun hin => hbk (hsub b hin))
  · intro b hb
    rcases Forest.mem_addrs_setChild hb with h1 | h1
    · exact Or.inl h1
    · rcases r.addrs b h1 with h3 | h3
      · exact Or.inl (hsub b h3)
      · exact Or.inr h3
  · intro b hb hb2
    have hb3 : b ∉ kx2.addrs := fun hin => hb2 (Forest.mem_addrs_setChild_of_new kx2 hx hin)
    by_cases hbc : b ∈ (k.child x).addrs
    · exact r.gone b (Or.inl hbc) hb3
    · rcases hb with hb | hb
      · exact absurd (Forest.mem_addrs_setChild_of_mem kx2 hb hbc) hb2
      · exact r.gone b (Or.inr hb) hb3
  · exact Forest.nodup_setChild hkn r.nodup hnew

/-- `append_child` hangs a new leaf after the last child. -/
theorem append_child_spec {t : ZDTree} {a : Nat} {k : Forest} (h : Owns t a k) (hc : Clean t)
    (hh : a ≠ t.head) (hf : a ≠ t.feet) (x : Char) :
    ∃ t2, t.append_child (some a) x = .ok (t2, some t.fresh) ∧
      t2.fresh = t.fresh + 1 ∧
      Regraft t t2 a k (k.app (.node t.fresh x .nil .nil)) := by
  obtain ⟨n, hn, hfc, hlc⟩ := h.live
  have hak : a ∉ k.addrs := (List.nodup_cons.mp h.nodup).1
  have hkn : k.addrs.Nodup := (List.nodup_cons.mp h.nodup).2
  have hab : a < t.fresh := h.bound a (by simp)
  have hkb : ∀ b ∈ k.addrs, b < t.fresh := fun b hb => h.bound b (by simp [hb])
  have hfk : t.fresh ∉ k.addrs := fun hin => by have := hkb _ hin; omega
  cases hkl : k.last with
  | none =>
    have hknil : k = .nil := Forest.last_eq_none.mp hkl
    subst hknil
    obtain ⟨t2, he, hfr, hhd, hft, hnew, hpar, hframe⟩ :=
      append_child_first x hn (by rw [hlc, hkl]) hab hh hf
    refine ⟨t2, he, hfr, hhd, hft, by omega, ?_, ?_, ?_, ?_, ?_, ?_, ?_⟩
    · intro b hb
      rw [hframe b (by omega) (by omega)]
      exact hc b (by omega)
    · intro n2 hn2
      rw [hn] at hn2; cases Option.some.inj hn2
      simpa [Forest.app, Forest.first, Forest.last] using hpar
    · exact ⟨by simpa [Forest.first, Forest.last] using hnew, trivial, trivial⟩
    · intro b hb hba _
      exact hframe b (by omega) hba
    · intro b hb
      simp only [Forest.app, Forest.addrs, List.mem_cons, List.append_nil, List.mem_nil_iff,
        or_false] at hb
      right; omega
    · intro b hb hb2
      simp only [Forest.app, Forest.addrs, List.mem_cons, List.append_nil, List.mem_nil_iff,
        or_false] at hb hb2
      rcases hb with hb | hb
      · exact absurd hb (by simp)
      · rw [hframe b hb2 (by omega)]
        exact hc b hb
    · simp [Forest.app, Forest.addrs]
  | some l =>
    have hlt : l ∈ k.addrs := Forest.tops_subset_addrs k l (Forest.last_mem_tops hkl)
    obtain ⟨nl, hnl⟩ := Sibs.live h.sibs l hlt
    have hla : l ≠ a := fun h2 => hak (h2 ▸ hlt)
    obtain ⟨t2, he, hfr, hhd, hft, hnew, hpar, hlast, hframe⟩ :=
      append_child_more x hn (by rw [hlc, hkl]) hnl hla (hkb l hlt) hab hh hf
    have hkne : k.first ≠ none := by
      intro h2
      rw [Forest.first_eq_none.mp h2] at hkl
      simp [Forest.last] at hkl
    refine ⟨t2, he, hfr, hhd, hft, by omega, ?_, ?_, ?_, ?_, ?_, ?_, ?_⟩
    · intro b hb
      rw [hframe b (by omega) (by omega) (by have := hkb l hlt; omega)]
      exact hc b (by omega)
    · intro n2 hn2
      rw [hn] at hn2; cases Option.some.inj hn2
      rw [hpar, Forest.first_app, Forest.last_app]
      cases hk1 : k.first with
      | none => exact absurd hk1 hkne
      | some f => simp [Forest.last, hfc, hk1]
    · apply Sibs.app_leaf k h.sibs hkn
      · rw [hkl]; exact hnew
      · intro b hb hbl
        rw [hkl] at hbl
        exact hframe b (fun h2 => hfk (h2 ▸ hb)) (fun h2 => hak (h2 ▸ hb))
          (fun h2 => hbl (by rw [h2]))
      · intro l2 nl2 hl2 hm
        rw [hkl] at hl2; cases Option.some.inj hl2
        rw [hnl] at hm; cases Option.some.inj hm
        exact hlast
    · intro b hb hba hbk
      exact hframe b (by omega) hba (fun h2 => hbk (h2 ▸ hlt))
    · intro b hb
      simp only [Forest.addrs_app, Forest.addrs, List.mem_append, List.mem_cons,
        List.append_nil, List.mem_nil_iff, or_false] at hb
      rcases hb with hb | hb
      · exact Or.inl hb
      · right; omega
    · intro b hb hb2
      simp only [Forest.addrs_app, Forest.addrs, List.mem_append, List.mem_cons,
        List.append_nil, List.mem_nil_iff, or_false, not_or] at hb2
      rcases hb with hb | hb
      · exact absurd hb hb2.1
      · rw [hframe b hb2.2 (by omega) (by have := hkb l hlt; omega)]
        exact hc b hb
    · simp only [Forest.addrs_app, Forest.addrs, List.append_nil]
      exact List.nodup_append.mpr ⟨hkn, by simp, by
        intro b hb1 hb2
        simp only [List.mem_singleton] at hb2
        exact hfk (hb2 ▸ hb1)⟩

/-! ## The private insert_word -/

theorem Keeps.unchanged (t : ZDTree) : Keeps t t :=
  ⟨rfl, rfl, fun _ n h => ⟨n, h, rfl, rfl, rfl, fun _ => rfl, fun _ => rfl⟩⟩

theorem Keeps.followed_by {t t1 t2 : ZDTree} (h1 : Keeps t t1) (h2 : Keeps t1 t2) : Keeps t t2 := by
  refine ⟨by rw [h2.head_eq, h1.head_eq], by rw [h2.feet_eq, h1.feet_eq], ?_⟩
  intro b n hn
  obtain ⟨n1, hn1, hd1, hp1, hv1, hx1, hc1⟩ := h1.nodes b n hn
  obtain ⟨n2, hn2, hd2, hp2, hv2, hx2, hc2⟩ := h2.nodes b n1 hn1
  refine ⟨n2, hn2, by rw [hd2, hd1], by rw [hp2, hp1], by rw [hv2, hv1], ?_, ?_⟩
  · intro hne
    have := hx1 hne
    rw [hx2 (by rw [this]; exact hne), this]
  · intro hne
    have := hc1 hne
    rw [hc2 (by rw [this]; exact hne), this]

theorem Sibs.last_next {m : Nat → Option TreeNode} {F : Forest} {l : Nat} {nl : TreeNode} :
    ∀ {par prev : Option Nat}, Sibs m F par prev → F.last = some l → m l = some nl →
      nl.next_sibling = none := by
  induction F with
  | nil => intro _ _ _ h; simp [Forest.last] at h
  | node a c k r _ ihr =>
    intro par prev hs hl hm
    simp only [Forest.last] at hl
    cases hrl : r.last with
    | none =>
      rw [hrl] at hl
      cases Option.some.inj hl
      rw [hs.1] at hm
      cases Option.some.inj hm
      simp [Forest.first_eq_none.mpr (Forest.last_eq_none.mp hrl)]
    | some l2 =>
      rw [hrl] at hl
      cases Option.some.inj hl
      exact ihr hs.2.2 hrl hm

theorem append_child_keeps {t : ZDTree} {a : Nat} {k : Forest} (h : Owns t a k) (hc : Clean t)
    (hh : a ≠ t.head) (hf : a ≠ t.feet) (x : Char) {t2 : ZDTree} {e : Option Nat}
    (he : t.append_child (some a) x = .ok (t2, e)) : Keeps t t2 := by
  obtain ⟨n, hn, hfc, hlc⟩ := h.live
  have hak : a ∉ k.addrs := (List.nodup_cons.mp h.nodup).1
  have hab : a < t.fresh := h.bound a (by simp)
  have hkb : ∀ b ∈ k.addrs, b < t.fresh := fun b hb => h.bound b (by simp [hb])
  have hlive : ∀ b nb, t.cells b = some nb → b ≠ t.fresh := by
    intro b nb hb h2
    rw [h2, hc t.fresh (le_refl _)] at hb
    cases hb
  cases hkl : k.last with
  | none =>
    obtain ⟨t3, he3, _, hhd, hft, _, hpar, hframe⟩ :=
      append_child_first x hn (by rw [hlc, hkl]) hab hh hf
    rw [he] at he3
    cases (Prod.mk.inj (Except.ok.inj he3)).1
    have hk1 : n.first_child = none := by
      rw [hfc, Forest.first_eq_none, ← Forest.last_eq_none]; exact hkl
    refine ⟨hhd, hft, ?_⟩
    intro b nb hb
    by_cases hba : b = a
    · subst hba
      rw [hn] at hb; cases Option.some.inj hb
      exact ⟨_, hpar, rfl, rfl, rfl, fun _ => rfl, fun h2 => absurd hk1 h2⟩
    · rw [← hframe b (hlive b nb hb) hba] at hb
      exact ⟨nb, hb, rfl, rfl, rfl, fun _ => rfl, fun _ => rfl⟩
  | some l =>
    have hlt : l ∈ k.addrs := Forest.tops_subset_addrs k l (Forest.last_mem_tops hkl)
    obtain ⟨nl, hnl⟩ := Sibs.live h.sibs l hlt
    have hla : l ≠ a := fun h2 => hak (h2 ▸ hlt)
    obtain ⟨t3, he3, _, hhd, hft, _, hpar, hlast, hframe⟩ :=
      append_child_more x hn (by rw [hlc, hkl]) hnl hla (hkb l hlt) hab hh hf
    rw [he] at he3
    cases (Prod.mk.inj (Except.ok.inj he3)).1
    have hlnext : nl.next_sibling = none := Sibs.last_next h.sibs hkl hnl
    refine ⟨hhd, hft, ?_⟩
    intro b nb hb
    by_cases hba : b = a
    · subst hba
      rw [hn] at hb; cases Option.some.inj hb
      exact ⟨_, hpar, rfl, rfl, rfl, fun _ => rfl, fun _ => rfl⟩
    · by_cases hbl : b = l
      · subst hbl
        rw [hnl] at hb; cases Option.some.inj hb
        exact ⟨_, hlast, rfl, rfl, rfl, fun h2 => absurd hlnext h2, fun _ => rfl⟩
      · rw [← hframe b (hlive b nb hb) hba hbl] at hb
        exact ⟨nb, hb, rfl, rfl, rfl, fun _ => rfl, fun _ => rfl⟩

theorem Forest.grow_nil (w : List Char) (f : Nat) : Forest.grow w .nil f = Forest.chain w f := by
  cases w <;> simp [Forest.grow, Forest.chain, Forest.findChar, Forest.app]

theorem Forest.shared_nil (w : List Char) : Forest.shared w .nil = 0 := by
  cases w <;> simp [Forest.shared, Forest.findChar]

theorem Forest.shared_le (w : List Char) : ∀ k : Forest, Forest.shared w k ≤ w.length := by
  induction w with
  | nil => intro k; simp [Forest.shared]
  | cons c w ih =>
    intro k
    simp only [Forest.shared, List.length_cons]
    cases k.findChar c with
    | none => simp
    | some x => have := ih (k.child x); simp only; omega

theorem Forest.child_app_leaf (k : Forest) (x : Nat) (c : Char) (hx : x ∉ k.tops) :
    (k.app (.node x c .nil .nil)).child x = .nil := by
  induction k with
  | nil => simp [Forest.app, Forest.child]
  | node a d ka r _ ihr =>
    simp only [Forest.tops, List.mem_cons, not_or] at hx
    have : ¬ a = x := fun h => hx.1 h.symm
    simp [Forest.app, Forest.child, this, ihr hx.2]

/-- The private `insert_word` returns, and changes the children of its start node as
`Forest.grow` describes. -/
theorem insert_word_at_spec (w : List Char) :
    ∀ (t : ZDTree) (a : Nat) (k : Forest), Owns t a k → Clean t →
      t.head < t.fresh → t.feet < t.fresh → a ≠ t.head → a ≠ t.feet →
      t.head ∉ k.addrs → t.feet ∉ k.addrs →
      ∃ t2 e, insert_word_at t (some a) w = .ok (t2, e) ∧
        Regraft t t2 a k (Forest.grow w k t.fresh) ∧
        t2.fresh = t.fresh + (w.length - Forest.shared w k) ∧ Keeps t t2 := by
  induction w with
  | nil =>
    intro t a k h hc _ _ _ _ _ _
    exact ⟨t, some a, rfl, Regraft.same h hc, by simp [Forest.shared], Keeps.unchanged t⟩
  | cons c w ih =>
    intro t a k h hc hhl hfl hh hf hhk hfk
    have hkb : ∀ b ∈ k.addrs, b < t.fresh := fun b hb => h.bound b (by simp [hb])
    simp only [insert_word_at, has_child_spec h c, bind_ok]
    cases hfind : k.findChar c with
    | some x =>
      have hx : x ∈ k.tops := Forest.findChar_mem_tops hfind
      have hxk : x ∈ k.addrs := Forest.tops_subset_addrs k x hx
      have hsub := Forest.child_addrs_subset k x
      obtain ⟨t2, e, he, hr, hfr, hkeep⟩ := ih t x (k.child x) (h.descend hx) hc hhl hfl
        (fun h2 => hhk (h2 ▸ hxk)) (fun h2 => hfk (h2 ▸ hxk))
        (fun hin => hhk (hsub _ hin)) (fun hin => hfk (hsub _ hin))
      refine ⟨t2, e, by simpa using he, ?_, ?_, hkeep⟩
      · simp only [Forest.grow, hfind]
        exact hr.lift h hx
      · simp only [Forest.shared, hfind, List.length_cons]
        have : Forest.shared w (k.child x) ≤ w.length := Forest.shared_le w _
        omega
    | none =>
      obtain ⟨t1, he1, hfr1, hr1⟩ := append_child_spec h hc hh hf c
      have hk1 := append_child_keeps h hc hh hf c he1
      have ho1 : Owns t1 a (k.app (.node t.fresh c .nil .nil)) := hr1.owns_after h
      have hnt : t.fresh ∈ (k.app (.node t.fresh c .nil .nil)).tops := by simp [Forest.tops]
      have hch : (k.app (.node t.fresh c .nil .nil)).child t.fresh = .nil :=
        Forest.child_app_leaf k t.fresh c (fun hin => by
          have := hkb _ (Forest.tops_subset_addrs k _ hin); omega)
      have ho2 : Owns t1 t.fresh .nil := by
        have := ho1.descend hnt
        rwa [hch] at this
      obtain ⟨t2, e, he2, hr2, hfr2, hk2⟩ := ih t1 t.fresh .nil ho2 hr1.clean
        (by rw [hr1.head_eq]; omega) (by rw [hr1.feet_eq]; omega)
        (by rw [hr1.head_eq]; omega) (by rw [hr1.feet_eq]; omega)
        (by simp [Forest.addrs]) (by simp [Forest.addrs])
      refine ⟨t2, e, by simp [he1, he2], ?_, ?_, hk1.followed_by hk2⟩
      · have hr3 : Regraft t1 t2 t.fresh
            ((k.app (.node t.fresh c .nil .nil)).child t.fresh) (Forest.grow w .nil t1.fresh) := by
          rw [hch]; exact hr2
        have hr4 := hr3.lift ho1 hnt
        have hr5 := hr1.chain_with h hr4
        have hnotin : t.fresh ∉ k.tops := fun hin => by
          have := hkb _ (Forest.tops_subset_addrs k _ hin); omega
        rw [Forest.app_setChild_leaf k t.fresh c _ hnotin, Forest.grow_nil, hfr1] at hr5
        simpa [Forest.grow, hfind, Forest.chain] using hr5
      · rw [hfr2, hfr1, Forest.shared_nil]
        simp only [Forest.shared, hfind, List.length_cons]
        omega

/-! ## The private exact find_word -/

theorem find_word_at_loop_spec (w : List Char) :
    ∀ (t : ZDTree) (a : Nat) (k : Forest) (found : Bool × Option Nat), Owns t a k →
      find_word_at_loop t (some a) w found =
        .ok (match w with
             | [] => found
             | _ :: _ =>
               match Forest.walk w k with
               | some e => (true, some e)
               | none => (false, none)) := by
  induction w with
  | nil => intro t a k found _; rfl
  | cons c w ih =>
    intro t a k found h
    simp only [find_word_at_loop, has_child_spec h c, bind_ok, Forest.walk]
    cases hfind : k.findChar c with
    | none => simp
    | some x =>
      have hx : x ∈ k.tops := Forest.findChar_mem_tops hfind
      simp only [if_true]
      rw [ih t x (k.child x) (true, some x) (h.descend hx)]
      cases w with
      | nil => simp
      | cons d w => simp

theorem find_word_at_spec {t : ZDTree} {a : Nat} {k : Forest} (h : Owns t a k) (w : List Char) :
    find_word_at t (some a) w =
      .ok (match Forest.walk w k with
           | some e => (true, some e)
           | none => (false, none)) := by
  rw [find_word_at, find_word_at_loop_spec w t a k _ h]
  cases w <;> simp [Forest.walk]

/-! ## The top-level sibling list -/

namespace Forest

theorem child_app {T : Forest} (Z : Forest) {x : Nat} (hx : x ∈ T.tops) :
    (T.app Z).child x = T.child x := by
  induction T with
  | nil => simp [tops] at hx
  | node a c k r _ ihr =>
    simp only [tops, List.mem_cons] at hx
    simp only [app, child]
    by_cases hax : a = x
    · simp [hax]
    · simp only [hax, if_false]
      rcases hx with hx | hx
      · exact absurd hx.symm hax
      · exact ihr hx

theorem setChild_app {T : Forest} (Z : Forest) {x : Nat} (k2 : Forest) (hx : x ∈ T.tops) :
    (T.app Z).setChild x k2 = (T.setChild x k2).app Z := by
  induction T with
  | nil => simp [tops] at hx
  | node a c k r _ ihr =>
    simp only [tops, List.mem_cons] at hx
    simp only [app, setChild]
    by_cases hax : a = x
    · simp [hax, app]
    · simp only [hax, if_false, app]
      rcases hx with hx | hx
      · exact absurd hx.symm hax
      · rw [ihr hx]

theorem full_addrs (t : ZDTree) (T : Forest) :
    (full t T).addrs = t.head :: (T.addrs ++ [t.feet]) := by
  simp [full, addrs]

theorem full_tops (t : ZDTree) (T : Forest) :
    (full t T).tops = t.head :: (T.tops ++ [t.feet]) := by
  simp [full, tops]

end Forest

theorem DictRep.head_ne_feet {t : ZDTree} {T : Forest} (h : DictRep t T) : t.head ≠ t.feet := by
  have := h.nodup
  rw [Forest.full_addrs] at this
  intro h2
  have := (List.nodup_cons.mp this).1
  simp [h2] at this

theorem DictRep.not_sentinel {t : ZDTree} {T : Forest} (h : DictRep t T) {b : Nat}
    (hb : b ∈ T.addrs) : b ≠ t.head ∧ b ≠ t.feet := by
  have := h.nodup
  rw [Forest.full_addrs] at this
  obtain ⟨h1, h2⟩ := List.nodup_cons.mp this
  obtain ⟨_, _, h5⟩ := List.nodup_append.mp h2
  constructor
  · intro h3; subst h3; exact h1 (by simp [hb])
  · intro h3; subst h3; exact h5 hb (by simp)

theorem DictRep.clean {t : ZDTree} {T : Forest} (h : DictRep t T) : Clean t := by
  intro b hb
  apply h.tight
  intro hin
  have := h.bound b hin
  omega

theorem DictRep.owns_top {t : ZDTree} {T : Forest} (h : DictRep t T) {x : Nat} (hx : x ∈ T.tops) :
    Owns t x (T.child x) := by
  have hxf : x ∈ (Forest.full t T).tops := by simp [Forest.full_tops, hx]
  have hne := (h.not_sentinel (Forest.tops_subset_addrs T x hx)).1
  have hch : (Forest.full t T).child x = T.child x := by
    simp only [Forest.full, Forest.child, hne.symm, if_false]
    exact Forest.child_app _ hx
  obtain ⟨⟨n, hn, _, hf, hl⟩, hs⟩ := Sibs.child_cells h.sibs hxf
  rw [hch] at hf hl hs
  refine ⟨⟨n, hn, hf, hl⟩, hs, ?_, ?_⟩
  · have := Forest.nodup_child h.nodup hxf
    rwa [hch] at this
  · intro b hb
    apply h.bound
    simp only [List.mem_cons] at hb
    rw [Forest.full_addrs]
    rcases hb with hb | hb
    · subst hb; simp [Forest.tops_subset_addrs T _ hx]
    · simp [Forest.child_addrs_subset T x b hb]

theorem DictRep.head_cell {t : ZDTree} {T : Forest} (h : DictRep t T) :
    t.cells t.head = some ⟨none, none, none, none,
      (T.app (.node t.feet '\x00' .nil .nil)).first, '\x00'⟩ := by
  have := h.sibs.1
  simpa [Forest.full, Forest.first, Forest.last] using this

theorem DictRep.begin_eq {t : ZDTree} {T : Forest} (h : DictRep t T) :
    t.begin = .ok (T.app (.node t.feet '\x00' .nil .nil)).first := by
  simp [ZDTree.begin, read_some h.head_cell]

theorem DictRep.top_sibs {t : ZDTree} {T : Forest} (h : DictRep t T) :
    Sibs t.cells (T.app (.node t.feet '\x00' .nil .nil)) none (some t.head) := h.sibs.2.2

/-! ## std::string storage before the first erase -/

theorem CxxString.at_ofList (pre : List Char) (c : Char) (rest : List Char) :
    (CxxString.ofList (pre ++ c :: rest)).at pre.length = c := by
  simp only [CxxString.at, CxxString.ofList, List.getD_eq_getElem?_getD, List.append_assoc]
  rw [List.getElem?_append_right (le_refl _)]
  simp

theorem CxxString.erase_ofList (pre : List Char) (c : Char) (rest : List Char) :
    ((CxxString.ofList (pre ++ c :: rest)).erase (pre.length + 1)).str = rest := by
  simp only [CxxString.erase, CxxString.ofList, CxxString.str, List.length_append,
    List.length_cons]
  have h1 : min (pre.length + 1) (pre.length + (rest.length + 1)) = pre.length + 1 := by omega
  have h2 : pre.length + (rest.length + 1) - (pre.length + 1) = rest.length := by omega
  rw [h1, h2]
  have h3 : List.drop (pre.length + 1) (pre ++ c :: rest ++ ['\x00']) = rest ++ ['\x00'] := by
    have : pre ++ c :: rest ++ ['\x00'] = (pre ++ [c]) ++ (rest ++ ['\x00']) := by simp
    rw [this, List.drop_append_eq_append_drop]
    simp
  rw [h3]
  simp

/-! ## The public insert_word -/

theorem Forest.Distinct.of_setChild {T : Forest} {x : Nat} {k2 : Forest} (h : T.Distinct)
    (h2 : k2.Distinct) : (T.setChild x k2).Distinct := by
  induction T with
  | nil => simp [Forest.setChild, Forest.Distinct]
  | node a c k r _ ihr =>
    simp only [Forest.setChild]
    split
    · exact ⟨h.1, h2, h.2.2⟩
    · exact ⟨by simpa using h.1, h.2.1, ihr h.2.2⟩

theorem Forest.Distinct.of_child {T : Forest} {x : Nat} (h : T.Distinct) : (T.child x).Distinct := by
  induction T with
  | nil => simp [Forest.child, Forest.Distinct]
  | node a c k r _ ihr =>
    simp only [Forest.child]
    split
    · exact h.2.1
    · exact ihr h.2.2

theorem Forest.Distinct.chain (w : List Char) : ∀ f, (Forest.chain w f).Distinct := by
  induction w with
  | nil => intro f; simp [Forest.chain, Forest.Distinct]
  | cons c w ih => intro f; exact ⟨by simp [Forest.topData], ih _, trivial⟩

theorem Forest.Distinct.app_chain {k : Forest} (h : k.Distinct) {c : Char} (w : List Char)
    (f : Nat) (hc : c ∉ k.topData) : (k.app (Forest.chain (c :: w) f)).Distinct := by
  induction k with
  | nil => exact Forest.Distinct.chain (c :: w) f
  | node a d ka r _ ihr =>
    simp only [Forest.topData, List.mem_cons, not_or] at hc
    refine ⟨?_, h.2.1, ihr h.2.2 hc.2⟩
    simp only [Forest.topData_app, Forest.chain, Forest.topData, List.mem_append,
      List.mem_singleton, not_or]
    exact ⟨h.1, fun h2 => hc.1 h2.symm⟩

theorem Forest.Distinct.grow (w : List Char) :
    ∀ (k : Forest) (f : Nat), k.Distinct → (Forest.grow w k f).Distinct := by
  induction w with
  | nil => intro k f h; exact h
  | cons c w ih =>
    intro k f h
    simp only [Forest.grow]
    cases hfind : k.findChar c with
    | some x => exact h.of_setChild (ih _ f h.of_child)
    | none => exact h.app_chain w f (Forest.findChar_eq_none.mp hfind)

/-- A change below a top-level node keeps the dictionary representation. -/
theorem DictRep.regraft {t t2 : ZDTree} {T : Forest} (h : DictRep t T) {x : Nat} {k2 : Forest}
    (hx : x ∈ T.tops) (r : Regraft t t2 x (T.child x) k2) (hd : k2.Distinct) :
    DictRep t2 (T.setChild x k2) := by
  have hxT : x ∈ T.addrs := Forest.tops_subset_addrs T x hx
  have hxf : x ∈ (Forest.full t T).tops := by simp [Forest.full_tops, hx]
  have hne := (h.not_sentinel hxT).1
  have hch : (Forest.full t T).child x = T.child x := by
    simp only [Forest.full, Forest.child, hne.symm, if_false]
    exact Forest.child_app _ hx
  have hfull : Forest.full t2 (T.setChild x k2) = (Forest.full t T).setChild x k2 := by
    simp only [Forest.full, Forest.setChild, hne.symm, if_false, r.head_eq, r.feet_eq]
    rw [Forest.setChild_app _ _ hx]
  have hsubT := Forest.child_addrs_subset T x
  have hnew : ∀ b ∈ k2.addrs, b ∈ ((Forest.full t T).child x).addrs ∨ b ∉ (Forest.full t T).addrs := by
    intro b hb
    rw [hch]
    rcases r.addrs b hb with h1 | h1
    · exact Or.inl h1
    · right; intro hin; have := h.bound b hin; omega
  refine ⟨?_, ?_, ?_, ?_, ?_, ?_⟩
  · rw [hfull]
    apply Sibs.setChild_cells _ h.sibs h.nodup hxf r.node r.sibs
    intro b hb hbx hbc
    rw [hch] at hbc
    exact r.frame b (h.bound b hb) hbx hbc
  · rw [hfull]
    exact Forest.nodup_setChild h.nodup r.nodup hnew
  · intro b hb
    rw [hfull] at hb
    rcases Forest.mem_addrs_setChild hb with h1 | h1
    · have := h.bound b h1; have := r.fresh_le; omega
    · rcases r.addrs b h1 with h3 | h3
      · have := h.bound b (by rw [Forest.full_addrs]; simp [hsubT b h3])
        have := r.fresh_le; omega
      · exact h3.2
  · intro b hb
    rw [hfull] at hb
    have hb3 : b ∉ k2.addrs := fun hin => hb (Forest.mem_addrs_setChild_of_new k2 hxf hin)
    by_cases hbc : b ∈ (T.child x).addrs
    · exact r.gone b (Or.inl hbc) hb3
    · by_cases hlt : b < t.fresh
      · have hbx : b ≠ x := by
          intro h2; subst h2
          exact hb (Forest.mem_addrs_setChild_of_mem k2 (Forest.tops_subset_addrs _ _ hxf)
            (by rw [hch]; exact hbc))
        rw [r.frame b hlt hbx hbc]
        apply h.tight
        intro hin
        exact hb (Forest.mem_addrs_setChild_of_mem k2 hin (by rw [hch]; exact hbc))
      · exact r.gone b (Or.inr (by omega)) hb3
  · rw [Forest.topData_setChild]; exact h.letters
  · exact h.distinct.of_setChild hd

theorem DictRep.tops_length {t : ZDTree} {T : Forest} (h : DictRep t T) :
    T.tops.length < t.fresh := by
  have h1 := nodup_length_le h.nodup h.bound
  have h2 := Forest.tops_length_le T
  rw [Forest.full_addrs] at h1
  simp only [List.length_cons, List.length_append, List.length_singleton] at h1
  omega

/-- The scan of the public `insert_word` over the top-level nodes. -/
theorem insert_word_scan_spec (t : ZDTree) (charr : Char) (word : CxxString) (count : Nat)
    (T : Forest) :
    ∀ (prev : Option Nat) (fuel : Nat),
      Sibs t.cells (T.app (.node t.feet '\x00' .nil .nil)) none prev →
      t.feet ∉ T.tops → T.tops.length < fuel →
      insert_word_scan fuel t (T.app (.node t.feet '\x00' .nil .nil)).first charr word count =
        match T.findChar charr with
        | some x =>
          (insert_word_at t (some x) (word.erase count).str).bind
            (fun r => .ok (r.1, word.erase count, true))
        | none => .ok (t, word, false) := by
  induction T with
  | nil =>
    intro prev fuel _ _ hf
    obtain ⟨fuel, rfl⟩ : ∃ f, fuel = f + 1 := ⟨fuel - 1, by omega⟩
    simp [Forest.app, Forest.first, insert_word_scan, ZDTree.end, Forest.findChar]
  | node a c k r _ ihr =>
    intro prev fuel hs hfeet hf
    simp only [Forest.tops, List.length_cons, List.mem_cons, not_or] at hf hfeet
    obtain ⟨fuel, rfl⟩ : ∃ f, fuel = f + 1 := ⟨fuel - 1, by omega⟩
    have hne : a ≠ t.feet := fun h => hfeet.1 h.symm
    simp only [Forest.app] at hs
    simp only [Forest.app, Forest.first, insert_word_scan, ZDTree.end, ne_eq, Option.some.injEq,
      hne, not_false_eq_true, if_true, read_some hs.1, bind_ok, Forest.findChar]
    by_cases hc : c = charr
    · simp only [hc, if_true]
      cases insert_word_at t (some a) (word.erase count).str with
      | error e => rfl
      | ok r => rfl
    · simp only [hc, if_false]
      exact ihr (some a) fuel hs.2.2 hfeet.2 (by omega)

theorem DictRep.feet_not_top {t : ZDTree} {T : Forest} (h : DictRep t T) : t.feet ∉ T.tops :=
  fun hin => (h.not_sentinel (Forest.tops_subset_addrs T _ hin)).2 rfl

theorem DictRep.sentinels_lt {t : ZDTree} {T : Forest} (h : DictRep t T) :
    t.head < t.fresh ∧ t.feet < t.fresh :=
  ⟨h.bound _ (by simp [Forest.full_addrs]), h.bound _ (by simp [Forest.full_addrs])⟩

/-- The range-`for` of the public `insert_word`, started before any erase. -/
theorem insert_word_for_spec {t : ZDTree} {T : Forest} (h : DictRep t T) (lw : List Char) :
    ∀ (suf pre : List Char), lw = pre ++ suf →
      ∃ t2, insert_word_for suf.length pre.length t (CxxString.ofList lw) (pre.length + 1) =
          .ok (t2, (T.insertWord t.fresh suf).2) ∧
        DictRep t2 (T.insertWord t.fresh suf).1 ∧ Keeps t t2 ∧
        t2.fresh = t.fresh + T.insertCount suf ∧
        ((T.insertWord t.fresh suf).2 = false → t2 = t) := by
  intro suf
  induction suf with
  | nil =>
    intro pre _
    exact ⟨t, rfl, h, Keeps.unchanged t, rfl, fun _ => rfl⟩
  | cons c rest ih =>
    intro pre hlw
    subst hlw
    simp only [List.length_cons, insert_word_for, CxxString.at_ofList, h.begin_eq, bind_ok]
    rw [insert_word_scan_spec t c _ _ T (some t.head) (t.fresh + 1) h.top_sibs h.feet_not_top
      (by have := h.tops_length; omega)]
    simp only [Forest.insertWord, Forest.insertCount]
    cases hfind : T.findChar c with
    | none =>
      simp only [bind_ok]
      have := ih (pre ++ [c]) (by simp)
      simpa using this
    | some x =>
      have hx : x ∈ T.tops := Forest.findChar_mem_tops hfind
      have hxT : x ∈ T.addrs := Forest.tops_subset_addrs T x hx
      have hsub := Forest.child_addrs_subset T x
      obtain ⟨t2, e, he, hr, hfr, hkeep⟩ := insert_word_at_spec rest t x (T.child x) (h.owns_top hx)
        h.clean h.sentinels_lt.1 h.sentinels_lt.2 (h.not_sentinel hxT).1 (h.not_sentinel hxT).2
        (fun hin => (h.not_sentinel (hsub _ hin)).1 rfl)
        (fun hin => (h.not_sentinel (hsub _ hin)).2 rfl)
      refine ⟨t2, ?_, h.regraft hx hr (Forest.Distinct.grow rest _ _ h.distinct.of_child), hkeep,
        hfr, ?_⟩
      · simp [CxxString.erase_ofList, he, Except.bind]
      · intro h2; cases h2

/-- The public `insert_word` returns and acts on the top-level forest as
`Forest.insertWord` describes. -/
theorem insert_word_spec {d : ZDDictionary} {T : Forest} (h : DictRep d.m_internalTree T)
    (w : List Char) :
    ∃ d2, d.insert_word w =
        .ok (d2, (T.insertWord d.m_internalTree.fresh (to_lower_case_word w)).2) ∧
      DictRep d2.m_internalTree (T.insertWord d.m_internalTree.fresh (to_lower_case_word w)).1 ∧
      Keeps d.m_internalTree d2.m_internalTree ∧
      d2.m_internalTree.fresh =
        d.m_internalTree.fresh + T.insertCount (to_lower_case_word w) ∧
      ((T.insertWord d.m_internalTree.fresh (to_lower_case_word w)).2 = false → d2 = d) := by
  obtain ⟨t2, he, hrep, hkeep, hfr, hsame⟩ :=
    insert_word_for_spec h (to_lower_case_word w) (to_lower_case_word w) [] rfl
  refine ⟨⟨t2⟩, ?_, hrep, hkeep, hfr, ?_⟩
  · simp only [ZDDictionary.insert_word]
    simp only [List.length_nil, Nat.zero_add] at he
    simp [he]
  · intro h2
    have := hsame h2
    subst this
    rfl

/-! ## The public exact find_word -/

theorem Forest.findChar_mem_topData {c : Char} {F : Forest} {x : Nat}
    (h : F.findChar c = some x) : c ∈ F.topData := by
  by_contra hc
  rw [← Forest.findChar_eq_none] at hc
  rw [hc] at h
  cases h

theorem Forest.Distinct.topData_nodup {F : Forest} (h : F.Distinct) : F.topData.Nodup := by
  induction F with
  | nil => simp [Forest.topData]
  | node a c k r _ ihr => exact List.nodup_cons.mpr ⟨h.1, ihr h.2.2⟩

/-- The scan of the public exact `find_word` over the top-level nodes. -/
theorem find_word_scan_spec (t : ZDTree) (charr : Char) (word : CxxString) (count : Nat)
    (T : Forest) :
    ∀ (prev : Option Nat) (fuel : Nat),
      Sibs t.cells (T.app (.node t.feet '\x00' .nil .nil)) none prev →
      t.feet ∉ T.tops → T.tops.length < fuel → T.topData.Nodup →
      find_word_scan fuel t (T.app (.node t.feet '\x00' .nil .nil)).first charr word count =
        match T.findChar charr with
        | some x =>
          (find_word_at t (some x) (word.erase count).str).bind
            (fun found => .ok (word.erase count, found.1))
        | none => .ok (word, false) := by
  induction T generalizing word with
  | nil =>
    intro prev fuel _ _ hf _
    obtain ⟨fuel, rfl⟩ : ∃ f, fuel = f + 1 := ⟨fuel - 1, by omega⟩
    simp [Forest.app, Forest.first, find_word_scan, ZDTree.end, Forest.findChar]
  | node a c k r _ ihr =>
    intro prev fuel hs hfeet hf hnd
    simp only [Forest.tops, List.length_cons, List.mem_cons, not_or] at hf hfeet
    simp only [Forest.topData, List.nodup_cons] at hnd
    obtain ⟨fuel, rfl⟩ : ∃ f, fuel = f + 1 := ⟨fuel - 1, by omega⟩
    have hne : a ≠ t.feet := fun h => hfeet.1 h.symm
    simp only [Forest.app] at hs
    simp only [Forest.app, Forest.first_node, find_word_scan, ZDTree.end, ne_eq,
      Option.some.injEq, hne, not_false_eq_true, if_true, read_some hs.1, bind_ok,
      Forest.findChar]
    have hrest := fun w => ihr w (some a) fuel hs.2.2 hfeet.2 (by omega) hnd.2
    by_cases hc : c = charr
    · simp only [hc, if_true]
      subst hc
      have hnone : r.findChar c = none := Forest.findChar_eq_none.mpr hnd.1
      cases find_word_at t (some a) (word.erase count).str with
      | error e => rfl
      | ok found =>
        simp only [bind_ok, Except.bind]
        by_cases hf1 : found.1 = true
        · simp [hf1]
        · simp only [hf1]
          rw [hrest, hnone]
          simp
    · simp only [hc, if_false]
      exact hrest word

/-- The range-`for` of the public exact `find_word` follows `Forest.findFor`. -/
theorem find_word_for_spec {t : ZDTree} {T : Forest} (h : DictRep t T) :
    ∀ (remaining idx : Nat) (word : CxxString) (count : Nat),
      find_word_for remaining idx t word count = .ok (T.findFor remaining idx word count) := by
  intro remaining
  induction remaining with
  | zero => intro idx word count; rfl
  | succ n ih =>
    intro idx word count
    simp only [find_word_for, h.begin_eq, bind_ok, Forest.findFor]
    rw [find_word_scan_spec t _ _ _ T (some t.head) (t.fresh + 1) h.top_sibs h.feet_not_top
      (by have := h.tops_length; omega) h.distinct.topData_nodup]
    cases hfind : T.findChar (word.at idx) with
    | none => simp only [bind_ok]; exact ih _ _ _
    | some x =>
      have hx : x ∈ T.tops := Forest.findChar_mem_tops hfind
      have hfw := find_word_at_spec (h.owns_top hx) (word.erase count).str
      simp only [hfw]
      cases hw : Forest.walk (word.erase count).str (T.child x) with
      | none => simp [Except.bind, ih]
      | some e => simp [Except.bind]

theorem find_word_spec {d : ZDDictionary} {T : Forest} (h : DictRep d.m_internalTree T)
    (w : List Char) :
    d.find_word w = .ok (T.findFor (to_lower_case_word w).length 0
      (CxxString.ofList (to_lower_case_word w)) 1) := by
  simp only [ZDDictionary.find_word]
  exact find_word_for_spec h _ _ _ _

/-! ## The new dictionary -/

theorem bind_eq_ok {ε α β : Type} {x : Except ε α} {f : α → Except ε β} {b : β} :
    bind x f = .ok b ↔ ∃ a, x = .ok a ∧ f a = .ok b := by
  cases x with
  | error e => simp
  | ok a => simp

theorem update_clean {t t2 : ZDTree} {p : Option Nat} {f : TreeNode → TreeNode}
    (hc : Clean t) (h : t.update p f = .ok t2) : Clean t2 ∧ t2.fresh = t.fresh := by
  cases p with
  | none => simp [ZDTree.update] at h
  | some a =>
    simp only [ZDTree.update] at h
    cases hn : t.cells a with
    | none => simp [hn] at h
    | some n =>
      simp only [hn, Except.ok.injEq] at h
      subst h
      refine ⟨?_, rfl⟩
      intro b hb
      simp only [write_fresh] at hb
      have hba : b ≠ a := by
        intro h2; subst h2
        rw [hc b hb] at hn; cases hn
      rw [write_cells_other t _ hba]
      exact hc b hb

theorem allocate_clean {t : ZDTree} (x : Char) (hc : Clean t) :
    Clean (t.allocate x).1 ∧ (t.allocate x).1.fresh = t.fresh + 1 := by
  refine ⟨?_, rfl⟩
  intro b hb
  simp only [ZDTree.allocate] at hb ⊢
  have : b ≠ t.fresh := by omega
  simp only [this, if_false]
  exact hc b (by omega)

theorem insert_clean {t t2 : ZDTree} {p r : Option Nat} {x : Char} (hc : Clean t)
    (h : t.insert p x = .ok (t2, r)) : Clean t2 := by
  simp only [ZDTree.insert] at h
  generalize (if p = none then some t.feet else p) = pos at h
  by_cases hp : pos = some t.head
  · simp [hp] at h
  · simp only [hp, if_false, bind_eq_ok, pure_eq_ok, Except.ok.injEq, Prod.mk.injEq] at h
    obtain ⟨_, _, t1, h1, t3, h3, pn, _, t4, h4, t5, h5, t6, h6, t7, h7, tn, _, h8⟩ := h
    obtain ⟨c0, _⟩ := allocate_clean x hc
    have c1 := (update_clean c0 h1).1
    have c3 := (update_clean c1 h3).1
    have c4 := (update_clean c3 h4).1
    have c5 := (update_clean c4 h5).1
    have c6 := (update_clean c5 h6).1
    have c7 := (update_clean c6 h7).1
    by_cases hq : tn.prev_sibling = none
    · simp only [hq, if_true] at h8
      by_cases hq2 : tn.parent = none
      · simp only [hq2, ne_eq, not_true_eq_false, if_false, bind_ok, Except.ok.injEq,
          Prod.mk.injEq] at h8
        rw [← h8.1]; exact c7
      · simp only [hq2, ne_eq, not_false_eq_true, if_true, bind_eq_ok, Except.ok.injEq,
          Prod.mk.injEq] at h8
        obtain ⟨t8, h8, h9, _⟩ := h8
        rw [← h9]
        exact (update_clean c7 h8).1
    · simp only [hq, if_false, bind_eq_ok, Except.ok.injEq, Prod.mk.injEq] at h8
      obtain ⟨t8, h8, h9, _⟩ := h8
      rw [← h9]
      exact (update_clean c7 h8).1

theorem seed_alphabet_clean (head : Option Nat) (cs : List Char) :
    ∀ {t t2 : ZDTree}, Clean t → seed_alphabet head cs t = .ok t2 → Clean t2 := by
  induction cs with
  | nil => intro t t2 hc h; simp only [seed_alphabet, pure_eq_ok, Except.ok.injEq] at h; subst h; exact hc
  | cons c cs ih =>
    intro t t2 hc h
    simp only [seed_alphabet, bind_eq_ok] at h
    obtain ⟨⟨t1, r⟩, h1, h2⟩ := h
    exact ih (insert_clean hc h1) h2

theorem new_eq : ZDDictionary.new = .ok ⟨newTree⟩ := by rfl

theorem newTree_fresh : newTree.fresh = 28 ∧ newTree.head = 0 ∧ newTree.feet = 1 := by
  refine ⟨by rfl, by rfl, by rfl⟩

theorem newTree_clean : Clean newTree := by
  have h := new_eq
  simp only [ZDDictionary.new, bind_eq_ok, pure_eq_ok, Except.ok.injEq] at h
  obtain ⟨hd, _, t, ht, h2⟩ := h
  have hc : Clean ZDTree.head_initialise := by
    intro b hb
    simp only [ZDTree.head_initialise] at hb ⊢
    have h0 : b ≠ 0 := by omega
    have h1 : b ≠ 1 := by omega
    simp [h0, h1]
  have := seed_alphabet_clean hd FrenchAlphabet hc ht
  have h3 : t = newTree := congrArg ZDDictionary.m_internalTree h2
  rw [← h3]; exact this

theorem newTree_sibs :
    Sibs newTree.cells (Forest.full newTree (Forest.leaves FrenchAlphabet 2)) none none := by
  decide!

theorem Forest.Distinct.leaves (cs : List Char) (h : cs.Nodup) :
    ∀ f, (Forest.leaves cs f).Distinct ∧ (Forest.leaves cs f).topData = cs := by
  induction cs with
  | nil => intro f; exact ⟨trivial, rfl⟩
  | cons c cs ih =>
    intro f
    obtain ⟨h1, h2⟩ := List.nodup_cons.mp h
    obtain ⟨i1, i2⟩ := ih h2 (f + 1)
    refine ⟨⟨by rw [i2]; exact h1, trivial, i1⟩, by simp [Forest.leaves, Forest.topData, i2]⟩

theorem new_rep : DictRep newTree (Forest.leaves FrenchAlphabet 2) := by
  have hnd : FrenchAlphabet.Nodup := by decide
  have hin : ∀ b < 28, b ∈ (Forest.full newTree (Forest.leaves FrenchAlphabet 2)).addrs := by
    decide!
  refine ⟨newTree_sibs, by decide!, ?_, ?_, (Forest.Distinct.leaves _ hnd 2).2,
    (Forest.Distinct.leaves _ hnd 2).1⟩
  · rw [newTree_fresh.1]; decide!
  · intro b hb
    apply newTree_clean
    rw [newTree_fresh.1]
    by_contra hlt
    exact hb (hin b (by omega))

/-! ## Erasing a leaf: the sibling list -/

namespace Forest

theorem mem_addrs_eraseTop {S : Forest} {x b : Nat} (h : b ∈ (S.eraseTop x).addrs) :
    b ∈ S.addrs := by
  induction S with
  | nil => simp [eraseTop, addrs] at h
  | node a c k r _ ihr =>
    simp only [eraseTop] at h
    simp only [addrs, List.mem_cons, List.mem_append]
    split at h
    · exact Or.inr (Or.inr h)
    · simp only [addrs, List.mem_cons, List.mem_append] at h
      rcases h with h | h | h
      · exact Or.inl h
      · exact Or.inr (Or.inl h)
      · exact Or.inr (Or.inr (ihr h))

theorem not_mem_eraseTop {S : Forest} {x : Nat} (hn : S.addrs.Nodup) (hx : x ∈ S.tops) :
    x ∉ (S.eraseTop x).addrs := by
  induction S with
  | nil => simp [eraseTop, addrs]
  | node a c k r _ ihr =>
    simp only [addrs, List.nodup_cons, List.nodup_append, List.mem_append, not_or] at hn
    simp only [tops, List.mem_cons] at hx
    simp only [eraseTop]
    split
    · rename_i h; subst h; exact hn.1.2
    · rename_i h
      have hxr : x ∈ r.tops := by
        rcases hx with hx | hx
        · exact absurd hx.symm h
        · exact hx
      simp only [addrs, List.mem_cons, List.mem_append, not_or]
      exact ⟨fun h2 => h h2.symm, fun h2 => hn.2.2.2 h2 (tops_subset_addrs r x hxr),
        ihr hn.2.2.1 hxr⟩

theorem mem_eraseTop_of_ne {S : Forest} {x b : Nat} (hb : b ∈ S.addrs) (hx : x ∈ S.tops)
    (hleaf : S.child x = nil) (hne : b ≠ x) : b ∈ (S.eraseTop x).addrs := by
  induction S with
  | nil => simp [addrs] at hb
  | node a c k r _ ihr =>
    simp only [addrs, List.mem_cons, List.mem_append] at hb
    simp only [tops, List.mem_cons] at hx
    simp only [child] at hleaf
    simp only [eraseTop]
    by_cases hax : a = x
    · simp only [hax, if_true] at hleaf ⊢
      subst hleaf
      rcases hb with hb | hb | hb
      · exact absurd (hb.trans hax) hne
      · simp [addrs] at hb
      · exact hb
    · simp only [hax, if_false] at hleaf ⊢
      simp only [addrs, List.mem_cons, List.mem_append]
      rcases hx with hx | hx
      · exact absurd hx.symm hax
      · rcases hb with hb | hb | hb
        · exact Or.inl hb
        · exact Or.inr (Or.inl hb)
        · exact Or.inr (Or.inr (ihr hb hx hleaf))

theorem nodup_eraseTop {S : Forest} {x : Nat} (hn : S.addrs.Nodup) :
    (S.eraseTop x).addrs.Nodup := by
  induction S with
  | nil => simp [eraseTop, addrs]
  | node a c k r _ ihr =>
    simp only [addrs, List.nodup_cons, List.nodup_append, List.mem_append, not_or] at hn
    obtain ⟨⟨hak, har⟩, hk, hr, hdis⟩ := hn
    simp only [eraseTop]
    split
    · exact hr
    · simp only [addrs, List.nodup_cons, List.nodup_append, List.mem_append, not_or]
      exact ⟨⟨hak, fun h => har (mem_addrs_eraseTop h)⟩, hk, ihr hr,
        fun b hb1 hb2 => hdis hb1 (mem_addrs_eraseTop hb2)⟩

theorem Distinct.of_eraseTop {S : Forest} {x : Nat} (h : S.Distinct) : (S.eraseTop x).Distinct := by
  induction S with
  | nil => simp [Forest.eraseTop, Distinct]
  | node a c k r _ ihr =>
    simp only [Forest.eraseTop]
    split
    · exact h.2.2
    · refine ⟨?_, h.2.1, ihr h.2.2⟩
      intro hc
      apply h.1
      clear ihr h
      induction r with
      | nil => simp [Forest.eraseTop, topData] at hc
      | node b d kb rb _ ih2 =>
        simp only [Forest.eraseTop] at hc
        simp only [topData, List.mem_cons]
        split at hc
        · exact Or.inr hc
        · simp only [topData, List.mem_cons] at hc
          rcases hc with hc | hc
          · exact Or.inl hc
          · exact Or.inr (ih2 hc)

end Forest

namespace Forest

theorem nextTop_cases {S : Forest} {x : Nat} (hn : S.addrs.Nodup) :
    S.nextTop x = none ∨ ∃ n1, S.nextTop x = some n1 ∧ n1 ∈ S.tops ∧ n1 ≠ x := by
  induction S with
  | nil => left; rfl
  | node a c k r _ ihr =>
    simp only [addrs, List.nodup_cons, List.nodup_append, List.mem_append, not_or] at hn
    simp only [nextTop]
    by_cases hax : a = x
    · simp only [hax, if_true]
      cases r with
      | nil => left; rfl
      | node b d kb rb =>
        right
        refine ⟨b, rfl, by simp [tops], ?_⟩
        intro h
        apply hn.1.2
        rw [hax, ← h]; simp [addrs]
    · simp only [hax, if_false]
      rcases ihr hn.2.2.1 with h | ⟨n1, h1, h2, h3⟩
      · exact Or.inl h
      · exact Or.inr ⟨n1, h1, by simp [tops, h2], h3⟩

theorem prevTop_cases {S : Forest} {x : Nat} (prev : Option Nat) (hn : S.addrs.Nodup)
    (hx : x ∈ S.tops) :
    (S.first = some x ∧ S.prevTop prev x = prev) ∨
      (S.first ≠ some x ∧ ∃ s, S.prevTop prev x = some s ∧ s ∈ S.tops ∧ s ≠ x) := by
  induction S generalizing prev with
  | nil => simp [tops] at hx
  | node a c k r _ ihr =>
    simp only [addrs, List.nodup_cons, List.nodup_append, List.mem_append, not_or] at hn
    simp only [tops, List.mem_cons] at hx
    simp only [prevTop, first_node]
    by_cases hax : a = x
    · left; simp [hax]
    · right
      simp only [hax, if_false]
      have hxr : x ∈ r.tops := by
        rcases hx with hx | hx
        · exact absurd hx.symm hax
        · exact hx
      refine ⟨fun h => hax (Option.some.inj h), ?_⟩
      rcases ihr (some a) hn.2.2.1 hxr with ⟨_, h2⟩ | ⟨_, s, h2, h3, h4⟩
      · exact ⟨a, h2, by simp [tops], hax⟩
      · exact ⟨s, h2, by simp [tops, h3], h4⟩

theorem first_eraseTop (S : Forest) (x : Nat) :
    (S.eraseTop x).first = if S.first = some x then S.nextTop x else S.first := by
  cases S with
  | nil => simp [eraseTop]
  | node a c k r =>
    simp only [eraseTop, nextTop, first_node, Option.some.injEq]
    by_cases hax : a = x
    · simp [hax]
    · simp [hax]

theorem last_eraseTop {S : Forest} {x : Nat} (prev : Option Nat) (hn : S.addrs.Nodup)
    (hx : x ∈ S.tops) :
    (S.eraseTop x).last =
      if S.nextTop x = none then
        (if S.first = some x then none else S.prevTop prev x)
      else S.last := by
  induction S generalizing prev with
  | nil => simp [tops] at hx
  | node a c k r _ ihr =>
    simp only [addrs, List.nodup_cons, List.nodup_append, List.mem_append, not_or] at hn
    simp only [tops, List.mem_cons] at hx
    simp only [eraseTop, nextTop, prevTop, first_node, Option.some.injEq]
    by_cases hax : a = x
    · simp only [hax, if_true]
      cases r with
      | nil => simp [last]
      | node b d kb rb => simp only [last, first_node]; cases rb.last <;> simp
    · simp only [hax, if_false]
      have hxr : x ∈ r.tops := by
        rcases hx with hx | hx
        · exact absurd hx.symm hax
        · exact hx
      simp only [last, ihr (some a) hn.2.2.1 hxr]
      by_cases hnx : r.nextTop x = none
      · simp only [hnx, if_true]
        rcases prevTop_cases (some a) hn.2.2.1 hxr with ⟨h1, h2⟩ | ⟨h1, s, h2, _, _⟩
        · simp [h1, h2]
        · simp [h1, h2]
      · simp only [hnx, if_false]

end Forest

/-- The cell of a top sibling in terms of its neighbours in the sibling list. -/
theorem Sibs.top_record {m : Nat → Option TreeNode} {S : Forest} {x : Nat} :
    ∀ {par prev : Option Nat}, Sibs m S par prev → x ∈ S.tops →
      ∃ c, m x = some ⟨par, (S.child x).first, (S.child x).last, S.prevTop prev x,
        S.nextTop x, c⟩ := by
  induction S with
  | nil => intro _ _ _ hx; simp [Forest.tops] at hx
  | node a c k r _ ihr =>
    intro par prev hs hx
    simp only [Forest.tops, List.mem_cons] at hx
    simp only [Forest.child, Forest.prevTop, Forest.nextTop]
    by_cases hax : a = x
    · subst hax
      simp only [if_true]
      exact ⟨c, hs.1⟩
    · simp only [hax, if_false]
      rcases hx with hx | hx
      · exact absurd hx.symm hax
      · exact ihr hs.2.2 hx

/-- Cells of a sibling list after one of its leaves has been unlinked. -/
theorem Sibs.eraseTop_cells {m m2 : Nat → Option TreeNode} {x : Nat} (S : Forest) :
    ∀ {par prev : Option Nat}, Sibs m S par prev → S.addrs.Nodup → x ∈ S.tops →
      S.child x = .nil → (∀ b ∈ S.addrs, some b ≠ prev) →
      (∀ b ∈ S.addrs, b ≠ x → some b ≠ S.prevTop prev x → some b ≠ S.nextTop x →
        m2 b = m b) →
      (∀ s ns, S.prevTop prev x = some s → s ∈ S.addrs → m s = some ns →
        m2 s = some { ns with next_sibling := S.nextTop x }) →
      (∀ n1 nn, S.nextTop x = some n1 → m n1 = some nn →
        m2 n1 = some { nn with prev_sibling := S.prevTop prev x }) →
      Sibs m2 (S.eraseTop x) par prev := by
  induction S with
  | nil => intro _ _ _ _ hx; simp [Forest.tops] at hx
  | node a c k r _ ihr =>
    intro par prev hs hn hx hleaf hprev hframe hq hnx
    have hn0 := hn
    simp only [Forest.addrs, List.nodup_cons, List.nodup_append, List.mem_append, not_or] at hn
    obtain ⟨⟨hak, har⟩, hk, hr, hdis⟩ := hn
    simp only [Forest.tops, List.mem_cons] at hx
    simp only [Forest.child] at hleaf
    simp only [Forest.eraseTop]
    by_cases hax : a = x
    · subst hax
      simp only [if_true] at hleaf ⊢
      simp only [Forest.prevTop, Forest.nextTop, if_true] at hframe hq hnx
      cases r with
      | nil => trivial
      | node n1 c1 k1 r1 =>
        have hs2 := hs.2.2
        simp only [Forest.addrs, List.nodup_cons, List.nodup_append, List.mem_append, not_or] at hr
        simp only [Forest.addrs, List.mem_cons, List.mem_append, not_or] at har
        refine ⟨?_, ?_, ?_⟩
        · have := hnx n1 _ rfl hs2.1
          simpa using this
        · refine Sibs.congr ?_ hs2.2.1
          intro b hb
          apply hframe b (by simp [Forest.addrs, hb])
          · intro h; exact har.2.1 (h ▸ hb)
          · exact hprev b (by simp [Forest.addrs, hb])
          · simp only [Forest.first_node, ne_eq, Option.some.injEq]
            intro h; exact hr.1.1 (h ▸ hb)
        · refine Sibs.congr ?_ hs2.2.2
          intro b hb
          apply hframe b (by simp [Forest.addrs, hb])
          · intro h; exact har.2.2 (h ▸ hb)
          · exact hprev b (by simp [Forest.addrs, hb])
          · simp only [Forest.first_node, ne_eq, Option.some.injEq]
            intro h; exact hr.1.2 (h ▸ hb)
    · simp only [hax, if_false] at hleaf ⊢
      simp only [Forest.prevTop, Forest.nextTop, hax, if_false] at hframe hq hnx
      have hxr : x ∈ r.tops := by
        rcases hx with hx | hx
        · exact absurd hx.symm hax
        · exact hx
      have hxra : x ∈ r.addrs := Forest.tops_subset_addrs r x hxr
      have hnxt : ∀ b, b ∉ r.addrs → some b ≠ r.nextTop x := by
        intro b hb h
        rcases Forest.nextTop_cases (x := x) hr with h1 | ⟨n1, h1, h2, _⟩
        · rw [h1] at h; cases h
        · rw [h1] at h; cases h
          exact hb (Forest.tops_subset_addrs r _ h2)
      have hcases := Forest.prevTop_cases (some a) hr hxr
      refine ⟨?_, ?_, ?_⟩
      · rw [Forest.first_eraseTop]
        rcases hcases with ⟨h1, h2⟩ | ⟨h1, s, h2, h3, _⟩
        · simp only [h1, if_true]
          have := hq a _ h2 (by simp [Forest.addrs]) hs.1
          simpa using this
        · simp only [h1, if_false]
          rw [hframe a (by simp [Forest.addrs]) hax ?_ (hnxt a har)]
          · exact hs.1
          · rw [h2]; intro h; cases h
            exact har (Forest.tops_subset_addrs r _ h3)
      · refine Sibs.congr ?_ hs.2.1
        intro b hb
        apply hframe b (by simp [Forest.addrs, hb])
        · intro h; exact hdis hb (h ▸ hxra)
        · rcases hcases with ⟨_, h2⟩ | ⟨_, s, h2, h3, _⟩
          · rw [h2]; intro h; cases h; exact hak hb
          · rw [h2]; intro h; cases h
            exact hdis hb (Forest.tops_subset_addrs r _ h3)
        · exact hnxt b (fun h => hdis hb h)
      · apply ihr hs.2.2 hr hxr hleaf
        · intro b hb h; cases h; exact har hb
        · intro b hb
          exact hframe b (by simp [Forest.addrs, hb])
        · intro s ns h1 h2 h3
          exact hq s ns h1 (by simp [Forest.addrs, h2]) h3
        · exact hnx

/-! ## Erasing a leaf: the store -/

theorem erase_children_leaf {t : ZDTree} {x : Nat} {rx : TreeNode} (fuel : Nat)
    (hx : t.cells x = some rx) (h1 : rx.first_child = none) (h2 : rx.last_child = none) :
    ZDTree.erase_children (fuel + 1) t (some x) = .ok (t.write x rx) := by
  have hrx : ({ ({ rx with first_child := none } : TreeNode) with last_child := none } : TreeNode) = rx := by
    cases rx; simp_all
  simp only [ZDTree.erase_children, read_some hx, bind_ok, h1]
  cases fuel with
  | zero =>
    simp only [ZDTree.erase_children_loop, pure_eq_ok, bind_ok, update_some _ hx,
      update_some _ (write_cells_same t x _), hrx]
    congr 1
    simp only [ZDTree.write]
    congr 1
    funext k
    by_cases hk : k = x <;> simp [hk]
  | succ f =>
    simp only [ZDTree.erase_children_loop, pure_eq_ok, bind_ok, update_some _ hx,
      update_some _ (write_cells_same t x _), hrx]
    congr 1
    simp only [ZDTree.write]
    congr 1
    funext k
    by_cases hk : k = x <;> simp [hk]

/-- What `erase` does to the store when the erased node is a leaf. -/
theorem erase_leaf_cells {t : ZDTree} {x p : Nat} {rx np : TreeNode} {ret : Option Nat}
    (hx : t.cells x = some rx) (h1 : rx.first_child = none) (h2 : rx.last_child = none)
    (hpar : rx.parent = some p) (hp : t.cells p = some np) (hpx : p ≠ x)
    (hq : ∀ s, rx.prev_sibling = some s → (∃ ns, t.cells s = some ns) ∧ s ≠ x ∧ s ≠ p)
    (hn : ∀ n1, rx.next_sibling = some n1 →
      (∃ nn, t.cells n1 = some nn) ∧ n1 ≠ x ∧ n1 ≠ p ∧ rx.prev_sibling ≠ some n1)
    (hh : x ≠ t.head) (hret : t.pre_incr (some x) true = .ok ret) :
    ∃ t2, t.erase (some x) = .ok (t2, ret) ∧
      t2.fresh = t.fresh ∧ t2.head = t.head ∧ t2.feet = t.feet ∧
      t2.cells x = none ∧
      t2.cells p = some { np with
        first_child := if rx.prev_sibling = none then rx.next_sibling else np.first_child,
        last_child := if rx.next_sibling = none then rx.prev_sibling else np.last_child } ∧
      (∀ s ns, rx.prev_sibling = some s → t.cells s = some ns →
        t2.cells s = some { ns with next_sibling := rx.next_sibling }) ∧
      (∀ n1 nn, rx.next_sibling = some n1 → t.cells n1 = some nn →
        t2.cells n1 = some { nn with prev_sibling := rx.prev_sibling }) ∧
      (∀ b, b ≠ x → b ≠ p → some b ≠ rx.prev_sibling → some b ≠ rx.next_sibling →
        t2.cells b = t.cells b) := by
  have hxp : x ≠ p := fun h => hpx h.symm
  simp only [ZDTree.erase, Option.some.injEq, hh, if_false, hret, bind_ok,
    erase_children_leaf (2 * t.fresh) hx h1 h2]
  cases hqv : rx.prev_sibling with
  | none =>
    cases hnv : rx.next_sibling with
    | none =>
      simp [ZDTree.update, ZDTree.read, ZDTree.write, ZDTree.deallocate, hx, hp, hpar, hqv, hnv,
        hpx, hxp]
      intro b hb1 hb2
      simp [hb1, hb2]
    | some n1 =>
      obtain ⟨⟨nn, hnn⟩, hn1x, hn1p, _⟩ := hn n1 hnv
      have hpn1 : p ≠ n1 := fun h => hn1p h.symm
      have hxn1 : x ≠ n1 := fun h => hn1x h.symm
      simp [ZDTree.update, ZDTree.read, ZDTree.write, ZDTree.deallocate, hx, hp, hpar, hqv, hnv,
        hpx, hxp, hnn, hn1x, hn1p, hpn1, hxn1]
      refine ⟨?_, ?_⟩
      · intro m nm hm hcm
        subst hm
        rw [hnn] at hcm; cases hcm
        simp [hn1x]
      · intro b hb1 hb2 hb3
        simp [hb1, hb2, hb3]
  | some s =>
    obtain ⟨⟨ns, hns⟩, hsx, hsp⟩ := hq s hqv
    have hps : p ≠ s := fun h => hsp h.symm
    have hxs : x ≠ s := fun h => hsx h.symm
    cases hnv : rx.next_sibling with
    | none =>
      simp [ZDTree.update, ZDTree.read, ZDTree.write, ZDTree.deallocate, hx, hp, hpar, hqv, hnv,
        hpx, hxp, hns, hsx, hsp, hps, hxs]
      refine ⟨?_, ?_⟩
      · intro m nm hm hcm
        subst hm
        rw [hns] at hcm; cases hcm
        simp [hsx, hsp]
      · intro b hb1 hb2 hb3
        simp [hb1, hb2, hb3]
    | some n1 =>
      obtain ⟨⟨nn, hnn⟩, hn1x, hn1p, hsn⟩ := hn n1 hnv
      have hpn1 : p ≠ n1 := fun h => hn1p h.symm
      have hxn1 : x ≠ n1 := fun h => hn1x h.symm
      have hsn1 : s ≠ n1 := by
        intro h; apply hsn; rw [hqv, h]
      have hn1s : n1 ≠ s := fun h => hsn1 h.symm
      simp [ZDTree.update, ZDTree.read, ZDTree.write, ZDTree.deallocate, hx, hp, hpar, hqv, hnv,
        hpx, hxp, hns, hsx, hsp, hps, hxs, hnn, hn1x, hn1p, hpn1, hxn1, hsn1, hn1s]
      refine ⟨?_, ?_, ?_⟩
      · intro m nm hm hcm
        subst hm
        rw [hns] at hcm; cases hcm
        simp [hsx, hsn1]
      · intro m nm hm hcm
        subst hm
        rw [hnn] at hcm; cases hcm
        simp [hn1x]
      · intro b hb1 hb2 hb3 hb4
        simp [hb1, hb3, hb4]

theorem Forest.prev_ne_next {S : Forest} {x n1 : Nat} (hn : S.addrs.Nodup) :
    ∀ prev : Option Nat, (∀ b ∈ S.addrs, some b ≠ prev) → S.nextTop x = some n1 →
      S.prevTop prev x ≠ some n1 := by
  induction S with
  | nil => intro prev _ h; simp [Forest.nextTop] at h
  | node a c k r _ ihr =>
    intro prev hprev hnx
    simp only [Forest.addrs, List.nodup_cons, List.nodup_append, List.mem_append, not_or] at hn
    simp only [Forest.nextTop] at hnx
    simp only [Forest.prevTop]
    by_cases hax : a = x
    · simp only [hax, if_true] at hnx ⊢
      intro h
      apply hprev n1 _ h.symm
      simp [Forest.addrs, Forest.tops_subset_addrs r n1 (Forest.first_mem_tops hnx)]
    · simp only [hax, if_false] at hnx ⊢
      apply ihr hn.2.2.1 (some a) _ hnx
      intro b hb h
      cases h
      exact hn.1.2 hb

/-- `erase` on a childless node unlinks it from the children of its parent. -/
theorem erase_top_spec {t : ZDTree} {p x : Nat} {S : Forest} {ret : Option Nat}
    (h : Owns t p S) (hc : Clean t) (hx : x ∈ S.tops) (hleaf : S.child x = .nil)
    (hh : x ≠ t.head) (hret : t.pre_incr (some x) true = .ok ret) :
    ∃ t2, t.erase (some x) = .ok (t2, ret) ∧ t2.fresh = t.fresh ∧
      Regraft t t2 p S (S.eraseTop x) := by
  obtain ⟨np, hnp, hfc, hlc⟩ := h.live
  have hpS : p ∉ S.addrs := (List.nodup_cons.mp h.nodup).1
  have hSn : S.addrs.Nodup := (List.nodup_cons.mp h.nodup).2
  have hSb : ∀ b ∈ S.addrs, b < t.fresh := fun b hb => h.bound b (by simp [hb])
  have hxS : x ∈ S.addrs := Forest.tops_subset_addrs S x hx
  obtain ⟨c, hrx⟩ := Sibs.top_record h.sibs hx
  rw [hleaf] at hrx
  simp only [Forest.first_nil, Forest.last] at hrx
  have hpc := Forest.prevTop_cases none hSn hx
  have hnc := Forest.nextTop_cases (x := x) hSn
  have hpn := fun n1 => @Forest.prev_ne_next S x n1 hSn none (by simp)
  obtain ⟨t2, he, hfr, hhd, hft, hgx, hgp, hgq, hgn, hframe⟩ :=
    @erase_leaf_cells t x p _ np ret hrx rfl rfl rfl hnp (fun h2 => hpS (h2 ▸ hxS))
      (by
        intro s hs
        simp only at hs
        rcases hpc with ⟨_, h2⟩ | ⟨_, s2, h2, h3, h4⟩
        · rw [h2] at hs; cases hs
        · rw [h2] at hs; cases hs
          have hsS := Forest.tops_subset_addrs S _ h3
          exact ⟨Sibs.live h.sibs _ hsS, h4, fun h5 => hpS (h5 ▸ hsS)⟩)
      (by
        intro n1 hn1
        simp only at hn1
        rcases hnc with h2 | ⟨n2, h2, h3, h4⟩
        · rw [h2] at hn1; cases hn1
        · rw [h2] at hn1; cases hn1
          have hnS := Forest.tops_subset_addrs S _ h3
          exact ⟨Sibs.live h.sibs _ hnS, h4, fun h5 => hpS (h5 ▸ hnS), hpn _ h2⟩)
      hh hret
  simp only at hgp hgq hgn hframe
  have hq_in : ∀ b, some b = S.prevTop none x → b ∈ S.addrs := by
    intro b hb
    rcases hpc with ⟨_, h2⟩ | ⟨_, s2, h2, h3, _⟩
    · rw [h2] at hb; cases hb
    · rw [h2] at hb; cases hb; exact Forest.tops_subset_addrs S _ h3
  have hn_in : ∀ b, some b = S.nextTop x → b ∈ S.addrs := by
    intro b hb
    rcases hnc with h2 | ⟨n2, h2, h3, _⟩
    · rw [h2] at hb; cases hb
    · rw [h2] at hb; cases hb; exact Forest.tops_subset_addrs S _ h3
  have hout : ∀ b, b ≠ p → b ∉ S.addrs → t2.cells b = t.cells b := by
    intro b hbp hbS
    exact hframe b (fun h2 => hbS (h2 ▸ hxS)) hbp (fun h2 => hbS (hq_in b h2))
      (fun h2 => hbS (hn_in b h2))
  have hclean : Clean t2 := by
    intro b hb
    rw [hfr] at hb
    rw [hout b (by have := h.bound p (by simp); omega)
      (fun hin => by have := hSb b hin; omega)]
    exact hc b hb
  refine ⟨t2, he, hfr, hhd, hft, by omega, hclean, ?_, ?_, ?_, ?_, ?_, ?_⟩
  · intro n2 hn2
    rw [hnp] at hn2; cases Option.some.inj hn2
    rw [hgp, Forest.first_eraseTop, Forest.last_eraseTop none hSn hx, hfc, hlc]
    rcases hpc with ⟨h1, h2⟩ | ⟨h1, s2, h2, _, _⟩
    · simp [h1, h2]
    · simp [h1, h2]
  · apply Sibs.eraseTop_cells S h.sibs hSn hx hleaf (by simp)
    · intro b hb hbx hbq hbn
      exact hframe b hbx (fun h2 => hpS (h2 ▸ hb)) hbq hbn
    · intro s ns hs _ hns
      exact hgq s ns hs hns
    · intro n1 nn hn1 hnn
      exact hgn n1 nn hn1 hnn
  · intro b _ hbp hbS
    exact hout b hbp hbS
  · intro b hb
    exact Or.inl (Forest.mem_addrs_eraseTop hb)
  · intro b hb hb2
    rcases hb with hb | hb
    · by_cases hbx : b = x
      · rw [hbx]; exact hgx
      · exact absurd (Forest.mem_eraseTop_of_ne hb hx hleaf hbx) hb2
    · exact hclean b (by omega)
  · exact Forest.nodup_eraseTop hSn

/-! ## Pre-order steps used by the removal -/

theorem Forest.child_length_lt {S : Forest} {x : Nat} (hx : x ∈ S.tops) :
    (S.child x).addrs.length < S.addrs.length := by
  induction S with
  | nil => simp [Forest.tops] at hx
  | node a c k r _ ihr =>
    simp only [Forest.tops, List.mem_cons] at hx
    simp only [Forest.child, Forest.addrs, List.length_cons, List.length_append]
    by_cases hax : a = x
    · simp only [hax, if_true]; omega
    · simp only [hax, if_false]
      rcases hx with hx | hx
      · exact absurd hx.symm hax
      · have := ihr hx; omega

theorem Owns.size_lt {t : ZDTree} {a : Nat} {k : Forest} (h : Owns t a k) :
    k.addrs.length < t.fresh := by
  have := nodup_length_le h.nodup h.bound
  simp only [List.length_cons] at this
  omega

/-- The descent along last children ends at a node of the subtree. -/
theorem deepest_last_spec {t : ZDTree} :
    ∀ (fuel s : Nat) (ks : Forest), Owns t s ks → ks.addrs.length < fuel →
      ∃ y, ZDTree.deepest_last fuel t (some s) = .ok (some y) ∧ (y = s ∨ y ∈ ks.addrs) := by
  intro fuel
  induction fuel with
  | zero => intro s ks _ h; omega
  | succ f ih =>
    intro s ks h hlen
    obtain ⟨n, hn, _, hl⟩ := h.live
    simp only [ZDTree.deepest_last, read_some hn, bind_ok, hl]
    cases hkl : ks.last with
    | none => exact ⟨s, by simp, Or.inl rfl⟩
    | some l =>
      have hlt : l ∈ ks.tops := Forest.last_mem_tops hkl
      have := Forest.child_length_lt hlt
      obtain ⟨y, hy, hy2⟩ := ih l (ks.child l) (h.descend hlt) (by omega)
      refine ⟨y, by simpa using hy, Or.inr ?_⟩
      rcases hy2 with hy2 | hy2
      · rw [hy2]; exact Forest.tops_subset_addrs ks l hlt
      · exact Forest.child_addrs_subset ks l y hy2

/-- The climb of `operator++` with the children skipped returns when it returns from
the parent of the sibling list. -/
theorem next_skipping_spec {t : ZDTree} {x : Nat} (K : Forest) :
    ∀ (par prev : Option Nat), Sibs t.cells K par prev → x ∈ K.addrs → ∀ f : Nat,
      (∀ g, f ≤ g → ∃ r, climb_on t par g = .ok r) →
      ∀ g, f + K.addrs.length ≤ g → ∃ r, ZDTree.next_skipping g t (some x) = .ok r := by
  induction K with
  | nil => intro _ _ _ hx; simp [Forest.addrs] at hx
  | node a c k r ihk ihr =>
    intro par prev hs hx f hcont g hg
    simp only [Forest.addrs, List.length_cons, List.length_append] at hg
    have hself : ∀ g, f + 1 ≤ g → ∃ r, ZDTree.next_skipping g t (some a) = .ok r := by
      intro g hg
      obtain ⟨g, rfl⟩ : ∃ g2, g = g2 + 1 := ⟨g - 1, by omega⟩
      simp only [ZDTree.next_skipping, read_some hs.1, bind_ok]
      cases hrf : r.first with
      | some n1 => exact ⟨some n1, by simp⟩
      | none =>
        simp only [if_true]
        cases par with
        | none => exact ⟨none, by simp⟩
        | some p =>
          obtain ⟨r2, hr2⟩ := hcont g (by omega)
          exact ⟨r2, by simpa [climb_on] using hr2⟩
    simp only [Forest.addrs, List.mem_cons, List.mem_append] at hx
    rcases hx with hx | hx | hx
    · subst hx; exact hself g (by omega)
    · exact ihk (some a) none hs.2.1 hx (f + 1) hself g (by omega)
    · exact ihr par (some a) hs.2.2 hx f hcont g (by omega)

/-! ## Erasing a leaf anywhere below a node -/

namespace Forest

theorem mem_addrs_cases {K : Forest} {x : Nat} (hn : K.addrs.Nodup) (hx : x ∈ K.addrs) :
    x ∈ K.tops ∨ ∃ c, c ∈ K.tops ∧ x ∈ (K.child c).addrs := by
  induction K with
  | nil => simp [addrs] at hx
  | node a d k r _ ihr =>
    simp only [addrs, List.nodup_cons, List.nodup_append, List.mem_append, not_or] at hn
    simp only [addrs, List.mem_cons, List.mem_append] at hx
    rcases hx with hx | hx | hx
    · left; simp [tops, hx]
    · right; exact ⟨a, by simp [tops], by simpa [child] using hx⟩
    · rcases ihr hn.2.2.1 hx with h | ⟨c, hc1, hc2⟩
      · left; simp [tops, h]
      · right
        refine ⟨c, by simp [tops, hc1], ?_⟩
        have : ¬ a = c := fun h => hn.1.2 (h ▸ tops_subset_addrs r c hc1)
        simpa [child, this] using hc2

theorem erase_of_not_mem {F : Forest} {x : Nat} (hx : x ∉ F.addrs) : F.erase x = F := by
  induction F with
  | nil => rfl
  | node a d k r ihk ihr =>
    simp only [addrs, List.mem_cons, List.mem_append, not_or] at hx
    have : ¬ a = x := fun h => hx.1 h.symm
    simp [erase, this, ihk hx.2.1, ihr hx.2.2]

theorem erase_of_top {K : Forest} {x : Nat} (hn : K.addrs.Nodup) (hx : x ∈ K.tops) :
    K.erase x = K.eraseTop x := by
  induction K with
  | nil => rfl
  | node a d k r _ ihr =>
    simp only [addrs, List.nodup_cons, List.nodup_append, List.mem_append, not_or] at hn
    simp only [tops, List.mem_cons] at hx
    simp only [erase, eraseTop]
    by_cases hax : a = x
    · simp [hax]
    · simp only [hax, if_false]
      have hxr : x ∈ r.tops := by
        rcases hx with hx | hx
        · exact absurd hx.symm hax
        · exact hx
      rw [ihr hn.2.2.1 hxr,
        erase_of_not_mem (fun h => hn.2.2.2 h (tops_subset_addrs r x hxr))]

theorem erase_of_child {K : Forest} {x c : Nat} (hn : K.addrs.Nodup) (hc : c ∈ K.tops)
    (hx : x ∈ (K.child c).addrs) : K.erase x = K.setChild c ((K.child c).erase x) := by
  induction K with
  | nil => simp [tops] at hc
  | node a d k r _ ihr =>
    simp only [addrs, List.nodup_cons, List.nodup_append, List.mem_append, not_or] at hn
    simp only [tops, List.mem_cons] at hc
    simp only [child] at hx ⊢
    simp only [erase, setChild]
    by_cases hac : a = c
    · simp only [hac, if_true] at hx ⊢
      have hax : ¬ c = x := fun h => hn.1.1 (hac ▸ h ▸ hx)
      simp only [hax, if_false]
      rw [erase_of_not_mem (fun h => hn.2.2.2 hx h)]
    · simp only [hac, if_false] at hx ⊢
      have hcr : c ∈ r.tops := by
        rcases hc with hc | hc
        · exact absurd hc.symm hac
        · exact hc
      have hxr : x ∈ r.addrs := child_addrs_subset r c x hx
      have hax : ¬ a = x := fun h => hn.1.2 (h ▸ hxr)
      simp only [hax, if_false]
      rw [ihr hn.2.2.1 hcr hx, erase_of_not_mem (fun h => hn.2.2.2 h hxr)]

theorem top_not_mem_child {S : Forest} {x s : Nat} (hn : S.addrs.Nodup) (hx : x ∈ S.tops) :
    x ∉ (S.child s).addrs := by
  induction S with
  | nil => simp [child, addrs]
  | node a d k r _ ihr =>
    simp only [addrs, List.nodup_cons, List.nodup_append, List.mem_append, not_or] at hn
    simp only [tops, List.mem_cons] at hx
    simp only [child]
    by_cases has : a = s
    · simp only [has, if_true]
      rcases hx with hx | hx
      · rw [hx]; exact hn.1.1
      · exact fun h => hn.2.2.2 h (tops_subset_addrs r x hx)
    · simp only [has, if_false]
      rcases hx with hx | hx
      · rw [hx]; exact fun h => hn.1.2 (child_addrs_subset r s a h)
      · exact ihr hn.2.2.1 hx

theorem topData_erase_subset {F : Forest} {x : Nat} {c : Char} (h : c ∈ (F.erase x).topData) :
    c ∈ F.topData := by
  induction F with
  | nil => simp [erase, topData] at h
  | node a d k r _ ihr =>
    simp only [erase] at h
    simp only [topData, List.mem_cons]
    split at h
    · exact Or.inr h
    · simp only [topData, List.mem_cons] at h
      rcases h with h | h
      · exact Or.inl h
      · exact Or.inr (ihr h)

theorem Distinct.erase {F : Forest} {x : Nat} (h : F.Distinct) : (F.erase x).Distinct := by
  induction F with
  | nil => simp [Forest.erase, Distinct]
  | node a d k r ihk ihr =>
    simp only [Forest.erase]
    split
    · exact h.2.2
    · exact ⟨fun hc => h.1 (topData_erase_subset hc), ihk h.2.1, ihr h.2.2⟩

theorem mem_addrs_erase {F : Forest} {x b : Nat} (h : b ∈ (F.erase x).addrs) : b ∈ F.addrs := by
  induction F with
  | nil => simp [erase, addrs] at h
  | node a d k r ihk ihr =>
    simp only [erase] at h
    simp only [addrs, List.mem_cons, List.mem_append]
    split at h
    · exact Or.inr (Or.inr h)
    · simp only [addrs, List.mem_cons, List.mem_append] at h
      rcases h with h | h | h
      · exact Or.inl h
      · exact Or.inr (Or.inl (ihk h))
      · exact Or.inr (Or.inr (ihr h))

end Forest

/-- One round of the removal loop on a childless node `x` below `L`: the pre-order
retreat stays below `L` (or reaches `L`), and `erase` unlinks `x`. -/
theorem erase_deep_spec {x : Nat} {ret : Option Nat} :
    ∀ (n : Nat) (K : Forest) (L : Nat) (t : ZDTree), K.addrs.length ≤ n → Owns t L K →
      Clean t → x ∈ K.addrs → t.head ∉ K.addrs →
      (∀ rx, t.cells x = some rx → rx.first_child = none) →
      t.pre_incr (some x) true = .ok ret →
      (∃ t2, t.erase (some x) = .ok (t2, ret) ∧ t2.fresh = t.fresh ∧
        Regraft t t2 L K (K.erase x)) ∧
      (∀ b ∈ K.addrs, b ≠ x → b ∈ (K.erase x).addrs) ∧
      ∃ y, t.pre_decr (some x) = .ok (some y) ∧ (y = L ∨ (y ∈ K.addrs ∧ y ≠ x)) ∧
        (∀ rx, t.cells x = some rx → rx.prev_sibling = none → rx.parent = some y) := by
  intro n
  induction n with
  | zero =>
    intro K L t hlen _ _ hx
    cases K with
    | nil => simp [Forest.addrs] at hx
    | node a d k r => simp [Forest.addrs] at hlen
  | succ n ih =>
    intro K L t hlen h hc hx hhead hleaf hret
    have hKn : K.addrs.Nodup := (List.nodup_cons.mp h.nodup).2
    have hLK : L ∉ K.addrs := (List.nodup_cons.mp h.nodup).1
    rcases Forest.mem_addrs_cases hKn hx with hxt | ⟨c, hct, hxc⟩
    · -- `x` is a child of `L`
      obtain ⟨⟨rx, hrx, _, hf, _⟩, _⟩ := Sibs.child_cells h.sibs hxt
      have hleaf2 : K.child x = .nil := by
        rw [← Forest.first_eq_none, ← hf]; exact hleaf rx hrx
      refine ⟨?_, ?_, ?_⟩
      · obtain ⟨t2, he, hfr, hr⟩ := erase_top_spec h hc hxt hleaf2
          (fun h2 => hhead (h2 ▸ hx)) hret
        exact ⟨t2, he, hfr, by rw [Forest.erase_of_top hKn hxt]; exact hr⟩
      · intro b hb hbx
        rw [Forest.erase_of_top hKn hxt]
        exact Forest.mem_eraseTop_of_ne hb hxt hleaf2 hbx
      · obtain ⟨cx, hrec⟩ := Sibs.top_record h.sibs hxt
        simp only [ZDTree.pre_decr, reduceCtorEq, if_false, read_some hrec, bind_ok]
        rcases Forest.prevTop_cases none hKn hxt with ⟨_, h2⟩ | ⟨_, s, h2, h3, h4⟩
        · simp only [h2, ne_eq, not_true_eq_false, if_false]
          refine ⟨L, rfl, Or.inl rfl, ?_⟩
          intro rx2 hrx2 _
          rw [hrec] at hrx2; cases Option.some.inj hrx2; rfl
        · simp only [h2, ne_eq, reduceCtorEq, not_false_eq_true, if_true]
          have hos := h.descend h3
          obtain ⟨y, hy, hy2⟩ := deepest_last_spec (t.fresh + 1) s (K.child s) hos
            (by have := hos.size_lt; omega)
          refine ⟨y, hy, Or.inr ?_, ?_⟩
          · rcases hy2 with hy2 | hy2
            · rw [hy2]; exact ⟨Forest.tops_subset_addrs K s h3, h4⟩
            · exact ⟨Forest.child_addrs_subset K s y hy2,
                fun h5 => Forest.top_not_mem_child hKn hxt (h5 ▸ hy2)⟩
          · intro rx2 hrx2 hq
            rw [hrec] at hrx2; cases Option.some.inj hrx2
            simp only [h2] at hq; cases hq
    · -- `x` lies below the child `c` of `L`
      have hoc := h.descend hct
      have hcK : c ∈ K.addrs := Forest.tops_subset_addrs K c hct
      have hsub := Forest.child_addrs_subset K c
      have hlt := Forest.child_length_lt hct
      obtain ⟨⟨t2, he, hfr, hr⟩, hmem, y, hy, hy2, hy3⟩ := ih (K.child c) c t (by omega) hoc hc
        hxc (fun h2 => hhead (hsub _ h2)) hleaf hret
      refine ⟨?_, ?_, ?_⟩
      · refine ⟨t2, he, hfr, ?_⟩
        rw [Forest.erase_of_child hKn hct hxc]
        exact hr.lift h hct
      · intro b hb hbx
        rw [Forest.erase_of_child hKn hct hxc]
        by_cases hbc : b ∈ (K.child c).addrs
        · exact Forest.mem_addrs_setChild_of_new _ hct (hmem b hbc hbx)
        · exact Forest.mem_addrs_setChild_of_mem _ hb hbc
      · refine ⟨y, hy, Or.inr ?_, hy3⟩
        rcases hy2 with hy2 | ⟨hy2, hy4⟩
        · rw [hy2]
          exact ⟨hcK, fun h5 => (List.nodup_cons.mp hoc.nodup).1 (h5 ▸ hxc)⟩
        · exact ⟨hsub y hy2, hy4⟩

theorem Forest.not_mem_erase {F : Forest} {x : Nat} (hn : F.addrs.Nodup) :
    x ∉ (F.erase x).addrs := by
  induction F with
  | nil => simp [Forest.erase, Forest.addrs]
  | node a d k r ihk ihr =>
    simp only [Forest.addrs, List.nodup_cons, List.nodup_append, List.mem_append, not_or] at hn
    simp only [Forest.erase]
    split
    · rename_i h; rw [← h]; exact hn.1.2
    · rename_i h
      simp only [Forest.addrs, List.mem_cons, List.mem_append, not_or]
      exact ⟨fun h2 => h h2.symm, ihk hn.2.1, ihr hn.2.2.1⟩

theorem Forest.erase_length_lt {F : Forest} {x : Nat} (hn : F.addrs.Nodup) (hx : x ∈ F.addrs)
    (hn2 : (F.erase x).addrs.Nodup) : (F.erase x).addrs.length < F.addrs.length := by
  have h1 : (x :: (F.erase x).addrs).Nodup :=
    List.nodup_cons.mpr ⟨Forest.not_mem_erase hn, hn2⟩
  have h2 : x :: (F.erase x).addrs ⊆ F.addrs := by
    intro b hb
    simp only [List.mem_cons] at hb
    rcases hb with hb | hb
    · rw [hb]; exact hx
    · exact Forest.mem_addrs_erase hb
  have := (List.subperm_of_subset h1 h2).length_le
  simp only [List.length_cons] at this
  omega

/-! ## The private remove_word -/

theorem has_child_node_eq {t : ZDTree} {x : Nat} {rx : TreeNode} (hx : t.cells x = some rx) :
    has_child_node t (some x) = .ok (rx.first_child ≠ none || rx.last_child ≠ none) := by
  simp [has_child_node, read_some hx]

/-- The removal loop returns; what it does is a change of the children of `L`. -/
theorem remove_word_at_loop_spec {L : Nat} :
    ∀ (fuel : Nat) (K : Forest) (x : Nat) (t : ZDTree), Owns t L K → Clean t →
      x ∈ K.addrs → t.head ∉ K.addrs →
      (∃ nL, t.cells L = some nL ∧ nL.next_sibling ≠ none) →
      K.addrs.length < fuel →
      ∃ t2 K2, remove_word_at_loop fuel t (some x) (some L) = .ok t2 ∧
        Regraft t t2 L K K2 ∧ t2.fresh = t.fresh ∧ (K.Distinct → K2.Distinct) ∧
        (∀ b ∈ K2.addrs, b ∈ K.addrs) := by
  intro fuel
  induction fuel with
  | zero => intro K x t _ _ _ _ _ h; omega
  | succ f ih =>
    intro K x t h hc hx hhead hL hlen
    have hKn : K.addrs.Nodup := (List.nodup_cons.mp h.nodup).2
    have hLK : L ∉ K.addrs := (List.nodup_cons.mp h.nodup).1
    have hxL : x ≠ L := fun h2 => hLK (h2 ▸ hx)
    obtain ⟨rx, hrx⟩ := Sibs.live h.sibs x hx
    simp only [remove_word_at_loop, ne_eq, Option.some.injEq, hxL, not_false_eq_true, if_true,
      has_child_node_eq hrx, bind_ok]
    by_cases hkids : (rx.first_child ≠ none || rx.last_child ≠ none) = true
    · simp only [hkids, Bool.not_true, Bool.false_eq_true, if_false]
      exact ⟨t, K, rfl, Regraft.same h hc, rfl, fun hd => hd, fun b hb => hb⟩
    · have hfc : rx.first_child = none := by
        by_contra h2; apply hkids; simp [h2]
      have hleaf : ∀ r2, t.cells x = some r2 → r2.first_child = none := by
        intro r2 hr2; rw [hrx] at hr2; cases Option.some.inj hr2; exact hfc
      obtain ⟨nL, hnL, hnLn⟩ := hL
      have hret : ∃ ret, t.pre_incr (some x) true = .ok ret := by
        have := next_skipping_spec (t := t) (x := x) K (some L) none h.sibs hx 1 (by
          intro g hg
          obtain ⟨g, rfl⟩ : ∃ g2, g = g2 + 1 := ⟨g - 1, by omega⟩
          refine ⟨nL.next_sibling, ?_⟩
          simp [climb_on, ZDTree.next_skipping, read_some hnL, hnLn]) (t.fresh + 1)
          (by have := h.size_lt; omega)
        obtain ⟨r, hr⟩ := this
        exact ⟨r, by simp [ZDTree.pre_incr, read_some hrx, hr]⟩
      obtain ⟨ret, hret⟩ := hret
      obtain ⟨⟨t1, he, hfr, hr⟩, hmem, y, hy, hy2, _⟩ :=
        erase_deep_spec K.addrs.length K L t (le_refl _) h hc hx hhead hleaf hret
      have ho1 : Owns t1 L (K.erase x) := hr.owns_after h
      simp only [hkids, Bool.not_false, if_true, hy, bind_ok, he]
      rcases hy2 with hy2 | ⟨hy2, hy3⟩
      · subst hy2
        obtain ⟨f, rfl⟩ : ∃ f2, f = f2 + 1 := ⟨f - 1, by
          have : 0 < K.addrs.length := List.length_pos_of_mem hx
          omega⟩
        refine ⟨t1, K.erase x, by simp [remove_word_at_loop], hr, hfr,
          fun hd => hd.erase, fun b hb => Forest.mem_addrs_erase hb⟩
      · have hlt := Forest.erase_length_lt hKn hx hr.nodup
        obtain ⟨t2, K2, hloop, hr2, hfr2, hd2, hsub2⟩ := ih (K.erase x) y t1 ho1 hr.clean
          (hmem y hy2 hy3) (by rw [hr.head_eq]; exact fun h2 => hhead (Forest.mem_addrs_erase h2))
          ⟨_, hr.node nL hnL, hnLn⟩ (by omega)
        exact ⟨t2, K2, hloop, hr.chain_with h hr2, by rw [hfr2, hfr],
          fun hd => hd2 hd.erase, fun b hb => Forest.mem_addrs_erase (hsub2 b hb)⟩

theorem remove_word_at_spec {L : Nat} {K : Forest} {x : Nat} {t : ZDTree} (h : Owns t L K)
    (hc : Clean t) (hx : x ∈ K.addrs) (hhead : t.head ∉ K.addrs)
    (hL : ∃ nL, t.cells L = some nL ∧ nL.next_sibling ≠ none) :
    ∃ t2 K2, remove_word_at t (some x) (some L) = .ok (t2, true) ∧
      Regraft t t2 L K K2 ∧ t2.fresh = t.fresh ∧ (K.Distinct → K2.Distinct) ∧
      (∀ b ∈ K2.addrs, b ∈ K.addrs) := by
  obtain ⟨t2, K2, h1, h2, h3, h4, h5⟩ := remove_word_at_loop_spec (t.fresh + 1) K x t h hc hx
    hhead hL (by have := h.size_lt; omega)
  exact ⟨t2, K2, by simp [remove_word_at, h1], h2, h3, h4, h5⟩

/-! ## The public remove_word -/

theorem remove_word_scan_nomatch (charr : Char) (count : Nat) (R : Forest) :
    ∀ (prev : Option Nat) (fuel : Nat) (t : ZDTree) (word : CxxString) (result : Bool),
      Sibs t.cells (R.app (.node t.feet '\x00' .nil .nil)) none prev →
      t.feet ∉ R.tops → charr ∉ R.topData → R.tops.length < fuel →
      remove_word_scan fuel t (R.app (.node t.feet '\x00' .nil .nil)).first charr word count
        result = .ok (t, word, result) := by
  induction R with
  | nil =>
    intro prev fuel t word result _ _ _ hf
    obtain ⟨fuel, rfl⟩ : ∃ f, fuel = f + 1 := ⟨fuel - 1, by omega⟩
    simp [Forest.app, remove_word_scan, ZDTree.end]
  | node a c k r _ ihr =>
    intro prev fuel t word result hs hfeet hc hf
    simp only [Forest.tops, List.length_cons, List.mem_cons, not_or] at hf hfeet
    simp only [Forest.topData, List.mem_cons, not_or] at hc
    obtain ⟨fuel, rfl⟩ : ∃ f, fuel = f + 1 := ⟨fuel - 1, by omega⟩
    have hne : a ≠ t.feet := fun h => hfeet.1 h.symm
    have hca : ¬ c = charr := fun h => hc.1 h.symm
    simp only [Forest.app] at hs
    simp only [Forest.app, Forest.first_node, remove_word_scan, ZDTree.end, ne_eq,
      Option.some.injEq, hne, not_false_eq_true, if_true, read_some hs.1, bind_ok, hca, if_false]
    exact ihr (some a) fuel t word result hs.2.2 hfeet.2 hc.2 (by omega)

theorem Sibs.app_right {m : Nat → Option TreeNode} (A B : Forest) :
    ∀ {par prev : Option Nat}, Sibs m (A.app B) par prev →
      Sibs m B par (match A.last with | some l => some l | none => prev) := by
  induction A with
  | nil => intro par prev h; simpa [Forest.app, Forest.last] using h
  | node a c k r _ ihr =>
    intro par prev h
    have := ihr h.2.2
    simp only [Forest.last]
    cases hrl : r.last with
    | none => simpa [hrl] using this
    | some l => simpa [hrl] using this

theorem Forest.walk_mem (w : List Char) :
    ∀ {k : Forest} {e : Nat}, Forest.walk w k = some e → e ∈ k.addrs := by
  induction w with
  | nil => intro k e h; simp [Forest.walk] at h
  | cons c w ih =>
    intro k e h
    simp only [Forest.walk] at h
    cases hfind : k.findChar c with
    | none => simp [hfind] at h
    | some x =>
      have hx := Forest.findChar_mem_tops hfind
      simp only [hfind] at h
      split at h
      · cases h; exact Forest.tops_subset_addrs k _ hx
      · exact Forest.child_addrs_subset k x e (ih h)

theorem remove_word_scan_aux (charr : Char) (count : Nat) (R : Forest) :
    ∀ (prev : Option Nat) (fuel : Nat) (t : ZDTree) (word : CxxString),
      Sibs t.cells (R.app (.node t.feet '\x00' .nil .nil)) none prev →
      (R.app (.node t.feet '\x00' .nil .nil)).addrs.Nodup →
      (∀ b ∈ (R.app (.node t.feet '\x00' .nil .nil)).addrs, b < t.fresh) →
      Clean t → t.head ∉ R.addrs → R.topData.Nodup → R.tops.length < fuel →
      remove_word_scan fuel t (R.app (.node t.feet '\x00' .nil .nil)).first charr word count
          false =
        match R.findChar charr with
        | none => .ok (t, word, false)
        | some x =>
          match Forest.walk (word.erase count).str (R.child x) with
          | none => .ok (t, word.erase count, false)
          | some e =>
            (remove_word_at t (some e) (some x)).bind
              (fun r => .ok (r.1, word.erase count, r.2)) := by
  induction R with
  | nil =>
    intro prev fuel t word _ _ _ _ _ _ hf
    obtain ⟨fuel, rfl⟩ : ∃ f, fuel = f + 1 := ⟨fuel - 1, by omega⟩
    simp [Forest.app, remove_word_scan, ZDTree.end, Forest.findChar]
  | node a c k r _ ihr =>
    intro prev fuel t word hs hn hb hc hhead hnd hf
    simp only [Forest.tops, List.length_cons] at hf
    simp only [Forest.topData, List.nodup_cons] at hnd
    simp only [Forest.app, Forest.addrs, List.nodup_cons, List.nodup_append, List.mem_append,
      not_or] at hn
    obtain ⟨⟨hak, harZ⟩, hkn, hrZ, hdis⟩ := hn
    have hrsub : ∀ b ∈ r.addrs, b ∈ (r.app (Forest.node t.feet '\x00' .nil .nil)).addrs := by
      intro b hb2; rw [Forest.addrs_app]; exact List.mem_append_left _ hb2
    have hfeetZ : t.feet ∈ (r.app (Forest.node t.feet '\x00' .nil .nil)).addrs := by
      rw [Forest.addrs_app]; simp [Forest.addrs]
    have haf : ¬ a = t.feet := fun h2 => harZ (h2 ▸ hfeetZ)
    have har : a ∉ r.addrs := fun h2 => harZ (hrsub a h2)
    obtain ⟨fuel, rfl⟩ : ∃ f, fuel = f + 1 := ⟨fuel - 1, by omega⟩
    simp only [Forest.app] at hs hb
    have hfeet_r : t.feet ∉ r.tops := by
      intro hin
      have h3 := hrZ
      rw [Forest.addrs_app] at h3
      exact (List.nodup_append.mp h3).2.2 (Forest.tops_subset_addrs r _ hin)
        (by simp [Forest.addrs])
    simp only [Forest.app, Forest.first_node, remove_word_scan, ZDTree.end, ne_eq,
      Option.some.injEq, haf, not_false_eq_true, if_true, read_some hs.1, bind_ok,
      Forest.findChar]
    by_cases hca : c = charr
    · subst hca
      simp only [if_true, Forest.child]
      have hown : Owns t a k := by
        refine ⟨⟨_, hs.1, rfl, rfl⟩, hs.2.1, List.nodup_cons.mpr ⟨hak, hkn⟩, ?_⟩
        intro b hb2
        apply hb
        simp only [List.mem_cons] at hb2
        simp only [Forest.addrs, List.mem_cons, List.mem_append]
        rcases hb2 with hb2 | hb2
        · exact Or.inl hb2
        · exact Or.inr (Or.inl hb2)
      rw [find_word_at_spec hown]
      have hrest : ∀ (t2 : ZDTree) (res : Bool), t2.feet = t.feet →
          (∀ b ∈ (r.app (.node t.feet '\x00' .nil .nil)).addrs, t2.cells b = t.cells b) →
          remove_word_scan fuel t2 (r.app (.node t.feet '\x00' .nil .nil)).first c
            (word.erase count) count res = .ok (t2, word.erase count, res) := by
        intro t2 res hft hcells
        have := remove_word_scan_nomatch c count r (some a) fuel t2 (word.erase count) res
          (by rw [hft]; exact Sibs.congr hcells hs.2.2) (by rw [hft]; exact hfeet_r) hnd.1
          (by omega)
        rw [hft] at this
        exact this
      cases hw : Forest.walk (word.erase count).str k with
      | none =>
        simp only [bind_ok, Bool.false_eq_true, if_false]
        exact hrest t false rfl (fun _ _ => rfl)
      | some e =>
        have hek : e ∈ k.addrs := Forest.walk_mem _ hw
        have hhk : t.head ∉ k.addrs := fun hin => hhead (by simp [Forest.addrs, hin])
        have hnext : (r.app (Forest.node t.feet '\x00' .nil .nil)).first ≠ none := by
          rw [Forest.first_app]
          cases r.first <;> simp
        obtain ⟨t2, K2, he, hr, hfr, _, _⟩ := remove_word_at_spec hown hc hek hhk
          ⟨_, hs.1, hnext⟩
        simp only [bind_ok, if_true, he, Except.bind]
        have ha2 := hr.node _ hs.1
        simp only [read_some ha2]
        apply hrest t2 true hr.feet_eq
        intro b hb2
        apply hr.frame b (hb b (by
          simp only [Forest.addrs, List.mem_cons, List.mem_append]; exact Or.inr (Or.inr hb2)))
        · intro h2; exact harZ (h2 ▸ hb2)
        · intro h2; exact hdis h2 hb2
    · simp only [hca, if_false, Forest.child]
      have := ihr (some a) fuel t word hs.2.2 hrZ
        (fun b hb2 => hb b (by
          simp only [Forest.addrs, List.mem_cons, List.mem_append]; exact Or.inr (Or.inr hb2)))
        hc (fun hin => hhead (by simp [Forest.addrs, hin])) hnd.2 (by omega)
      rw [this]
      cases hfind : r.findChar charr with
      | none => rfl
      | some x =>
        have hxr : x ∈ r.tops := Forest.findChar_mem_tops hfind
        have hax : ¬ a = x := fun h2 => har (h2 ▸ Forest.tops_subset_addrs r x hxr)
        simp [hax]

/-- The scan of the public `remove_word` over the top-level nodes. -/
theorem remove_word_scan_spec {t : ZDTree} {T : Forest} (h : DictRep t T) (charr : Char)
    (word : CxxString) (count : Nat) :
    remove_word_scan (t.fresh + 1) t (T.app (.node t.feet '\x00' .nil .nil)).first charr word
        count false =
      match T.findChar charr with
      | none => .ok (t, word, false)
      | some x =>
        match Forest.walk (word.erase count).str (T.child x) with
        | none => .ok (t, word.erase count, false)
        | some e =>
          (remove_word_at t (some e) (some x)).bind
            (fun r => .ok (r.1, word.erase count, r.2)) := by
  have hn := h.nodup
  rw [Forest.full_addrs] at hn
  have hn2 := (List.nodup_cons.mp hn)
  apply remove_word_scan_aux charr count T (some t.head) (t.fresh + 1) t word h.top_sibs
  · rw [Forest.addrs_app]; simpa [Forest.addrs] using hn2.2
  · intro b hb
    apply h.bound
    rw [Forest.full_addrs]
    rw [Forest.addrs_app] at hb
    simp only [Forest.addrs, List.append_nil] at hb
    exact List.mem_cons_of_mem _ hb
  · exact h.clean
  · intro hin; exact hn2.1 (by simp [hin])
  · exact h.distinct.topData_nodup
  · have := h.tops_length; omega

theorem DictRep.top_next {t : ZDTree} {T : Forest} (h : DictRep t T) {x : Nat}
    (hx : x ∈ T.tops) : ∃ n, t.cells x = some n ∧ n.next_sibling ≠ none := by
  have hxf : x ∈ (Forest.full t T).tops := by simp [Forest.full_tops, hx]
  obtain ⟨c, hrec⟩ := Sibs.top_record h.sibs hxf
  refine ⟨_, hrec, ?_⟩
  have hne := (h.not_sentinel (Forest.tops_subset_addrs T x hx)).1
  simp only [Forest.full, Forest.nextTop, hne.symm, if_false]
  clear hrec hxf h
  induction T with
  | nil => simp [Forest.tops] at hx
  | node a d k r _ ihr =>
    simp only [Forest.tops, List.mem_cons] at hx
    simp only [Forest.app, Forest.nextTop]
    by_cases hax : a = x
    · simp only [hax, if_true, Forest.first_app]
      cases r.first <;> simp
    · simp only [hax, if_false]
      rcases hx with hx | hx
      · exact absurd hx.symm hax
      · exact ihr hx

/-- A successful private removal below a top-level node keeps the representation. -/
theorem DictRep.remove_at {t : ZDTree} {T : Forest} (h : DictRep t T) {x e : Nat}
    (hx : x ∈ T.tops) (he : e ∈ (T.child x).addrs) :
    ∃ t2 K2, remove_word_at t (some e) (some x) = .ok (t2, true) ∧
      Regraft t t2 x (T.child x) K2 ∧ DictRep t2 (T.setChild x K2) ∧ t2.fresh = t.fresh := by
  have hsub := Forest.child_addrs_subset T x
  obtain ⟨t2, K2, h1, h2, h3, h4, _⟩ := remove_word_at_spec (h.owns_top hx) h.clean he
    (fun hin => (h.not_sentinel (hsub _ hin)).1 rfl) (h.top_next hx)
  exact ⟨t2, K2, h1, h2, h.regraft hx h2 (h4 h.distinct.of_child), h3⟩

/-- The range-`for` of the public `remove_word` follows `Forest.removeTarget`. -/
theorem remove_word_for_spec {t : ZDTree} {T : Forest} (h : DictRep t T) :
    ∀ (remaining idx : Nat) (word : CxxString) (count : Nat),
      match T.removeTarget remaining idx word count with
      | none => remove_word_for remaining idx t word count = .ok (t, false)
      | some (x, e) =>
        x ∈ T.tops ∧ e ∈ (T.child x).addrs ∧
        ∀ t2, remove_word_at t (some e) (some x) = .ok (t2, true) →
          remove_word_for remaining idx t word count = .ok (t2, true) := by
  intro remaining
  induction remaining with
  | zero => intro idx word count; simp [Forest.removeTarget, remove_word_for]
  | succ n ih =>
    intro idx word count
    simp only [Forest.removeTarget, remove_word_for, h.begin_eq, bind_ok,
      remove_word_scan_spec h]
    cases hfind : T.findChar (word.at idx) with
    | none =>
      simp only [bind_ok, Bool.false_eq_true, if_false]
      exact ih _ _ _
    | some x =>
      have hx : x ∈ T.tops := Forest.findChar_mem_tops hfind
      simp only
      cases hw : Forest.walk (word.erase count).str (T.child x) with
      | none =>
        simp only [bind_ok, Bool.false_eq_true, if_false]
        exact ih _ _ _
      | some e =>
        refine ⟨hx, Forest.walk_mem _ hw, ?_⟩
        intro t2 ht2
        simp [ht2, Except.bind]

/-- The public `remove_word` returns and keeps the representation. -/
theorem remove_word_spec {d : ZDDictionary} {T : Forest} (h : DictRep d.m_internalTree T)
    (w : List Char) :
    ∃ d2 T2 b, d.remove_word w = .ok (d2, b) ∧ DictRep d2.m_internalTree T2 ∧
      d2.m_internalTree.fresh = d.m_internalTree.fresh := by
  have hfor := remove_word_for_spec h (to_lower_case_word w).length 0
    (CxxString.ofList (to_lower_case_word w)) 1
  cases htar : T.removeTarget (to_lower_case_word w).length 0
      (CxxString.ofList (to_lower_case_word w)) 1 with
  | none =>
    rw [htar] at hfor
    exact ⟨d, T, false, by simp [ZDDictionary.remove_word, hfor], h, rfl⟩
  | some xe =>
    obtain ⟨x, e⟩ := xe
    rw [htar] at hfor
    obtain ⟨hx, he, hrun⟩ := hfor
    obtain ⟨t2, K2, h1, _, h3, h4⟩ := h.remove_at hx he
    exact ⟨⟨t2⟩, _, true, by simp [ZDDictionary.remove_word, hrun t2 h1], h3, h4⟩

/-- Every reachable dictionary is represented by a forest. -/
theorem Reachable.rep {d : ZDDictionary} (h : Reachable d) :
    ∃ T, DictRep d.m_internalTree T := by
  induction h with
  | new hnew =>
    rw [new_eq] at hnew
    cases Except.ok.inj hnew
    exact ⟨_, new_rep⟩
  | insert _ hins ih =>
    obtain ⟨T, hT⟩ := ih
    obtain ⟨d3, he, hrep, _⟩ := insert_word_spec hT _
    rw [hins] at he
    cases (Prod.mk.inj (Except.ok.inj he)).1
    exact ⟨_, hrep⟩
  | remove _ hrem ih =>
    obtain ⟨T, hT⟩ := ih
    obtain ⟨d3, T2, b2, he, hrep, _⟩ := remove_word_spec hT _
    rw [hrem] at he
    cases (Prod.mk.inj (Except.ok.inj he)).1
    exact ⟨_, hrep⟩

/-! ## Paths: links and forests agree -/

theorem InChain.tops {t : ZDTree} {p : Option Nat} {b : Nat} (hc : t.InChain p b) :
    ∀ (F : Forest) (par prev : Option Nat), Sibs t.cells F par prev → p = F.first →
      b ∈ F.tops := by
  induction hc with
  | here b =>
    intro F par prev _ hp
    exact Forest.first_mem_tops hp.symm
  | next hx _ ih =>
    intro F par prev hs hp
    cases F with
    | nil => simp at hp
    | node a c k r =>
      simp only [Forest.first_node, Option.some.injEq] at hp
      subst hp
      rw [hs.1] at hx
      cases Option.some.inj hx
      simp only [Forest.tops, List.mem_cons]
      right
      exact ih r par _ hs.2.2 rfl

theorem InChain.of_tops {t : ZDTree} {b : Nat} (F : Forest) :
    ∀ (par prev : Option Nat), Sibs t.cells F par prev → b ∈ F.tops → t.InChain F.first b := by
  induction F with
  | nil => intro _ _ _ hb; simp [Forest.tops] at hb
  | node a c k r _ ihr =>
    intro par prev hs hb
    simp only [Forest.tops, List.mem_cons] at hb
    by_cases hba : b = a
    · subst hba; exact ZDTree.InChain.here b
    · rcases hb with hb | hb
      · exact absurd hb hba
      · exact ZDTree.InChain.next hs.1 (ihr par _ hs.2.2 hb)

theorem Sibs.findChar_data {m : Nat → Option TreeNode} {F : Forest} {c : Char} {b : Nat} :
    ∀ {par prev : Option Nat}, Sibs m F par prev → F.findChar c = some b →
      ∃ n, m b = some n ∧ n.data = c := by
  induction F with
  | nil => intro _ _ _ h; simp [Forest.findChar] at h
  | node a d k r _ ihr =>
    intro par prev hs h
    simp only [Forest.findChar] at h
    split at h
    · rename_i hd
      cases Option.some.inj h
      exact ⟨_, hs.1, hd⟩
    · exact ihr hs.2.2 h

theorem Sibs.findChar_of_top {m : Nat → Option TreeNode} {F : Forest} {b : Nat}
    {n : TreeNode} :
    ∀ {par prev : Option Nat}, Sibs m F par prev → F.topData.Nodup → F.addrs.Nodup →
      b ∈ F.tops → m b = some n → F.findChar n.data = some b := by
  induction F with
  | nil => intro _ _ _ _ _ hb; simp [Forest.tops] at hb
  | node a d k r _ ihr =>
    intro par prev hs hnd hn hb hm
    simp only [Forest.topData, List.nodup_cons] at hnd
    simp only [Forest.addrs, List.nodup_cons, List.nodup_append, List.mem_append, not_or] at hn
    simp only [Forest.tops, List.mem_cons] at hb
    simp only [Forest.findChar]
    by_cases hba : b = a
    · subst hba
      rw [hs.1] at hm
      cases Option.some.inj hm
      simp
    · have hbr : b ∈ r.tops := by
        rcases hb with hb | hb
        · exact absurd hb hba
        · exact hb
      have hrec := ihr hs.2.2 hnd.2 hn.2.2.1 hbr hm
      have : ¬ d = n.data := by
        intro h2
        exact hnd.1 (h2 ▸ Forest.findChar_mem_topData hrec)
      simp [this, hrec]

/-- Children by links are children in the forest. -/
theorem Owns.isChild_iff {t : ZDTree} {a : Nat} {k : Forest} (h : Owns t a k)
    (hd : k.Distinct) (b : Nat) (c : Char) : t.IsChild a b c ↔ k.findChar c = some b := by
  obtain ⟨n, hn, hf, _⟩ := h.live
  have hkn : k.addrs.Nodup := (List.nodup_cons.mp h.nodup).2
  constructor
  · rintro ⟨n2, nb, hn2, hch, hnb, hdat⟩
    rw [hn] at hn2
    cases Option.some.inj hn2
    have hbt : b ∈ k.tops := InChain.tops hch k (some a) none h.sibs hf
    have := Sibs.findChar_of_top h.sibs hd.topData_nodup hkn hbt hnb
    rwa [hdat] at this
  · intro hfind
    obtain ⟨nb, hnb, hdat⟩ := Sibs.findChar_data h.sibs hfind
    refine ⟨n, nb, hn, ?_, hnb, hdat⟩
    rw [hf]
    exact InChain.of_tops k (some a) none h.sibs (Forest.findChar_mem_tops hfind)

/-- Paths by links below a node are walks in the forest of its children. -/
theorem Owns.pathFrom_iff (w : List Char) :
    ∀ {t : ZDTree} {a : Nat} {k : Forest}, Owns t a k → k.Distinct → w ≠ [] → ∀ e,
      (t.PathFrom a w e ↔ Forest.walk w k = some e) := by
  induction w with
  | nil => intro t a k _ _ hw; exact absurd rfl hw
  | cons c w ih =>
    intro t a k h hd _ e
    simp only [ZDTree.PathFrom, Forest.walk]
    constructor
    · rintro ⟨b, hb, hp⟩
      have hfind := (h.isChild_iff hd b c).mp hb
      simp only [hfind]
      by_cases hw : w = []
      · subst hw
        simp only [ZDTree.PathFrom] at hp
        simp [hp]
      · simp only [hw, if_false]
        exact (ih (h.descend (Forest.findChar_mem_tops hfind)) hd.of_child hw e).mp hp
    · intro hwalk
      cases hfind : k.findChar c with
      | none => simp [hfind] at hwalk
      | some b =>
        simp only [hfind] at hwalk
        refine ⟨b, (h.isChild_iff hd b c).mpr hfind, ?_⟩
        by_cases hw : w = []
        · subst hw
          simp only [if_true, Option.some.injEq] at hwalk
          simp [ZDTree.PathFrom, hwalk]
        · simp only [hw, if_false] at hwalk
          exact (ih (h.descend (Forest.findChar_mem_tops hfind)) hd.of_child hw e).mpr hwalk

theorem Forest.findChar_app (T Z : Forest) (c : Char) :
    (T.app Z).findChar c = match T.findChar c with
      | some x => some x
      | none => Z.findChar c := by
  induction T with
  | nil => simp [Forest.app, Forest.findChar]
  | node a d k r _ ihr =>
    simp only [Forest.app, Forest.findChar]
    split
    · rfl
    · exact ihr

theorem DictRep.top_data_nodup {t : ZDTree} {T : Forest} (h : DictRep t T) :
    (T.app (.node t.feet '\x00' .nil .nil)).topData.Nodup := by
  rw [Forest.topData_app, h.letters]
  simp only [Forest.topData]
  decide

/-- Top-level nodes by links are the top siblings of the forest. -/
theorem DictRep.isTop_iff {t : ZDTree} {T : Forest} (h : DictRep t T) (b : Nat) (c : Char) :
    t.IsTop b c ↔ T.findChar c = some b := by
  have hn := h.nodup
  rw [Forest.full_addrs] at hn
  have hn2 : (T.app (.node t.feet '\x00' .nil .nil)).addrs.Nodup := by
    rw [Forest.addrs_app]; simpa [Forest.addrs] using (List.nodup_cons.mp hn).2
  constructor
  · rintro ⟨hd, nb, hhd, hch, hbf, hnb, hdat⟩
    rw [h.head_cell] at hhd
    cases Option.some.inj hhd
    have hbt := InChain.tops hch _ none (some t.head) h.top_sibs rfl
    have hfc := Sibs.findChar_of_top h.top_sibs h.top_data_nodup hn2 hbt hnb
    rw [hdat, Forest.findChar_app] at hfc
    cases hT : T.findChar c with
    | some x => rw [hT] at hfc; exact hfc
    | none =>
      rw [hT] at hfc
      simp only [Forest.findChar] at hfc
      split at hfc
      · exact absurd (Option.some.inj hfc).symm hbf
      · cases hfc
  · intro hfind
    have hfc : (T.app (.node t.feet '\x00' .nil .nil)).findChar c = some b := by
      rw [Forest.findChar_app, hfind]
    obtain ⟨nb, hnb, hdat⟩ := Sibs.findChar_data h.top_sibs hfc
    refine ⟨_, nb, h.head_cell, ?_, ?_, hnb, hdat⟩
    · exact InChain.of_tops _ none (some t.head) h.top_sibs (Forest.findChar_mem_tops hfc)
    · exact (h.not_sentinel (Forest.tops_subset_addrs T b (Forest.findChar_mem_tops hfind))).2

/-- Full paths by links are paths of the forest. -/
theorem DictRep.pathTo_iff {t : ZDTree} {T : Forest} (h : DictRep t T) (w : List Char)
    (e : Nat) : t.PathTo w e ↔ T.pathTo w = some e := by
  cases w with
  | nil => simp [ZDTree.PathTo, Forest.pathTo]
  | cons c w =>
    simp only [ZDTree.PathTo, Forest.pathTo]
    constructor
    · rintro ⟨a, ha, hp⟩
      have hfind := (h.isTop_iff a c).mp ha
      simp only [hfind]
      by_cases hw : w = []
      · subst hw
        simp only [ZDTree.PathFrom] at hp
        simp [hp]
      · simp only [hw, if_false]
        exact (Owns.pathFrom_iff w (h.owns_top (Forest.findChar_mem_tops hfind))
          h.distinct.of_child hw e).mp hp
    · intro hwalk
      cases hfind : T.findChar c with
      | none => simp [hfind] at hwalk
      | some a =>
        simp only [hfind] at hwalk
        refine ⟨a, (h.isTop_iff a c).mpr hfind, ?_⟩
        by_cases hw : w = []
        · subst hw
          simp only [if_true, Option.some.injEq] at hwalk
          simp [ZDTree.PathFrom, hwalk]
        · simp only [hw, if_false] at hwalk
          exact (Owns.pathFrom_iff w (h.owns_top (Forest.findChar_mem_tops hfind))
            h.distinct.of_child hw e).mpr hwalk

/-! ## Result of insert_word -/

theorem Forest.insertWord_false_iff (T : Forest) (f : Nat) (lw : List Char) :
    (T.insertWord f lw).2 = false ↔ ∀ c ∈ lw, T.findChar c = none := by
  induction lw with
  | nil => simp [Forest.insertWord]
  | cons c rest ih =>
    simp only [Forest.insertWord, List.mem_cons, forall_eq_or_imp]
    cases hfind : T.findChar c with
    | none => simp [ih]
    | some x => simp

theorem DictRep.no_top_iff {t : ZDTree} {T : Forest} (h : DictRep t T) (c : Char) :
    (¬ ∃ a, t.IsTop a c) ↔ T.findChar c = none := by
  constructor
  · intro hno
    cases hfind : T.findChar c with
    | none => rfl
    | some a => exact absurd ⟨a, (h.isTop_iff a c).mpr hfind⟩ hno
  · rintro hnone ⟨a, ha⟩
    rw [(h.isTop_iff a c).mp ha] at hnone
    cases hnone

/-! ## Inserting a word whose path exists -/

theorem Forest.child_app_right {T : Forest} (Z : Forest) {x : Nat} (hx : x ∉ T.tops) :
    (T.app Z).child x = Z.child x := by
  induction T with
  | nil => rfl
  | node a c k r _ ihr =>
    simp only [Forest.tops, List.mem_cons, not_or] at hx
    have : ¬ a = x := fun h => hx.1 h.symm
    simp only [Forest.app, Forest.child, this, if_false]
    exact ihr hx.2

theorem Forest.shared_chain (w : List Char) : ∀ f, Forest.shared w (Forest.chain w f) = w.length := by
  induction w with
  | nil => intro f; rfl
  | cons c w ih =>
    intro f
    simp [Forest.shared, Forest.chain, Forest.findChar, Forest.child, ih]

theorem Forest.shared_grow (w : List Char) :
    ∀ (k : Forest) (f : Nat), (∀ b ∈ k.addrs, b < f) →
      Forest.shared w (Forest.grow w k f) = w.length := by
  induction w with
  | nil => intro k f _; rfl
  | cons c w ih =>
    intro k f hb
    simp only [Forest.grow]
    cases hfind : k.findChar c with
    | some x =>
      have hx := Forest.findChar_mem_tops hfind
      simp only [Forest.shared, Forest.findChar_setChild, hfind, Forest.child_setChild_same _ hx,
        List.length_cons]
      rw [ih (k.child x) f (fun b hb2 => hb b (Forest.child_addrs_subset k x b hb2))]
    | none =>
      have hft : f ∉ k.tops := fun hin => by
        have := hb f (Forest.tops_subset_addrs k f hin); omega
      simp only [Forest.shared, Forest.findChar_app, hfind, Forest.chain, Forest.findChar,
        if_true, Forest.child_app_right _ hft, Forest.child, Forest.shared_chain,
        List.length_cons]

theorem insert_word_at_same (w : List Char) :
    ∀ {t : ZDTree} {a : Nat} {k : Forest}, Owns t a k → Forest.shared w k = w.length →
      ∃ e, insert_word_at t (some a) w = .ok (t, e) := by
  induction w with
  | nil => intro t a k _ _; exact ⟨some a, rfl⟩
  | cons c w ih =>
    intro t a k h hs
    simp only [insert_word_at, has_child_spec h c, bind_ok]
    simp only [Forest.shared, List.length_cons] at hs
    cases hfind : k.findChar c with
    | none => simp [hfind] at hs
    | some x =>
      simp only [hfind, Nat.add_right_cancel_iff] at hs
      obtain ⟨e, he⟩ := ih (h.descend (Forest.findChar_mem_tops hfind)) hs
      exact ⟨e, by simpa using he⟩

theorem insert_word_for_same {t : ZDTree} {T : Forest} (h : DictRep t T) (lw : List Char) :
    ∀ (suf pre : List Char), lw = pre ++ suf → T.insertCount suf = 0 →
      insert_word_for suf.length pre.length t (CxxString.ofList lw) (pre.length + 1) =
        .ok (t, (T.insertWord t.fresh suf).2) := by
  intro suf
  induction suf with
  | nil => intro pre _ _; rfl
  | cons c rest ih =>
    intro pre hlw hcount
    subst hlw
    simp only [List.length_cons, insert_word_for, CxxString.at_ofList, h.begin_eq, bind_ok]
    rw [insert_word_scan_spec t c _ _ T (some t.head) (t.fresh + 1) h.top_sibs h.feet_not_top
      (by have := h.tops_length; omega)]
    simp only [Forest.insertWord, Forest.insertCount] at hcount ⊢
    cases hfind : T.findChar c with
    | none =>
      simp only [hfind] at hcount
      simp only [bind_ok]
      have := ih (pre ++ [c]) (by simp) hcount
      simpa using this
    | some x =>
      simp only [hfind] at hcount
      have hx : x ∈ T.tops := Forest.findChar_mem_tops hfind
      have hle := Forest.shared_le rest (T.child x)
      obtain ⟨e, he⟩ := insert_word_at_same rest (h.owns_top hx) (by omega)
      simp [CxxString.erase_ofList, he, Except.bind]

theorem Forest.insertWord_findChar (T : Forest) (f : Nat) (lw : List Char) (c : Char) :
    (T.insertWord f lw).1.findChar c = T.findChar c := by
  induction lw with
  | nil => rfl
  | cons d rest ih =>
    simp only [Forest.insertWord]
    cases T.findChar d with
    | none => exact ih
    | some x => simp

theorem Forest.insertWord_again (T : Forest) (f f2 : Nat) (hb : ∀ b ∈ T.addrs, b < f)
    (lw : List Char) :
    (T.insertWord f lw).1.insertCount lw = 0 ∧
      ((T.insertWord f lw).1.insertWord f2 lw).2 = (T.insertWord f lw).2 := by
  induction lw with
  | nil => exact ⟨rfl, rfl⟩
  | cons c rest ih =>
    cases hfind : T.findChar c with
    | none =>
      have h1 : (T.insertWord f (c :: rest)).1 = (T.insertWord f rest).1 := by
        simp [Forest.insertWord, hfind]
      have h2 : (T.insertWord f (c :: rest)).2 = (T.insertWord f rest).2 := by
        simp [Forest.insertWord, hfind]
      have h3 : (T.insertWord f rest).1.findChar c = none := by
        rw [Forest.insertWord_findChar, hfind]
      rw [h1, h2]
      simp only [Forest.insertCount, Forest.insertWord, h3]
      exact ih
    | some x =>
      have hx := Forest.findChar_mem_tops hfind
      simp only [Forest.insertWord, hfind, Forest.insertCount, Forest.findChar_setChild,
        Forest.child_setChild_same _ hx]
      rw [Forest.shared_grow rest _ f (fun b hb2 => hb b (Forest.child_addrs_subset T x b hb2))]
      simp

/-! ## The public exact find_word and the paths of the tree -/

theorem CxxString.erase_str {s : CxxString} (h : s.size < s.buf.length) (k : Nat) :
    (s.erase k).str = s.str.drop k := by
  simp only [CxxString.erase, CxxString.str, List.append_assoc]
  rw [List.take_append_of_le_length (by simp; omega), List.take_take, Nat.min_self,
    List.drop_take]
  by_cases hk : k ≤ s.size
  · rw [Nat.min_eq_left hk]
  · have h1 : min k s.size = s.size := by omega
    have h2 : s.size - k = 0 := by omega
    rw [h1, h2]; simp

theorem CxxString.erase_size_lt {s : CxxString} (h : s.size < s.buf.length) (k : Nat) :
    (s.erase k).size < (s.erase k).buf.length := by
  simp only [CxxString.erase, List.append_assoc, List.length_append, List.length_take,
    List.length_drop, List.length_cons, List.length_nil]
  omega

theorem CxxString.str_length {s : CxxString} (h : s.size < s.buf.length) :
    s.str.length = s.size := by
  simp only [CxxString.str, List.length_take]; omega

theorem CxxString.drop_str {s : CxxString} (h : s.size < s.buf.length) {idx : Nat}
    (hi : idx < s.size) : s.str.drop idx = s.at idx :: s.str.drop (idx + 1) := by
  have hl : idx < s.str.length := by rw [CxxString.str_length h]; exact hi
  rw [List.drop_eq_getElem_cons hl]
  congr 1
  simp only [CxxString.str, CxxString.at, List.getElem_take, List.getD_eq_getElem?_getD]
  rw [List.getElem?_eq_getElem (by omega)]
  rfl

theorem CxxString.ofList_size_lt (w : List Char) :
    (CxxString.ofList w).size < (CxxString.ofList w).buf.length := by
  simp [CxxString.ofList]

theorem CxxString.ofList_str (w : List Char) : (CxxString.ofList w).str = w := by
  simp [CxxString.ofList, CxxString.str]

/-- A search of the range-`for` that succeeds has walked a suffix of the word. -/
theorem Forest.findFor_true (T : Forest) :
    ∀ (n idx : Nat) (s : CxxString), s.size < s.buf.length →
      T.findFor n idx s (idx + 1) = true →
      ∃ m c u x, s.str.drop m = c :: u ∧ T.findChar c = some x ∧
        (Forest.walk u (T.child x)).isSome := by
  intro n
  induction n with
  | zero => intro idx s _ h; simp [Forest.findFor] at h
  | succ n ih =>
    intro idx s hs h
    simp only [Forest.findFor] at h
    cases hfind : T.findChar (s.at idx) with
    | none =>
      simp only [hfind] at h
      exact ih (idx + 1) s hs h
    | some x =>
      simp only [hfind] at h
      by_cases hw : (Forest.walk (s.erase (idx + 1)).str (T.child x)).isSome = true
      · rw [CxxString.erase_str hs] at hw
        have hne : s.str.drop (idx + 1) ≠ [] := by
          intro h0; rw [h0] at hw; simp [Forest.walk] at hw
        have hi : idx < s.size := by
          have := List.drop_eq_nil_iff.not.mp hne
          rw [CxxString.str_length hs] at this
          omega
        exact ⟨idx, s.at idx, _, x, CxxString.drop_str hs hi, hfind, hw⟩
      · simp only [hw, Bool.false_eq_true, if_false] at h
        obtain ⟨m, c, u, y, h1, h2, h3⟩ := ih (idx + 1) _ (CxxString.erase_size_lt hs _) h
        rw [CxxString.erase_str hs, List.drop_drop] at h1
        exact ⟨_, c, u, y, h1, h2, h3⟩

theorem Forest.walk_ne_nil {u : List Char} {k : Forest} (h : (Forest.walk u k).isSome) :
    u ≠ [] := by
  intro h0; rw [h0] at h; simp [Forest.walk] at h

/-! ## Prefixes of inserted words -/

theorem Forest.child_setChild_other {F : Forest} {x y : Nat} (k2 : Forest) (hxy : x ≠ y) :
    (F.setChild y k2).child x = F.child x := by
  induction F with
  | nil => rfl
  | node a d k r _ ihr =>
    simp only [Forest.setChild]
    by_cases hay : a = y
    · subst hay
      have : ¬ a = x := fun h => hxy h.symm
      simp [Forest.child, this]
    · simp only [hay, if_false, Forest.child]
      by_cases hax : a = x
      · simp [hax]
      · simp [hax, ihr]

theorem Forest.walk_isSome_iff (w : List Char) :
    ∀ k : Forest, w ≠ [] → ((Forest.walk w k).isSome ↔ Forest.shared w k = w.length) := by
  induction w with
  | nil => intro k h; exact absurd rfl h
  | cons c w ih =>
    intro k _
    simp only [Forest.walk, Forest.shared, List.length_cons]
    cases hfind : k.findChar c with
    | none => simp
    | some x =>
      by_cases hw : w = []
      · subst hw; simp [Forest.shared]
      · simp only [hw, if_false, Nat.add_right_cancel_iff]
        exact ih _ hw

theorem Forest.shared_append_left (u v : List Char) :
    ∀ k : Forest, Forest.shared (u ++ v) k = (u ++ v).length → Forest.shared u k = u.length := by
  induction u with
  | nil => intro k _; rfl
  | cons c u ih =>
    intro k h
    simp only [List.cons_append, Forest.shared, List.length_cons] at h ⊢
    cases hfind : k.findChar c with
    | none => simp [hfind] at h
    | some x =>
      simp only [hfind, Nat.add_right_cancel_iff] at h ⊢
      exact ih _ h

theorem Forest.walk_grow_mono (v : List Char) :
    ∀ (u : List Char) (k : Forest) (f : Nat), (Forest.walk u k).isSome →
      (Forest.walk u (Forest.grow v k f)).isSome := by
  induction v with
  | nil => intro u k f h; exact h
  | cons d v ih =>
    intro u k f h
    cases u with
    | nil => simp [Forest.walk] at h
    | cons c u =>
      simp only [Forest.walk] at h
      cases hfc : k.findChar c with
      | none => simp [hfc] at h
      | some x =>
        have hx := Forest.findChar_mem_tops hfc
        simp only [hfc] at h
        simp only [Forest.grow]
        cases hfd : k.findChar d with
        | some y =>
          simp only [Forest.walk, Forest.findChar_setChild, hfc]
          by_cases hu : u = []
          · simp [hu]
          · simp only [hu, if_false] at h ⊢
            by_cases hxy : x = y
            · subst hxy
              rw [Forest.child_setChild_same _ hx]
              exact ih _ _ _ h
            · rw [Forest.child_setChild_other _ hxy]
              exact h
        | none =>
          simp only [Forest.walk, Forest.findChar_app, hfc, Forest.child_app _ hx]
          exact h

theorem Forest.insertWord_skip (T : Forest) (f : Nat) (s : List Char) :
    ∀ pre : List Char, (∀ x ∈ pre, T.findChar x = none) →
      T.insertWord f (pre ++ s) = T.insertWord f s := by
  intro pre
  induction pre with
  | nil => intro _; rfl
  | cons d pre ih =>
    intro h
    simp only [List.cons_append, Forest.insertWord, h d (List.mem_cons_self _ _)]
    exact ih (fun x hx => h x (List.mem_cons_of_mem _ hx))

theorem Forest.insertWord_walk (T : Forest) (f : Nat) {x : Nat} (hx : x ∈ T.tops)
    {u : List Char} (h : (Forest.walk u (T.child x)).isSome) :
    ∀ v : List Char, (Forest.walk u ((T.insertWord f v).1.child x)).isSome := by
  intro v
  induction v with
  | nil => exact h
  | cons d v ih =>
    simp only [Forest.insertWord]
    cases hfd : T.findChar d with
    | none => exact ih
    | some y =>
      have hy := Forest.findChar_mem_tops hfd
      by_cases hxy : x = y
      · subst hxy
        simp only [Forest.child_setChild_same _ hx]
        exact Forest.walk_grow_mono _ _ _ _ h
      · simp only [Forest.child_setChild_other _ hxy]
        exact h

/-- A path that exists is still there after any further calls of `insert_word`. -/
theorem insert_all_walk {c : Char} {x : Nat} {u : List Char} :
    ∀ (ws : List (List Char)) (d : ZDDictionary) (T : Forest), DictRep d.m_internalTree T →
      T.findChar c = some x → (Forest.walk u (T.child x)).isSome →
      ∃ d2 T2, d.insert_all ws = .ok d2 ∧ DictRep d2.m_internalTree T2 ∧
        T2.findChar c = some x ∧ (Forest.walk u (T2.child x)).isSome := by
  intro ws
  induction ws with
  | nil => intro d T h h1 h2; exact ⟨d, T, rfl, h, h1, h2⟩
  | cons w ws ih =>
    intro d T h h1 h2
    obtain ⟨d1, he, hrep, _⟩ := insert_word_spec h w
    obtain ⟨d2, T2, h3, h4, h5, h6⟩ := ih d1 _ hrep
      (by rw [Forest.insertWord_findChar]; exact h1)
      (Forest.insertWord_walk T _ (Forest.findChar_mem_tops h1) h2 _)
    exact ⟨d2, T2, by simp [ZDDictionary.insert_all, he, h3], h4, h5, h6⟩

theorem Forest.findFor_skip (T : Forest) {c : Char} {x : Nat} {rest : List Char}
    (hc : T.findChar c = some x) (hw : (Forest.walk rest (T.child x)).isSome) :
    ∀ (pre2 pre1 : List Char), (∀ y ∈ pre2, T.findChar y = none) →
      T.findFor (pre2 ++ c :: rest).length pre1.length
        (CxxString.ofList (pre1 ++ (pre2 ++ c :: rest))) (pre1.length + 1) = true := by
  intro pre2
  induction pre2 with
  | nil =>
    intro pre1 _
    simp only [List.nil_append, List.length_cons, Forest.findFor, CxxString.at_ofList, hc,
      CxxString.erase_ofList, hw, if_true]
  | cons d pre2 ih =>
    intro pre1 h
    have := ih (pre1 ++ [d]) (fun y hy => h y (List.mem_cons_of_mem _ hy))
    simp only [List.length_append, List.length_cons, List.length_nil, Nat.zero_add,
      List.append_assoc, List.singleton_append] at this
    simp only [List.cons_append, List.length_cons, Forest.findFor, CxxString.at_ofList,
      h d (List.mem_cons_self _ _)]
    simpa using this

/-! ## Growth of the tree by insert_word -/

theorem tolower_letter {c : Char} (h : c.isAlpha = true) : tolower c ∈ FrenchAlphabet := by
  have key : ∀ n : Fin 128, (Char.ofNat n.val).isAlpha = true →
      tolower (Char.ofNat n.val) ∈ FrenchAlphabet := by decide
  have hlt : c.toNat < 128 := by
    simp only [Char.isAlpha, Char.isUpper, Char.isLower, Bool.or_eq_true, Bool.and_eq_true,
      decide_eq_true_eq] at h
    have h1 : c.val.toNat = c.toNat := rfl
    rcases h with ⟨_, h⟩ | ⟨_, h⟩
    · have h2 : c.val.toNat ≤ (90 : UInt32).toNat := h
      have h3 : (90 : UInt32).toNat = 90 := rfl
      omega
    · have h2 : c.val.toNat ≤ (122 : UInt32).toNat := h
      have h3 : (122 : UInt32).toNat = 122 := rfl
      omega
  have := key ⟨c.toNat, hlt⟩
  simp only [Char.ofNat_toNat] at this
  exact this h

theorem Forest.app_nil (F : Forest) : F.app .nil = F := by
  induction F with
  | nil => rfl
  | node a c k r _ ihr => simp [Forest.app, ihr]

theorem Forest.shared_take (w : List Char) :
    ∀ (n : Nat) (k : Forest), Forest.shared (w.take n) k = min n (Forest.shared w k) := by
  induction w with
  | nil => intro n k; simp [Forest.shared]
  | cons c w ih =>
    intro n k
    cases n with
    | zero => simp [Forest.shared]
    | succ n =>
      simp only [List.take_succ_cons, Forest.shared]
      cases k.findChar c with
      | none => simp
      | some x => simp only [ih]; omega

theorem Forest.walk_grow_eq (v : List Char) :
    ∀ (u : List Char) (k : Forest) (f e : Nat), Forest.walk u k = some e →
      Forest.walk u (Forest.grow v k f) = some e := by
  induction v with
  | nil => intro u k f e h; exact h
  | cons d v ih =>
    intro u k f e h
    cases u with
    | nil => simp [Forest.walk] at h
    | cons c u =>
      simp only [Forest.walk] at h
      cases hfc : k.findChar c with
      | none => simp [hfc] at h
      | some x =>
        have hx := Forest.findChar_mem_tops hfc
        simp only [hfc] at h
        simp only [Forest.grow]
        cases hfd : k.findChar d with
        | some y =>
          simp only [Forest.walk, Forest.findChar_setChild, hfc]
          by_cases hu : u = []
          · simp only [hu, if_true] at h ⊢; exact h
          · simp only [hu, if_false] at h ⊢
            by_cases hxy : x = y
            · subst hxy
              rw [Forest.child_setChild_same _ hx]
              exact ih _ _ _ _ h
            · rw [Forest.child_setChild_other _ hxy]
              exact h
        | none =>
          simp only [Forest.walk, Forest.findChar_app, hfc, Forest.child_app _ hx]
          exact h

theorem Forest.walkKids_grow (w : List Char) :
    ∀ (k : Forest) (f : Nat),
      Forest.walkKids (w.take (Forest.shared w k)) (Forest.grow w k f) =
        (Forest.walkKids (w.take (Forest.shared w k)) k).app
          (Forest.chain (w.drop (Forest.shared w k)) f) := by
  induction w with
  | nil => intro k f; simp [Forest.shared, Forest.walkKids, Forest.grow, Forest.chain, Forest.app_nil]
  | cons c w ih =>
    intro k f
    cases hfind : k.findChar c with
    | none => simp [Forest.shared, hfind, Forest.grow, Forest.walkKids]
    | some y =>
      have hy := Forest.findChar_mem_tops hfind
      simp only [Forest.shared, hfind, List.take_succ_cons, Forest.walkKids, Forest.grow,
        Forest.findChar_setChild, Forest.child_setChild_same _ hy, List.drop_succ_cons]
      exact ih _ _

theorem Owns.walk_kids (u : List Char) :
    ∀ {t : ZDTree} {a : Nat} {k : Forest} {e : Nat}, Owns t a k →
      Forest.walkTo a u k = some e → Owns t e (Forest.walkKids u k) := by
  induction u with
  | nil =>
    intro t a k e h he
    simp only [Forest.walkTo, if_true, Option.some.injEq] at he
    subst he
    exact h
  | cons c u ih =>
    intro t a k e h he
    simp only [Forest.walkTo, reduceCtorEq, if_false, Forest.walk] at he
    cases hfc : k.findChar c with
    | none => simp [hfc] at he
    | some x =>
      simp only [hfc] at he
      simp only [Forest.walkKids, hfc]
      exact ih (h.descend (Forest.findChar_mem_tops hfc)) he

theorem Forest.exists_walkTo (a : Nat) (w : List Char) (k : Forest) :
    ∃ e, Forest.walkTo a (w.take (Forest.shared w k)) k = some e := by
  by_cases hu : w.take (Forest.shared w k) = []
  · exact ⟨a, by simp [Forest.walkTo, hu]⟩
  · simp only [Forest.walkTo, hu, if_false]
    apply Option.isSome_iff_exists.mp
    rw [Forest.walk_isSome_iff _ _ hu, Forest.shared_take, List.length_take]
    have := Forest.shared_le w k
    omega

theorem Forest.mem_addrs_chain (v : List Char) :
    ∀ (g b : Nat), b ∈ (Forest.chain v g).addrs ↔ g ≤ b ∧ b < g + v.length := by
  induction v with
  | nil => intro g b; simp [Forest.chain, Forest.addrs]
  | cons c v ih =>
    intro g b
    simp only [Forest.chain, Forest.addrs, List.append_nil, List.mem_cons, ih, List.length_cons]
    omega

theorem Forest.mem_addrs_grow (w : List Char) :
    ∀ (k : Forest) (f b : Nat), b ∈ (Forest.grow w k f).addrs →
      b ∈ k.addrs ∨ (f ≤ b ∧ b < f + (w.length - Forest.shared w k)) := by
  induction w with
  | nil => intro k f b h; exact Or.inl h
  | cons c w ih =>
    intro k f b h
    simp only [Forest.grow] at h
    cases hfind : k.findChar c with
    | none =>
      simp only [hfind, Forest.addrs_app, List.mem_append, Forest.mem_addrs_chain] at h
      simp only [Forest.shared, hfind]
      rcases h with h | h
      · exact Or.inl h
      · exact Or.inr (by omega)
    | some y =>
      simp only [hfind] at h
      simp only [Forest.shared, hfind, List.length_cons]
      rcases Forest.mem_addrs_setChild h with h | h
      · exact Or.inl h
      · rcases ih _ _ _ h with h | h
        · exact Or.inl (Forest.child_addrs_subset k y b h)
        · exact Or.inr (by omega)

theorem Sibs.chain_cells {m : Nat → Option TreeNode} (v : List Char) :
    ∀ (g : Nat) (par prev : Option Nat), Sibs m (Forest.chain v g) par prev →
      ∀ i, i < v.length →
        m (g + i) = some ⟨if i = 0 then par else some (g + i - 1),
          if i + 1 < v.length then some (g + i + 1) else none,
          if i + 1 < v.length then some (g + i + 1) else none,
          if i = 0 then prev else none, none, v.getD i ' '⟩ := by
  induction v with
  | nil => intro g par prev _ i hi; simp at hi
  | cons c v ih =>
    intro g par prev hs i hi
    obtain ⟨h1, h2, _⟩ := hs
    cases i with
    | zero =>
      rw [Nat.add_zero, h1]
      cases v with
      | nil => simp [Forest.chain, Forest.first, Forest.last]
      | cons c2 v2 => simp [Forest.chain, Forest.first, Forest.last]
    | succ i =>
      have := ih (g + 1) (some g) none h2 i (by simpa using hi)
      have e1 : g + (i + 1) = g + 1 + i := by omega
      rw [e1, this]
      simp only [List.length_cons, Nat.add_lt_add_iff_right, List.getD_cons_succ,
        Nat.add_eq_zero, one_ne_zero, and_false, if_false]
      by_cases hi0 : i = 0
      · subst hi0; simp
      · simp [hi0]

/-! ## Removing an extension of a stored word -/

theorem tolower_tolower (c : Char) : tolower (tolower c) = tolower c := by
  have key : ∀ n : Fin 128, tolower (tolower (Char.ofNat n.val)) = tolower (Char.ofNat n.val) := by
    decide
  by_cases hup : 'A'.val ≤ c.val ∧ c.val ≤ 'Z'.val
  · have hlt : c.toNat < 128 := by
      have h2 : c.val.toNat ≤ ('Z'.val).toNat := hup.2
      have h3 : ('Z'.val).toNat = 90 := rfl
      have h1 : c.val.toNat = c.toNat := rfl
      omega
    have := key ⟨c.toNat, hlt⟩
    simpa only [Char.ofNat_toNat] using this
  · have h1 : tolower c = c := by simp only [tolower, hup, if_false]
    rw [h1, h1]

theorem to_lower_case_word_idem (w : List Char) :
    to_lower_case_word (to_lower_case_word w) = to_lower_case_word w := by
  simp only [to_lower_case_word, List.map_map]
  apply List.map_congr_left
  intro c _
  exact tolower_tolower c

theorem to_lower_case_word_length (w : List Char) :
    (to_lower_case_word w).length = w.length := by
  simp [to_lower_case_word]

theorem Forest.sub_addrs_subset (x : Nat) (F : Forest) :
    ∀ b ∈ (Forest.sub x F).addrs, b ∈ F.addrs := by
  induction F with
  | nil => intro b hb; simp [Forest.sub, Forest.addrs] at hb
  | node a c k r ihk ihr =>
    intro b hb
    simp only [Forest.sub] at hb
    simp only [Forest.addrs, List.mem_cons, List.mem_append]
    by_cases hax : a = x
    · simp only [hax, if_true] at hb
      exact Or.inr (Or.inl hb)
    · simp only [hax, if_false] at hb
      by_cases hxk : x ∈ k.addrs
      · simp only [hxk, if_true] at hb
        exact Or.inr (Or.inl (ihk b hb))
      · simp only [hxk, if_false] at hb
        exact Or.inr (Or.inr (ihr b hb))

/-- The cell of a node anywhere in the forest, and the cells of its children. -/
theorem Sibs.sub_cells {m : Nat → Option TreeNode} {x : Nat} (F : Forest) :
    ∀ {par prev : Option Nat}, Sibs m F par prev → x ∈ F.addrs →
      (∃ n, m x = some n ∧ n.first_child = (Forest.sub x F).first ∧
        n.last_child = (Forest.sub x F).last) ∧
      Sibs m (Forest.sub x F) (some x) none := by
  induction F with
  | nil => intro _ _ _ hx; simp [Forest.addrs] at hx
  | node a c k r ihk ihr =>
    intro par prev hs hx
    simp only [Forest.addrs, List.mem_cons, List.mem_append] at hx
    simp only [Forest.sub]
    by_cases hax : a = x
    · subst hax
      simp only [if_true]
      exact ⟨⟨_, hs.1, rfl, rfl⟩, hs.2.1⟩
    · simp only [hax, if_false]
      by_cases hxk : x ∈ k.addrs
      · simp only [hxk, if_true]
        exact ihk hs.2.1 hxk
      · simp only [hxk, if_false]
        rcases hx with hx | hx | hx
        · exact absurd hx.symm hax
        · exact absurd hx hxk
        · exact ihr hs.2.2 hx

theorem Forest.nodup_sub {F : Forest} (x : Nat) (hn : F.addrs.Nodup) :
    (x :: (Forest.sub x F).addrs).Nodup := by
  induction F with
  | nil => simp [Forest.sub, Forest.addrs]
  | node a c k r ihk ihr =>
    simp only [Forest.addrs, List.nodup_cons, List.nodup_append, List.mem_append, not_or] at hn
    obtain ⟨⟨hak, _⟩, hk, hr, _⟩ := hn
    simp only [Forest.sub]
    by_cases hax : a = x
    · subst hax
      simp only [if_true]
      exact List.nodup_cons.mpr ⟨hak, hk⟩
    · simp only [hax, if_false]
      by_cases hxk : x ∈ k.addrs
      · simp only [hxk, if_true]; exact ihk hk
      · simp only [hxk, if_false]; exact ihr hr

theorem Forest.sub_app_left {T : Forest} (Z : Forest) {x : Nat} (hx : x ∈ T.addrs) :
    Forest.sub x (T.app Z) = Forest.sub x T := by
  induction T with
  | nil => simp [Forest.addrs] at hx
  | node a c k r _ ihr =>
    simp only [Forest.addrs, List.mem_cons, List.mem_append] at hx
    simp only [Forest.app, Forest.sub]
    by_cases hax : a = x
    · simp [hax]
    · simp only [hax, if_false]
      by_cases hxk : x ∈ k.addrs
      · simp [hxk]
      · simp only [hxk, if_false]
        rcases hx with hx | hx | hx
        · exact absurd hx.symm hax
        · exact absurd hx hxk
        · exact ihr hx

theorem Forest.sub_of_top {F : Forest} {x : Nat} (hn : F.addrs.Nodup) (hx : x ∈ F.tops) :
    Forest.sub x F = F.child x := by
  induction F with
  | nil => simp [Forest.tops] at hx
  | node a c k r _ ihr =>
    simp only [Forest.addrs, List.nodup_cons, List.nodup_append, List.mem_append, not_or] at hn
    obtain ⟨⟨_, _⟩, _, hr, hdis⟩ := hn
    simp only [Forest.tops, List.mem_cons] at hx
    simp only [Forest.sub, Forest.child]
    by_cases hax : a = x
    · simp [hax]
    · simp only [hax, if_false]
      have hxr : x ∈ r.tops := by
        rcases hx with hx | hx
        · exact absurd hx.symm hax
        · exact hx
      have hxk : x ∉ k.addrs := fun h => hdis h (Forest.tops_subset_addrs r x hxr)
      simp only [hxk, if_false]
      exact ihr hr hxr

theorem Forest.Distinct.sub {F : Forest} (x : Nat) (h : F.Distinct) :
    (Forest.sub x F).Distinct := by
  induction F with
  | nil => trivial
  | node a c k r ihk ihr =>
    simp only [Forest.sub]
    by_cases hax : a = x
    · simp only [hax, if_true]; exact h.2.1
    · simp only [hax, if_false]
      by_cases hxk : x ∈ k.addrs
      · simp only [hxk, if_true]; exact ihk h.2.1
      · simp only [hxk, if_false]; exact ihr h.2.2

theorem DictRep.tree_rep {t : ZDTree} {T : Forest} (h : DictRep t T) : TreeRep t T :=
  ⟨h.sibs, h.nodup, h.bound, h.tight⟩

theorem TreeRep.sub_full {t : ZDTree} {T : Forest} (h : TreeRep t T) {x : Nat}
    (hx : x ∈ T.addrs) : Forest.sub x (Forest.full t T) = Forest.sub x T := by
  have hn := h.nodup
  rw [Forest.full_addrs] at hn
  have hne : ¬ t.head = x := fun h2 => (List.nodup_cons.mp hn).1 (by simp [h2, hx])
  simp only [Forest.full, Forest.sub, hne, if_false, Forest.addrs, List.not_mem_nil]
  exact Forest.sub_app_left _ hx

/-- Every node of the tree, with its children. -/
theorem TreeRep.owns_full {t : ZDTree} {T : Forest} (h : TreeRep t T) {x : Nat}
    (hx : x ∈ (Forest.full t T).addrs) : Owns t x (Forest.sub x (Forest.full t T)) := by
  obtain ⟨hlive, hs⟩ := Sibs.sub_cells _ h.sibs hx
  refine ⟨hlive, hs, Forest.nodup_sub x h.nodup, ?_⟩
  intro b hb
  simp only [List.mem_cons] at hb
  rcases hb with hb | hb
  · subst hb; exact h.bound _ hx
  · exact h.bound _ (Forest.sub_addrs_subset _ _ b hb)

theorem TreeRep.owns_node {t : ZDTree} {T : Forest} (h : TreeRep t T) {x : Nat}
    (hx : x ∈ T.addrs) : Owns t x (Forest.sub x T) := by
  have := h.owns_full (x := x) (by rw [Forest.full_addrs]; simp [hx])
  rwa [h.sub_full hx] at this

theorem TreeRep.sub_head {t : ZDTree} {T : Forest} (_h : TreeRep t T) :
    Forest.sub t.head (Forest.full t T) = .nil := by
  simp [Forest.full, Forest.sub]

theorem Forest.sub_app_right {T : Forest} (Z : Forest) {x : Nat} (hx : x ∉ T.addrs) :
    Forest.sub x (T.app Z) = Forest.sub x Z := by
  induction T with
  | nil => rfl
  | node a c k r _ ihr =>
    simp only [Forest.addrs, List.mem_cons, List.mem_append, not_or] at hx
    have hax : ¬ a = x := fun h => hx.1 h.symm
    simp only [Forest.app, Forest.sub, hax, if_false, hx.2.1]
    exact ihr hx.2.2

theorem TreeRep.sub_feet {t : ZDTree} {T : Forest} (h : TreeRep t T) :
    Forest.sub t.feet (Forest.full t T) = .nil := by
  have hn := h.nodup
  rw [Forest.full_addrs] at hn
  obtain ⟨h1, h2⟩ := List.nodup_cons.mp hn
  have hne : ¬ t.head = t.feet := fun h3 => h1 (by simp [h3])
  have hft : t.feet ∉ T.addrs := by
    intro hin
    have := List.nodup_append.mp h2
    exact this.2.2 hin (by simp)
  simp only [Forest.full, Forest.sub, hne, if_false, Forest.addrs, List.not_mem_nil]
  rw [Forest.sub_app_right _ hft]
  simp [Forest.sub]

theorem TreeRep.mem_of_live {t : ZDTree} {T : Forest} (h : TreeRep t T) {b : Nat}
    (hb : (t.cells b).isSome) : b ∈ (Forest.full t T).addrs := by
  by_contra hnot
  rw [h.tight b hnot] at hb
  cases hb

theorem TreeRep.is_clean {t : ZDTree} {T : Forest} (h : TreeRep t T) : Clean t := by
  intro b hb
  apply h.tight
  intro hin
  have := h.bound b hin
  omega

/-! ## The top-level chain; characters of siblings -/

theorem Sibs.next_walk {t : ZDTree} (F : Forest) :
    ∀ {par prev : Option Nat}, Sibs t.cells F par prev → t.NextWalk F.first F.tops := by
  induction F with
  | nil => intro _ _ _; rfl
  | node a c k r _ ihr =>
    intro par prev hs
    exact ⟨rfl, _, hs.1, ihr hs.2.2⟩

theorem Sibs.prev_walk {t : ZDTree} (F : Forest) :
    ∀ {par prev : Option Nat}, Sibs t.cells F par prev → ∀ l, t.PrevWalk prev l →
      t.PrevWalk (match F.last with | some x => some x | none => prev)
        (F.tops.reverse ++ l) := by
  induction F with
  | nil => intro _ _ _ l hl; simpa [Forest.last, Forest.tops] using hl
  | node a c k r _ ihr =>
    intro par prev hs l hl
    have h1 : t.PrevWalk (some a) (a :: l) := ⟨rfl, _, hs.1, hl⟩
    have := ihr hs.2.2 (a :: l) h1
    simp only [Forest.last, Forest.tops, List.reverse_cons, List.append_assoc,
      List.singleton_append]
    cases hrl : r.last with
    | none => simpa [hrl] using this
    | some x => simpa [hrl] using this

theorem Sibs.top_data {m : Nat → Option TreeNode} (F : Forest) :
    ∀ {par prev : Option Nat}, Sibs m F par prev →
      List.Forall₂ (fun a c => ∃ n, m a = some n ∧ n.data = c) F.tops F.topData := by
  induction F with
  | nil => intro _ _ _; exact List.Forall₂.nil
  | node a c k r _ ihr =>
    intro par prev hs
    exact List.Forall₂.cons ⟨_, hs.1, rfl⟩ (ihr hs.2.2)

theorem Forest.insertWord_tops (T : Forest) (f : Nat) (lw : List Char) :
    (T.insertWord f lw).1.tops = T.tops := by
  induction lw with
  | nil => rfl
  | cons c rest ih =>
    simp only [Forest.insertWord]
    cases T.findChar c with
    | none => exact ih
    | some x => simp

/-- The public `remove_word` keeps the sentinels and the top-level nodes. -/
theorem remove_word_tops {d : ZDDictionary} {T : Forest} (h : DictRep d.m_internalTree T)
    (w : List Char) :
    ∃ d2 T2 b, d.remove_word w = .ok (d2, b) ∧ DictRep d2.m_internalTree T2 ∧
      T2.tops = T.tops ∧ d2.m_internalTree.head = d.m_internalTree.head ∧
      d2.m_internalTree.feet = d.m_internalTree.feet := by
  have hfor := remove_word_for_spec h (to_lower_case_word w).length 0
    (CxxString.ofList (to_lower_case_word w)) 1
  cases htar : T.removeTarget (to_lower_case_word w).length 0
      (CxxString.ofList (to_lower_case_word w)) 1 with
  | none =>
    rw [htar] at hfor
    exact ⟨d, T, false, by simp [ZDDictionary.remove_word, hfor], h, rfl, rfl, rfl⟩
  | some xe =>
    obtain ⟨x, e⟩ := xe
    rw [htar] at hfor
    obtain ⟨hx, he, hrun⟩ := hfor
    obtain ⟨t2, K2, h1, h2, h3, _⟩ := h.remove_at hx he
    exact ⟨⟨t2⟩, _, true, by simp [ZDDictionary.remove_word, hrun t2 h1], h3,
      Forest.tops_setChild _ _ _, h2.head_eq, h2.feet_eq⟩

/-- In every reachable state the top-level nodes are those of the new dictionary. -/
theorem Reachable.rep_seeded {d : ZDDictionary} (h : Reachable d) :
    ∃ T, DictRep d.m_internalTree T ∧ T.tops = List.range' 2 26 ∧
      d.m_internalTree.head = 0 ∧ d.m_internalTree.feet = 1 := by
  induction h with
  | new hnew =>
    rw [new_eq] at hnew
    cases Except.ok.inj hnew
    exact ⟨_, new_rep, by decide, newTree_fresh.2.1, newTree_fresh.2.2⟩
  | insert _ hins ih =>
    obtain ⟨T, hT, h1, h2, h3⟩ := ih
    obtain ⟨d3, he, hrep, hk, _⟩ := insert_word_spec hT _
    rw [hins] at he
    cases (Prod.mk.inj (Except.ok.inj he)).1
    exact ⟨_, hrep, by rw [Forest.insertWord_tops, h1], by rw [hk.head_eq, h2],
      by rw [hk.feet_eq, h3]⟩
  | remove _ hrem ih =>
    obtain ⟨T, hT, h1, h2, h3⟩ := ih
    obtain ⟨d3, T2, b, he, hrep, h4, h5, h6⟩ := remove_word_tops hT _
    rw [hrem] at he
    cases (Prod.mk.inj (Except.ok.inj he)).1
    exact ⟨T2, hrep, by rw [h4, h1], by rw [h5, h2], by rw [h6, h3]⟩

theorem DictRep.next_walk_full {t : ZDTree} {T : Forest} (h : DictRep t T) :
    t.NextWalk (some t.head) (t.head :: T.tops ++ [t.feet]) := by
  have := Sibs.next_walk _ h.sibs
  simpa [Forest.full, Forest.tops] using this

theorem DictRep.prev_walk_full {t : ZDTree} {T : Forest} (h : DictRep t T) :
    t.PrevWalk (some t.feet) (t.feet :: T.tops.reverse ++ [t.head]) := by
  have := Sibs.prev_walk _ h.sibs [] rfl
  have hl : (Forest.full t T).last = some t.feet := by
    simp [Forest.full, Forest.last, Forest.last_app]
  rw [hl] at this
  simpa [Forest.full, Forest.tops] using this

theorem Sibs.top_data_app {m : Nat → Option TreeNode} (T Z : Forest) :
    ∀ {par prev : Option Nat}, Sibs m (T.app Z) par prev →
      List.Forall₂ (fun a c => ∃ n, m a = some n ∧ n.data = c) T.tops T.topData := by
  induction T with
  | nil => intro _ _ _; exact List.Forall₂.nil
  | node a c k r _ ihr =>
    intro par prev hs
    exact List.Forall₂.cons ⟨_, hs.1, rfl⟩ (ihr hs.2.2)

theorem DictRep.top_letters {t : ZDTree} {T : Forest} (h : DictRep t T) :
    List.Forall₂ (fun a c => ∃ n, t.cells a = some n ∧ n.data = c) T.tops FrenchAlphabet := by
  have h1 := Sibs.top_data_app _ _ h.top_sibs
  rwa [h.letters] at h1

/-! ## ZDTree::insert -/

theorem insert_none (t : ZDTree) (x : Char) : t.insert none x = t.insert (some t.feet) x := by
  simp [ZDTree.insert]

/-- The two overloads of `insert` agree at every position other than `head`. -/
theorem insert_move_eq (t : ZDTree) {position : Option Nat} (x : Char)
    (h : (if position = none then some t.feet else position) ≠ some t.head) :
    t.insert_move position x = t.insert position x := by
  simp only [ZDTree.insert, ZDTree.insert_move, h, if_false]
  rfl

/-- What `insert` does to the store when `position` has a previous sibling. -/
theorem insert_cells_prev {t : ZDTree} {p q : Nat} {pn nq : TreeNode} (x : Char)
    (hp : t.cells p = some pn) (hq : pn.prev_sibling = some q) (hnq : t.cells q = some nq)
    (hqp : q ≠ p) (hpf : p < t.fresh) (hqf : q < t.fresh) (hh : p ≠ t.head) :
    ∃ t2, t.insert (some p) x = .ok (t2, some t.fresh) ∧
      t2.fresh = t.fresh + 1 ∧ t2.head = t.head ∧ t2.feet = t.feet ∧
      t2.cells t.fresh = some ⟨pn.parent, none, none, some q, some p, x⟩ ∧
      t2.cells p = some { pn with prev_sibling := some t.fresh } ∧
      t2.cells q = some { nq with next_sibling := some t.fresh } ∧
      (∀ b, b ≠ t.fresh → b ≠ p → b ≠ q → t2.cells b = t.cells b) := by
  have h1 : p ≠ t.fresh := by omega
  have h2 : t.fresh ≠ p := by omega
  have h3 : q ≠ t.fresh := by omega
  have h4 : t.fresh ≠ q := by omega
  have h5 : p ≠ q := fun h => hqp h.symm
  simp [ZDTree.insert, hh, ZDTree.allocate, ZDTree.update, ZDTree.read, ZDTree.write, hp, hq,
    hnq, h1, h2, h3, h4, h5, hqp]
  intro b hb1 hb2 hb3
  simp [hb1, hb2, hb3]

/-- What `insert` does to the store when `position` is a first child. -/
theorem insert_cells_first {t : ZDTree} {p a : Nat} {pn na : TreeNode} (x : Char)
    (hp : t.cells p = some pn) (hprev : pn.prev_sibling = none) (hpar : pn.parent = some a)
    (hna : t.cells a = some na) (hap : a ≠ p) (hpf : p < t.fresh) (haf : a < t.fresh)
    (hh : p ≠ t.head) :
    ∃ t2, t.insert (some p) x = .ok (t2, some t.fresh) ∧
      t2.fresh = t.fresh + 1 ∧ t2.head = t.head ∧ t2.feet = t.feet ∧
      t2.cells t.fresh = some ⟨some a, none, none, none, some p, x⟩ ∧
      t2.cells p = some { pn with prev_sibling := some t.fresh } ∧
      t2.cells a = some { na with first_child := some t.fresh } ∧
      (∀ b, b ≠ t.fresh → b ≠ p → b ≠ a → t2.cells b = t.cells b) := by
  have h1 : p ≠ t.fresh := by omega
  have h2 : t.fresh ≠ p := by omega
  have h3 : a ≠ t.fresh := by omega
  have h4 : t.fresh ≠ a := by omega
  have h5 : p ≠ a := fun h => hap h.symm
  simp [ZDTree.insert, hh, ZDTree.allocate, ZDTree.update, ZDTree.read, ZDTree.write, hp,
    hprev, hpar, hna, h1, h2, h3, h4, h5, hap]
  intro b hb1 hb2 hb3
  simp [hb1, hb2, hb3]

/-! ## Where the links of a node lead -/

/-- The `prev_sibling` and `parent` links of a node of the forest. -/
theorem Sibs.prev_pointer {m : Nat → Option TreeNode} {p : Nat} (F : Forest) :
    ∀ {par prev : Option Nat}, Sibs m F par prev → F.addrs.Nodup → p ∈ F.addrs →
      ∃ pn, m p = some pn ∧
        ((F.first = some p ∧ pn.prev_sibling = prev ∧ pn.parent = par) ∨
         (∃ q nq, q ∈ F.addrs ∧ q ≠ p ∧ pn.prev_sibling = some q ∧ m q = some nq ∧
            nq.next_sibling = some p) ∨
         (pn.prev_sibling = none ∧ ∃ a na, a ∈ F.addrs ∧ a ≠ p ∧ pn.parent = some a ∧
            m a = some na ∧ na.first_child = some p)) := by
  induction F with
  | nil => intro _ _ _ _ hp; simp [Forest.addrs] at hp
  | node a0 c k r ihk ihr =>
    intro par prev hs hn hp
    simp only [Forest.addrs, List.nodup_cons, List.nodup_append, List.mem_append, not_or] at hn
    obtain ⟨⟨hak, har⟩, hk, hr, _⟩ := hn
    simp only [Forest.addrs, List.mem_cons, List.mem_append] at hp
    rcases hp with hp | hp | hp
    · subst hp
      exact ⟨_, hs.1, Or.inl ⟨rfl, rfl, rfl⟩⟩
    · obtain ⟨pn, hpn, hcase⟩ := ihk hs.2.1 hk hp
      have hne : a0 ≠ p := fun h => hak (h ▸ hp)
      refine ⟨pn, hpn, ?_⟩
      rcases hcase with ⟨h1, h2, h3⟩ | ⟨q, nq, h1, h2, h3, h4, h5⟩ | ⟨h0, a, na, h1, h2, h3, h4, h5⟩
      · exact Or.inr (Or.inr ⟨h2, a0, _, by simp [Forest.addrs], hne, h3, hs.1, h1⟩)
      · exact Or.inr (Or.inl ⟨q, nq, by simp [Forest.addrs, h1], h2, h3, h4, h5⟩)
      · exact Or.inr (Or.inr ⟨h0, a, na, by simp [Forest.addrs, h1], h2, h3, h4, h5⟩)
    · obtain ⟨pn, hpn, hcase⟩ := ihr hs.2.2 hr hp
      have hne : a0 ≠ p := fun h => har (h ▸ hp)
      refine ⟨pn, hpn, ?_⟩
      rcases hcase with ⟨h1, h2, h3⟩ | ⟨q, nq, h1, h2, h3, h4, h5⟩ | ⟨h0, a, na, h1, h2, h3, h4, h5⟩
      · exact Or.inr (Or.inl ⟨a0, _, by simp [Forest.addrs], hne, h2, hs.1, h1⟩)
      · exact Or.inr (Or.inl ⟨q, nq, by simp [Forest.addrs, h1], h2, h3, h4, h5⟩)
      · exact Or.inr (Or.inr ⟨h0, a, na, by simp [Forest.addrs, h1], h2, h3, h4, h5⟩)

/-- The `next_sibling` and `parent` links of a node of the forest. -/
theorem Sibs.next_pointer {m : Nat → Option TreeNode} {p : Nat} (F : Forest) :
    ∀ {par prev : Option Nat}, Sibs m F par prev → F.addrs.Nodup → p ∈ F.addrs →
      ∃ pn, m p = some pn ∧
        ((F.last = some p ∧ pn.next_sibling = none ∧ pn.parent = par) ∨
         (∃ q nq, q ∈ F.addrs ∧ q ≠ p ∧ pn.next_sibling = some q ∧ m q = some nq ∧
            nq.prev_sibling = some p) ∨
         (pn.next_sibling = none ∧ ∃ a na, a ∈ F.addrs ∧ a ≠ p ∧ pn.parent = some a ∧
            m a = some na ∧ na.last_child = some p)) := by
  induction F with
  | nil => intro _ _ _ _ hp; simp [Forest.addrs] at hp
  | node a0 c k r ihk ihr =>
    intro par prev hs hn hp
    simp only [Forest.addrs, List.nodup_cons, List.nodup_append, List.mem_append, not_or] at hn
    obtain ⟨⟨hak, har⟩, hk, hr, _⟩ := hn
    simp only [Forest.addrs, List.mem_cons, List.mem_append] at hp
    rcases hp with hp | hp | hp
    · subst hp
      refine ⟨_, hs.1, ?_⟩
      cases r with
      | nil => exact Or.inl ⟨by simp [Forest.last], rfl, rfl⟩
      | node b d kb rb =>
        refine Or.inr (Or.inl ⟨b, _, by simp [Forest.addrs], ?_, rfl, hs.2.2.1, rfl⟩)
        intro h
        exact har (by simp [Forest.addrs, h])
    · obtain ⟨pn, hpn, hcase⟩ := ihk hs.2.1 hk hp
      have hne : a0 ≠ p := fun h => hak (h ▸ hp)
      refine ⟨pn, hpn, ?_⟩
      rcases hcase with ⟨h1, h2, h3⟩ | ⟨q, nq, h1, h2, h3, h4, h5⟩ | ⟨h0, a, na, h1, h2, h3, h4, h5⟩
      · exact Or.inr (Or.inr ⟨h2, a0, _, by simp [Forest.addrs], hne, h3, hs.1, h1⟩)
      · exact Or.inr (Or.inl ⟨q, nq, by simp [Forest.addrs, h1], h2, h3, h4, h5⟩)
      · exact Or.inr (Or.inr ⟨h0, a, na, by simp [Forest.addrs, h1], h2, h3, h4, h5⟩)
    · obtain ⟨pn, hpn, hcase⟩ := ihr hs.2.2 hr hp
      refine ⟨pn, hpn, ?_⟩
      rcases hcase with ⟨h1, h2, h3⟩ | ⟨q, nq, h1, h2, h3, h4, h5⟩ | ⟨h0, a, na, h1, h2, h3, h4, h5⟩
      · exact Or.inl ⟨by simp [Forest.last, h1], h2, h3⟩
      · exact Or.inr (Or.inl ⟨q, nq, by simp [Forest.addrs, h1], h2, h3, h4, h5⟩)
      · exact Or.inr (Or.inr ⟨h0, a, na, by simp [Forest.addrs, h1], h2, h3, h4, h5⟩)

theorem Forest.full_first (t : ZDTree) (T : Forest) : (Forest.full t T).first = some t.head := rfl

theorem Forest.full_last (t : ZDTree) (T : Forest) : (Forest.full t T).last = some t.feet := by
  simp [Forest.full, Forest.last, Forest.last_app]

/-- In a well-formed tree a node other than `head` has an allocated previous sibling
whose `next_sibling` it is, or no previous sibling and an allocated parent whose
`first_child` it is. -/
theorem TreeRep.prev_or_parent {t : ZDTree} {T : Forest} (h : TreeRep t T) {p : Nat}
    (hp : p ∈ (Forest.full t T).addrs) (hh : p ≠ t.head) :
    ∃ pn, t.cells p = some pn ∧
      ((∃ q nq, q ∈ (Forest.full t T).addrs ∧ q ≠ p ∧ pn.prev_sibling = some q ∧
          t.cells q = some nq ∧ nq.next_sibling = some p) ∨
       (pn.prev_sibling = none ∧ ∃ a na, a ∈ (Forest.full t T).addrs ∧ a ≠ p ∧
          pn.parent = some a ∧ t.cells a = some na ∧ na.first_child = some p)) := by
  obtain ⟨pn, hpn, hcase⟩ := Sibs.prev_pointer _ h.sibs h.nodup hp
  refine ⟨pn, hpn, ?_⟩
  rcases hcase with ⟨h1, _, _⟩ | h2 | h3
  · rw [Forest.full_first] at h1
    exact absurd (Option.some.inj h1).symm hh
  · exact Or.inl h2
  · exact Or.inr h3

/-- In a well-formed tree a node other than `feet` has an allocated next sibling whose
`prev_sibling` it is, or no next sibling and an allocated parent whose `last_child` it
is. -/
theorem TreeRep.next_or_parent {t : ZDTree} {T : Forest} (h : TreeRep t T) {p : Nat}
    (hp : p ∈ (Forest.full t T).addrs) (hf : p ≠ t.feet) :
    ∃ pn, t.cells p = some pn ∧
      ((∃ q nq, q ∈ (Forest.full t T).addrs ∧ q ≠ p ∧ pn.next_sibling = some q ∧
          t.cells q = some nq ∧ nq.prev_sibling = some p) ∨
       (pn.next_sibling = none ∧ ∃ a na, a ∈ (Forest.full t T).addrs ∧ a ≠ p ∧
          pn.parent = some a ∧ t.cells a = some na ∧ na.last_child = some p)) := by
  obtain ⟨pn, hpn, hcase⟩ := Sibs.next_pointer _ h.sibs h.nodup hp
  refine ⟨pn, hpn, ?_⟩
  rcases hcase with ⟨h1, _, _⟩ | h2 | h3
  · rw [Forest.full_last] at h1
    exact absurd (Option.some.inj h1).symm hf
  · exact Or.inl h2
  · exact Or.inr h3

/-! ## Replacing the children of a node anywhere in a forest -/

theorem Forest.graft_of_not_mem {F : Forest} {x : Nat} (K2 : Forest) (hx : x ∉ F.addrs) :
    F.graft x K2 = F := by
  induction F with
  | nil => rfl
  | node a c k r ihk ihr =>
    simp only [Forest.addrs, List.mem_cons, List.mem_append, not_or] at hx
    have hax : ¬ a = x := fun h => hx.1 h.symm
    simp only [Forest.graft, hax, if_false, ihk hx.2.1, ihr hx.2.2]

@[simp] theorem Forest.tops_graft (F : Forest) (x : Nat) (K2 : Forest) :
    (F.graft x K2).tops = F.tops := by
  induction F with
  | nil => rfl
  | node a c k r _ ihr =>
    simp only [Forest.graft]
    split
    · simp [Forest.tops]
    · simp [Forest.tops, ihr]

@[simp] theorem Forest.first_graft (F : Forest) (x : Nat) (K2 : Forest) :
    (F.graft x K2).first = F.first := by
  cases F with
  | nil => rfl
  | node a c k r =>
    simp only [Forest.graft]
    split <;> rfl

@[simp] theorem Forest.last_graft (F : Forest) (x : Nat) (K2 : Forest) :
    (F.graft x K2).last = F.last := by
  induction F with
  | nil => rfl
  | node a c k r _ ihr =>
    simp only [Forest.graft]
    split
    · simp [Forest.last]
    · simp [Forest.last, ihr]

theorem Forest.mem_addrs_graft {F : Forest} {x : Nat} {K2 : Forest} {b : Nat}
    (h : b ∈ (F.graft x K2).addrs) : b ∈ F.addrs ∨ b ∈ K2.addrs := by
  induction F with
  | nil => simp [Forest.graft, Forest.addrs] at h
  | node a c k r ihk ihr =>
    simp only [Forest.graft] at h
    simp only [Forest.addrs, List.mem_cons, List.mem_append]
    split at h
    · simp only [Forest.addrs, List.mem_cons, List.mem_append] at h
      rcases h with h | h | h
      · exact Or.inl (Or.inl h)
      · exact Or.inr h
      · exact Or.inl (Or.inr (Or.inr h))
    · simp only [Forest.addrs, List.mem_cons, List.mem_append] at h
      rcases h with h | h | h
      · exact Or.inl (Or.inl h)
      · rcases ihk h with h2 | h2
        · exact Or.inl (Or.inr (Or.inl h2))
        · exact Or.inr h2
      · rcases ihr h with h2 | h2
        · exact Or.inl (Or.inr (Or.inr h2))
        · exact Or.inr h2

theorem Forest.mem_addrs_graft_of_mem {F : Forest} {x : Nat} (K2 : Forest) {b : Nat}
    (hn : F.addrs.Nodup) (h : b ∈ F.addrs) (hb : b ∉ (Forest.sub x F).addrs) :
    b ∈ (F.graft x K2).addrs := by
  induction F with
  | nil => simp [Forest.addrs] at h
  | node a c k r ihk ihr =>
    simp only [Forest.addrs, List.nodup_cons, List.nodup_append, List.mem_append, not_or] at hn
    obtain ⟨⟨_, _⟩, hk, hr, hdis⟩ := hn
    simp only [Forest.addrs, List.mem_cons, List.mem_append] at h
    simp only [Forest.sub] at hb
    simp only [Forest.graft]
    by_cases hax : a = x
    · simp only [hax, if_true] at hb ⊢
      simp only [Forest.addrs, List.mem_cons, List.mem_append]
      rcases h with h | h | h
      · exact Or.inl (hax ▸ h)
      · exact absurd h hb
      · exact Or.inr (Or.inr h)
    · simp only [hax, if_false] at hb ⊢
      simp only [Forest.addrs, List.mem_cons, List.mem_append]
      by_cases hxk : x ∈ k.addrs
      · simp only [hxk, if_true] at hb
        have hxr : x ∉ r.addrs := fun h2 => hdis hxk h2
        rw [Forest.graft_of_not_mem K2 hxr]
        rcases h with h | h | h
        · exact Or.inl h
        · exact Or.inr (Or.inl (ihk hk h hb))
        · exact Or.inr (Or.inr h)
      · simp only [hxk, if_false] at hb
        rw [Forest.graft_of_not_mem K2 hxk]
        rcases h with h | h | h
        · exact Or.inl h
        · exact Or.inr (Or.inl h)
        · exact Or.inr (Or.inr (ihr hr h hb))

theorem Forest.mem_addrs_graft_of_new {F : Forest} {x : Nat} (K2 : Forest) {b : Nat}
    (hx : x ∈ F.addrs) (hb : b ∈ K2.addrs) : b ∈ (F.graft x K2).addrs := by
  induction F with
  | nil => simp [Forest.addrs] at hx
  | node a c k r ihk ihr =>
    simp only [Forest.addrs, List.mem_cons, List.mem_append] at hx
    simp only [Forest.graft]
    by_cases hax : a = x
    · simp only [hax, if_true, Forest.addrs, List.mem_cons, List.mem_append]
      exact Or.inr (Or.inl hb)
    · simp only [hax, if_false, Forest.addrs, List.mem_cons, List.mem_append]
      rcases hx with hx | hx | hx
      · exact absurd hx.symm hax
      · exact Or.inr (Or.inl (ihk hx))
      · exact Or.inr (Or.inr (ihr hx))

theorem Forest.nodup_graft {F : Forest} {x : Nat} {K2 : Forest} (hn : F.addrs.Nodup)
    (h2 : K2.addrs.Nodup)
    (hnew : ∀ b ∈ K2.addrs, b ∈ (Forest.sub x F).addrs ∨ b ∉ F.addrs) :
    (F.graft x K2).addrs.Nodup := by
  induction F with
  | nil => simp [Forest.graft, Forest.addrs]
  | node a c k r ihk ihr =>
    simp only [Forest.addrs, List.nodup_cons, List.nodup_append, List.mem_append, not_or] at hn
    obtain ⟨⟨hak, har⟩, hk, hr, hdis⟩ := hn
    simp only [Forest.graft]
    by_cases hax : a = x
    · simp only [hax, if_true, Forest.addrs, List.nodup_cons, List.nodup_append,
        List.mem_append, not_or]
      simp only [Forest.sub, hax, if_true] at hnew
      subst hax
      refine ⟨⟨?_, har⟩, h2, hr, ?_⟩
      · intro hin
        rcases hnew a hin with h | h
        · exact hak h
        · exact h (by simp [Forest.addrs])
      · intro b hb1 hb2
        rcases hnew b hb1 with h | h
        · exact hdis h hb2
        · exact h (by simp [Forest.addrs, hb2])
    · simp only [hax, if_false, Forest.addrs, List.nodup_cons, List.nodup_append,
        List.mem_append, not_or]
      simp only [Forest.sub, hax, if_false] at hnew
      by_cases hxk : x ∈ k.addrs
      · simp only [hxk, if_true] at hnew
        have hxr : x ∉ r.addrs := fun h3 => hdis hxk h3
        rw [Forest.graft_of_not_mem K2 hxr]
        have hsub := Forest.sub_addrs_subset x k
        have hnew2 : ∀ b ∈ K2.addrs, b ∈ (Forest.sub x k).addrs ∨ b ∉ k.addrs := by
          intro b hb
          rcases hnew b hb with h | h
          · exact Or.inl h
          · right; intro hbk; exact h (by simp [Forest.addrs, hbk])
        refine ⟨⟨?_, har⟩, ihk hk hnew2, hr, ?_⟩
        · intro hin
          rcases Forest.mem_addrs_graft hin with h | h
          · exact hak h
          · rcases hnew a h with h3 | h3
            · exact hak (hsub a h3)
            · exact h3 (by simp [Forest.addrs])
        · intro b hb1 hb2
          rcases Forest.mem_addrs_graft hb1 with h | h
          · exact hdis h hb2
          · rcases hnew b h with h3 | h3
            · exact hdis (hsub b h3) hb2
            · exact h3 (by simp [Forest.addrs, hb2])
      · simp only [hxk, if_false] at hnew
        rw [Forest.graft_of_not_mem K2 hxk]
        have hsub := Forest.sub_addrs_subset x r
        have hnew2 : ∀ b ∈ K2.addrs, b ∈ (Forest.sub x r).addrs ∨ b ∉ r.addrs := by
          intro b hb
          rcases hnew b hb with h | h
          · exact Or.inl h
          · right; intro hbr; exact h (by simp [Forest.addrs, hbr])
        refine ⟨⟨hak, ?_⟩, hk, ihr hr hnew2, ?_⟩
        · intro hin
          rcases Forest.mem_addrs_graft hin with h | h
          · exact har h
          · rcases hnew a h with h3 | h3
            · exact har (hsub a h3)
            · exact h3 (by simp [Forest.addrs])
        · intro b hb1 hb2
          rcases Forest.mem_addrs_graft hb2 with h | h
          · exact hdis hb1 h
          · rcases hnew b h with h3 | h3
            · exact hdis hb1 (hsub b h3)
            · exact h3 (by simp [Forest.addrs, hb1])

/-- Replacing the children of a node anywhere in the forest, given the cells of the
new children. -/
theorem Sibs.graft_cells {m m2 : Nat → Option TreeNode} {x : Nat} {K2 : Forest} (F : Forest) :
    ∀ {par prev : Option Nat}, Sibs m F par prev → F.addrs.Nodup → x ∈ F.addrs →
      (∀ n, m x = some n →
        m2 x = some { n with first_child := K2.first, last_child := K2.last }) →
      Sibs m2 K2 (some x) none →
      (∀ b ∈ F.addrs, b ≠ x → b ∉ (Forest.sub x F).addrs → m2 b = m b) →
      Sibs m2 (F.graft x K2) par prev := by
  induction F with
  | nil => intro _ _ _ _ hx; simp [Forest.addrs] at hx
  | node a c k r ihk ihr =>
    intro par prev hs hn hx hnode hsib hframe
    simp only [Forest.addrs, List.nodup_cons, List.nodup_append, List.mem_append, not_or] at hn
    obtain ⟨⟨hak, har⟩, hk, hr, hdis⟩ := hn
    simp only [Forest.addrs, List.mem_cons, List.mem_append] at hx
    simp only [Forest.graft]
    by_cases hax : a = x
    · subst hax
      simp only [if_true]
      simp only [Forest.sub, if_true] at hframe
      refine ⟨?_, hsib, ?_⟩
      · have := hnode _ hs.1
        simpa using this
      · refine Sibs.congr ?_ hs.2.2
        intro b hb
        apply hframe b (by simp [Forest.addrs, hb])
        · intro h; exact har (h ▸ hb)
        · intro h; exact hdis h hb
    · simp only [hax, if_false]
      simp only [Forest.sub, hax, if_false] at hframe
      by_cases hxk : x ∈ k.addrs
      · simp only [hxk, if_true] at hframe
        have hxr : x ∉ r.addrs := fun h3 => hdis hxk h3
        have hsub := Forest.sub_addrs_subset x k
        rw [Forest.graft_of_not_mem K2 hxr]
        refine ⟨?_, ?_, ?_⟩
        · rw [hframe a (by simp [Forest.addrs]) hax (fun h => hak (hsub a h))]
          rw [Forest.first_graft, Forest.last_graft]; exact hs.1
        · apply ihk hs.2.1 hk hxk hnode hsib
          intro b hb hbx hbc
          exact hframe b (by simp [Forest.addrs, hb]) hbx hbc
        · refine Sibs.congr ?_ hs.2.2
          intro b hb
          apply hframe b (by simp [Forest.addrs, hb])
          · intro h; exact hxr (h ▸ hb)
          · intro h; exact hdis (hsub b h) hb
      · simp only [hxk, if_false] at hframe
        have hxr : x ∈ r.addrs := by
          rcases hx with hx | hx | hx
          · exact absurd hx.symm hax
          · exact absurd hx hxk
          · exact hx
        have hsub := Forest.sub_addrs_subset x r
        rw [Forest.graft_of_not_mem K2 hxk]
        refine ⟨?_, ?_, ?_⟩
        · rw [hframe a (by simp [Forest.addrs]) hax (fun h => har (hsub a h))]
          rw [Forest.first_graft]; exact hs.1
        · refine Sibs.congr ?_ hs.2.1
          intro b hb
          apply hframe b (by simp [Forest.addrs, hb])
          · intro h; exact hxk (h ▸ hb)
          · intro h; exact hdis hb (hsub b h)
        · apply ihr hs.2.2 hr hxr hnode hsib
          intro b hb hbx hbc
          exact hframe b (by simp [Forest.addrs, hb]) hbx hbc

theorem Forest.graft_app_left {T : Forest} (Z : Forest) (x : Nat) (K2 : Forest)
    (hx : x ∉ Z.addrs) : (T.app Z).graft x K2 = (T.graft x K2).app Z := by
  induction T with
  | nil => simp [Forest.app, Forest.graft, Forest.graft_of_not_mem K2 hx]
  | node a c k r _ ihr =>
    simp only [Forest.app, Forest.graft]
    split
    · simp [Forest.app]
    · simp [Forest.app, ihr]

theorem Forest.graft_full {t : ZDTree} {T : Forest} (x : Nat) (K2 : Forest)
    (hh : x ≠ t.head) (hf : x ≠ t.feet) :
    (Forest.full t T).graft x K2 = Forest.full t (T.graft x K2) := by
  have h1 : ¬ t.head = x := fun h => hh h.symm
  have h2 : x ∉ (Forest.node t.feet '\x00' .nil .nil).addrs := by
    simp [Forest.addrs, hf]
  simp only [Forest.full, Forest.graft, h1, if_false, Forest.graft_app_left _ _ _ h2]

/-- A change of the children of a node anywhere in the tree keeps it well-formed. -/
theorem TreeRep.regraft_deep {t t2 : ZDTree} {T : Forest} (h : TreeRep t T) {a : Nat} {K2 : Forest}
    (ha : a ∈ T.addrs) (r : Regraft t t2 a (Forest.sub a T) K2) :
    TreeRep t2 (T.graft a K2) := by
  have hn := h.nodup
  have hn2 := hn
  rw [Forest.full_addrs] at hn2
  obtain ⟨hhd, hn3⟩ := List.nodup_cons.mp hn2
  have hah : a ≠ t.head := fun h2 => hhd (by simp [← h2, ha])
  have haf : a ≠ t.feet := by
    intro h2
    exact (List.nodup_append.mp hn3).2.2 ha (by simp [h2])
  have haF : a ∈ (Forest.full t T).addrs := by rw [Forest.full_addrs]; simp [ha]
  have hsubF := h.sub_full ha
  have hfull : Forest.full t2 (T.graft a K2) = (Forest.full t T).graft a K2 := by
    rw [Forest.graft_full a K2 hah haf]
    simp [Forest.full, r.head_eq, r.feet_eq]
  have hbF : ∀ b ∈ (Forest.full t T).addrs, b < t.fresh := h.bound
  have hnew : ∀ b ∈ K2.addrs,
      b ∈ (Forest.sub a (Forest.full t T)).addrs ∨ b ∉ (Forest.full t T).addrs := by
    intro b hb
    rw [hsubF]
    rcases r.addrs b hb with h1 | h1
    · exact Or.inl h1
    · right; intro hin; have := hbF b hin; omega
  refine ⟨?_, ?_, ?_, ?_⟩
  all_goals rw [hfull]
  · apply Sibs.graft_cells _ h.sibs hn haF r.node r.sibs
    intro b hb hba hbk
    rw [hsubF] at hbk
    exact r.frame b (hbF b hb) hba hbk
  · exact Forest.nodup_graft hn r.nodup hnew
  · intro b hb
    rcases Forest.mem_addrs_graft hb with h1 | h1
    · have := hbF b h1; have := r.fresh_le; omega
    · rcases r.addrs b h1 with h3 | h3
      · have := hbF b (by rw [Forest.full_addrs]; simp [Forest.sub_addrs_subset a T b h3])
        have := r.fresh_le; omega
      · exact h3.2
  · intro b hb
    have hb2 : b ∉ K2.addrs := fun hin => hb (Forest.mem_addrs_graft_of_new K2 haF hin)
    by_cases hbk : b ∈ (Forest.sub a T).addrs
    · exact r.gone b (Or.inl hbk) hb2
    · by_cases hlt : b < t.fresh
      · have hbF2 : b ∉ (Forest.full t T).addrs := by
          intro hin
          apply hb
          exact Forest.mem_addrs_graft_of_mem K2 hn hin (by rw [hsubF]; exact hbk)
        have hba : b ≠ a := fun h2 => hbF2 (h2 ▸ haF)
        rw [r.frame b hlt hba hbk]
        exact h.tight b hbF2
      · exact r.gone b (Or.inr (by omega)) hb2

/-! ## erase_children -/

theorem deallocate_cells_same (t : ZDTree) (a : Nat) : (t.deallocate a).cells a = none := by
  simp [ZDTree.deallocate]

theorem deallocate_cells_other (t : ZDTree) {a b : Nat} (h : b ≠ a) :
    (t.deallocate a).cells b = t.cells b := by
  simp [ZDTree.deallocate, h]

/-- The loop of `erase_children` frees the nodes of a sibling list and everything below
them, and nothing else. -/
theorem erase_children_loop_spec (S : Forest) :
    ∀ (t : ZDTree) (par prev : Option Nat) (fuel : Nat), Sibs t.cells S par prev →
      S.addrs.Nodup → 2 * S.addrs.length ≤ fuel →
      ∃ t2, ZDTree.erase_children_loop fuel t S.first = .ok t2 ∧
        t2.fresh = t.fresh ∧ t2.head = t.head ∧ t2.feet = t.feet ∧
        (∀ b ∈ S.addrs, t2.cells b = none) ∧ (∀ b, b ∉ S.addrs → t2.cells b = t.cells b) := by
  induction S with
  | nil =>
    intro t par prev fuel _ _ _
    refine ⟨t, ?_, rfl, rfl, rfl, by simp [Forest.addrs], fun _ _ => rfl⟩
    cases fuel <;> simp [ZDTree.erase_children_loop, Forest.first]
  | node x c k r ihk ihr =>
    intro t par prev fuel hs hn hfuel
    simp only [Forest.addrs, List.nodup_cons, List.nodup_append, List.mem_append, not_or] at hn
    obtain ⟨⟨hxk, hxr⟩, hk, hr, hdis⟩ := hn
    simp only [Forest.addrs, List.length_cons, List.length_append] at hfuel
    obtain ⟨f, rfl⟩ : ∃ f, fuel = f + 2 := ⟨fuel - 2, by omega⟩
    obtain ⟨t1, h1, h1f, h1h, h1t, h1g, h1s⟩ := ihk t (some x) none f hs.2.1 hk (by omega)
    have hx1 : t1.cells x = some ⟨par, k.first, k.last, prev, r.first, c⟩ := by
      rw [h1s x hxk]; exact hs.1
    -- the store after the two assignments and the release of `x`
    have hsr : Sibs ((((t1.write x { (⟨par, k.first, k.last, prev, r.first, c⟩ : TreeNode) with
        first_child := none }).write x
          { ({ (⟨par, k.first, k.last, prev, r.first, c⟩ : TreeNode) with
            first_child := none } : TreeNode) with last_child := none }).deallocate x).cells)
        r par (some x) := by
      refine Sibs.congr ?_ hs.2.2
      intro b hb
      have hbx : b ≠ x := fun h => hxr (h ▸ hb)
      rw [deallocate_cells_other _ hbx, write_cells_other _ _ hbx, write_cells_other _ _ hbx]
      exact h1s b (fun h => hdis h hb)
    obtain ⟨t2, h2, h2f, h2h, h2t, h2g, h2s⟩ := ihr _ par (some x) (f + 1) hsr hr (by omega)
    refine ⟨t2, ?_, ?_, ?_, ?_, ?_, ?_⟩
    · simp only [Forest.first_node, ZDTree.erase_children_loop, read_some hs.1, bind_ok,
        ZDTree.erase_children, h1, update_some _ hx1, update_some _ (write_cells_same _ _ _)]
      exact h2
    · rw [h2f]; exact h1f
    · rw [h2h]; exact h1h
    · rw [h2t]; exact h1t
    · intro b hb
      simp only [Forest.addrs, List.mem_cons, List.mem_append] at hb
      by_cases hbr : b ∈ r.addrs
      · exact h2g b hbr
      · rw [h2s b hbr]
        rcases hb with hb | hb | hb
        · subst hb; exact deallocate_cells_same _ _
        · have hbx : b ≠ x := fun h => hxk (h ▸ hb)
          rw [deallocate_cells_other _ hbx, write_cells_other _ _ hbx,
            write_cells_other _ _ hbx]
          exact h1g b hb
        · exact absurd hb hbr
    · intro b hb
      simp only [Forest.addrs, List.mem_cons, List.mem_append, not_or] at hb
      rw [h2s b hb.2.2, deallocate_cells_other _ hb.1, write_cells_other _ _ hb.1,
        write_cells_other _ _ hb.1]
      exact h1s b hb.2.1

/-- `erase_children` frees everything below the node and leaves it without children. -/
theorem erase_children_spec {t : ZDTree} {a : Nat} {K : Forest} (h : Owns t a K) (hc : Clean t)
    (fuel : Nat) (hfuel : 2 * K.addrs.length + 1 ≤ fuel) :
    ∃ t2 n, t.cells a = some n ∧ ZDTree.erase_children fuel t (some a) = .ok t2 ∧
      t2.fresh = t.fresh ∧
      t2.cells a = some { n with first_child := none, last_child := none } ∧
      (∀ b ∈ K.addrs, t2.cells b = none) ∧
      (∀ b, b ≠ a → b ∉ K.addrs → t2.cells b = t.cells b) ∧
      Regraft t t2 a K .nil := by
  obtain ⟨n, hn, hfc, hlc⟩ := h.live
  have hak : a ∉ K.addrs := (List.nodup_cons.mp h.nodup).1
  have hkn : K.addrs.Nodup := (List.nodup_cons.mp h.nodup).2
  obtain ⟨f, rfl⟩ : ∃ f, fuel = f + 1 := ⟨fuel - 1, by omega⟩
  obtain ⟨t1, h1, h1f, h1h, h1t, h1g, h1s⟩ :=
    erase_children_loop_spec K t (some a) none f h.sibs hkn (by omega)
  have ha1 : t1.cells a = some n := by rw [h1s a hak]; exact hn
  have hrun : ∃ t2, ZDTree.erase_children (f + 1) t (some a) = .ok t2 ∧
      t2.fresh = t1.fresh ∧ t2.head = t1.head ∧ t2.feet = t1.feet ∧
      t2.cells a = some { n with first_child := none, last_child := none } ∧
      ∀ b, b ≠ a → t2.cells b = t1.cells b := by
    refine ⟨(t1.write a { n with first_child := none }).write a
      { ({ n with first_child := none } : TreeNode) with last_child := none }, ?_, rfl, rfl, rfl,
      by simp, ?_⟩
    · simp only [ZDTree.erase_children, read_some hn, bind_ok, hfc, h1, update_some _ ha1,
        update_some _ (write_cells_same _ _ _)]
    · intro b hb
      rw [write_cells_other _ _ hb, write_cells_other _ _ hb]
  obtain ⟨t2, hrun, h2f, h2h, h2t, h2a, hcell⟩ := hrun
  have haf : a < t.fresh := h.bound a (by simp)
  refine ⟨t2, n, hn, hrun, by rw [h2f, h1f], h2a, ?_, ?_, ?_⟩
  · intro b hb
    rw [hcell b (fun h2 => hak (h2 ▸ hb))]
    exact h1g b hb
  · intro b hb1 hb2
    rw [hcell b hb1]
    exact h1s b hb2
  · refine ⟨by rw [h2h, h1h], by rw [h2t, h1t], by rw [h2f, h1f], ?_, ?_, trivial, ?_, ?_, ?_,
      by simp [Forest.addrs]⟩
    · intro b hb
      rw [h2f, h1f] at hb
      have hba : b ≠ a := by omega
      rw [hcell b hba]
      by_cases hbk : b ∈ K.addrs
      · exact h1g b hbk
      · rw [h1s b hbk]; exact hc b hb
    · intro n2 hn2
      rw [hn] at hn2
      cases Option.some.inj hn2
      simpa [Forest.first, Forest.last] using h2a
    · intro b _ hba hbk
      rw [hcell b hba]
      exact h1s b hbk
    · intro b hb; simp [Forest.addrs] at hb
    · intro b hb _
      have hba : b ≠ a := by
        rcases hb with hb | hb
        · exact fun h2 => hak (h2 ▸ hb)
        · omega
      rw [hcell b hba]
      by_cases hbk : b ∈ K.addrs
      · exact h1g b hbk
      · rw [h1s b hbk]
        rcases hb with hb | hb
        · exact absurd hb hbk
        · exact hc b hb

/-! ## A new node before a node anywhere in a forest -/

theorem Forest.insertBefore_of_not_mem {F : Forest} {p : Nat} (new : Nat) (x : Char)
    (hp : p ∉ F.addrs) : F.insertBefore p new x = F := by
  induction F with
  | nil => rfl
  | node a c k r ihk ihr =>
    simp only [Forest.addrs, List.mem_cons, List.mem_append, not_or] at hp
    have hax : ¬ a = p := fun h => hp.1 h.symm
    simp only [Forest.insertBefore, hax, if_false, ihk hp.2.1, ihr hp.2.2]

theorem Forest.first_insertBefore (F : Forest) (p new : Nat) (x : Char) :
    (F.insertBefore p new x).first = if F.first = some p then some new else F.first := by
  cases F with
  | nil => simp [Forest.insertBefore]
  | node a c k r =>
    simp only [Forest.insertBefore, Forest.first_node, Option.some.injEq]
    by_cases hax : a = p <;> simp [hax]

theorem Forest.last_insertBefore (F : Forest) (p new : Nat) (x : Char) :
    (F.insertBefore p new x).last = F.last := by
  induction F with
  | nil => rfl
  | node a c k r _ ihr =>
    simp only [Forest.insertBefore]
    by_cases hax : a = p
    · simp only [hax, if_true, Forest.last]
      cases r.last <;> rfl
    · simp only [hax, if_false, Forest.last, ihr]

theorem Forest.mem_addrs_insertBefore {F : Forest} {p : Nat} (new : Nat) (x : Char)
    (hp : p ∈ F.addrs) (b : Nat) :
    b ∈ (F.insertBefore p new x).addrs ↔ b = new ∨ b ∈ F.addrs := by
  induction F with
  | nil => simp [Forest.addrs] at hp
  | node a c k r ihk ihr =>
    simp only [Forest.addrs, List.mem_cons, List.mem_append] at hp
    simp only [Forest.insertBefore]
    by_cases hax : a = p
    · simp [hax, Forest.addrs]
    · simp only [hax, if_false, Forest.addrs, List.mem_cons, List.mem_append]
      by_cases hpk : p ∈ k.addrs
      · by_cases hpr : p ∈ r.addrs
        · rw [ihk hpk, ihr hpr]
          by_cases h1 : b = new <;> simp [h1]
        · rw [ihk hpk, Forest.insertBefore_of_not_mem new x hpr]
          by_cases h1 : b = new <;> simp [h1]
      · have hpr : p ∈ r.addrs := by
          rcases hp with hp | hp | hp
          · exact absurd hp.symm hax
          · exact absurd hp hpk
          · exact hp
        rw [Forest.insertBefore_of_not_mem new x hpk, ihr hpr]
        by_cases h1 : b = new <;> simp [h1]

theorem Forest.nodup_insertBefore {F : Forest} (p : Nat) {new : Nat} (x : Char)
    (hn : F.addrs.Nodup) (hnew : new ∉ F.addrs) : (F.insertBefore p new x).addrs.Nodup := by
  induction F with
  | nil => simp [Forest.insertBefore, Forest.addrs]
  | node a c k r ihk ihr =>
    simp only [Forest.addrs, List.mem_cons, List.mem_append, not_or] at hnew
    have hn0 := hn
    simp only [Forest.addrs, List.nodup_cons, List.nodup_append, List.mem_append, not_or] at hn
    obtain ⟨⟨hak, har⟩, hk, hr, hdis⟩ := hn
    simp only [Forest.insertBefore]
    by_cases hax : a = p
    · simp only [hax, if_true, Forest.addrs, List.nil_append]
      refine List.nodup_cons.mpr ⟨?_, by simpa [hax, Forest.addrs] using hn0⟩
      simp only [List.mem_cons, List.mem_append, not_or]
      exact ⟨hax ▸ hnew.1, hnew.2.1, hnew.2.2⟩
    · simp only [hax, if_false, Forest.addrs, List.nodup_cons, List.nodup_append,
        List.mem_append, not_or]
      by_cases hpk : p ∈ k.addrs
      · have hpr : p ∉ r.addrs := fun h => hdis hpk h
        rw [Forest.insertBefore_of_not_mem new x hpr]
        refine ⟨⟨?_, har⟩, ihk hk hnew.2.1, hr, ?_⟩
        · rw [Forest.mem_addrs_insertBefore new x hpk]
          intro h
          rcases h with h | h
          · exact hnew.1 h.symm
          · exact hak h
        · intro b hb1 hb2
          rw [Forest.mem_addrs_insertBefore new x hpk] at hb1
          rcases hb1 with h | h
          · exact hnew.2.2 (h ▸ hb2)
          · exact hdis h hb2
      · rw [Forest.insertBefore_of_not_mem new x hpk]
        by_cases hpr : p ∈ r.addrs
        · refine ⟨⟨hak, ?_⟩, hk, ihr hr hnew.2.2, ?_⟩
          · rw [Forest.mem_addrs_insertBefore new x hpr]
            intro h
            rcases h with h | h
            · exact hnew.1 h.symm
            · exact har h
          · intro b hb1 hb2
            rw [Forest.mem_addrs_insertBefore new x hpr] at hb2
            rcases hb2 with h | h
            · exact hnew.2.1 (h ▸ hb1)
            · exact hdis hb1 h
        · rw [Forest.insertBefore_of_not_mem new x hpr]
          exact ⟨⟨hak, har⟩, hk, hr, hdis⟩

theorem Sibs.first_record {m : Nat → Option TreeNode} {F : Forest} {p : Nat}
    {par prev : Option Nat} (hs : Sibs m F par prev) (hf : F.first = some p) :
    ∃ n, m p = some n ∧ n.prev_sibling = prev ∧ n.parent = par := by
  cases F with
  | nil => simp at hf
  | node a c k r =>
    simp only [Forest.first_node, Option.some.injEq] at hf
    subst hf
    exact ⟨_, hs.1, rfl, rfl⟩

/-- The cells after `insert`, read as the forest with the new node in it. -/
theorem Sibs.insertBefore_cells {m m2 : Nat → Option TreeNode} {p new : Nat} {pn : TreeNode}
    {x : Char} (hp : m p = some pn)
    (H1 : m2 new = some ⟨pn.parent, none, none, pn.prev_sibling, some p, x⟩)
    (H2 : m2 p = some { pn with prev_sibling := some new })
    (H3 : ∀ q nq, pn.prev_sibling = some q → m q = some nq →
      m2 q = some { nq with next_sibling := some new })
    (H4 : ∀ a na, pn.prev_sibling = none → pn.parent = some a → m a = some na →
      m2 a = some { na with first_child := some new })
    (H5 : ∀ b, b ≠ new → b ≠ p → some b ≠ pn.prev_sibling →
      (pn.prev_sibling = none → some b ≠ pn.parent) → m2 b = m b)
    (F : Forest) :
    ∀ {par prev : Option Nat}, Sibs m F par prev → F.addrs.Nodup → new ∉ F.addrs →
      p ∈ F.addrs → (∀ b ∈ F.addrs, some b ≠ prev ∧ some b ≠ par) →
      Sibs m2 (F.insertBefore p new x) par prev := by
  induction F with
  | nil => intro _ _ _ _ _ hpF; simp [Forest.addrs] at hpF
  | node a0 c k r ihk ihr =>
    intro par prev hs hn hnew hpF hext
    simp only [Forest.addrs, List.nodup_cons, List.nodup_append, List.mem_append, not_or] at hn
    obtain ⟨⟨hak, har⟩, hk, hr, hdis⟩ := hn
    simp only [Forest.addrs, List.mem_cons, List.mem_append, not_or] at hnew
    have hna0 : a0 ≠ new := fun h => hnew.1 h.symm
    simp only [Forest.insertBefore]
    by_cases hax : a0 = p
    · -- the new node goes before this sibling
      subst hax
      have hrec := hs.1
      rw [hp] at hrec
      cases Option.some.inj hrec
      simp only [if_true]
      refine ⟨by simpa [Forest.first, Forest.last] using H1, trivial, ?_, ?_, ?_⟩
      · simpa using H2
      · refine Sibs.congr ?_ hs.2.1
        intro b hb
        have hbF : b ∈ (Forest.node a0 c k r).addrs := by simp [Forest.addrs, hb]
        exact H5 b (fun h => hnew.2.1 (h ▸ hb)) (fun h => hak (h ▸ hb)) (hext b hbF).1
          (fun _ => (hext b hbF).2)
      · refine Sibs.congr ?_ hs.2.2
        intro b hb
        have hbF : b ∈ (Forest.node a0 c k r).addrs := by simp [Forest.addrs, hb]
        exact H5 b (fun h => hnew.2.2 (h ▸ hb)) (fun h => har (h ▸ hb)) (hext b hbF).1
          (fun _ => (hext b hbF).2)
    · simp only [hax, if_false]
      have hextF := hext
      by_cases hpk : p ∈ k.addrs
      · -- the new node goes somewhere below this sibling
        have hpr : p ∉ r.addrs := fun h => hdis hpk h
        rw [Forest.insertBefore_of_not_mem new x hpr]
        obtain ⟨pn2, hpn2, hcase⟩ := Sibs.prev_pointer k hs.2.1 hk hpk
        rw [hp] at hpn2
        cases Option.some.inj hpn2
        have hkids := ihk hs.2.1 hk hnew.2.1 hpk (by
          intro b hb
          exact ⟨by simp, fun h => hak ((Option.some.inj h) ▸ hb)⟩)
        have hrest : Sibs m2 r par (some a0) := by
          refine Sibs.congr ?_ hs.2.2
          intro b hb
          have hbk : b ∉ k.addrs := fun h => hdis h hb
          have hba : b ≠ a0 := fun h => har (h ▸ hb)
          apply H5 b (fun h => hnew.2.2 (h ▸ hb)) (fun h => hpr (h ▸ hb))
          · rcases hcase with ⟨_, h2, _⟩ | ⟨q, _, h1, _, h3, _, _⟩ | ⟨h0, _⟩
            · rw [h2]; simp
            · rw [h3]; intro h; exact hbk ((Option.some.inj h) ▸ h1)
            · rw [h0]; simp
          · intro hnone
            rcases hcase with ⟨_, _, h3⟩ | ⟨q, _, _, _, h3, _, _⟩ | ⟨_, a, _, h1, _, h3, _, _⟩
            · rw [h3]; intro h; exact hba (Option.some.inj h)
            · rw [h3] at hnone; cases hnone
            · rw [h3]; intro h; exact hbk ((Option.some.inj h) ▸ h1)
        refine ⟨?_, hkids, hrest⟩
        rw [Forest.first_insertBefore, Forest.last_insertBefore]
        rcases hcase with ⟨h1, h2, h3⟩ | ⟨q, _, h1, _, h3, _, _⟩ | ⟨h0, a, _, h1, _, h3, _, _⟩
        · have := H4 a0 _ h2 h3 hs.1
          simpa [h1] using this
        · have hkf : k.first ≠ some p := by
            intro hf
            obtain ⟨n, hn1, hn2, _⟩ := Sibs.first_record hs.2.1 hf
            rw [hp] at hn1
            cases Option.some.inj hn1
            rw [h3] at hn2
            cases hn2
          rw [H5 a0 hna0 hax (by rw [h3]; intro h; exact hak ((Option.some.inj h) ▸ h1))
            (by intro h0; rw [h3] at h0; cases h0)]
          simpa [hkf] using hs.1
        · have hkf : k.first ≠ some p := by
            intro hf
            obtain ⟨n, hn1, _, hn3⟩ := Sibs.first_record hs.2.1 hf
            rw [hp] at hn1
            cases Option.some.inj hn1
            rw [h3] at hn3
            exact hak ((Option.some.inj hn3) ▸ h1)
          rw [H5 a0 hna0 hax (by rw [h0]; simp)
            (by intro _; rw [h3]; intro h; exact hak ((Option.some.inj h) ▸ h1))]
          simpa [hkf] using hs.1
      · -- the new node goes somewhere after this sibling
        have hpr : p ∈ r.addrs := by
          simp only [Forest.addrs, List.mem_cons, List.mem_append] at hpF
          rcases hpF with h | h | h
          · exact absurd h.symm hax
          · exact absurd h hpk
          · exact h
        rw [Forest.insertBefore_of_not_mem new x hpk]
        obtain ⟨pn2, hpn2, hcase⟩ := Sibs.prev_pointer r hs.2.2 hr hpr
        rw [hp] at hpn2
        cases Option.some.inj hpn2
        have hextr : ∀ b ∈ r.addrs, some b ≠ some a0 ∧ some b ≠ par := by
          intro b hb
          exact ⟨fun h => har ((Option.some.inj h) ▸ hb),
            (hextF b (by simp [Forest.addrs, hb])).2⟩
        have hrest := ihr hs.2.2 hr hnew.2.2 hpr hextr
        have hkids : Sibs m2 k (some a0) none := by
          refine Sibs.congr ?_ hs.2.1
          intro b hb
          have hbr : b ∉ r.addrs := fun h => hdis hb h
          have hba : b ≠ a0 := fun h => hak (h ▸ hb)
          have hbF : b ∈ (Forest.node a0 c k r).addrs := by simp [Forest.addrs, hb]
          apply H5 b (fun h => hnew.2.1 (h ▸ hb)) (fun h => hpk (h ▸ hb))
          · rcases hcase with ⟨_, h2, _⟩ | ⟨q, _, h1, _, h3, _, _⟩ | ⟨h0, _⟩
            · rw [h2]; intro h; exact hba (Option.some.inj h)
            · rw [h3]; intro h; exact hbr ((Option.some.inj h) ▸ h1)
            · rw [h0]; simp
          · intro hnone
            rcases hcase with ⟨_, _, h3⟩ | ⟨q, _, _, _, h3, _, _⟩ | ⟨_, a, _, h1, _, h3, _, _⟩
            · rw [h3]; exact (hextF b hbF).2
            · rw [h3] at hnone; cases hnone
            · rw [h3]; intro h; exact hbr ((Option.some.inj h) ▸ h1)
        refine ⟨?_, hkids, hrest⟩
        rw [Forest.first_insertBefore]
        have hext0 := hextF a0 (by simp [Forest.addrs])
        rcases hcase with ⟨h1, h2, h3⟩ | ⟨q, _, h1, _, h3, _, _⟩ | ⟨h0, a, _, h1, _, h3, _, _⟩
        · have := H3 a0 _ h2 hs.1
          simpa [h1] using this
        · have hrf : r.first ≠ some p := by
            intro hf
            obtain ⟨n, hn1, hn2, _⟩ := Sibs.first_record hs.2.2 hf
            rw [hp] at hn1
            cases Option.some.inj hn1
            rw [h3] at hn2
            exact har ((Option.some.inj hn2) ▸ h1)
          rw [H5 a0 hna0 hax (by rw [h3]; intro h; exact har ((Option.some.inj h) ▸ h1))
            (by intro h0; rw [h3] at h0; cases h0)]
          simpa [hrf] using hs.1
        · have hrf : r.first ≠ some p := by
            intro hf
            obtain ⟨n, hn1, hn2, _⟩ := Sibs.first_record hs.2.2 hf
            rw [hp] at hn1
            cases Option.some.inj hn1
            rw [h0] at hn2
            cases hn2
          rw [H5 a0 hna0 hax (by rw [h0]; simp)
            (by intro _; rw [h3]; intro h; exact har ((Option.some.inj h) ▸ h1))]
          simpa [hrf] using hs.1

/-! ## ZDTree::erase: the store after the children are gone -/

theorem TreeNode.unlink_of_far {rx : TreeNode} {b : Nat} (r : TreeNode)
    (h1 : rx.prev_sibling ≠ some b) (h2 : rx.next_sibling ≠ some b)
    (h3 : rx.parent ≠ some b) : rx.unlink b r = r := by
  cases r
  simp [TreeNode.unlink, h1, h2, h3]

/-- The part of `erase` that follows `erase_children`: the node is taken out of its
sibling list and its cell is freed. -/
theorem erase_after_children {t t1 : ZDTree} {x : Nat} {rx : TreeNode} {ret : Option Nat}
    (hh : x ≠ t.head) (hret : t.pre_incr (some x) true = .ok ret)
    (hec : ZDTree.erase_children (2 * t.fresh + 1) t (some x) = .ok t1)
    (hx : t1.cells x = some rx)
    (hprev : ∀ q, rx.prev_sibling = some q → q ≠ x ∧ ∃ nq, t1.cells q = some nq)
    (hnext : ∀ n1, rx.next_sibling = some n1 →
      n1 ≠ x ∧ rx.prev_sibling ≠ some n1 ∧ ∃ nn, t1.cells n1 = some nn)
    (hpar : rx.prev_sibling = none ∨ rx.next_sibling = none →
      ∃ p np, rx.parent = some p ∧ p ≠ x ∧ rx.prev_sibling ≠ some p ∧
        rx.next_sibling ≠ some p ∧ t1.cells p = some np) :
    ∃ t2, t.erase (some x) = .ok (t2, ret) ∧
      t2.fresh = t1.fresh ∧ t2.head = t1.head ∧ t2.feet = t1.feet ∧
      t2.cells x = none ∧
      (∀ b, b ≠ x → t2.cells b = (t1.cells b).map (rx.unlink b)) := by
  simp only [ZDTree.erase, Option.some.injEq, hh, if_false, hret, bind_ok, hec]
  cases hqv : rx.prev_sibling with
  | none =>
    obtain ⟨p, np, hpp, hpx, _, hpn, hnp⟩ := hpar (Or.inl hqv)
    have hxp : x ≠ p := fun h => hpx h.symm
    cases hnv : rx.next_sibling with
    | none =>
      simp [ZDTree.update, ZDTree.read, ZDTree.write, ZDTree.deallocate, hx, hnp, hpp, hqv, hnv,
        hpx, hxp]
      intro b hb
      by_cases hbp : b = p
      · subst hbp
        simp [hb, hnp, TreeNode.unlink, hqv, hnv, hpp]
      · have hpb : ¬ p = b := fun h => hbp h.symm
        cases hcb : t1.cells b <;> simp [hb, hbp, hcb, TreeNode.unlink, hqv, hnv, hpp, hpb]
    | some n1 =>
      obtain ⟨hn1x, _, nn, hnn⟩ := hnext n1 hnv
      have hpn1 : p ≠ n1 := by
        intro h; apply hpn; rw [hnv, h]
      have hn1p : n1 ≠ p := fun h => hpn1 h.symm
      have hxn1 : x ≠ n1 := fun h => hn1x h.symm
      simp [ZDTree.update, ZDTree.read, ZDTree.write, ZDTree.deallocate, hx, hnp, hpp, hqv, hnv,
        hpx, hxp, hnn, hn1x, hn1p, hpn1, hxn1]
      intro b hb
      by_cases hbp : b = p
      · subst hbp
        simp [hb, hnp, TreeNode.unlink, hqv, hnv, hpp, hpn1, hn1p]
      · have hpb : ¬ p = b := fun h => hbp h.symm
        by_cases hbn : b = n1
        · subst hbn
          simp [hb, hnn, TreeNode.unlink, hqv, hnv, hpp, hpn1, hn1p]
        · have hnb : ¬ n1 = b := fun h => hbn h.symm
          cases hcb : t1.cells b <;>
            simp [hb, hbp, hbn, hcb, TreeNode.unlink, hqv, hnv, hpp, hpb, hnb]
  | some s =>
    obtain ⟨hsx, ns, hns⟩ := hprev s hqv
    have hxs : x ≠ s := fun h => hsx h.symm
    cases hnv : rx.next_sibling with
    | none =>
      obtain ⟨p, np, hpp, hpx, hps0, _, hnp⟩ := hpar (Or.inr hnv)
      have hxp : x ≠ p := fun h => hpx h.symm
      have hsp : s ≠ p := by
        intro h; apply hps0; rw [hqv, h]
      have hps : p ≠ s := fun h => hsp h.symm
      simp [ZDTree.update, ZDTree.read, ZDTree.write, ZDTree.deallocate, hx, hnp, hpp, hqv, hnv,
        hpx, hxp, hns, hsx, hsp, hps, hxs]
      intro b hb
      by_cases hbp : b = p
      · subst hbp
        simp [hb, hnp, TreeNode.unlink, hqv, hnv, hpp, hsp, hps]
      · have hpb : ¬ p = b := fun h => hbp h.symm
        by_cases hbs : b = s
        · subst hbs
          simp [hb, hns, TreeNode.unlink, hqv, hnv, hpp, hsp, hps]
        · have hsb : ¬ s = b := fun h => hbs h.symm
          cases hcb : t1.cells b <;>
            simp [hb, hbp, hbs, hcb, TreeNode.unlink, hqv, hnv, hpp, hpb, hsb]
    | some n1 =>
      obtain ⟨hn1x, hsn, nn, hnn⟩ := hnext n1 hnv
      have hxn1 : x ≠ n1 := fun h => hn1x h.symm
      have hsn1 : s ≠ n1 := by
        intro h; apply hsn; rw [hqv, h]
      have hn1s : n1 ≠ s := fun h => hsn1 h.symm
      simp [ZDTree.update, ZDTree.read, ZDTree.write, ZDTree.deallocate, hx, hqv, hnv,
        hns, hsx, hxs, hnn, hn1x, hxn1, hsn1, hn1s]
      intro b hb
      by_cases hbs : b = s
      · subst hbs
        simp [hb, hns, TreeNode.unlink, hqv, hnv, hsn1, hn1s]
      · have hsb : ¬ s = b := fun h => hbs h.symm
        by_cases hbn : b = n1
        · subst hbn
          simp [hb, hnn, TreeNode.unlink, hqv, hnv, hsn1, hn1s]
        · have hnb : ¬ n1 = b := fun h => hbn h.symm
          cases hcb : t1.cells b <;>
            simp [hb, hbs, hbn, hcb, TreeNode.unlink, hqv, hnv, hsb, hnb]

/-! ## Removing a node anywhere in the forest: the cells -/

theorem Sibs.parent_mem {m : Nat → Option TreeNode} {p : Nat} (F : Forest) :
    ∀ {par prev : Option Nat}, Sibs m F par prev → p ∈ F.addrs →
      ∃ pn, m p = some pn ∧ (pn.parent = par ∨ ∃ a, a ∈ F.addrs ∧ pn.parent = some a) := by
  induction F with
  | nil => intro _ _ _ hp; simp [Forest.addrs] at hp
  | node a0 c k r ihk ihr =>
    intro par prev hs hp
    simp only [Forest.addrs, List.mem_cons, List.mem_append] at hp
    rcases hp with hp | hp | hp
    · subst hp
      exact ⟨_, hs.1, Or.inl rfl⟩
    · obtain ⟨pn, hpn, h⟩ := ihk hs.2.1 hp
      refine ⟨pn, hpn, Or.inr ?_⟩
      rcases h with h | ⟨a, ha, h⟩
      · exact ⟨a0, by simp [Forest.addrs], h⟩
      · exact ⟨a, by simp [Forest.addrs, ha], h⟩
    · obtain ⟨pn, hpn, h⟩ := ihr hs.2.2 hp
      refine ⟨pn, hpn, ?_⟩
      rcases h with h | ⟨a, ha, h⟩
      · exact Or.inl h
      · exact Or.inr ⟨a, by simp [Forest.addrs, ha], h⟩

theorem Sibs.last_record {m : Nat → Option TreeNode} {F : Forest} {p : Nat} :
    ∀ {par prev : Option Nat}, Sibs m F par prev → F.last = some p →
      ∃ n, m p = some n ∧ n.next_sibling = none ∧ n.parent = par := by
  induction F with
  | nil => intro _ _ _ hl; simp [Forest.last] at hl
  | node a c k r _ ihr =>
    intro par prev hs hl
    simp only [Forest.last] at hl
    cases hrl : r.last with
    | none =>
      rw [hrl] at hl
      cases Option.some.inj hl
      have hrnil : r = .nil := Forest.last_eq_none.mp hrl
      subst hrnil
      exact ⟨_, hs.1, rfl, rfl⟩
    | some l =>
      rw [hrl] at hl
      cases Option.some.inj hl
      exact ihr hs.2.2 hrl

theorem Forest.first_erase_of_first {m : Nat → Option TreeNode} {F : Forest} {x : Nat}
    {rx : TreeNode} {par prev : Option Nat} (hs : Sibs m F par prev) (hx : m x = some rx)
    (hf : F.first = some x) : (F.erase x).first = rx.next_sibling := by
  cases F with
  | nil => simp at hf
  | node a c k r =>
    simp only [Forest.first_node, Option.some.injEq] at hf
    subst hf
    have := hs.1
    rw [hx] at this
    cases Option.some.inj this
    simp [Forest.erase]

theorem Forest.first_erase_of_ne {F : Forest} {x : Nat} (hf : F.first ≠ some x) :
    (F.erase x).first = F.first := by
  cases F with
  | nil => rfl
  | node a c k r =>
    simp only [Forest.first_node, ne_eq, Option.some.injEq] at hf
    simp [Forest.erase, hf]

theorem Forest.last_erase_of_ne {F : Forest} {x : Nat} (hl : F.last ≠ some x) :
    (F.erase x).last = F.last := by
  induction F with
  | nil => rfl
  | node a c k r _ ihr =>
    simp only [Forest.erase]
    by_cases hax : a = x
    · subst hax
      simp only [if_true]
      simp only [Forest.last] at hl ⊢
      cases hrl : r.last with
      | none => rw [hrl] at hl; simp at hl
      | some l => rfl
    · simp only [hax, if_false, Forest.last]
      have hrl : r.last ≠ some x := by
        intro h
        apply hl
        simp [Forest.last, h]
      rw [ihr hrl]

/-- First child of a parent after one of its descendants is removed. -/
theorem Sibs.first_erase {m : Nat → Option TreeNode} {k : Forest} {x a0 : Nat} {rx : TreeNode}
    (hs : Sibs m k (some a0) none) (hn : k.addrs.Nodup) (hxk : x ∈ k.addrs)
    (ha : a0 ∉ k.addrs) (hx : m x = some rx) :
    (if rx.prev_sibling = none ∧ rx.parent = some a0 then rx.next_sibling else k.first) =
      (k.erase x).first := by
  by_cases hf : k.first = some x
  · obtain ⟨n, hn1, hn2, hn3⟩ := Sibs.first_record hs hf
    rw [hx] at hn1
    cases Option.some.inj hn1
    rw [Forest.first_erase_of_first hs hx hf]
    simp [hn2, hn3]
  · rw [Forest.first_erase_of_ne hf]
    obtain ⟨pn, hpn, hcase⟩ := Sibs.prev_pointer k hs hn hxk
    rw [hx] at hpn
    cases Option.some.inj hpn
    rcases hcase with ⟨h1, _, _⟩ | ⟨q, _, _, _, h3, _, _⟩ | ⟨_, a, _, h1, _, h3, _, _⟩
    · exact absurd h1 hf
    · simp [h3]
    · have : rx.parent ≠ some a0 := by
        rw [h3]; intro h; exact ha ((Option.some.inj h) ▸ h1)
      simp [this]

/-- Last child of a parent after one of its descendants is removed. -/
theorem Sibs.last_erase {m : Nat → Option TreeNode} {k : Forest} {x a0 : Nat} {rx : TreeNode}
    (hs : Sibs m k (some a0) none) (hn : k.addrs.Nodup) (hxk : x ∈ k.addrs)
    (ha : a0 ∉ k.addrs) (hx : m x = some rx) :
    (if rx.next_sibling = none ∧ rx.parent = some a0 then rx.prev_sibling else k.last) =
      (k.erase x).last := by
  by_cases hl : k.last = some x
  · obtain ⟨n, hn1, hn2, hn3⟩ := Sibs.last_record hs hl
    rw [hx] at hn1
    cases Option.some.inj hn1
    have hxt : x ∈ k.tops := Forest.last_mem_tops hl
    obtain ⟨c, hrec⟩ := Sibs.top_record hs hxt
    rw [hx] at hrec
    cases Option.some.inj hrec
    rw [Forest.erase_of_top hn hxt, Forest.last_eraseTop none hn hxt]
    simp only [] at hn2
    simp only [hn2, true_and, if_true]
    by_cases hf : k.first = some x
    · rcases Forest.prevTop_cases none hn hxt with ⟨_, h2⟩ | ⟨h1, _⟩
      · simp [hf, h2]
      · exact absurd hf h1
    · simp [hf]
  · rw [Forest.last_erase_of_ne hl]
    obtain ⟨pn, hpn, hcase⟩ := Sibs.next_pointer k hs hn hxk
    rw [hx] at hpn
    cases Option.some.inj hpn
    rcases hcase with ⟨h1, _, _⟩ | ⟨q, _, _, _, h3, _, _⟩ | ⟨_, a, _, h1, _, h3, _, _⟩
    · exact absurd h1 hl
    · simp [h3]
    · have : rx.parent ≠ some a0 := by
        rw [h3]; intro h; exact ha ((Option.some.inj h) ▸ h1)
      simp [this]

/-- The cells after `erase`, read as the forest without the erased node: `E` holds of
the removed descendants. -/
theorem Sibs.erase_cells {m m2 : Nat → Option TreeNode} {x : Nat} {rx : TreeNode}
    {E : Nat → Prop} (hx : m x = some rx)
    (HU : ∀ b r, b ≠ x → ¬ E b → m b = some r → m2 b = some (rx.unlink b r))
    (F : Forest) :
    ∀ {par prev : Option Nat}, Sibs m F par prev → F.addrs.Nodup → x ∈ F.addrs →
      (∀ b ∈ F.addrs, some b ≠ prev ∧ some b ≠ par) →
      (∀ b ∈ F.addrs, E b → b ∈ (Forest.sub x F).addrs) →
      Sibs m2 (F.erase x) par prev := by
  induction F with
  | nil => intro _ _ _ _ hxF; simp [Forest.addrs] at hxF
  | node a0 c k r ihk ihr =>
    intro par prev hs hn hxF hext hE
    simp only [Forest.addrs, List.nodup_cons, List.nodup_append, List.mem_append, not_or] at hn
    obtain ⟨⟨hak, har⟩, hk, hr, hdis⟩ := hn
    have hext0 := hext a0 (by simp [Forest.addrs])
    simp only [Forest.erase]
    by_cases hax : a0 = x
    · -- the erased node is this sibling: the rest moves up
      subst hax
      have hrec := hs.1
      rw [hx] at hrec
      cases Option.some.inj hrec
      simp only [if_true]
      have hsub : Forest.sub a0 (Forest.node a0 c k r) = k := by simp [Forest.sub]
      have hnotE : ∀ b ∈ r.addrs, ¬ E b := by
        intro b hb he
        have := hE b (by simp [Forest.addrs, hb]) he
        rw [hsub] at this
        exact hdis this hb
      cases r with
      | nil => trivial
      | node n1 d kn rn =>
        have hn1 : n1 ≠ a0 := fun h => har (by simp [Forest.addrs, h])
        have hextn := hext n1 (by simp [Forest.addrs])
        have hrn := hr
        simp only [Forest.addrs, List.nodup_cons, List.mem_append, not_or] at hrn
        refine ⟨?_, ?_, ?_⟩
        · rw [HU n1 _ hn1 (hnotE n1 (by simp [Forest.addrs])) hs.2.2.1]
          have h1 : ¬ prev = some n1 := fun h => hextn.1 h.symm
          have h2 : ¬ par = some n1 := fun h => hextn.2 h.symm
          simp [TreeNode.unlink, h1, h2]
        · refine Sibs.congr ?_ hs.2.2.2.1
          intro b hb
          have hbr : b ∈ (Forest.node n1 d kn rn).addrs := by simp [Forest.addrs, hb]
          have hbF : b ∈ (Forest.node a0 c k (Forest.node n1 d kn rn)).addrs := by
            simp [Forest.addrs, hb]
          obtain ⟨nb, hnb⟩ := Sibs.live hs.2.2.2.1 b hb
          rw [HU b nb (fun h => har (h ▸ hbr)) (hnotE b hbr) hnb, hnb, TreeNode.unlink_of_far]
          · exact fun h => (hext b hbF).1 h.symm
          · exact fun h => hrn.1.1 ((Option.some.inj h) ▸ hb)
          · exact fun h => (hext b hbF).2 h.symm
        · refine Sibs.congr ?_ hs.2.2.2.2
          intro b hb
          have hbr : b ∈ (Forest.node n1 d kn rn).addrs := by simp [Forest.addrs, hb]
          have hbF : b ∈ (Forest.node a0 c k (Forest.node n1 d kn rn)).addrs := by
            simp [Forest.addrs, hb]
          obtain ⟨nb, hnb⟩ := Sibs.live hs.2.2.2.2 b hb
          rw [HU b nb (fun h => har (h ▸ hbr)) (hnotE b hbr) hnb, hnb, TreeNode.unlink_of_far]
          · exact fun h => (hext b hbF).1 h.symm
          · exact fun h => hrn.1.2 ((Option.some.inj h) ▸ hb)
          · exact fun h => (hext b hbF).2 h.symm
    · simp only [hax, if_false]
      by_cases hxk : x ∈ k.addrs
      · -- the erased node is below this sibling
        have hxr : x ∉ r.addrs := fun h => hdis hxk h
        have hsub : Forest.sub x (Forest.node a0 c k r) = Forest.sub x k := by
          simp [Forest.sub, hax, hxk]
        rw [Forest.erase_of_not_mem hxr]
        obtain ⟨pn, hpn, hprev⟩ := Sibs.prev_pointer k hs.2.1 hk hxk
        rw [hx] at hpn
        cases Option.some.inj hpn
        obtain ⟨pn, hpn, hnext⟩ := Sibs.next_pointer k hs.2.1 hk hxk
        rw [hx] at hpn
        cases Option.some.inj hpn
        obtain ⟨pn, hpn, hpar⟩ := Sibs.parent_mem k hs.2.1 hxk
        rw [hx] at hpn
        cases Option.some.inj hpn
        have hprevk : ∀ b, b ∉ k.addrs → rx.prev_sibling ≠ some b := by
          intro b hb
          rcases hprev with ⟨_, h2, _⟩ | ⟨q, _, h1, _, h3, _, _⟩ | ⟨h0, _⟩
          · rw [h2]; simp
          · rw [h3]; intro h; exact hb ((Option.some.inj h) ▸ h1)
          · rw [h0]; simp
        have hnextk : ∀ b, b ∉ k.addrs → rx.next_sibling ≠ some b := by
          intro b hb
          rcases hnext with ⟨_, h2, _⟩ | ⟨q, _, h1, _, h3, _, _⟩ | ⟨h0, _⟩
          · rw [h2]; simp
          · rw [h3]; intro h; exact hb ((Option.some.inj h) ▸ h1)
          · rw [h0]; simp
        have hpark : ∀ b, b ∉ k.addrs → b ≠ a0 → rx.parent ≠ some b := by
          intro b hb hba
          rcases hpar with h | ⟨a, h1, h⟩
          · rw [h]; intro h2; exact hba (Option.some.inj h2).symm
          · rw [h]; intro h2; exact hb ((Option.some.inj h2) ▸ h1)
        have hkids := ihk hs.2.1 hk hxk (by
          intro b hb
          exact ⟨by simp, fun h => hak ((Option.some.inj h) ▸ hb)⟩) (by
          intro b hb he
          have := hE b (by simp [Forest.addrs, hb]) he
          rwa [hsub] at this)
        have hrest : Sibs m2 r par (some a0) := by
          refine Sibs.congr ?_ hs.2.2
          intro b hb
          have hbk : b ∉ k.addrs := fun h => hdis h hb
          have hba : b ≠ a0 := fun h => har (h ▸ hb)
          obtain ⟨nb, hnb⟩ := Sibs.live hs.2.2 b hb
          have hne : ¬ E b := by
            intro he
            have := hE b (by simp [Forest.addrs, hb]) he
            rw [hsub] at this
            exact hbk (Forest.sub_addrs_subset _ _ b this)
          rw [HU b nb (fun h => hxr (h ▸ hb)) hne hnb, hnb,
            TreeNode.unlink_of_far nb (hprevk b hbk) (hnextk b hbk) (hpark b hbk hba)]
        refine ⟨?_, hkids, hrest⟩
        have hne : ¬ E a0 := by
          intro he
          have := hE a0 (by simp [Forest.addrs]) he
          rw [hsub] at this
          exact hak (Forest.sub_addrs_subset _ _ a0 this)
        rw [HU a0 _ hax hne hs.1]
        have e1 := Sibs.first_erase hs.2.1 hk hxk hak hx
        have e2 := Sibs.last_erase hs.2.1 hk hxk hak hx
        simp only [TreeNode.unlink, hprevk a0 hak, hnextk a0 hak, if_false, e1, e2]
      · -- the erased node is after this sibling
        have hxr : x ∈ r.addrs := by
          simp only [Forest.addrs, List.mem_cons, List.mem_append] at hxF
          rcases hxF with h | h | h
          · exact absurd h.symm hax
          · exact absurd h hxk
          · exact h
        have hsub : Forest.sub x (Forest.node a0 c k r) = Forest.sub x r := by
          simp [Forest.sub, hax, hxk]
        rw [Forest.erase_of_not_mem hxk]
        obtain ⟨pn, hpn, hprev⟩ := Sibs.prev_pointer r hs.2.2 hr hxr
        rw [hx] at hpn
        cases Option.some.inj hpn
        obtain ⟨pn, hpn, hnext⟩ := Sibs.next_pointer r hs.2.2 hr hxr
        rw [hx] at hpn
        cases Option.some.inj hpn
        obtain ⟨pn, hpn, hpar⟩ := Sibs.parent_mem r hs.2.2 hxr
        rw [hx] at hpn
        cases Option.some.inj hpn
        have hnextr : ∀ b, b ∉ r.addrs → rx.next_sibling ≠ some b := by
          intro b hb
          rcases hnext with ⟨_, h2, _⟩ | ⟨q, _, h1, _, h3, _, _⟩ | ⟨h0, _⟩
          · rw [h2]; simp
          · rw [h3]; intro h; exact hb ((Option.some.inj h) ▸ h1)
          · rw [h0]; simp
        have hprevr : ∀ b, b ∉ r.addrs → b ≠ a0 → rx.prev_sibling ≠ some b := by
          intro b hb hba
          rcases hprev with ⟨_, h2, _⟩ | ⟨q, _, h1, _, h3, _, _⟩ | ⟨h0, _⟩
          · rw [h2]; intro h; exact hba (Option.some.inj h).symm
          · rw [h3]; intro h; exact hb ((Option.some.inj h) ▸ h1)
          · rw [h0]; simp
        have hparr : ∀ b, b ∉ r.addrs → some b ≠ par → rx.parent ≠ some b := by
          intro b hb hbp
          rcases hpar with h | ⟨a, h1, h⟩
          · rw [h]; exact fun h2 => hbp h2.symm
          · rw [h]; intro h2; exact hb ((Option.some.inj h2) ▸ h1)
        have hrest := ihr hs.2.2 hr hxr (by
          intro b hb
          exact ⟨fun h => har ((Option.some.inj h) ▸ hb),
            (hext b (by simp [Forest.addrs, hb])).2⟩) (by
          intro b hb he
          have := hE b (by simp [Forest.addrs, hb]) he
          rwa [hsub] at this)
        have hkids : Sibs m2 k (some a0) none := by
          refine Sibs.congr ?_ hs.2.1
          intro b hb
          have hbr : b ∉ r.addrs := fun h => hdis hb h
          have hba : b ≠ a0 := fun h => hak (h ▸ hb)
          obtain ⟨nb, hnb⟩ := Sibs.live hs.2.1 b hb
          have hne : ¬ E b := by
            intro he
            have := hE b (by simp [Forest.addrs, hb]) he
            rw [hsub] at this
            exact hbr (Forest.sub_addrs_subset _ _ b this)
          rw [HU b nb (fun h => hxk (h ▸ hb)) hne hnb, hnb,
            TreeNode.unlink_of_far nb (hprevr b hbr hba) (hnextr b hbr)
              (hparr b hbr (hext b (by simp [Forest.addrs, hb])).2)]
        refine ⟨?_, hkids, hrest⟩
        have hne : ¬ E a0 := by
          intro he
          have := hE a0 (by simp [Forest.addrs]) he
          rw [hsub] at this
          exact har (Forest.sub_addrs_subset _ _ a0 this)
        rw [HU a0 _ hax hne hs.1]
        have hp0 : rx.parent ≠ some a0 := hparr a0 har hext0.2
        have e1 : (if rx.prev_sibling = some a0 then rx.next_sibling else r.first) =
            (r.erase x).first := by
          by_cases hf : r.first = some x
          · obtain ⟨n, hn1, hn2, _⟩ := Sibs.first_record hs.2.2 hf
            rw [hx] at hn1
            cases Option.some.inj hn1
            rw [Forest.first_erase_of_first hs.2.2 hx hf]
            simp [hn2]
          · rw [Forest.first_erase_of_ne hf]
            rcases hprev with ⟨h1, _, _⟩ | ⟨q, _, h1, _, h3, _, _⟩ | ⟨h0, _⟩
            · exact absurd h1 hf
            · have : rx.prev_sibling ≠ some a0 := by
                rw [h3]; intro h; exact har ((Option.some.inj h) ▸ h1)
              simp [this]
            · simp [h0]
        simp only [TreeNode.unlink, hnextr a0 har, hp0, and_false, if_false, e1]

/-! ## The tree operations keep the tree well-formed -/

theorem TreeRep.init : TreeRep ZDTree.head_initialise .nil := by
  refine ⟨?_, ?_, ?_, ?_⟩
  · simp [Forest.full, Forest.app, Sibs, ZDTree.head_initialise, Forest.first, Forest.last]
  · simp [Forest.full, Forest.app, Forest.addrs, ZDTree.head_initialise]
  · intro b hb
    simp [Forest.full, Forest.app, Forest.addrs, ZDTree.head_initialise] at hb ⊢
    omega
  · intro b hb
    simp only [Forest.full, Forest.app, Forest.addrs, ZDTree.head_initialise, List.mem_cons,
      List.append_nil, List.nil_append, List.not_mem_nil, or_false, not_or] at hb
    simp [ZDTree.head_initialise, hb.1, hb.2]

theorem TreeRep.mem_addrs {t : ZDTree} {T : Forest} (h : TreeRep t T) {a : Nat}
    (hh : a ≠ t.head) (hf : a ≠ t.feet) (hlive : (t.cells a).isSome) : a ∈ T.addrs := by
  have := h.mem_of_live hlive
  rw [Forest.full_addrs] at this
  simp only [List.mem_cons, List.mem_append, List.mem_singleton, List.not_mem_nil,
    or_false] at this
  rcases this with h1 | h1 | h1
  · exact absurd h1 hh
  · exact h1
  · exact absurd h1 hf

theorem TreeRep.ne_head {t : ZDTree} {T : Forest} (h : TreeRep t T) {a : Nat}
    (ha : a ∈ T.addrs) : a ≠ t.head := by
  have hn := h.nodup
  rw [Forest.full_addrs] at hn
  intro h2
  exact (List.nodup_cons.mp hn).1 (by simp [← h2, ha])

theorem TreeRep.ne_feet {t : ZDTree} {T : Forest} (h : TreeRep t T) {a : Nat}
    (ha : a ∈ T.addrs) : a ≠ t.feet := by
  have hn := h.nodup
  rw [Forest.full_addrs] at hn
  intro h2
  exact (List.nodup_append.mp (List.nodup_cons.mp hn).2).2.2 ha (by simp [h2])

/-- The tree after `append_child`. -/
theorem TreeRep.append_child {t : ZDTree} {T : Forest} (h : TreeRep t T) {a : Nat}
    (ha : a ∈ T.addrs) (x : Char) :
    ∃ t2, t.append_child (some a) x = .ok (t2, some t.fresh) ∧ t2.fresh = t.fresh + 1 ∧
      TreeRep t2 (T.graft a ((Forest.sub a T).app (.node t.fresh x .nil .nil))) := by
  obtain ⟨t2, h1, h2, h3⟩ :=
    append_child_spec (h.owns_node ha) h.is_clean (h.ne_head ha) (h.ne_feet ha) x
  exact ⟨t2, h1, h2, h.regraft_deep ha h3⟩

/-- The tree after `erase_children`. -/
theorem TreeRep.erase_children {t : ZDTree} {T : Forest} (h : TreeRep t T) {a : Nat}
    (ha : a ∈ T.addrs) :
    ∃ t2 n, t.cells a = some n ∧
      ZDTree.erase_children (2 * t.fresh + 1) t (some a) = .ok t2 ∧ t2.fresh = t.fresh ∧
      t2.head = t.head ∧ t2.feet = t.feet ∧
      t2.cells a = some { n with first_child := none, last_child := none } ∧
      (∀ b ∈ (Forest.sub a T).addrs, t2.cells b = none) ∧
      (∀ b, b ≠ a → b ∉ (Forest.sub a T).addrs → t2.cells b = t.cells b) ∧
      TreeRep t2 (T.graft a .nil) := by
  have ho := h.owns_node ha
  have := ho.size_lt
  obtain ⟨t2, n, h1, h2, h3, h4, h5, h6, h7⟩ :=
    erase_children_spec ho h.is_clean (2 * t.fresh + 1) (by omega)
  exact ⟨t2, n, h1, h2, h3, h7.head_eq, h7.feet_eq, h4, h5, h6, h.regraft_deep ha h7⟩

/-- What `insert` does to the store of a well-formed tree. -/
theorem TreeRep.insert_cells {t : ZDTree} {T : Forest} (hT : TreeRep t T) {p : Nat} (x : Char)
    (hp : p ∈ (Forest.full t T).addrs) (hh : p ≠ t.head) :
    ∃ t2 pn, t.cells p = some pn ∧ t.cells t.fresh = none ∧
      t.insert (some p) x = .ok (t2, some t.fresh) ∧
      t2.fresh = t.fresh + 1 ∧ t2.head = t.head ∧ t2.feet = t.feet ∧
      t2.cells t.fresh = some
        { parent := pn.parent, first_child := none, last_child := none,
          prev_sibling := pn.prev_sibling, next_sibling := some p, data := x } ∧
      t2.cells p = some { pn with prev_sibling := some t.fresh } ∧
      (match pn.prev_sibling with
        | some q => ∃ nq, t.cells q = some nq ∧
            t2.cells q = some { nq with next_sibling := some t.fresh }
        | none => ∃ a na, pn.parent = some a ∧ t.cells a = some na ∧
            t2.cells a = some { na with first_child := some t.fresh }) ∧
      (∀ b, b ≠ t.fresh → b ≠ p → some b ≠ pn.prev_sibling →
        (pn.prev_sibling = none → some b ≠ pn.parent) → t2.cells b = t.cells b) := by
  obtain ⟨pn, hpn, hcase⟩ := hT.prev_or_parent hp hh
  have hfree : t.cells t.fresh = none := hT.is_clean _ (le_refl _)
  rcases hcase with ⟨q, nq, hq, hqp, hprev, hnq, _⟩ | ⟨hprev, a, na, ha, hap, hpar, hna, _⟩
  · obtain ⟨t2, h1, h2, h3, h4, h5, h6, h7, h8⟩ :=
      insert_cells_prev x hpn hprev hnq hqp (hT.bound p hp) (hT.bound q hq) hh
    refine ⟨t2, pn, hpn, hfree, h1, h2, h3, h4, by rw [h5, hprev], h6, ?_, ?_⟩
    · rw [hprev]; exact ⟨nq, hnq, h7⟩
    · intro b hb1 hb2 hb3 _
      rw [hprev] at hb3
      exact h8 b hb1 hb2 (fun h => hb3 (by rw [h]))
  · obtain ⟨t2, h1, h2, h3, h4, h5, h6, h7, h8⟩ :=
      insert_cells_first x hpn hprev hpar hna hap (hT.bound p hp) (hT.bound a ha) hh
    refine ⟨t2, pn, hpn, hfree, h1, h2, h3, h4, by rw [h5, hprev, hpar], h6, ?_, ?_⟩
    · rw [hprev]; exact ⟨a, na, hpar, hna, h7⟩
    · intro b hb1 hb2 _ hb4
      have := hb4 hprev
      rw [hpar] at this
      exact h8 b hb1 hb2 (fun h => this (by rw [h]))

theorem Forest.insertBefore_app_left {T : Forest} (Z : Forest) {p : Nat} (new : Nat) (x : Char)
    (hp : p ∉ Z.addrs) : (T.app Z).insertBefore p new x = (T.insertBefore p new x).app Z := by
  induction T with
  | nil => simp [Forest.app, Forest.insertBefore, Forest.insertBefore_of_not_mem new x hp]
  | node a c k r _ ihr =>
    simp only [Forest.app, Forest.insertBefore]
    split
    · rfl
    · simp only [Forest.app, ihr]

theorem Forest.insertBefore_app_right {T : Forest} (Z : Forest) {p : Nat} (new : Nat) (x : Char)
    (hp : p ∉ T.addrs) : (T.app Z).insertBefore p new x = T.app (Z.insertBefore p new x) := by
  induction T with
  | nil => simp [Forest.app]
  | node a c k r _ ihr =>
    simp only [Forest.addrs, List.mem_cons, List.mem_append, not_or] at hp
    have hax : ¬ a = p := fun h => hp.1 h.symm
    simp only [Forest.app, Forest.insertBefore, hax, if_false,
      Forest.insertBefore_of_not_mem new x hp.2.1, ihr hp.2.2]

theorem Forest.app_app (F G H : Forest) : (F.app G).app H = F.app (G.app H) := by
  induction F with
  | nil => rfl
  | node a c k r _ ihr => simp only [Forest.app, ihr]

/-- The forest of the tree after `insert` before the node `p`. -/
theorem Forest.insertBefore_full {t : ZDTree} (t2 : ZDTree) {T : Forest} {p : Nat} (new : Nat) (x : Char)
    (hn : (Forest.full t T).addrs.Nodup) (hh : p ≠ t.head) (h1 : t2.head = t.head)
    (h2 : t2.feet = t.feet) :
    (Forest.full t T).insertBefore p new x =
      Forest.full t2 (if p = t.feet then T.app (.node new x .nil .nil)
        else T.insertBefore p new x) := by
  have hhp : ¬ t.head = p := fun h => hh h.symm
  simp only [Forest.full, Forest.insertBefore, hhp, if_false, h1, h2]
  congr 1
  by_cases hpf : p = t.feet
  · have hpT : p ∉ T.addrs := by
      rw [Forest.full_addrs] at hn
      rw [hpf]
      intro hin
      exact (List.nodup_append.mp (List.nodup_cons.mp hn).2).2.2 hin (by simp)
    rw [Forest.insertBefore_app_right _ new x hpT]
    simp [hpf, Forest.insertBefore, Forest.app_app, Forest.app]
  · have hpZ : p ∉ (Forest.node t.feet '\x00' .nil .nil).addrs := by
      simp [Forest.addrs, hpf]
    rw [Forest.insertBefore_app_left _ new x hpZ]
    simp [hpf]

/-- The tree after `insert`. -/
theorem TreeRep.insert {t : ZDTree} {T : Forest} (hT : TreeRep t T) {p : Nat} (x : Char)
    (hp : p ∈ (Forest.full t T).addrs) (hh : p ≠ t.head) :
    ∃ t2, t.insert (some p) x = .ok (t2, some t.fresh) ∧ t2.fresh = t.fresh + 1 ∧
      TreeRep t2 (if p = t.feet then T.app (.node t.fresh x .nil .nil)
        else T.insertBefore p t.fresh x) := by
  obtain ⟨t2, pn, hpn, _, hins, hfr, hhd, hft, hnew, hpos, hlink, hframe⟩ :=
    hT.insert_cells x hp hh
  refine ⟨t2, hins, hfr, ?_⟩
  have hfull := Forest.insertBefore_full t2 t.fresh x hT.nodup hh hhd hft
  have hnewF : t.fresh ∉ (Forest.full t T).addrs := fun hin => by
    have := hT.bound _ hin
    omega
  have hmem := Forest.mem_addrs_insertBefore t.fresh x hp
  have hsibs : Sibs t2.cells ((Forest.full t T).insertBefore p t.fresh x) none none := by
    refine Sibs.insertBefore_cells hpn hnew hpos ?_ ?_ hframe _ hT.sibs hT.nodup hnewF hp
      (fun b _ => ⟨by simp, by simp⟩)
    · intro q nq hq hnq
      rw [hq] at hlink
      obtain ⟨nq2, h1, h2⟩ := hlink
      rw [hnq] at h1
      cases Option.some.inj h1
      exact h2
    · intro a na hprev hpar hna
      rw [hprev] at hlink
      obtain ⟨a2, na2, h1, h2, h3⟩ := hlink
      rw [hpar] at h1
      cases Option.some.inj h1
      rw [hna] at h2
      cases Option.some.inj h2
      exact h3
  refine ⟨?_, ?_, ?_, ?_⟩
  · rw [← hfull]; exact hsibs
  · rw [← hfull]; exact Forest.nodup_insertBefore p x hT.nodup hnewF
  · intro b hb
    rw [← hfull, hmem] at hb
    rcases hb with hb | hb
    · omega
    · have := hT.bound b hb
      omega
  · intro b hb
    rw [← hfull, hmem, not_or] at hb
    obtain ⟨pn2, hpn2, hcase⟩ := hT.prev_or_parent hp hh
    rw [hpn] at hpn2
    cases Option.some.inj hpn2
    rw [hframe b hb.1 (fun h => hb.2 (h ▸ hp)) ?_ ?_]
    · exact hT.tight b hb.2
    · rcases hcase with ⟨q, _, h1, _, h3, _, _⟩ | ⟨h0, _⟩
      · rw [h3]; intro h; exact hb.2 ((Option.some.inj h) ▸ h1)
      · rw [h0]; simp
    · intro hnone
      rcases hcase with ⟨q, _, _, _, h3, _, _⟩ | ⟨_, a, _, h1, _, h3, _, _⟩
      · rw [h3] at hnone; cases hnone
      · rw [h3]; intro h; exact hb.2 ((Option.some.inj h) ▸ h1)

/-! ## ZDTree::erase on a well-formed tree -/

theorem Forest.sub_of_not_mem {F : Forest} {x : Nat} (hx : x ∉ F.addrs) :
    Forest.sub x F = .nil := by
  induction F with
  | nil => rfl
  | node a c k r ihk ihr =>
    simp only [Forest.addrs, List.mem_cons, List.mem_append, not_or] at hx
    have hax : ¬ a = x := fun h => hx.1 h.symm
    simp only [Forest.sub, hax, if_false, hx.2.1, ihr hx.2.2]

theorem Forest.mem_of_mem_sub {F : Forest} {x b : Nat} (hb : b ∈ (Forest.sub x F).addrs) :
    x ∈ F.addrs := by
  by_contra hx
  rw [Forest.sub_of_not_mem hx] at hb
  simp [Forest.addrs] at hb

theorem Forest.nodup_erase {F : Forest} (x : Nat) (hn : F.addrs.Nodup) :
    (F.erase x).addrs.Nodup := by
  induction F with
  | nil => simp [Forest.erase, Forest.addrs]
  | node a c k r ihk ihr =>
    simp only [Forest.addrs, List.nodup_cons, List.nodup_append, List.mem_append, not_or] at hn
    obtain ⟨⟨hak, har⟩, hk, hr, hdis⟩ := hn
    simp only [Forest.erase]
    split
    · exact hr
    · simp only [Forest.addrs, List.nodup_cons, List.nodup_append, List.mem_append, not_or]
      exact ⟨⟨fun h => hak (Forest.mem_addrs_erase h), fun h => har (Forest.mem_addrs_erase h)⟩,
        ihk hk, ihr hr,
        fun _ h1 h2 => hdis (Forest.mem_addrs_erase h1) (Forest.mem_addrs_erase h2)⟩

/-- A node that `erase` takes out of the forest is the erased node or one of its
descendants. -/
theorem Forest.mem_erase_cases {F : Forest} {x b : Nat} (hn : F.addrs.Nodup)
    (hb : b ∈ F.addrs) (hnot : b ∉ (F.erase x).addrs) :
    b = x ∨ b ∈ (Forest.sub x F).addrs := by
  induction F with
  | nil => simp [Forest.addrs] at hb
  | node a c k r ihk ihr =>
    simp only [Forest.addrs, List.nodup_cons, List.nodup_append, List.mem_append, not_or] at hn
    obtain ⟨⟨hak, har⟩, hk, hr, hdis⟩ := hn
    simp only [Forest.addrs, List.mem_cons, List.mem_append] at hb
    simp only [Forest.erase] at hnot
    by_cases hax : a = x
    · simp only [hax, if_true] at hnot
      simp only [Forest.sub, hax, if_true]
      rcases hb with hb | hb | hb
      · exact Or.inl (hb.trans hax)
      · exact Or.inr hb
      · exact absurd hb hnot
    · simp only [hax, if_false, Forest.addrs, List.mem_cons, List.mem_append, not_or] at hnot
      rcases hb with hb | hb | hb
      · exact absurd hb hnot.1
      · rcases ihk hk hb hnot.2.1 with h | h
        · exact Or.inl h
        · have hxk := Forest.mem_of_mem_sub h
          simp only [Forest.sub, hax, if_false, hxk, if_true]
          exact Or.inr h
      · rcases ihr hr hb hnot.2.2 with h | h
        · exact Or.inl h
        · have hxr := Forest.mem_of_mem_sub h
          have hxk : x ∉ k.addrs := fun h2 => hdis h2 hxr
          simp only [Forest.sub, hax, if_false, hxk]
          exact Or.inr h

theorem Forest.erase_app_left {T : Forest} (Z : Forest) {x : Nat} (hx : x ∉ Z.addrs) :
    (T.app Z).erase x = (T.erase x).app Z := by
  induction T with
  | nil => simp [Forest.app, Forest.erase, Forest.erase_of_not_mem hx]
  | node a c k r _ ihr =>
    simp only [Forest.app, Forest.erase]
    split
    · rfl
    · simp only [Forest.app, ihr]

theorem Forest.erase_full {t : ZDTree} (t2 : ZDTree) (T : Forest) {x : Nat} (hh : x ≠ t.head)
    (hf : x ≠ t.feet) (h1 : t2.head = t.head) (h2 : t2.feet = t.feet) :
    (Forest.full t T).erase x = Forest.full t2 (T.erase x) := by
  have hhx : ¬ t.head = x := fun h => hh h.symm
  have hxZ : x ∉ (Forest.node t.feet '\x00' .nil .nil).addrs := by simp [Forest.addrs, hf]
  simp only [Forest.full, Forest.erase, hhx, if_false, h1, h2, Forest.erase_app_left _ hxZ]

/-- The next sibling of a node is not its previous sibling. -/
theorem Sibs.next_ne_prev {m : Nat → Option TreeNode} {x q : Nat} {rx : TreeNode} (F : Forest) :
    ∀ {par prev : Option Nat}, Sibs m F par prev → F.addrs.Nodup →
      (∀ b ∈ F.addrs, some b ≠ prev) → x ∈ F.addrs → m x = some rx →
      rx.next_sibling = some q → rx.prev_sibling ≠ some q := by
  induction F with
  | nil => intro _ _ _ _ _ hx; simp [Forest.addrs] at hx
  | node a0 c k r ihk ihr =>
    intro par prev hs hn hext hx hrx hnext
    simp only [Forest.addrs, List.nodup_cons, List.nodup_append, List.mem_append, not_or] at hn
    obtain ⟨⟨hak, har⟩, hk, hr, hdis⟩ := hn
    simp only [Forest.addrs, List.mem_cons, List.mem_append] at hx
    rcases hx with hx | hx | hx
    · subst hx
      have := hs.1
      rw [hrx] at this
      cases Option.some.inj this
      simp only [] at hnext ⊢
      intro h
      have hq : q ∈ r.addrs := Forest.tops_subset_addrs r q (Forest.first_mem_tops hnext)
      exact hext q (by simp [Forest.addrs, hq]) h.symm
    · exact ihk hs.2.1 hk (fun _ _ => by simp) hx hrx hnext
    · exact ihr hs.2.2 hr (fun b hb h => har ((Option.some.inj h) ▸ hb)) hx hrx hnext

/-- The parent of a node is neither its previous nor its next sibling. -/
theorem Sibs.parent_ne_sibling {m : Nat → Option TreeNode} {x a : Nat} {rx : TreeNode}
    (F : Forest) :
    ∀ {par prev : Option Nat}, Sibs m F par prev → F.addrs.Nodup →
      (∀ b ∈ F.addrs, some b ≠ par) → (par = some a → prev ≠ some a) → x ∈ F.addrs →
      m x = some rx → rx.parent = some a →
      rx.prev_sibling ≠ some a ∧ rx.next_sibling ≠ some a := by
  induction F with
  | nil => intro _ _ _ _ _ _ hx; simp [Forest.addrs] at hx
  | node a0 c k r ihk ihr =>
    intro par prev hs hn hext hpp hx hrx hpar
    simp only [Forest.addrs, List.nodup_cons, List.nodup_append, List.mem_append, not_or] at hn
    obtain ⟨⟨hak, har⟩, hk, hr, hdis⟩ := hn
    simp only [Forest.addrs, List.mem_cons, List.mem_append] at hx
    rcases hx with hx | hx | hx
    · subst hx
      have := hs.1
      rw [hrx] at this
      cases Option.some.inj this
      simp only [] at hpar ⊢
      refine ⟨hpp hpar, ?_⟩
      intro h
      have hq : a ∈ r.addrs := Forest.tops_subset_addrs r a (Forest.first_mem_tops h)
      exact hext a (by simp [Forest.addrs, hq]) hpar.symm
    · exact ihk hs.2.1 hk (fun b hb h => hak ((Option.some.inj h) ▸ hb)) (fun _ => by simp)
        hx hrx hpar
    · refine ihr hs.2.2 hr (fun b hb => hext b (by simp [Forest.addrs, hb])) ?_ hx hrx hpar
      intro hp h
      exact hext a0 (by simp [Forest.addrs]) (by rw [hp, ← Option.some.inj h])

/-- On a well-formed tree `operator++` with the children skipped returns. -/
theorem TreeRep.pre_incr_skip {t : ZDTree} {T : Forest} (h : TreeRep t T) {x : Nat}
    (hx : x ∈ (Forest.full t T).addrs) : ∃ ret, t.pre_incr (some x) true = .ok ret := by
  obtain ⟨n, hn⟩ := Sibs.live h.sibs x hx
  have hlen := nodup_length_le h.nodup h.bound
  obtain ⟨r, hr⟩ := next_skipping_spec (t := t) (x := x) _ none none h.sibs hx 0
    (fun g _ => ⟨none, rfl⟩) (t.fresh + 1) (by omega)
  exact ⟨r, by simp [ZDTree.pre_incr, read_some hn, hr]⟩

theorem TreeRep.nodup_inner {t : ZDTree} {T : Forest} (h : TreeRep t T) : T.addrs.Nodup := by
  have hn := h.nodup
  rw [Forest.full_addrs] at hn
  exact (List.nodup_append.mp (List.nodup_cons.mp hn).2).1

/-- The tree after `erase`. -/
theorem TreeRep.erase_node {t : ZDTree} {T : Forest} (hT : TreeRep t T) {x : Nat}
    (hx : x ∈ T.addrs) :
    ∃ t2 ret rn, t.cells x = some rn ∧ t.pre_incr (some x) true = .ok ret ∧
      t.erase (some x) = .ok (t2, ret) ∧
      t2.fresh = t.fresh ∧ t2.head = t.head ∧ t2.feet = t.feet ∧
      t2.cells x = none ∧ (∀ b ∈ (Forest.sub x T).addrs, t2.cells b = none) ∧
      (∀ b, b ≠ x → b ∉ (Forest.sub x T).addrs →
        t2.cells b = (t.cells b).map (rn.unlink b)) ∧
      TreeRep t2 (T.erase x) := by
  have hh := hT.ne_head hx
  have hf := hT.ne_feet hx
  have hxF : x ∈ (Forest.full t T).addrs := by rw [Forest.full_addrs]; simp [hx]
  obtain ⟨ret, hret⟩ := hT.pre_incr_skip hxF
  obtain ⟨t1, rn, hrn, hec, hfr1, hhd1, hft1, hx1, hgone, hsame, hT1⟩ := hT.erase_children hx
  have hxs : x ∉ (Forest.sub x T).addrs := (List.nodup_cons.mp (hT.owns_node hx).nodup).1
  have hx1T : x ∈ (T.graft x .nil).addrs :=
    Forest.mem_addrs_graft_of_mem .nil hT.nodup_inner hx hxs
  have hx1F : x ∈ (Forest.full t1 (T.graft x .nil)).addrs := by
    rw [Forest.full_addrs]; simp [hx1T]
  have hh1 : x ≠ t1.head := by rw [hhd1]; exact hh
  have hf1 : x ≠ t1.feet := by rw [hft1]; exact hf
  obtain ⟨pn, hpn, hprev⟩ := hT1.prev_or_parent hx1F hh1
  rw [hx1] at hpn
  cases Option.some.inj hpn
  obtain ⟨pn, hpn, hnext⟩ := hT1.next_or_parent hx1F hf1
  rw [hx1] at hpn
  cases Option.some.inj hpn
  simp only [] at hprev hnext
  have hnp : ∀ q, rn.next_sibling = some q → rn.prev_sibling ≠ some q := by
    intro q hq
    have := Sibs.next_ne_prev (q := q) (Forest.full t1 (T.graft x .nil)) hT1.sibs hT1.nodup
      (by simp) hx1F hx1 hq
    exact this
  have hps : ∀ a, rn.parent = some a →
      rn.prev_sibling ≠ some a ∧ rn.next_sibling ≠ some a := by
    intro a ha
    have := Sibs.parent_ne_sibling (a := a) (Forest.full t1 (T.graft x .nil)) hT1.sibs
      hT1.nodup (by simp) (by simp) hx1F hx1 ha
    exact this
  obtain ⟨t2, he, hfr2, hhd2, hft2, hgx, hform⟩ := erase_after_children hh hret hec hx1 (by
      intro q hq
      rcases hprev with ⟨q2, nq, _, h2, h3, h4, _⟩ | ⟨h0, _⟩
      · rw [hq] at h3
        cases Option.some.inj h3
        exact ⟨h2, nq, h4⟩
      · rw [hq] at h0; cases h0) (by
      intro n1 hn1
      rcases hnext with ⟨q2, nq, _, h2, h3, h4, _⟩ | ⟨h0, _⟩
      · rw [hn1] at h3
        cases Option.some.inj h3
        exact ⟨h2, hnp _ hn1, nq, h4⟩
      · rw [hn1] at h0; cases h0) (by
      intro hnone
      have hpar : ∃ a na, a ≠ x ∧ rn.parent = some a ∧ t1.cells a = some na := by
        rcases hnone with h | h
        · rcases hprev with ⟨q2, _, _, _, h3, _, _⟩ | ⟨_, a, na, _, h2, h3, h4, _⟩
          · rw [h] at h3; cases h3
          · exact ⟨a, na, h2, h3, h4⟩
        · rcases hnext with ⟨q2, _, _, _, h3, _, _⟩ | ⟨_, a, na, _, h2, h3, h4, _⟩
          · rw [h] at h3; cases h3
          · exact ⟨a, na, h2, h3, h4⟩
      obtain ⟨a, na, h1, h2, h3⟩ := hpar
      exact ⟨a, na, h2, h1, (hps a h2).1, (hps a h2).2, h3⟩)
  have hcells : ∀ b, b ≠ x → b ∉ (Forest.sub x T).addrs →
      t2.cells b = (t.cells b).map (rn.unlink b) := by
    intro b hb1 hb2
    rw [hform b hb1, hsame b hb1 hb2]
    rfl
  have hdead : ∀ b ∈ (Forest.sub x T).addrs, t2.cells b = none := by
    intro b hb
    have hbx : b ≠ x := fun h => hxs (h ▸ hb)
    rw [hform b hbx, hgone b hb]
    rfl
  refine ⟨t2, ret, rn, hrn, hret, he, by rw [hfr2, hfr1], by rw [hhd2, hhd1],
    by rw [hft2, hft1], hgx, hdead, hcells, ?_⟩
  have hhd : t2.head = t.head := by rw [hhd2, hhd1]
  have hft : t2.feet = t.feet := by rw [hft2, hft1]
  have hfull := Forest.erase_full t2 T hh hf hhd hft
  have hsub := hT.sub_full hx
  have hsibs : Sibs t2.cells ((Forest.full t T).erase x) none none := by
    refine Sibs.erase_cells (E := fun b => b ∈ (Forest.sub x T).addrs) hrn ?_ _ hT.sibs
      hT.nodup hxF (fun _ _ => ⟨by simp, by simp⟩) ?_
    · intro b r hb1 hb2 hbr
      rw [hcells b hb1 hb2, hbr]
      rfl
    · intro b _ hb
      rw [hsub]
      exact hb
  refine ⟨?_, ?_, ?_, ?_⟩
  · rw [← hfull]; exact hsibs
  · rw [← hfull]; exact Forest.nodup_erase x hT.nodup
  · intro b hb
    rw [← hfull] at hb
    have := hT.bound b (Forest.mem_addrs_erase hb)
    omega
  · intro b hb
    rw [← hfull] at hb
    by_cases hbx : b = x
    · rw [hbx]; exact hgx
    · by_cases hbs : b ∈ (Forest.sub x T).addrs
      · exact hdead b hbs
      · rw [hcells b hbx hbs]
        have hbF : b ∉ (Forest.full t T).addrs := by
          intro hin
          rcases Forest.mem_erase_cases hT.nodup hin hb with h | h
          · exact hbx h
          · rw [hsub] at h; exact hbs h
        rw [hT.tight b hbF]
        rfl

/-! ## Reachable trees are well-formed; well-formed trees satisfy the linkage invariant -/

theorem Forest.tops_getLast (F : Forest) : F.tops.getLast? = F.last := by
  induction F with
  | nil => rfl
  | node a c k r _ ihr =>
    simp only [Forest.tops, Forest.last]
    cases r with
    | nil => rfl
    | node b d kb rb =>
      rw [← ihr]
      simp only [Forest.tops, List.getLast?_cons_cons]
      cases h : (b :: rb.tops).getLast? with
      | none => simp at h
      | some l => rfl

theorem Sibs.top_parent {m : Nat → Option TreeNode} (F : Forest) :
    ∀ {par prev : Option Nat}, Sibs m F par prev →
      ∀ b ∈ F.tops, ∃ nb, m b = some nb ∧ nb.parent = par := by
  induction F with
  | nil => intro _ _ _ b hb; simp [Forest.tops] at hb
  | node a c k r _ ihr =>
    intro par prev hs b hb
    simp only [Forest.tops, List.mem_cons] at hb
    rcases hb with hb | hb
    · subst hb; exact ⟨_, hs.1, rfl⟩
    · exact ihr hs.2.2 b hb

/-- Every state reachable through the tree operations is well-formed. -/
theorem TreeReachable.wf {t : ZDTree} (h : TreeReachable t) : t.WellFormed := by
  induction h with
  | init => exact ⟨.nil, TreeRep.init⟩
  | @insert t t2 position r x _ hpos hins ih =>
    obtain ⟨T, hT⟩ := ih
    have hfeet : t.feet ∈ (Forest.full t T).addrs := by rw [Forest.full_addrs]; simp
    have hfh : t.feet ≠ t.head := by
      have hn := hT.nodup
      rw [Forest.full_addrs] at hn
      intro h
      exact (List.nodup_cons.mp hn).1 (by simp [← h])
    have key : ∃ p, p ∈ (Forest.full t T).addrs ∧ p ≠ t.head ∧
        t.insert position x = t.insert (some p) x := by
      rcases hpos with h | ⟨a, h, hah, hlive⟩
      · exact ⟨t.feet, hfeet, hfh, by rw [h, insert_none]⟩
      · exact ⟨a, hT.mem_of_live hlive, hah, by rw [h]⟩
    obtain ⟨p, hp, hph, he⟩ := key
    obtain ⟨t3, h3, _, hT3⟩ := hT.insert x hp hph
    rw [he, h3] at hins
    cases (Prod.mk.inj (Except.ok.inj hins)).1
    exact ⟨_, hT3⟩
  | @append_child t t2 a r x _ hh hf hlive hop ih =>
    obtain ⟨T, hT⟩ := ih
    obtain ⟨t3, h3, _, hT3⟩ := hT.append_child (hT.mem_addrs hh hf hlive) x
    rw [h3] at hop
    cases (Prod.mk.inj (Except.ok.inj hop)).1
    exact ⟨_, hT3⟩
  | @erase t t2 a r _ hh hf hlive hop ih =>
    obtain ⟨T, hT⟩ := ih
    obtain ⟨t3, ret, rn, _, _, h3, _, _, _, _, _, _, hT3⟩ :=
      hT.erase_node (hT.mem_addrs hh hf hlive)
    rw [h3] at hop
    cases (Prod.mk.inj (Except.ok.inj hop)).1
    exact ⟨_, hT3⟩
  | @erase_children t t2 a _ hh hf hlive hop ih =>
    obtain ⟨T, hT⟩ := ih
    obtain ⟨t3, n, _, h3, _, _, _, _, _, _, hT3⟩ :=
      hT.erase_children (hT.mem_addrs hh hf hlive)
    rw [h3] at hop
    cases Except.ok.inj hop
    exact ⟨_, hT3⟩

/-- A well-formed tree satisfies the linkage invariant. -/
theorem TreeRep.link_inv {t : ZDTree} {T : Forest} (h : TreeRep t T) : t.LinkInv := by
  refine ⟨?_, ?_, ?_⟩
  · intro a n hn
    have ha : a ∈ (Forest.full t T).addrs := h.mem_of_live (by simp [hn])
    have ho := h.owns_full ha
    obtain ⟨n2, hn2, hfc, hlc⟩ := ho.live
    rw [hn] at hn2
    cases Option.some.inj hn2
    refine ⟨?_, (Forest.sub a (Forest.full t T)).tops, ?_, ?_, ?_⟩
    · rw [hfc, hlc, Forest.first_eq_none, Forest.last_eq_none]
    · rw [hfc]; exact Sibs.next_walk _ ho.sibs
    · rw [hlc]; exact Forest.tops_getLast _
    · exact Sibs.top_parent _ ho.sibs
  · intro a b na hna hnext
    have ha : a ∈ (Forest.full t T).addrs := h.mem_of_live (by simp [hna])
    obtain ⟨pn, hpn, hcase⟩ := Sibs.next_pointer _ h.sibs h.nodup ha
    rw [hna] at hpn
    cases Option.some.inj hpn
    rcases hcase with ⟨_, h2, _⟩ | ⟨q, nq, _, _, h3, h4, h5⟩ | ⟨h0, _⟩
    · rw [hnext] at h2; cases h2
    · rw [hnext] at h3
      cases Option.some.inj h3
      exact ⟨nq, h4, h5⟩
    · rw [hnext] at h0; cases h0
  · intro a b nb hnb hprev
    have hb : b ∈ (Forest.full t T).addrs := h.mem_of_live (by simp [hnb])
    obtain ⟨pn, hpn, hcase⟩ := Sibs.prev_pointer _ h.sibs h.nodup hb
    rw [hnb] at hpn
    cases Option.some.inj hpn
    rcases hcase with ⟨_, h2, _⟩ | ⟨q, nq, _, _, h3, h4, h5⟩ | ⟨h0, _⟩
    · rw [hprev] at h2; cases h2
    · rw [hprev] at h3
      cases Option.some.inj h3
      exact ⟨nq, h4, h5⟩
    · rw [hprev] at h0; cases h0

/-! ## Descendants, read off the parent links -/

theorem ZDTree.Below.trans {t : ZDTree} {a c b : Nat} (h1 : t.Below c b) (h2 : t.Below a c) :
    t.Below a b := by
  induction h1 with
  | child hr hp => exact ZDTree.Below.deeper hr hp h2
  | deeper hr hp _ ih => exact ZDTree.Below.deeper hr hp ih

/-- The nodes of the children forest of `a` are descendants of `a`. -/
theorem Sibs.below {t : ZDTree} (K : Forest) :
    ∀ {a : Nat} {prev : Option Nat}, Sibs t.cells K (some a) prev →
      ∀ b ∈ K.addrs, t.Below a b := by
  induction K with
  | nil => intro _ _ _ b hb; simp [Forest.addrs] at hb
  | node a0 c k r ihk ihr =>
    intro a prev hs b hb
    simp only [Forest.addrs, List.mem_cons, List.mem_append] at hb
    have h0 : t.Below a a0 := ZDTree.Below.child hs.1 rfl
    rcases hb with hb | hb | hb
    · subst hb; exact h0
    · exact (ihk hs.2.1 b hb).trans h0
    · exact ihr hs.2.2 b hb

/-- A node whose parent is `n` is among the children of `n`. -/
theorem Sibs.parent_sub {m : Nat → Option TreeNode} {n b : Nat} {rb : TreeNode} (F : Forest) :
    ∀ {par prev : Option Nat}, Sibs m F par prev → F.addrs.Nodup → b ∈ F.addrs →
      m b = some rb → rb.parent = some n → par ≠ some n → b ∈ (Forest.sub n F).addrs := by
  induction F with
  | nil => intro _ _ _ _ hb; simp [Forest.addrs] at hb
  | node a0 c k r ihk ihr =>
    intro par prev hs hn hb hrb hpar hne
    simp only [Forest.addrs, List.nodup_cons, List.nodup_append, List.mem_append, not_or] at hn
    obtain ⟨⟨hak, har⟩, hk, hr, hdis⟩ := hn
    simp only [Forest.addrs, List.mem_cons, List.mem_append] at hb
    rcases hb with hb | hb | hb
    · subst hb
      have := hs.1
      rw [hrb] at this
      cases Option.some.inj this
      exact absurd hpar hne
    · by_cases han : a0 = n
      · simp only [Forest.sub, han, if_true]; exact hb
      · have h1 := ihk hs.2.1 hk hb hrb hpar (fun h => han (Option.some.inj h))
        have hnk := Forest.mem_of_mem_sub h1
        simp only [Forest.sub, han, if_false, hnk, if_true]
        exact h1
    · have h1 := ihr hs.2.2 hr hb hrb hpar hne
      have hnr := Forest.mem_of_mem_sub h1
      have han : ¬ a0 = n := fun h => har (h ▸ hnr)
      have hnk : n ∉ k.addrs := fun h => hdis h hnr
      simp only [Forest.sub, han, if_false, hnk]
      exact h1

theorem Forest.sub_sub {F : Forest} {n c : Nat} (hn : F.addrs.Nodup)
    (hc : c ∈ (Forest.sub n F).addrs) : Forest.sub c (Forest.sub n F) = Forest.sub c F := by
  induction F with
  | nil => simp [Forest.sub, Forest.addrs] at hc
  | node a0 d k r ihk ihr =>
    simp only [Forest.addrs, List.nodup_cons, List.nodup_append, List.mem_append, not_or] at hn
    obtain ⟨⟨hak, har⟩, hk, hr, hdis⟩ := hn
    by_cases han : a0 = n
    · simp only [Forest.sub, han, if_true] at hc ⊢
      have hnc : ¬ n = c := fun h => hak (by rw [han, h]; exact hc)
      simp only [hnc, if_false, hc, if_true]
    · by_cases hnk : n ∈ k.addrs
      · simp only [Forest.sub, han, if_false, hnk, if_true] at hc ⊢
        have hck : c ∈ k.addrs := Forest.sub_addrs_subset _ _ c hc
        have hac : ¬ a0 = c := fun h => hak (h ▸ hck)
        simp only [hac, if_false, hck, if_true]
        exact ihk hk hc
      · simp only [Forest.sub, han, if_false, hnk] at hc ⊢
        have hcr : c ∈ r.addrs := Forest.sub_addrs_subset _ _ c hc
        have hac : ¬ a0 = c := fun h => har (h ▸ hcr)
        have hck : c ∉ k.addrs := fun h => hdis h hcr
        simp only [hac, if_false, hck]
        exact ihr hr hc

/-- In a well-formed tree the descendants of a node are the nodes of its children
forest. -/
theorem TreeRep.below_iff {t : ZDTree} {T : Forest} (h : TreeRep t T) {n : Nat}
    (hn : n ∈ (Forest.full t T).addrs) (b : Nat) :
    t.Below n b ↔ b ∈ (Forest.sub n (Forest.full t T)).addrs := by
  constructor
  · intro hb
    induction hb with
    | @child b r hr hp =>
      exact Sibs.parent_sub _ h.sibs h.nodup (h.mem_of_live (by simp [hr])) hr hp (by simp)
    | @deeper b c r hr hp _ ih =>
      have h1 : b ∈ (Forest.sub c (Forest.full t T)).addrs :=
        Sibs.parent_sub _ h.sibs h.nodup (h.mem_of_live (by simp [hr])) hr hp (by simp)
      rw [← Forest.sub_sub h.nodup ih] at h1
      exact Forest.sub_addrs_subset _ _ b h1
  · intro hb
    exact Sibs.below _ (h.owns_full hn).sibs b hb

/-! ## Pre-order traversal -/

/-- The result of `operator++` with the children skipped at a node whose sibling list
is left through `out`. -/
theorem climb_exit {t : ZDTree} {a : Nat} {c : Char} {k r Z : Forest} {par prev out : Option Nat}
    {g0 : Nat} (ha : t.cells a = some ⟨par, k.first, k.last, prev, (r.app Z).first, c⟩)
    (hexit : ∀ g, g0 ≤ g →
      (match Z.first with
        | some z => Except.ok (some z)
        | none => climb_on t par g) = .ok out) :
    ∀ g, g0 + 1 ≤ g →
      climb_on t (some a) g = .ok (match r.first with | some b => some b | none => out) := by
  intro g hg
  obtain ⟨g, rfl⟩ : ∃ g2, g = g2 + 1 := ⟨g - 1, by omega⟩
  have hex := hexit g (by omega)
  simp only [climb_on, ZDTree.next_skipping, read_some ha, bind_ok, Forest.first_app]
  cases hrf : r.first with
  | some b => simp
  | none =>
    cases hzf : Z.first with
    | some z =>
      rw [hzf] at hex
      simpa using hex
    | none =>
      rw [hzf] at hex
      simp only [if_true]
      cases par with
      | none => simpa [climb_on] using hex
      | some p => simpa [climb_on] using hex

/-- The loop over `operator++` visits the nodes of a sibling list and everything below
them in pre-order and goes on at the exit `out` of the list. -/
theorem traverse_sibs {t : ZDTree} (G : Forest) :
    ∀ (Z : Forest) (par prev out : Option Nat) (g0 : Nat),
      Sibs t.cells (G.app Z) par prev → t.feet ∉ G.addrs →
      (∀ g, g0 ≤ g →
        (match Z.first with
          | some z => Except.ok (some z)
          | none => climb_on t par g) = .ok out) →
      g0 + G.addrs.length ≤ t.fresh + 1 →
      ∀ n, ZDTree.traverse (G.addrs.length + n) t
          (match G.first with | some a => some a | none => out) =
        Except.map (fun l => G.addrs ++ l) (ZDTree.traverse n t out) := by
  induction G with
  | nil =>
    intro Z par prev out g0 _ _ _ _ n
    simp only [Forest.addrs, List.length_nil, Nat.zero_add, Forest.first_nil, List.nil_append]
    cases ZDTree.traverse n t out <;> rfl
  | node a c k r ihk ihr =>
    intro Z par prev out g0 hs hfeet hexit hfuel n
    simp only [Forest.addrs, List.mem_cons, List.mem_append, not_or] at hfeet
    simp only [Forest.addrs, List.length_cons, List.length_append] at hfuel
    have hs0 : Sibs t.cells (Forest.node a c k (r.app Z)) par prev := hs
    have hcl := climb_exit hs0.1 hexit
    have hk := ihk .nil (some a) none (match r.first with | some b => some b | none => out)
      (g0 + 1) (by rw [Forest.app_nil]; exact hs0.2.1) hfeet.2.1
      (by intro g hg; exact hcl g hg) (by omega) (r.addrs.length + n)
    have hr := ihr Z par (some a) out g0 hs0.2.2 hfeet.2.2 hexit (by omega) n
    have hlen : (Forest.node a c k r).addrs.length + n =
        (k.addrs.length + (r.addrs.length + n)) + 1 := by
      simp only [Forest.addrs, List.length_cons, List.length_append]
      omega
    have hne : ¬ a = t.feet := fun h => hfeet.1 h.symm
    have hstep : t.pre_incr (some a) false =
        .ok (match k.first with
          | some f => some f
          | none => (match r.first with | some b => some b | none => out)) := by
      simp only [ZDTree.pre_incr, read_some hs0.1, bind_ok]
      cases hkf : k.first with
      | some f => simp
      | none =>
        have := hcl (t.fresh + 1) (by omega)
        simpa [climb_on] using this
    rw [hlen]
    simp only [ZDTree.traverse, ZDTree.end, Option.some.injEq, hne, if_false, hstep, bind_ok,
      Forest.first_node]
    rw [hk, hr]
    cases ZDTree.traverse n t out with
    | error e => rfl
    | ok l => simp [Except.map, Forest.addrs]

/-- The recursive listing of a sibling list that ends at the null pointer or at
`feet`. -/
theorem preorder_sibs {t : ZDTree} (G : Forest) :
    ∀ (Z : Forest) (par prev : Option Nat),
      Sibs t.cells (G.app Z) par prev → t.feet ∉ G.addrs →
      (Z.first = none ∨ Z.first = some t.feet) →
      ∀ fuel, G.addrs.length + 1 ≤ fuel →
        ZDTree.preorder fuel t (G.app Z).first = .ok G.addrs := by
  induction G with
  | nil =>
    intro Z par prev _ _ hZ fuel hfuel
    obtain ⟨fuel, rfl⟩ : ∃ f, fuel = f + 1 := ⟨fuel - 1, by omega⟩
    simp only [Forest.app, Forest.addrs]
    rcases hZ with h | h
    · rw [h]; rfl
    · rw [h]; simp [ZDTree.preorder]
  | node a c k r ihk ihr =>
    intro Z par prev hs hfeet hZ fuel hfuel
    simp only [Forest.addrs, List.mem_cons, List.mem_append, not_or] at hfeet
    simp only [Forest.addrs, List.length_cons, List.length_append] at hfuel
    obtain ⟨fuel, rfl⟩ : ∃ f, fuel = f + 1 := ⟨fuel - 1, by omega⟩
    have hs0 : Sibs t.cells (Forest.node a c k (r.app Z)) par prev := hs
    have hk := ihk .nil (some a) none (by rw [Forest.app_nil]; exact hs0.2.1) hfeet.2.1
      (Or.inl rfl) fuel (by omega)
    rw [Forest.app_nil] at hk
    have hr := ihr Z par (some a) hs0.2.2 hfeet.2.2 hZ fuel (by omega)
    have hne : ¬ a = t.feet := fun h => hfeet.1 h.symm
    simp only [Forest.app, Forest.first_node, ZDTree.preorder, hne, if_false, read_some hs0.1,
      bind_ok, hk, hr, pure_eq_ok, Forest.addrs]

/-! ## Traversal of a well-formed tree -/

/-- In the pre-order listing a node is followed by its descendants. -/
theorem Forest.addrs_block {F : Forest} {a : Nat} (hn : F.addrs.Nodup) (ha : a ∈ F.addrs) :
    ∃ pre post, F.addrs = pre ++ a :: ((Forest.sub a F).addrs ++ post) := by
  induction F with
  | nil => simp [Forest.addrs] at ha
  | node a0 c k r ihk ihr =>
    simp only [Forest.addrs, List.nodup_cons, List.nodup_append, List.mem_append, not_or] at hn
    obtain ⟨⟨hak, har⟩, hk, hr, hdis⟩ := hn
    simp only [Forest.addrs, List.mem_cons, List.mem_append] at ha
    by_cases hax : a0 = a
    · exact ⟨[], r.addrs, by simp [Forest.addrs, Forest.sub, hax]⟩
    · by_cases hxk : a ∈ k.addrs
      · obtain ⟨pre, post, h⟩ := ihk hk hxk
        refine ⟨a0 :: pre, post ++ r.addrs, ?_⟩
        simp only [Forest.addrs, Forest.sub, hax, if_false, hxk, if_true]
        rw [h]
        simp
      · have hxr : a ∈ r.addrs := by
          rcases ha with h | h | h
          · exact absurd h.symm hax
          · exact absurd h hxk
          · exact h
        obtain ⟨pre, post, h⟩ := ihr hr hxr
        refine ⟨a0 :: (k.addrs ++ pre), post, ?_⟩
        simp only [Forest.addrs, Forest.sub, hax, if_false, hxk]
        rw [h]
        simp

/-- The loop from `begin()` to `end()` over a well-formed tree returns the pre-order
listing of the forest between the sentinels, and so does the recursive listing. -/
theorem TreeRep.traversal {t : ZDTree} {T : Forest} (h : TreeRep t T) :
    ∃ first, t.begin = .ok first ∧
      ZDTree.traverse (t.fresh + 1) t first = .ok T.addrs ∧
      ZDTree.preorder (t.fresh + 1) t first = .ok T.addrs := by
  have hs : Sibs t.cells
      (Forest.node t.head '\x00' .nil (T.app (.node t.feet '\x00' .nil .nil))) none none :=
    h.sibs
  have hfeet : t.feet ∉ T.addrs := fun hin => h.ne_feet hin rfl
  have hlen := nodup_length_le h.nodup h.bound
  rw [Forest.full_addrs] at hlen
  simp only [List.length_cons, List.length_append, List.length_nil] at hlen
  refine ⟨(T.app (.node t.feet '\x00' .nil .nil)).first, ?_, ?_, ?_⟩
  · simp [ZDTree.begin, read_some hs.1]
  · have := traverse_sibs T (.node t.feet '\x00' .nil .nil) none (some t.head) (some t.feet) 0
      hs.2.2 hfeet (by intro g _; rfl) (by omega) (t.fresh + 1 - T.addrs.length)
    rw [Forest.first_app, Forest.first_node]
    have hfuel : T.addrs.length + (t.fresh + 1 - T.addrs.length) = t.fresh + 1 := by omega
    rw [hfuel] at this
    refine this.trans ?_
    obtain ⟨n, hn⟩ : ∃ n, t.fresh + 1 - T.addrs.length = n + 1 :=
      ⟨t.fresh - T.addrs.length, by omega⟩
    rw [hn]
    simp [ZDTree.traverse, ZDTree.end, Except.map]
  · exact preorder_sibs T (.node t.feet '\x00' .nil .nil) none (some t.head) hs.2.2 hfeet
      (Or.inr rfl) (t.fresh + 1) (by omega)

/-- The nodes of the forest are the allocated nodes other than the sentinels. -/
theorem TreeRep.mem_iff {t : ZDTree} {T : Forest} (h : TreeRep t T) (b : Nat) :
    b ∈ T.addrs ↔ ((t.cells b).isSome ∧ b ≠ t.head ∧ b ≠ t.feet) := by
  constructor
  · intro hb
    obtain ⟨n, hn⟩ := Sibs.live h.sibs b (by rw [Forest.full_addrs]; simp [hb])
    exact ⟨by simp [hn], h.ne_head hb, h.ne_feet hb⟩
  · intro hb
    exact h.mem_addrs hb.2.1 hb.2.2 hb.1

/-! ## The small tree is reachable -/

theorem oneNodeTree_eq : ZDTree.head_initialise.insert none 'a' = .ok (oneNodeTree, some 2) := by
  rfl

theorem twoNodeTree_eq : oneNodeTree.append_child (some 2) 'b' = .ok (twoNodeTree, some 3) := by
  rfl

theorem twoNodeTree_reachable : TreeReachable twoNodeTree :=
  TreeReachable.append_child (TreeReachable.insert TreeReachable.init (Or.inl rfl) oneNodeTree_eq)
    (by decide) (by decide) (by rfl) twoNodeTree_eq

theorem twoNodeTree_wf : twoNodeTree.WellFormed := twoNodeTree_reachable.wf

/-! ## The node after a subtree -/

theorem Forest.head_addrs (F : Forest) : F.addrs.head? = F.first := by
  cases F <;> rfl

/-- The climb of `operator++` with the children skipped ends at the node that follows
the descendants of the start in the pre-order listing, or at the exit `out` of the
sibling list when nothing follows. -/
theorem skip_sibs {t : ZDTree} {x : Nat} (G : Forest) :
    ∀ (Z : Forest) (par prev out : Option Nat) (g0 : Nat),
      Sibs t.cells (G.app Z) par prev → G.addrs.Nodup → x ∈ G.addrs →
      (∀ g, g0 ≤ g →
        (match Z.first with
          | some z => Except.ok (some z)
          | none => climb_on t par g) = .ok out) →
      ∃ pre post, G.addrs = pre ++ x :: ((Forest.sub x G).addrs ++ post) ∧
        ∀ g, g0 + G.addrs.length ≤ g →
          ZDTree.next_skipping g t (some x) =
            .ok (match post.head? with | some r => some r | none => out) := by
  induction G with
  | nil => intro _ _ _ _ _ _ _ hx; simp [Forest.addrs] at hx
  | node a c k r ihk ihr =>
    intro Z par prev out g0 hs hn hx hexit
    simp only [Forest.addrs, List.nodup_cons, List.nodup_append, List.mem_append, not_or] at hn
    obtain ⟨⟨hak, har⟩, hk, hr, hdis⟩ := hn
    simp only [Forest.addrs, List.mem_cons, List.mem_append] at hx
    have hs0 : Sibs t.cells (Forest.node a c k (r.app Z)) par prev := hs
    have hcl := climb_exit hs0.1 hexit
    by_cases hax : a = x
    · subst hax
      refine ⟨[], r.addrs, by simp [Forest.addrs, Forest.sub], ?_⟩
      intro g hg
      simp only [Forest.addrs, List.length_cons, List.length_append] at hg
      rw [Forest.head_addrs]
      exact hcl g (by omega)
    · by_cases hxk : x ∈ k.addrs
      · obtain ⟨pre, post, hblock, hrun⟩ := ihk .nil (some a) none
          (match r.first with | some b => some b | none => out) (g0 + 1)
          (by rw [Forest.app_nil]; exact hs0.2.1) hk hxk (by intro g hg; exact hcl g hg)
        refine ⟨a :: pre, post ++ r.addrs, ?_, ?_⟩
        · simp only [Forest.addrs, Forest.sub, hax, if_false, hxk, if_true]
          rw [hblock]
          simp
        · intro g hg
          simp only [Forest.addrs, List.length_cons, List.length_append] at hg
          rw [hrun g (by omega)]
          cases post with
          | nil =>
            simp only [List.nil_append, List.head?_nil, Forest.head_addrs]
          | cons p ps => rfl
      · have hxr : x ∈ r.addrs := by
          rcases hx with h | h | h
          · exact absurd h.symm hax
          · exact absurd h hxk
          · exact h
        obtain ⟨pre, post, hblock, hrun⟩ := ihr Z par (some a) out g0 hs0.2.2 hr hxr hexit
        refine ⟨a :: (k.addrs ++ pre), post, ?_, ?_⟩
        · simp only [Forest.addrs, Forest.sub, hax, if_false, hxk]
          rw [hblock]
          simp
        · intro g hg
          simp only [Forest.addrs, List.length_cons, List.length_append] at hg
          exact hrun g (by omega)

/-- On a well-formed tree `operator++` with the children skipped at a node other than
the sentinels returns the node that follows the node and its descendants in the
pre-order listing (`feet` when none does). -/
theorem TreeRep.skip_target {t : ZDTree} {T : Forest} (h : TreeRep t T) {x : Nat}
    (hx : x ∈ T.addrs) :
    ∃ pre post r, T.addrs ++ [t.feet] = pre ++ x :: ((Forest.sub x T).addrs ++ r :: post) ∧
      t.pre_incr (some x) true = .ok (some r) := by
  have hs : Sibs t.cells
      (Forest.node t.head '\x00' .nil (T.app (.node t.feet '\x00' .nil .nil))) none none :=
    h.sibs
  have hlen := nodup_length_le h.nodup h.bound
  rw [Forest.full_addrs] at hlen
  simp only [List.length_cons, List.length_append, List.length_nil] at hlen
  obtain ⟨pre, post, hblock, hrun⟩ := skip_sibs (x := x) T (.node t.feet '\x00' .nil .nil)
    none (some t.head) (some t.feet) 0 hs.2.2 h.nodup_inner hx (by intro g _; rfl)
  obtain ⟨n, hn⟩ := Sibs.live h.sibs x (by rw [Forest.full_addrs]; simp [hx])
  have hinc : t.pre_incr (some x) true =
      .ok (match post.head? with | some r => some r | none => some t.feet) := by
    simp only [ZDTree.pre_incr, read_some hn, bind_ok]
    simpa using hrun (t.fresh + 1) (by omega)
  cases post with
  | nil =>
    refine ⟨pre, [], t.feet, ?_, by simpa using hinc⟩
    rw [hblock]
    simp
  | cons p ps =>
    refine ⟨pre, ps ++ [t.feet], p, ?_, by simpa using hinc⟩
    rw [hblock]
    simp

/-! ## The private approximate search -/

/-- With a budget that is not positive the loop reads the word to its end without
looking at the tree. -/
theorem find_word_approx_loop_nonpos
    (self : Option Nat → List Char → Int → Except Fault (Bool × Option Nat × Int))
    (t : ZDTree) (word : List Char) {k : Int} (hk : k ≤ 0) :
    ∀ (rest : List Char) (count : Nat) (cur : Option Nat) (las : Bool × Option Nat × Int),
      find_word_approx_loop self t word rest count cur k las =
        .ok (match rest with
             | [] => las
             | _ :: _ => (false, none, -1)) := by
  intro rest
  induction rest with
  | nil => intro count cur las; rfl
  | cons c rest ih =>
    intro count cur las
    have hk2 : ¬ k > 0 := by omega
    simp only [find_word_approx_loop, hk2, if_false]
    rw [ih]
    cases rest <;> rfl

theorem find_word_approx_fuel_nonpos (t : ZDTree) (fuel : Nat) (node : Option Nat)
    (word : List Char) {k : Int} (hk : k ≤ 0) :
    find_word_approx_fuel t (fuel + 1) node word k = .ok (false, none, -1) := by
  simp only [find_word_approx_fuel]
  split
  · rfl
  · rw [find_word_approx_loop_nonpos _ t word hk]
    cases word <;> rfl

theorem find_word_approx_nonpos (t : ZDTree) (node : Option Nat) (word : List Char) {k : Int}
    (hk : k ≤ 0) : find_word_approx t node word k = .ok (false, none, -1) :=
  find_word_approx_fuel_nonpos t _ node word hk

/-- The loop calls the function itself with the budget lowered by one only. -/
theorem find_word_approx_loop_congr
    {self self2 : Option Nat → List Char → Int → Except Fault (Bool × Option Nat × Int)}
    (t : ZDTree) (word : List Char) {k : Int}
    (h : ∀ n w, self n w (k - 1) = self2 n w (k - 1)) :
    ∀ (rest : List Char) (count : Nat) (cur : Option Nat) (las : Bool × Option Nat × Int),
      find_word_approx_loop self t word rest count cur k las =
        find_word_approx_loop self2 t word rest count cur k las := by
  intro rest
  induction rest with
  | nil => intro count cur las; rfl
  | cons c rest ih =>
    intro count cur las
    simp only [find_word_approx_loop]
    split
    · cases has_child t cur c with
      | error e => rfl
      | ok fc =>
        simp only [bind_ok]
        split
        · exact ih _ _ _
        · simp only [h]
    · exact ih _ _ _

/-- The bound on the depth of the recovery calls is never met: any bound above the
budget gives the same result. -/
theorem find_word_approx_fuel_eq (t : ZDTree) :
    ∀ (fuel fuel2 : Nat) (node : Option Nat) (word : List Char) (k : Int),
      k.toNat < fuel → k.toNat < fuel2 →
      find_word_approx_fuel t fuel node word k = find_word_approx_fuel t fuel2 node word k := by
  intro fuel
  induction fuel with
  | zero => intro _ _ _ _ h; omega
  | succ f ih =>
    intro fuel2 node word k h1 h2
    obtain ⟨f2, rfl⟩ : ∃ f2, fuel2 = f2 + 1 := ⟨fuel2 - 1, by omega⟩
    by_cases hk : k ≤ 0
    · rw [find_word_approx_fuel_nonpos t f node word hk,
        find_word_approx_fuel_nonpos t f2 node word hk]
    · simp only [find_word_approx_fuel]
      split
      · rfl
      · apply find_word_approx_loop_congr
        intro n w
        exact ih f2 n w (k - 1) (by omega) (by omega)

theorem find_word_approx_fuel_of_lt (t : ZDTree) {fuel : Nat} (node : Option Nat)
    (word : List Char) {k : Int} (h : k.toNat < fuel) :
    find_word_approx_fuel t fuel node word k = find_word_approx t node word k :=
  find_word_approx_fuel_eq t fuel (k.toNat + 1) node word k h (by omega)

/-- The private approximate `find_word` in terms of itself. -/
theorem find_word_approx_unfold (t : ZDTree) (node : Option Nat) {word : List Char}
    (hw : word ≠ []) (k : Int) :
    find_word_approx t node word k =
      find_word_approx_loop (find_word_approx t) t word word 1 node k (false, none, -1) := by
  have hl : ¬ word.length = 0 := by
    cases word with
    | nil => exact absurd rfl hw
    | cons _ _ => simp
  by_cases hk : k ≤ 0
  · rw [find_word_approx_nonpos t node word hk, find_word_approx_loop_nonpos _ t word hk]
    cases word with
    | nil => exact absurd rfl hw
    | cons _ _ => rfl
  · simp only [find_word_approx, find_word_approx_fuel, hl, if_false]
    apply find_word_approx_loop_congr
    intro n w
    exact find_word_approx_fuel_eq t _ _ n w (k - 1) (by omega) (by omega)

/-- The loop over a matched prefix of the rest. -/
theorem find_word_approx_loop_matched
    (self : Option Nat → List Char → Int → Except Fault (Bool × Option Nat × Int))
    (t : ZDTree) (word : List Char) {k : Int} (hk : 0 < k) (pre : List Char) :
    ∀ (node cur : Option Nat) (rest : List Char) (count : Nat)
      (las : Bool × Option Nat × Int), Matched t node pre cur →
      find_word_approx_loop self t word (pre ++ rest) count node k las =
        find_word_approx_loop self t word rest (count + pre.length) cur k
          (match pre with
           | [] => las
           | _ :: _ => (true, cur, k)) := by
  induction pre with
  | nil =>
    intro node cur rest count las hm
    simp only [Matched] at hm
    subst hm
    rfl
  | cons c pre ih =>
    intro node cur rest count las hm
    obtain ⟨x, hx, hm2⟩ := hm
    have hk2 : k > 0 := hk
    simp only [List.cons_append, find_word_approx_loop, hk2, if_true, hx, bind_ok,
      List.append_eq]
    rw [ih x cur rest (count + 1) _ hm2]
    have e : count + 1 + pre.length = count + (c :: pre).length := by
      simp only [List.length_cons]; omega
    rw [e]
    cases pre with
    | nil =>
      simp only [Matched] at hm2
      subst hm2
      rfl
    | cons _ _ => rfl

/-- The private approximate `find_word` at a mismatch: the three recovery searches and
the choice among their results. -/
theorem find_word_approx_mismatch (t : ZDTree) {node cur : Option Nat} {pre : List Char}
    (c : Char) (rest : List Char) {k : Int} {x : Option Nat} (hk : 0 < k)
    (hwalk : Matched t node pre cur) (hmis : has_child t cur c = .ok (false, x)) :
    find_word_approx t node (pre ++ c :: rest) k =
      (do
        let found_sub ← find_word_approx t cur rest (k - 1)
        let found_add ← find_word_approx t cur rest (k - 1)
        let cn ← t.read cur
        let found_del ← find_word_approx t cn.first_child (c :: rest) (k - 1)
        pure (recovery_choice found_sub found_add found_del)) := by
  have hw : pre ++ c :: rest ≠ [] := by simp
  rw [find_word_approx_unfold t node hw k,
    find_word_approx_loop_matched _ t _ hk pre node cur (c :: rest) 1 _ hwalk]
  have hk2 : k > 0 := hk
  have e1 : (pre ++ c :: rest).drop (1 + pre.length) = rest := by
    rw [Nat.add_comm, ← List.drop_drop]
    simp
  have e2 : (pre ++ c :: rest).drop (1 + pre.length - 1) = c :: rest := by
    rw [Nat.add_sub_cancel_left]
    simp
  simp only [find_word_approx_loop, hk2, if_true, hmis, bind_ok, Bool.false_eq_true, if_false,
    e1, e2]
  rfl

/-! ## Results of the approximate search; the search without the addition recovery -/

/-- A result that is not a success is `(false, null, -1)`; a success carries a positive
remaining budget. -/
theorem recovery_choice_inv {rs ra rd : Bool × Option Nat × Int}
    (hs : (rs.1 = false → rs = (false, none, -1)) ∧ (rs.1 = true → 0 < rs.2.2))
    (ha : (ra.1 = false → ra = (false, none, -1)) ∧ (ra.1 = true → 0 < ra.2.2))
    (hd : (rd.1 = false → rd = (false, none, -1)) ∧ (rd.1 = true → 0 < rd.2.2)) :
    ((recovery_choice rs ra rd).1 = false → recovery_choice rs ra rd = (false, none, -1)) ∧
      ((recovery_choice rs ra rd).1 = true → 0 < (recovery_choice rs ra rd).2.2) := by
  have key : recovery_choice rs ra rd = rs ∨ recovery_choice rs ra rd = ra ∨
      recovery_choice rs ra rd = rd := by
    simp only [recovery_choice]
    split <;> split <;> split <;> simp
  rcases key with h | h | h <;> rw [h] <;> assumption

theorem find_word_approx_loop_inv
    {self : Option Nat → List Char → Int → Except Fault (Bool × Option Nat × Int)}
    (t : ZDTree) (word : List Char) {k : Int}
    (hself : ∀ n w r, self n w (k - 1) = .ok r →
      (r.1 = false → r = (false, none, -1)) ∧ (r.1 = true → 0 < r.2.2)) :
    ∀ (rest : List Char) (count : Nat) (cur : Option Nat) (las r : Bool × Option Nat × Int),
      ((las.1 = false → las = (false, none, -1)) ∧ (las.1 = true → 0 < las.2.2)) →
      find_word_approx_loop self t word rest count cur k las = .ok r →
      (r.1 = false → r = (false, none, -1)) ∧ (r.1 = true → 0 < r.2.2) := by
  intro rest
  induction rest with
  | nil =>
    intro count cur las r hlas hr
    simp only [find_word_approx_loop, pure_eq_ok] at hr
    cases Except.ok.inj hr
    exact hlas
  | cons c rest ih =>
    intro count cur las r hlas hr
    simp only [find_word_approx_loop] at hr
    by_cases hk : k > 0
    · simp only [hk, if_true] at hr
      cases hfc : has_child t cur c with
      | error e => rw [hfc] at hr; cases hr
      | ok fc =>
        rw [hfc] at hr
        simp only [bind_ok] at hr
        by_cases hf : fc.1 = true
        · simp only [hf, if_true] at hr
          exact ih _ _ _ r ⟨by simp, fun _ => hk⟩ hr
        · simp only [hf, Bool.false_eq_true, if_false] at hr
          cases hs : self cur (word.drop count) (k - 1) with
          | error e => rw [hs] at hr; cases hr
          | ok rs =>
            rw [hs] at hr
            simp only [bind_ok] at hr
            cases hcn : t.read cur with
            | error e => rw [hcn] at hr; cases hr
            | ok cn =>
              rw [hcn] at hr
              simp only [bind_ok] at hr
              cases hd : self cn.first_child (word.drop (count - 1)) (k - 1) with
              | error e => rw [hd] at hr; cases hr
              | ok rd =>
                rw [hd] at hr
                simp only [bind_ok, pure_eq_ok] at hr
                have := recovery_choice_inv (hself _ _ _ hs) (hself _ _ _ hs) (hself _ _ _ hd)
                have e : r = recovery_choice rs rs rd := (Except.ok.inj hr).symm
                rw [e]
                exact this
    · simp only [hk, if_false] at hr
      exact ih _ _ _ r ⟨fun _ => rfl, by simp⟩ hr

theorem find_word_approx_fuel_inv (t : ZDTree) :
    ∀ (fuel : Nat) (node : Option Nat) (word : List Char) (k : Int)
      (r : Bool × Option Nat × Int), find_word_approx_fuel t fuel node word k = .ok r →
      (r.1 = false → r = (false, none, -1)) ∧ (r.1 = true → 0 < r.2.2) := by
  intro fuel
  induction fuel with
  | zero => intro _ _ _ r h; cases h
  | succ f ih =>
    intro node word k r hr
    simp only [find_word_approx_fuel] at hr
    split at hr
    · cases Except.ok.inj hr
      exact ⟨fun _ => rfl, by simp⟩
    · exact find_word_approx_loop_inv t word (fun n w r h => ih n w (k - 1) r h) _ _ _ _ r
        ⟨fun _ => rfl, by simp⟩ hr

theorem find_word_approx_inv {t : ZDTree} {node : Option Nat} {word : List Char} {k : Int}
    {r : Bool × Option Nat × Int} (h : find_word_approx t node word k = .ok r) :
    (r.1 = false → r = (false, none, -1)) ∧ (r.1 = true → 0 < r.2.2) :=
  find_word_approx_fuel_inv t _ node word k r h

/-- The choice among the recovery results when the addition result is that of the
substitution: the best remaining budget among the successes. -/
theorem recovery_choice_best {rs rd : Bool × Option Nat × Int}
    (hs : (rs.1 = false → rs = (false, none, -1)) ∧ (rs.1 = true → 0 < rs.2.2))
    (hd : (rd.1 = false → rd = (false, none, -1)) ∧ (rd.1 = true → 0 < rd.2.2)) :
    (rs.1 = false → rd.1 = false → recovery_choice rs rs rd = (false, none, -1)) ∧
    (rs.1 = true ∨ rd.1 = true →
      (recovery_choice rs rs rd).1 = true ∧
      ((recovery_choice rs rs rd = rs ∧ rs.1 = true) ∨
        (recovery_choice rs rs rd = rd ∧ rd.1 = true)) ∧
      (rs.1 = true → rs.2.2 ≤ (recovery_choice rs rs rd).2.2) ∧
      (rd.1 = true → rd.2.2 ≤ (recovery_choice rs rs rd).2.2)) := by
  obtain ⟨b1, n1, k1⟩ := rs
  obtain ⟨b2, n2, k2⟩ := rd
  simp only at hs hd
  cases b1 <;> cases b2
  · have e1 := hs.1 rfl
    have e2 := hd.1 rfl
    simp only [Prod.mk.injEq, true_and] at e1 e2
    simp [recovery_choice, e1]
  · have e1 := hs.1 rfl
    have h2 := hd.2 rfl
    simp only [Prod.mk.injEq, true_and] at e1
    obtain ⟨rfl, rfl⟩ := e1
    have h3 : (-1 : Int) < k2 := by omega
    simp [recovery_choice, h3]
  · simp [recovery_choice]
  · by_cases hlt : k1 < k2
    · simp [recovery_choice, hlt]
      omega
    · simp [recovery_choice, hlt]
      omega

/-- The choice with the addition result at its initial value. -/
theorem recovery_choice_no_add {rs rd : Bool × Option Nat × Int}
    (hs : rs.1 = false → rs = (false, none, -1)) :
    recovery_choice rs (false, none, -1) rd = recovery_choice rs rs rd := by
  obtain ⟨b1, n1, k1⟩ := rs
  cases b1
  · have e1 := hs rfl
    simp only [Prod.mk.injEq, true_and] at e1
    obtain ⟨rfl, rfl⟩ := e1
    rfl
  · simp [recovery_choice]

theorem find_word_approx_loop_no_add_eq
    {self self2 : Option Nat → List Char → Int → Except Fault (Bool × Option Nat × Int)}
    (t : ZDTree) (word : List Char) {k : Int}
    (h : ∀ n w, self2 n w (k - 1) = self n w (k - 1))
    (hself : ∀ n w r, self n w (k - 1) = .ok r →
      (r.1 = false → r = (false, none, -1)) ∧ (r.1 = true → 0 < r.2.2)) :
    ∀ (rest : List Char) (count : Nat) (cur : Option Nat) (las : Bool × Option Nat × Int),
      find_word_approx_loop_no_add self2 t word rest count cur k las =
        find_word_approx_loop self t word rest count cur k las := by
  intro rest
  induction rest with
  | nil => intro count cur las; rfl
  | cons c rest ih =>
    intro count cur las
    simp only [find_word_approx_loop_no_add, find_word_approx_loop]
    split
    · cases has_child t cur c with
      | error e => rfl
      | ok fc =>
        simp only [bind_ok]
        split
        · exact ih _ _ _
        · simp only [h]
          cases hs : self cur (word.drop count) (k - 1) with
          | error e => rfl
          | ok rs =>
            simp only [bind_ok]
            cases t.read cur with
            | error e => rfl
            | ok cn =>
              simp only [bind_ok]
              cases self cn.first_child (word.drop (count - 1)) (k - 1) with
              | error e => rfl
              | ok rd =>
                simp only [bind_ok, pure_eq_ok]
                exact congrArg Except.ok (recovery_choice_no_add (hself _ _ _ hs).1)
    · exact ih _ _ _

/-- The search without the addition recovery returns what the search returns. -/
theorem find_word_approx_no_add_fuel_eq (t : ZDTree) :
    ∀ (fuel : Nat) (node : Option Nat) (word : List Char) (k : Int),
      find_word_approx_no_add_fuel t fuel node word k =
        find_word_approx_fuel t fuel node word k := by
  intro fuel
  induction fuel with
  | zero => intro _ _ _; rfl
  | succ f ih =>
    intro node word k
    simp only [find_word_approx_no_add_fuel, find_word_approx_fuel]
    split
    · rfl
    · exact find_word_approx_loop_no_add_eq t word (fun n w => ih n w (k - 1))
        (fun n w r h => find_word_approx_fuel_inv t f n w (k - 1) r h) _ _ _ _

/-! ## The public approximate find_word -/

/-- The private approximate search with budget 1 walks the path and accepts no
mismatch. -/
theorem find_word_approx_loop_one
    {self : Option Nat → List Char → Int → Except Fault (Bool × Option Nat × Int)}
    (t : ZDTree) (word : List Char)
    (hself : ∀ n w, self n w (1 - 1) = .ok (false, none, -1)) (rest : List Char) :
    ∀ (a : Nat) (k : Forest) (count : Nat) (las : Bool × Option Nat × Int), Owns t a k →
      find_word_approx_loop self t word rest count (some a) 1 las =
        .ok (match rest with
             | [] => las
             | _ :: _ =>
               match Forest.walk rest k with
               | some e => (true, some e, 1)
               | none => (false, none, -1)) := by
  induction rest with
  | nil => intro a k count las _; rfl
  | cons c rest ih =>
    intro a k count las h
    obtain ⟨n, hn, _, _⟩ := h.live
    have h1 : (1 : Int) > 0 := by decide
    simp only [find_word_approx_loop, h1, if_true, has_child_spec h c, bind_ok, Forest.walk]
    cases hfind : k.findChar c with
    | none =>
      simp only [Bool.false_eq_true, if_false, hself, bind_ok, read_some hn, pure_eq_ok]
      rfl
    | some x =>
      simp only [if_true]
      rw [ih x (k.child x) _ _ (h.descend (Forest.findChar_mem_tops hfind))]
      cases rest with
      | nil => simp
      | cons c2 rest2 => simp

theorem find_word_approx_one {t : ZDTree} {a : Nat} {k : Forest} (h : Owns t a k)
    (w : List Char) :
    find_word_approx t (some a) w 1 =
      .ok (match Forest.walk w k with
           | some e => (true, some e, 1)
           | none => (false, none, -1)) := by
  cases w with
  | nil => rfl
  | cons c rest =>
    rw [find_word_approx_unfold t (some a) (by simp) 1,
      find_word_approx_loop_one t _ (fun n w => find_word_approx_nonpos t n w (by decide)) _ a k
        _ _ h]

/-- The scan of the public approximate `find_word` over the top-level nodes, while the
budget is not used up. -/
theorem find_word_approx_scan_spec (t : ZDTree) (charr : Char) (word : CxxString) (count : Nat)
    {ce k : Int} (hlt : ce < k) (T : Forest) :
    ∀ (prev : Option Nat) (fuel : Nat),
      Sibs t.cells (T.app (.node t.feet '\x00' .nil .nil)) none prev →
      t.feet ∉ T.tops → T.tops.length < fuel → T.topData.Nodup →
      find_word_approx_scan fuel t (T.app (.node t.feet '\x00' .nil .nil)).first charr word
          count ce k =
        match T.findChar charr with
        | some x =>
          (find_word_approx t (some x) (word.erase count).str (k - ce)).bind
            (fun found => .ok (word.erase count, found.1))
        | none => .ok (word, false) := by
  induction T generalizing word with
  | nil =>
    intro prev fuel _ _ hf _
    obtain ⟨fuel, rfl⟩ : ∃ f, fuel = f + 1 := ⟨fuel - 1, by omega⟩
    simp [Forest.app, Forest.first, find_word_approx_scan, ZDTree.end, Forest.findChar]
  | node a c k2 r _ ihr =>
    intro prev fuel hs hfeet hf hnd
    simp only [Forest.tops, List.length_cons, List.mem_cons, not_or] at hf hfeet
    simp only [Forest.topData, List.nodup_cons] at hnd
    obtain ⟨fuel, rfl⟩ : ∃ f, fuel = f + 1 := ⟨fuel - 1, by omega⟩
    have hne : a ≠ t.feet := fun h => hfeet.1 h.symm
    simp only [Forest.app] at hs
    simp only [Forest.app, Forest.first_node, find_word_approx_scan, ZDTree.end, ne_eq,
      Option.some.injEq, hne, not_false_eq_true, hlt, and_self, if_true, read_some hs.1,
      bind_ok, Forest.findChar]
    have hrest := fun w => ihr w (some a) fuel hs.2.2 hfeet.2 (by omega) hnd.2
    by_cases hc : c = charr
    · simp only [hc, if_true]
      subst hc
      have hnone : r.findChar c = none := Forest.findChar_eq_none.mpr hnd.1
      cases find_word_approx t (some a) (word.erase count).str (k - ce) with
      | error e => rfl
      | ok found =>
        simp only [bind_ok, Except.bind]
        by_cases hf1 : found.1 = true
        · simp [hf1]
        · simp only [hf1]
          rw [hrest, hnone]
          simp
    · simp only [hc, if_false]
      exact hrest word

/-- Once the budget is used up the scan stops at once. -/
theorem find_word_approx_scan_exhausted (t : ZDTree) (fuel : Nat) (sib : Option Nat)
    (charr : Char) (word : CxxString) (count : Nat) {ce k : Int} (h : k ≤ ce) :
    find_word_approx_scan (fuel + 1) t sib charr word count ce k = .ok (word, false) := by
  have h2 : ¬ ce < k := by omega
  simp [find_word_approx_scan, h2]

/-- Once the budget is used up the public approximate `find_word` returns false. -/
theorem find_word_approx_for_exhausted {t : ZDTree} {s : Option Nat} (hb : t.begin = .ok s)
    {k : Int} :
    ∀ (remaining idx : Nat) (word : CxxString) (count : Nat) (ce : Int), k ≤ ce →
      find_word_approx_for remaining idx t word count ce k = .ok false := by
  intro remaining
  induction remaining with
  | zero => intro idx word count ce _; rfl
  | succ n ih =>
    intro idx word count ce h
    simp only [find_word_approx_for, hb, bind_ok, find_word_approx_scan_exhausted t _ _ _ _ _ h,
      Bool.false_eq_true, if_false]
    exact ih _ _ _ _ (by omega)

/-- The public approximate `find_word` with budget 1 tries the first character only and
walks the path of the rest. -/
theorem find_word_approx_one_spec {d : ZDDictionary} {T : Forest}
    (h : DictRep d.m_internalTree T) (q : List Char) :
    d.find_word_approx q 1 =
      .ok (match to_lower_case_word q with
           | [] => false
           | c :: rest =>
             match T.findChar c with
             | some x => (Forest.walk rest (T.child x)).isSome
             | none => false) := by
  simp only [ZDDictionary.find_word_approx]
  cases hq : to_lower_case_word q with
  | nil => rfl
  | cons c rest =>
    have h1 := CxxString.at_ofList [] c rest
    have h2 := CxxString.erase_ofList [] c rest
    simp only [List.nil_append, List.length_nil, Nat.zero_add] at h1 h2
    simp only [List.length_cons, find_word_approx_for, h.begin_eq, bind_ok, h1]
    rw [find_word_approx_scan_spec d.m_internalTree _ _ _ (show (0 : Int) < 1 by decide) T
      (some d.m_internalTree.head) (d.m_internalTree.fresh + 1) h.top_sibs
      h.feet_not_top (by have := h.tops_length; omega) h.distinct.topData_nodup]
    cases hfind : T.findChar c with
    | none =>
      simp only [bind_ok, Bool.false_eq_true, if_false]
      exact find_word_approx_for_exhausted h.begin_eq _ _ _ _ _ (by decide)
    | some x =>
      have hx : x ∈ T.tops := Forest.findChar_mem_tops hfind
      simp only [h2, Int.sub_zero, find_word_approx_one (h.owns_top hx)]
      cases hw : Forest.walk rest (T.child x) with
      | none =>
        simp only [Except.bind, bind_ok, Bool.false_eq_true, if_false, Option.isSome_none]
        exact find_word_approx_for_exhausted h.begin_eq _ _ _ _ _ (by decide)
      | some e => simp [Except.bind]

/-! ## What the public remove_word returns -/

/-- The private `remove_word` leaves the tree alone when the deepest node has a
child. -/
theorem remove_word_at_kept {t : ZDTree} {e x : Nat} {n : TreeNode} (hne : e ≠ x)
    (hn : t.cells e = some n) (hc : n.first_child ≠ none) :
    remove_word_at t (some e) (some x) = .ok (t, true) := by
  have h1 : (some e : Option Nat) ≠ some x := fun h => hne (Option.some.inj h)
  simp [remove_word_at, remove_word_at_loop, h1, has_child_node_eq hn, hc]

/-- The public `remove_word` of a word whose path ends at a node with a child. -/
theorem remove_word_prefix_kept {d : ZDDictionary} {T : Forest}
    (h : DictRep d.m_internalTree T) {c : Char} {rest : List Char} {x e : Nat} {n : TreeNode}
    (w : List Char) (hw : to_lower_case_word w = c :: rest)
    (hfind : T.findChar c = some x) (hwalk : Forest.walk rest (T.child x) = some e)
    (hn : d.m_internalTree.cells e = some n) (hc : n.first_child ≠ none) :
    d.remove_word w = .ok (d, true) := by
  have h1 := CxxString.at_ofList [] c rest
  have h2 := CxxString.erase_ofList [] c rest
  simp only [List.nil_append, List.length_nil, Nat.zero_add] at h1 h2
  have hfor := remove_word_for_spec h (to_lower_case_word w).length 0
    (CxxString.ofList (to_lower_case_word w)) 1
  have htar : T.removeTarget (to_lower_case_word w).length 0
      (CxxString.ofList (to_lower_case_word w)) 1 = some (x, e) := by
    rw [hw]
    simp only [List.length_cons, Forest.removeTarget, h1, hfind, h2, hwalk]
  rw [htar] at hfor
  obtain ⟨hx, he, hrun⟩ := hfor
  have hne : e ≠ x := by
    intro heq
    have := (List.nodup_cons.mp (h.owns_top hx).nodup).1
    exact this (heq ▸ he)
  have := hrun _ (remove_word_at_kept hne hn hc)
  simp [ZDDictionary.remove_word, this]

/-! ## Pre-order advance and retreat -/

theorem List.split_mid {l1 l2 pre post : List Nat} {x : Nat}
    (h : l1 ++ l2 = pre ++ x :: post) :
    (∃ c, l1 = pre ++ x :: c ∧ post = c ++ l2) ∨ (∃ a, pre = l1 ++ a ∧ l2 = a ++ x :: post) := by
  rcases List.append_eq_append_iff.mp h with ⟨a, h1, h2⟩ | ⟨c, h1, h2⟩
  · exact Or.inr ⟨a, h1, h2⟩
  · cases c with
    | nil =>
      simp only [List.nil_append, List.append_nil] at h1 h2
      exact Or.inr ⟨[], by simp [h1], by simp [h2]⟩
    | cons y c =>
      simp only [List.cons_append, List.cons.injEq] at h2
      exact Or.inl ⟨c, by rw [h1, h2.1], h2.2⟩

/-- In a sibling list `operator++` leads from a node to the node that follows it in the
pre-order listing, or to the exit `out` of the list from its last node. -/
theorem incr_sibs {t : ZDTree} (G : Forest) :
    ∀ (Z : Forest) (par prev out : Option Nat) (g0 : Nat),
      Sibs t.cells (G.app Z) par prev →
      (∀ g, g0 ≤ g →
        (match Z.first with
          | some z => Except.ok (some z)
          | none => climb_on t par g) = .ok out) →
      g0 + G.addrs.length ≤ t.fresh + 1 →
      ∀ (pre : List Nat) (x : Nat) (post : List Nat), G.addrs = pre ++ x :: post →
        t.pre_incr (some x) false =
          .ok (match post.head? with | some r => some r | none => out) := by
  induction G with
  | nil => intro _ _ _ _ _ _ _ _ pre x post h; simp [Forest.addrs] at h
  | node a c k r ihk ihr =>
    intro Z par prev out g0 hs hexit hfuel pre x post hsplit
    simp only [Forest.addrs, List.length_cons, List.length_append] at hfuel
    have hs0 : Sibs t.cells (Forest.node a c k (r.app Z)) par prev := hs
    have hcl := climb_exit hs0.1 hexit
    cases pre with
    | nil =>
      simp only [Forest.addrs, List.nil_append, List.cons.injEq] at hsplit
      obtain ⟨rfl, rfl⟩ := hsplit
      simp only [ZDTree.pre_incr, read_some hs0.1, bind_ok]
      cases k with
      | nil =>
        have := hcl (t.fresh + 1) (by omega)
        simpa [climb_on, Forest.addrs, Forest.head_addrs] using this
      | node f d kf rf => simp [Forest.addrs]
    | cons a2 pre2 =>
      simp only [Forest.addrs, List.cons_append, List.cons.injEq] at hsplit
      rcases List.split_mid hsplit.2 with ⟨c2, h1, h2⟩ | ⟨a3, h1, h2⟩
      · have := ihk .nil (some a) none (match r.first with | some b => some b | none => out)
          (g0 + 1) (by rw [Forest.app_nil]; exact hs0.2.1) (by intro g hg; exact hcl g hg)
          (by omega) pre2 x c2 h1
        rw [this, h2]
        cases c2 with
        | nil => simp only [List.nil_append, List.head?_nil, Forest.head_addrs]
        | cons p ps => rfl
      · exact ihr Z par (some a) out g0 hs0.2.2 hexit (by omega) a3 x post h2

/-- The descent along last children from the last sibling of a list ends at the last
node of the pre-order listing. -/
theorem deepest_last_sibs {t : ZDTree} (F : Forest) :
    ∀ (par prev : Option Nat) (l : Nat), Sibs t.cells F par prev → F.last = some l →
      ∀ fuel, F.addrs.length ≤ fuel →
        ZDTree.deepest_last fuel t (some l) = .ok F.addrs.getLast? := by
  induction F with
  | nil => intro _ _ l _ hl; simp [Forest.last] at hl
  | node a c k r ihk ihr =>
    intro par prev l hs hl fuel hfuel
    simp only [Forest.addrs, List.length_cons, List.length_append] at hfuel
    simp only [Forest.last] at hl
    cases hrl : r.last with
    | none =>
      rw [hrl] at hl
      cases Option.some.inj hl
      have hrnil : r = .nil := Forest.last_eq_none.mp hrl
      subst hrnil
      obtain ⟨fuel, rfl⟩ : ∃ f, fuel = f + 1 := ⟨fuel - 1, by omega⟩
      simp only [ZDTree.deepest_last, read_some hs.1, bind_ok, Forest.addrs, List.append_nil]
      cases hkl : k.last with
      | none =>
        have hknil : k = .nil := Forest.last_eq_none.mp hkl
        subst hknil
        simp [Forest.addrs]
      | some l2 =>
        simp only [ne_eq, reduceCtorEq, not_false_eq_true, if_true]
        rw [ihk (some a) none l2 hs.2.1 hkl fuel (by simp at hfuel; omega)]
        cases hka : k.addrs with
        | nil =>
          cases k with
          | nil => simp [Forest.last] at hkl
          | node _ _ _ _ => simp [Forest.addrs] at hka
        | cons b bs => simp [List.getLast?_cons_cons]
    | some l2 =>
      rw [hrl] at hl
      cases Option.some.inj hl
      rw [ihr par (some a) l hs.2.2 hrl fuel (by omega)]
      cases hra : r.addrs with
      | nil =>
        cases r with
        | nil => simp [Forest.last] at hrl
        | node _ _ _ _ => simp [Forest.addrs] at hra
      | cons b bs =>
        simp only [Forest.addrs, hra]
        rw [← List.cons_append, List.getLast?_append_of_ne_nil _ (by simp)]

/-- The descent along last children from a node ends at the last node of the listing of
the node and its descendants. -/
theorem deepest_last_node {t : ZDTree} {a : Nat} {c : Char} {k : Forest}
    {par prev next : Option Nat} (ha : t.cells a = some ⟨par, k.first, k.last, prev, next, c⟩)
    (hs : Sibs t.cells k (some a) none) (fuel : Nat) (hfuel : k.addrs.length < fuel) :
    ZDTree.deepest_last fuel t (some a) = .ok (a :: k.addrs).getLast? := by
  obtain ⟨fuel, rfl⟩ : ∃ f, fuel = f + 1 := ⟨fuel - 1, by omega⟩
  simp only [ZDTree.deepest_last, read_some ha, bind_ok]
  cases hkl : k.last with
  | none =>
    have hknil : k = .nil := Forest.last_eq_none.mp hkl
    subst hknil
    simp [Forest.addrs]
  | some l2 =>
    simp only [ne_eq, reduceCtorEq, not_false_eq_true, if_true]
    rw [deepest_last_sibs k (some a) none l2 hs hkl fuel (by omega)]
    cases hka : k.addrs with
    | nil =>
      cases k with
      | nil => simp [Forest.last] at hkl
      | node _ _ _ _ => simp [Forest.addrs] at hka
    | cons b bs => simp [List.getLast?_cons_cons]

/-- In a sibling list `operator--` leads from a node to the node before it in the
pre-order listing, or to the entry `inn` of the list from its first node. -/
theorem decr_sibs {t : ZDTree} (G : Forest) :
    ∀ (par prev inn : Option Nat),
      Sibs t.cells G par prev →
      (match prev with
        | some p => ZDTree.deepest_last (t.fresh + 1) t (some p)
        | none => Except.ok par) = .ok inn →
      G.addrs.length ≤ t.fresh →
      ∀ (pre : List Nat) (y : Nat) (post : List Nat), G.addrs = pre ++ y :: post →
        t.pre_decr (some y) =
          .ok (match pre.getLast? with | some r => some r | none => inn) := by
  induction G with
  | nil => intro _ _ _ _ _ _ pre y post h; simp [Forest.addrs] at h
  | node a c k r ihk ihr =>
    intro par prev inn hs hentry hfuel pre y post hsplit
    simp only [Forest.addrs, List.length_cons, List.length_append] at hfuel
    cases pre with
    | nil =>
      simp only [Forest.addrs, List.nil_append, List.cons.injEq] at hsplit
      obtain ⟨rfl, rfl⟩ := hsplit
      simp only [ZDTree.pre_decr, read_some hs.1, bind_ok, List.getLast?_nil]
      cases prev with
      | none => simpa using hentry
      | some p => simpa using hentry
    | cons a2 pre2 =>
      simp only [Forest.addrs, List.cons_append, List.cons.injEq] at hsplit
      obtain ⟨rfl, hsplit⟩ := hsplit
      rcases List.split_mid hsplit with ⟨c2, h1, h2⟩ | ⟨a3, h1, h2⟩
      · have := ihk (some a) none (some a) hs.2.1 rfl (by omega) pre2 y c2 h1
        rw [this]
        cases pre2 with
        | nil => rfl
        | cons b bs =>
          rw [List.getLast?_cons_cons]
          cases h : (b :: bs).getLast? with
          | none => simp at h
          | some z => rfl
      · have hent := deepest_last_node hs.1 hs.2.1 (t.fresh + 1) (by omega)
        have := ihr par (some a) (a :: k.addrs).getLast? hs.2.2 hent (by omega) a3 y post h2
        rw [this, h1]
        cases a3 with
        | nil =>
          simp only [List.append_nil, List.getLast?_nil]
          cases h : (a :: k.addrs).getLast? with
          | none => simp at h
          | some z => rfl
        | cons b bs =>
          have e : (a :: (k.addrs ++ b :: bs)).getLast? = (b :: bs).getLast? := by
            rw [← List.cons_append, List.getLast?_append_of_ne_nil _ (by simp)]
          rw [e]
          cases h : (b :: bs).getLast? with
          | none => simp at h
          | some z => rfl

/-- On a well-formed tree `operator++` and `operator--` lead from a node other than the
sentinels to its neighbours in the pre-order listing, and back. -/
theorem TreeRep.neighbours {t : ZDTree} {T : Forest} (h : TreeRep t T) {n : Nat}
    (hn : n ∈ T.addrs) :
    (∃ s, t.pre_incr (some n) false = .ok (some s) ∧ t.pre_decr (some s) = .ok (some n)) ∧
    (∃ p, t.pre_decr (some n) = .ok (some p) ∧ t.pre_incr (some p) false = .ok (some n)) := by
  have hlen := nodup_length_le h.nodup h.bound
  have hinc := incr_sibs (Forest.full t T) .nil none none none 0
    (by rw [Forest.app_nil]; exact h.sibs) (by intro g _; rfl) (by omega)
  have hdec := decr_sibs (Forest.full t T) none none none h.sibs rfl hlen
  obtain ⟨p1, p2, hsplit⟩ := List.append_of_mem hn
  have hfull : (Forest.full t T).addrs = (t.head :: p1) ++ n :: (p2 ++ [t.feet]) := by
    rw [Forest.full_addrs, hsplit]
    simp
  constructor
  · obtain ⟨s, post, hpost⟩ : ∃ s post, p2 ++ [t.feet] = s :: post := by
      cases p2 with
      | nil => exact ⟨t.feet, [], rfl⟩
      | cons s p3 => exact ⟨s, p3 ++ [t.feet], rfl⟩
    rw [hpost] at hfull
    refine ⟨s, ?_, ?_⟩
    · rw [hinc _ n _ hfull]
      rfl
    · have e : (Forest.full t T).addrs = ((t.head :: p1) ++ [n]) ++ s :: post := by
        rw [hfull]; simp
      rw [hdec _ s _ e, List.getLast?_append_of_ne_nil _ (by simp)]
      rfl
  · obtain ⟨pre, p, hpre⟩ : ∃ pre p, t.head :: p1 = pre ++ [p] := by
      rcases List.eq_nil_or_concat (t.head :: p1) with h0 | ⟨pre, p, h0⟩
      · cases h0
      · exact ⟨pre, p, by rw [h0, List.concat_eq_append]⟩
    rw [hpre] at hfull
    refine ⟨p, ?_, ?_⟩
    · rw [hdec _ n _ hfull, List.getLast?_append_of_ne_nil _ (by simp)]
      rfl
    · have e : (Forest.full t T).addrs = pre ++ p :: (n :: (p2 ++ [t.feet])) := by
        rw [hfull]; simp
      rw [hinc _ p _ e]
      rfl

/-! ## The dictionary holding "abcd" -/

theorem abcdTree_eq :
    (ZDDictionary.mk newTree).insert_word "abcd".toList = .ok (⟨abcdTree⟩, true) := by
  rfl

theorem abcdTree_reachable : Reachable ⟨abcdTree⟩ :=
  Reachable.insert (Reachable.new new_eq) abcdTree_eq

theorem abcdTree_cells :
    abcdTree.cells 0 = some ⟨none, none, none, none, some 2, '\x00'⟩ ∧
    abcdTree.cells 2 = some ⟨none, some 28, some 28, some 0, some 3, 'a'⟩ ∧
    abcdTree.cells 28 = some ⟨some 2, some 29, some 29, none, none, 'b'⟩ ∧
    abcdTree.cells 29 = some ⟨some 28, some 30, some 30, none, none, 'c'⟩ ∧
    abcdTree.cells 30 = some ⟨some 29, none, none, none, none, 'd'⟩ ∧
    abcdTree.head = 0 ∧ abcdTree.feet = 1 := by
  decide!

/-- The path of "abc" in the dictionary holding "abcd" ends at cell 29. -/
theorem abcdTree_path : abcdTree.PathTo ['a', 'b', 'c'] 29 := by
  obtain ⟨h0, h2, h28, h29, _, hh, hf⟩ := abcdTree_cells
  refine ⟨2, ⟨_, _, by rw [hh]; exact h0, ZDTree.InChain.here 2, by rw [hf]; decide, h2, rfl⟩,
    28, ⟨_, _, h2, ZDTree.InChain.here 28, h28, rfl⟩,
    29, ⟨_, _, h28, ZDTree.InChain.here 29, h29, rfl⟩, rfl⟩

/-! ## Removal of a word whose path ends at a leaf -/

theorem Forest.findChar_erase {K : Forest} (hd : K.Distinct) (hn : K.addrs.Nodup) {x b : Nat}
    {c : Char} (h : (K.erase x).findChar c = some b) :
    K.findChar c = some b ∧ (K.erase x).child b = (K.child b).erase x := by
  induction K with
  | nil => simp [Forest.erase, Forest.findChar] at h
  | node a d k r _ ihr =>
    have har : a ∉ r.addrs := by
      have := (List.nodup_cons.mp hn).1
      simp only [Forest.addrs, List.mem_append, not_or] at this
      exact this.2
    have hrn : r.addrs.Nodup := by
      have := (List.nodup_cons.mp hn).2
      exact (List.nodup_append.mp this).2.1
    simp only [Forest.erase] at h ⊢
    by_cases hax : a = x
    · simp only [hax, if_true] at h ⊢
      have hb : b ∈ r.addrs := Forest.tops_subset_addrs r b (Forest.findChar_mem_tops h)
      have hc : c ∈ r.topData := Forest.findChar_mem_topData h
      have hdc : ¬ d = c := fun e => hd.1 (e ▸ hc)
      have hxb : ¬ a = b := fun e => har (e ▸ hb)
      have hxr : x ∉ (r.child b).addrs := fun hin => har (hax ▸ Forest.child_addrs_subset r b x hin)
      have hxb2 : ¬ x = b := fun e => hxb (hax.trans e)
      simp only [Forest.findChar, hdc, if_false, Forest.child, hxb, hxb2]
      exact ⟨h, (Forest.erase_of_not_mem hxr).symm⟩
    · simp only [hax, if_false, Forest.findChar] at h ⊢
      by_cases hdc : d = c
      · simp only [hdc, if_true] at h ⊢
        cases Option.some.inj h
        simp [Forest.child]
      · simp only [hdc, if_false] at h ⊢
        obtain ⟨h1, h2⟩ := ihr hd.2.2 hrn h
        have hb : b ∈ r.addrs := Forest.tops_subset_addrs r b (Forest.findChar_mem_tops h1)
        have hab : ¬ a = b := fun e => har (e ▸ hb)
        simp only [Forest.child, hab, if_false]
        exact ⟨h1, h2⟩

/-- A walk that succeeds after a node has been erased succeeded before, at the same
node. -/
theorem Forest.walk_erase (u : List Char) :
    ∀ {K : Forest} (x : Nat) {a : Nat}, K.Distinct → K.addrs.Nodup →
      Forest.walk u (K.erase x) = some a → Forest.walk u K = some a := by
  induction u with
  | nil => intro K x a _ _ h; simp [Forest.walk] at h
  | cons c u ih =>
    intro K x a hd hn h
    simp only [Forest.walk] at h ⊢
    cases hf : (K.erase x).findChar c with
    | none => simp [hf] at h
    | some b =>
      obtain ⟨h1, h2⟩ := Forest.findChar_erase hd hn hf
      simp only [hf, h1] at h ⊢
      by_cases hu : u = []
      · simpa [hu] using h
      · simp only [hu, if_false] at h ⊢
        rw [h2] at h
        exact ih x hd.of_child
          (List.nodup_cons.mp (Forest.nodup_child hn (Forest.findChar_mem_tops h1))).2 h

/-- The removal loop started at a node `x` below `L`: every walk that succeeds in the
children of `L` afterwards succeeded before, and `x` is gone when it had no child. -/
theorem remove_word_at_loop_thins {L : Nat} :
    ∀ (fuel : Nat) (K : Forest) (x : Nat) (t : ZDTree), Owns t L K → Clean t →
      x ∈ K.addrs → t.head ∉ K.addrs →
      (∃ nL, t.cells L = some nL ∧ nL.next_sibling ≠ none) →
      K.addrs.length < fuel → K.Distinct →
      ∃ t2 K2, remove_word_at_loop fuel t (some x) (some L) = .ok t2 ∧
        Regraft t t2 L K K2 ∧ t2.fresh = t.fresh ∧ K2.Distinct ∧
        (∀ b ∈ K2.addrs, b ∈ K.addrs) ∧
        (∀ u a, Forest.walk u K2 = some a → Forest.walk u K = some a) ∧
        (∀ rx, t.cells x = some rx → rx.first_child = none → rx.last_child = none →
          x ∉ K2.addrs) := by
  intro fuel
  induction fuel with
  | zero => intro K x t _ _ _ _ _ h; omega
  | succ f ih =>
    intro K x t h hc hx hhead hL hlen hdist
    have hKn : K.addrs.Nodup := (List.nodup_cons.mp h.nodup).2
    have hLK : L ∉ K.addrs := (List.nodup_cons.mp h.nodup).1
    have hxL : x ≠ L := fun h2 => hLK (h2 ▸ hx)
    obtain ⟨rx, hrx⟩ := Sibs.live h.sibs x hx
    simp only [remove_word_at_loop, ne_eq, Option.some.injEq, hxL, not_false_eq_true, if_true,
      has_child_node_eq hrx, bind_ok]
    by_cases hkids : (rx.first_child ≠ none || rx.last_child ≠ none) = true
    · simp only [hkids, Bool.not_true, Bool.false_eq_true, if_false]
      refine ⟨t, K, rfl, Regraft.same h hc, rfl, hdist, fun b hb => hb, fun u a hw => hw, ?_⟩
      intro r2 hr2 h1 h2
      rw [hrx] at hr2
      cases Option.some.inj hr2
      simp [h1, h2] at hkids
    · have hfc : rx.first_child = none := by
        by_contra h2; apply hkids; simp [h2]
      have hleaf : ∀ r2, t.cells x = some r2 → r2.first_child = none := by
        intro r2 hr2; rw [hrx] at hr2; cases Option.some.inj hr2; exact hfc
      obtain ⟨nL, hnL, hnLn⟩ := hL
      have hret : ∃ ret, t.pre_incr (some x) true = .ok ret := by
        have := next_skipping_spec (t := t) (x := x) K (some L) none h.sibs hx 1 (by
          intro g hg
          obtain ⟨g, rfl⟩ : ∃ g2, g = g2 + 1 := ⟨g - 1, by omega⟩
          refine ⟨nL.next_sibling, ?_⟩
          simp [climb_on, ZDTree.next_skipping, read_some hnL, hnLn]) (t.fresh + 1)
          (by have := h.size_lt; omega)
        obtain ⟨r, hr⟩ := this
        exact ⟨r, by simp [ZDTree.pre_incr, read_some hrx, hr]⟩
      obtain ⟨ret, hret⟩ := hret
      obtain ⟨⟨t1, he, hfr, hr⟩, hmem, y, hy, hy2, _⟩ :=
        erase_deep_spec K.addrs.length K L t (le_refl _) h hc hx hhead hleaf hret
      have ho1 : Owns t1 L (K.erase x) := hr.owns_after h
      have hgone : x ∉ (K.erase x).addrs := Forest.not_mem_erase hKn
      simp only [hkids, Bool.not_false, if_true, hy, bind_ok, he]
      rcases hy2 with hy2 | ⟨hy2, hy3⟩
      · subst hy2
        obtain ⟨f, rfl⟩ : ∃ f2, f = f2 + 1 := ⟨f - 1, by
          have : 0 < K.addrs.length := List.length_pos_of_mem hx
          omega⟩
        exact ⟨t1, K.erase x, by simp [remove_word_at_loop], hr, hfr, hdist.erase,
          fun b hb => Forest.mem_addrs_erase hb,
          fun u a hw => Forest.walk_erase u x hdist hKn hw, fun _ _ _ _ => hgone⟩
      · have hlt := Forest.erase_length_lt hKn hx hr.nodup
        obtain ⟨t2, K2, hloop, hr2, hfr2, hd2, hsub2, hthin2, _⟩ := ih (K.erase x) y t1 ho1
          hr.clean (hmem y hy2 hy3)
          (by rw [hr.head_eq]; exact fun h2 => hhead (Forest.mem_addrs_erase h2))
          ⟨_, hr.node nL hnL, hnLn⟩ (by omega) hdist.erase
        exact ⟨t2, K2, hloop, hr.chain_with h hr2, by rw [hfr2, hfr], hd2,
          fun b hb => Forest.mem_addrs_erase (hsub2 b hb),
          fun u a hw => Forest.walk_erase u x hdist hKn (hthin2 u a hw),
          fun _ _ _ _ hin => hgone (hsub2 x hin)⟩

/-- The private `remove_word` started at a childless node `e` below the top-level node
`x`: `e` is erased, and every walk that succeeds below `x` afterwards succeeded
before. -/
theorem DictRep.remove_leaf {t : ZDTree} {T : Forest} (h : DictRep t T) {x e : Nat}
    (hx : x ∈ T.tops) (he : e ∈ (T.child x).addrs) {n : TreeNode} (hn : t.cells e = some n)
    (hleaf : n.first_child = none) :
    ∃ t2 K2, remove_word_at t (some e) (some x) = .ok (t2, true) ∧
      DictRep t2 (T.setChild x K2) ∧ t2.fresh = t.fresh ∧ e ∉ K2.addrs ∧
      t2.cells e = none ∧
      (∀ u a, Forest.walk u K2 = some a → Forest.walk u (T.child x) = some a) := by
  have hsub := Forest.child_addrs_subset T x
  have heT : e ∈ T.addrs := hsub e he
  have hlast : n.last_child = none := by
    obtain ⟨n2, hn2, hf2, hl2⟩ := (h.tree_rep.owns_node heT).live
    rw [hn] at hn2
    cases Option.some.inj hn2
    rw [hleaf] at hf2
    rw [hl2, Forest.last_eq_none]
    exact Forest.first_eq_none.mp hf2.symm
  obtain ⟨t2, K2, h1, h2, h3, h4, _, h6, h7⟩ := remove_word_at_loop_thins (t.fresh + 1)
    (T.child x) e t (h.owns_top hx) h.clean he
    (fun hin => (h.not_sentinel (hsub _ hin)).1 rfl) (h.top_next hx)
    (by have := (h.owns_top hx).size_lt; omega) h.distinct.of_child
  have hgone := h7 n hn hleaf hlast
  exact ⟨t2, K2, by simp [remove_word_at, h1], h.regraft hx h2 h4, h3, hgone,
    h2.gone e (Or.inl he) hgone, h6⟩

/-- The public `remove_word` of a word of at least two characters whose path ends at a
childless node `e`: the call returns true, `e` is erased and the path is gone. -/
theorem remove_word_leaf {d : ZDDictionary} {T : Forest} (h : DictRep d.m_internalTree T)
    {c : Char} {rest : List Char} {x e : Nat} {n : TreeNode} (w : List Char)
    (hw : to_lower_case_word w = c :: rest) (hfind : T.findChar c = some x)
    (hwalk : Forest.walk rest (T.child x) = some e)
    (hn : d.m_internalTree.cells e = some n) (hleaf : n.first_child = none) :
    ∃ d2 K2, d.remove_word w = .ok (d2, true) ∧
      DictRep d2.m_internalTree (T.setChild x K2) ∧ d2.m_internalTree.cells e = none ∧
      Forest.walk rest K2 = none := by
  have h1 := CxxString.at_ofList [] c rest
  have h2 := CxxString.erase_ofList [] c rest
  simp only [List.nil_append, List.length_nil, Nat.zero_add] at h1 h2
  have hfor := remove_word_for_spec h (to_lower_case_word w).length 0
    (CxxString.ofList (to_lower_case_word w)) 1
  have htar : T.removeTarget (to_lower_case_word w).length 0
      (CxxString.ofList (to_lower_case_word w)) 1 = some (x, e) := by
    rw [hw]
    simp only [List.length_cons, Forest.removeTarget, h1, hfind, h2, hwalk]
  rw [htar] at hfor
  obtain ⟨hx, he, hrun⟩ := hfor
  obtain ⟨t2, K2, hrem, hrep, _, hgone, hcell, hthin⟩ := h.remove_leaf hx he hn hleaf
  refine ⟨⟨t2⟩, K2, by simp [ZDDictionary.remove_word, hrun t2 hrem], hrep, hcell, ?_⟩
  cases hw2 : Forest.walk rest K2 with
  | none => rfl
  | some a =>
    have := hthin rest a hw2
    rw [hwalk] at this
    cases Option.some.inj this
    exact absurd (Forest.walk_mem rest hw2) hgone

/-- The public `remove_word` of a word whose path ends at a childless node `e`: the
call returns; when the word has at least two characters it returns true, `e` is erased
and no walk spells the word below its top-level node any more. -/
theorem remove_word_leaf_spec {d : ZDDictionary} {T : Forest}
    (h : DictRep d.m_internalTree T) (w : List Char) {e : Nat} {n : TreeNode}
    (hpath : T.pathTo (to_lower_case_word w) = some e)
    (hn : d.m_internalTree.cells e = some n) (hleaf : n.first_child = none) :
    ∃ d2 T2 b, d.remove_word w = .ok (d2, b) ∧ DictRep d2.m_internalTree T2 ∧
      (2 ≤ w.length → b = true ∧ d2.m_internalTree.cells e = none ∧
        ∀ c rest x, to_lower_case_word w = c :: rest → T2.findChar c = some x →
          Forest.walk rest (T2.child x) = none) := by
  have hl : (to_lower_case_word w).length = w.length := by simp [to_lower_case_word]
  by_cases hlen : 2 ≤ w.length
  · generalize hlw : to_lower_case_word w = lw at hpath hl
    match lw, hl, hpath, hlw with
    | [], hl, _, _ => simp at hl; omega
    | [c], hl, _, _ => simp at hl; omega
    | c :: c2 :: rest, _, hp, hlw =>
      simp only [Forest.pathTo] at hp
      cases hfind : T.findChar c with
      | none => simp [hfind] at hp
      | some x =>
        simp only [hfind, reduceCtorEq, if_false] at hp
        obtain ⟨d2, K2, hrem, hrep, hcell, hwalk⟩ := remove_word_leaf h w hlw hfind hp hn hleaf
        refine ⟨d2, _, true, hrem, hrep, fun _ => ⟨rfl, hcell, ?_⟩⟩
        intro c3 rest3 x3 heq hf3
        obtain ⟨rfl, rfl⟩ := List.cons.inj heq
        rw [Forest.findChar_setChild, hfind] at hf3
        cases Option.some.inj hf3
        rw [Forest.child_setChild_same K2 (Forest.findChar_mem_tops hfind)]
        exact hwalk
  · obtain ⟨d2, T2, b, hrem, hrep, _⟩ := remove_word_spec h w
    exact ⟨d2, T2, b, hrem, hrep, fun h2 => absurd h2 hlen⟩

/-! ## Insertion keeps what the exact search finds -/

/-- The range-`for` of the public exact `find_word` succeeds after an insertion when it
succeeded before. -/
theorem Forest.findFor_insertWord (T : Forest) (f : Nat) (v : List Char) :
    ∀ (n idx : Nat) (s : CxxString) (count : Nat), T.findFor n idx s count = true →
      (T.insertWord f v).1.findFor n idx s count = true := by
  intro n
  induction n with
  | zero => intro idx s count h; simp [Forest.findFor] at h
  | succ n ih =>
    intro idx s count h
    simp only [Forest.findFor, Forest.insertWord_findChar] at h ⊢
    cases hfind : T.findChar (s.at idx) with
    | none =>
      simp only [hfind] at h ⊢
      exact ih _ _ _ h
    | some x =>
      simp only [hfind] at h ⊢
      by_cases hw : (Forest.walk (s.erase count).str (T.child x)).isSome = true
      · simp [Forest.insertWord_walk T f (Forest.findChar_mem_tops hfind) hw v]
      · simp only [hw, Bool.false_eq_true, if_false] at h
        by_cases hw2 :
            (Forest.walk (s.erase count).str ((T.insertWord f v).1.child x)).isSome = true
        · simp [hw2]
        · simp only [hw2, Bool.false_eq_true, if_false]
          exact ih _ _ _ h

theorem abcdCdTree_eq :
    (ZDDictionary.mk abcdTree).insert_word "cd".toList = .ok (⟨abcdCdTree⟩, true) := by
  rfl

theorem abcdCdTree_reachable : Reachable ⟨abcdCdTree⟩ :=
  Reachable.insert abcdTree_reachable abcdCdTree_eq

theorem abcdCdTree_cells :
    abcdCdTree.cells 0 = some ⟨none, none, none, none, some 2, '\x00'⟩ ∧
    abcdCdTree.cells 2 = some ⟨none, some 28, some 28, some 0, some 3, 'a'⟩ ∧
    abcdCdTree.cells 28 = some ⟨some 2, some 29, some 29, none, none, 'b'⟩ ∧
    abcdCdTree.cells 29 = some ⟨some 28, some 30, some 30, none, none, 'c'⟩ ∧
    abcdCdTree.cells 30 = some ⟨some 29, none, none, none, none, 'd'⟩ ∧
    abcdCdTree.cells 4 = some ⟨none, some 31, some 31, some 3, some 5, 'c'⟩ ∧
    abcdCdTree.cells 31 = some ⟨some 4, none, none, none, none, 'd'⟩ ∧
    abcdCdTree.head = 0 ∧ abcdCdTree.feet = 1 := by
  decide!

/-- The path of "abcd" in the dictionary holding "abcd" and "cd" ends at cell 30. -/
theorem abcdCdTree_path : abcdCdTree.PathTo ['a', 'b', 'c', 'd'] 30 := by
  obtain ⟨h0, h2, h28, h29, h30, _, _, hh, hf⟩ := abcdCdTree_cells
  refine ⟨2, ⟨_, _, by rw [hh]; exact h0, ZDTree.InChain.here 2, by rw [hf]; decide, h2, rfl⟩,
    28, ⟨_, _, h2, ZDTree.InChain.here 28, h28, rfl⟩,
    29, ⟨_, _, h28, ZDTree.InChain.here 29, h29, rfl⟩,
    30, ⟨_, _, h29, ZDTree.InChain.here 30, h30, rfl⟩, rfl⟩

/-! ## The case folding of the code is ASCII lower-casing -/

theorem tolower_eq_ascii_lower (c : Char) : tolower c = ascii_lower c := by
  have key : ∀ n : Fin 128, tolower (Char.ofNat n.val) = ascii_lower (Char.ofNat n.val) := by
    decide
  by_cases hlt : c.toNat < 128
  · have := key ⟨c.toNat, hlt⟩
    simpa only [Char.ofNat_toNat] using this
  · have hup : ¬ ('A'.val ≤ c.val ∧ c.val ≤ 'Z'.val) := by
      rintro ⟨_, h2⟩
      have h2 : c.val.toNat ≤ ('Z'.val).toNat := h2
      have h3 : ('Z'.val).toNat = 90 := rfl
      have h1 : c.val.toNat = c.toNat := rfl
      omega
    have h1 : tolower c = c := by simp only [tolower, hup, if_false]
    have hkeys : ∀ p ∈ ("ABCDEFGHIJKLMNOPQRSTUVWXYZ".toList.zip
        "abcdefghijklmnopqrstuvwxyz".toList), p.1.toNat < 128 := by decide
    have h2 : ("ABCDEFGHIJKLMNOPQRSTUVWXYZ".toList.zip
        "abcdefghijklmnopqrstuvwxyz".toList).lookup c = none := by
      rw [List.lookup_eq_none_iff]
      intro p hp
      have := hkeys p hp
      rw [bne_iff_ne]
      intro heq
      rw [heq] at hlt
      exact hlt this
    rw [h1]
    simp only [ascii_lower, h2]

theorem to_lower_case_word_eq (w : List Char) : to_lower_case_word w = ascii_lower_cased w := by
  simp only [to_lower_case_word, ascii_lower_cased]
  exact List.map_congr_left fun c _ => tolower_eq_ascii_lower c

/-! ## The choice among the recovery results; search after a removal -/

/-- When the private approximate `find_word` has matched the characters `pre` down to the
node `cur`, finds no child of `cur` for the next character `c` (budget `k > 0`) and its
recovery searches return (`rs` for the substitution and the addition, which are the same
call, `rd` for the deletion), it returns: `(false, null, -1)` when neither succeeded,
and otherwise one of the successful results, whose remaining budget is not below that
of any successful result. -/
theorem find_word_approx_best_of_returning (t : ZDTree) (node cur : Option Nat) (pre : List Char)
    (c : Char) (rest : List Char) (k : Int) (x : Option Nat) (cn : TreeNode)
    (rs rd : Bool × Option Nat × Int) (hk : 0 < k) (hwalk : Matched t node pre cur)
    (hmis : has_child t cur c = .ok (false, x))
    (hs : find_word_approx t cur rest (k - 1) = .ok rs) (hcn : t.read cur = .ok cn)
    (hd : find_word_approx t cn.first_child (c :: rest) (k - 1) = .ok rd) :
    ∃ r, find_word_approx t node (pre ++ c :: rest) k = .ok r ∧
      (rs.1 = false → rd.1 = false → r = (false, none, -1)) ∧
      (rs.1 = true ∨ rd.1 = true →
        r.1 = true ∧ ((r = rs ∧ rs.1 = true) ∨ (r = rd ∧ rd.1 = true)) ∧
        (rs.1 = true → rs.2.2 ≤ r.2.2) ∧ (rd.1 = true → rd.2.2 ≤ r.2.2)) := by
  refine ⟨recovery_choice rs rs rd, ?_, recovery_choice_best (find_word_approx_inv hs)
    (find_word_approx_inv hd)⟩
  rw [find_word_approx_mismatch t c rest hk hwalk hmis, hs]
  simp only [bind_ok, hcn, hd, pure_eq_ok]

/-- In every reachable state and for every word `w` whose path (of the case-folded
word) exists and ends at a node `e` without children, `remove_word(w)` returns and
`find_word(w)` returns on the state after it. When `w` has at least two characters,
`remove_word(w)` returns true, the node `e` is erased and no path spells `w`
afterwards. When `find_word(w)` returns true afterwards, the full path of a shorter
suffix of the case-folded `w` with at least two characters exists in the state after the
call. -/
theorem remove_word_leaf_then_find {d : ZDDictionary} (h : Reachable d) (w : List Char)
    (e : Nat) (n : TreeNode) (hpath : d.m_internalTree.PathTo (to_lower_case_word w) e)
    (hn : d.m_internalTree.cells e = some n) (hleaf : n.first_child = none) :
    ∃ d2 b b2, d.remove_word w = .ok (d2, b) ∧ d2.find_word w = .ok b2 ∧
      (2 ≤ w.length → b = true ∧ d2.m_internalTree.cells e = none ∧
        ¬ d2.m_internalTree.HasPath (to_lower_case_word w)) ∧
      (b2 = true → ∃ u, u <:+ to_lower_case_word w ∧ u.length < w.length ∧ 2 ≤ u.length ∧
        d2.m_internalTree.HasPath u) := by
  obtain ⟨T, hT⟩ := h.rep
  have hl : (to_lower_case_word w).length = w.length := by simp [to_lower_case_word]
  obtain ⟨d2, T2, b, hrem, hrep, hfacts⟩ :=
    remove_word_leaf_spec hT w ((hT.pathTo_iff _ _).mp hpath) hn hleaf
  refine ⟨d2, b, _, hrem, find_word_spec hrep w, ?_, ?_⟩
  · intro hlen
    obtain ⟨hb, hcell, hwalk⟩ := hfacts hlen
    refine ⟨hb, hcell, ?_⟩
    rintro ⟨a, ha⟩
    have hp := (hrep.pathTo_iff _ _).mp ha
    generalize hlw : to_lower_case_word w = lw at hp hl hwalk
    match lw, hl, hp, hwalk with
    | [], hl, _, _ => simp at hl; omega
    | [c], hl, _, _ => simp at hl; omega
    | c :: c2 :: rest, _, hp, hwalk =>
      simp only [Forest.pathTo] at hp
      cases hfind : T2.findChar c with
      | none => simp [hfind] at hp
      | some x =>
        simp only [hfind, reduceCtorEq, if_false] at hp
        rw [hwalk c (c2 :: rest) x rfl hfind] at hp
        cases hp
  · intro hb2
    obtain ⟨m, c, u, x, h1, h2, h3⟩ := Forest.findFor_true T2 _ 0 _
      (CxxString.ofList_size_lt _) hb2
    rw [CxxString.ofList_str] at h1
    have hne := Forest.walk_ne_nil h3
    have hu : 1 ≤ u.length := by
      cases u with
      | nil => exact absurd rfl hne
      | cons _ _ => simp
    have hlen2 : (c :: u).length = (to_lower_case_word w).length - m := by
      rw [← h1, List.length_drop]
    simp only [List.length_cons] at hlen2
    have hm : m ≠ 0 := by
      intro h0
      subst h0
      simp only [List.drop_zero] at h1
      have hwalk := (hfacts (by omega)).2.2 c u x h1 h2
      rw [hwalk] at h3
      cases h3
    refine ⟨c :: u, ?_, ?_, ?_, ?_⟩
    · rw [← h1]; exact List.drop_suffix _ _
    · simp only [List.length_cons]; omega
    · simp only [List.length_cons]; omega
    · obtain ⟨a, ha⟩ := Option.isSome_iff_exists.mp h3
      exact ⟨a, (hrep.pathTo_iff _ _).mpr (by simp [Forest.pathTo, h2, hne, ha])⟩

/-! ## The claims -/

/-- C1 (failing input): on a new dictionary `insert_word("a")` returns true, and
`find_word("a")` called immediately afterwards returns false: the search below the
top-level node is given the empty rest of the word and reports "not found". -/
theorem C1_one_letter_word_not_found :
    (do
      let d ← ZDDictionary.new
      let (d, inserted) ← d.insert_word "a".toList
      let found ← d.find_word "a".toList
      pure (inserted, found) : Except Fault (Bool × Bool)) = .ok (true, false) := by
  decide!

/-- C3 (failing input): after `insert_word("ca")` and `insert_word("cb")` on a new
dictionary, `remove_word("cb")` also erases the node of "ca" (the cell at address 28,
holding 'a' below the top-level 'c'), which is not on the path of "cb"; `find_word("ca")`,
true before the call, is false after it. -/
theorem C3_remove_erases_other_word :
    (do
      let d ← ZDDictionary.new
      let (d, _) ← d.insert_word "ca".toList
      let (d, _) ← d.insert_word "cb".toList
      let before ← d.find_word "ca".toList
      let node_before := (d.m_internalTree.cells 28).map TreeNode.data
      let (d, removed) ← d.remove_word "cb".toList
      let after ← d.find_word "ca".toList
      let node_after := (d.m_internalTree.cells 28).map TreeNode.data
      pure (before, node_before, removed, after, node_after) :
        Except Fault (Bool × Option Char × Bool × Bool × Option Char)) =
      .ok (true, some 'a', true, false, none) := by
  decide!

/-- C6 (failing input): with "dictionary" inserted into a new dictionary,
`find_word("dectionary", 1)` returns false: the budget is lowered to 0 at the mismatch
and a search with budget 0 matches nothing. -/
theorem C6_one_substitution_rejected :
    (do
      let d ← ZDDictionary.new
      let (d, _) ← d.insert_word "dictionary".toList
      d.find_word_approx "dectionary".toList 1 : Except Fault Bool) = .ok false := by
  decide!

/-- C7 (failing input): with only "ab" inserted into a new dictionary,
`find_word("1aqqab", 3)` returns true, although the paths of the tree are the 26 single
letters and "ab", all at edit distance 4 or more from the query. -/
theorem C7_accepts_beyond_budget :
    (do
      let d ← ZDDictionary.new
      let (d, _) ← d.insert_word "ab".toList
      d.find_word_approx "1aqqab".toList 3 : Except Fault Bool) = .ok true ∧
    levenshtein Levenshtein.defaultCost "1aqqab".toList "ab".toList = 4 ∧
    ∀ c ∈ FrenchAlphabet, 5 ≤ levenshtein Levenshtein.defaultCost "1aqqab".toList [c] := by
  refine ⟨by decide!, by decide!, by decide!⟩

/-- C10 (counterexample): on a new dictionary `insert_word("1abc")` returns true
although no top-level node holds '1', the first character of the word. -/
theorem C10_counterexample_leading_digit :
    (do
      let d ← ZDDictionary.new
      let (_, result) ← d.insert_word "1abc".toList
      pure result : Except Fault Bool) = .ok true ∧
    ZDDictionary.new = .ok ⟨newTree⟩ ∧ ¬ ∃ a, newTree.IsTop a '1' := by
  refine ⟨by decide!, new_eq, ?_⟩
  rw [new_rep.no_top_iff]
  decide!

/-- C10 (amended): in every reachable state `insert_word(w)` returns; it returns false
exactly when no character of the case-folded `w` is held by a top-level node (in
particular when `w` is empty), and then the dictionary is unchanged; in every other
case it returns true. -/
theorem C10_insert_word_result {d : ZDDictionary} (h : Reachable d) (w : List Char) :
    ∃ d2 b, d.insert_word w = .ok (d2, b) ∧
      (b = false ↔ ∀ c ∈ to_lower_case_word w, ¬ ∃ a, d.m_internalTree.IsTop a c) ∧
      (b = false → d2 = d) := by
  obtain ⟨T, hT⟩ := h.rep
  obtain ⟨d2, he, _, _, _, hsame⟩ := insert_word_spec hT w
  refine ⟨d2, _, he, ?_, hsame⟩
  rw [Forest.insertWord_false_iff]
  constructor
  · intro hall c hc
    exact (hT.no_top_iff c).mpr (hall c hc)
  · intro hall c hc
    exact (hT.no_top_iff c).mp (hall c hc)

/-- C10 (witness): the amended claim at the new dictionary and the word "1abc". -/
theorem C10_insert_word_result_witness :
    Reachable ⟨newTree⟩ ∧
    ∃ d2 b, (ZDDictionary.mk newTree).insert_word "1abc".toList = .ok (d2, b) ∧
      (b = false ↔ ∀ c ∈ to_lower_case_word "1abc".toList,
        ¬ ∃ a, (ZDDictionary.mk newTree).m_internalTree.IsTop a c) ∧
      (b = false → d2 = ZDDictionary.mk newTree) :=
  ⟨Reachable.new new_eq, C10_insert_word_result (Reachable.new new_eq) "1abc".toList⟩

/-- C8: in every reachable state and for every word `w`, `insert_word(w)` returns, and a
second `insert_word(w)` made immediately afterwards returns the same boolean and leaves
the tree exactly as the first call left it (the same store, cell for cell, and the same
allocator position and sentinels). -/
theorem C8_insert_word_idempotent {d : ZDDictionary} (h : Reachable d) (w : List Char) :
    ∃ d1 b, d.insert_word w = .ok (d1, b) ∧ d1.insert_word w = .ok (d1, b) := by
  obtain ⟨T, hT⟩ := h.rep
  obtain ⟨d1, he, hrep, _, _, _⟩ := insert_word_spec hT w
  refine ⟨d1, _, he, ?_⟩
  have hb : ∀ b ∈ T.addrs, b < d.m_internalTree.fresh := by
    intro b hb
    apply hT.bound
    rw [Forest.full_addrs]
    simp [hb]
  obtain ⟨hcount, hbool⟩ := Forest.insertWord_again T d.m_internalTree.fresh
    d1.m_internalTree.fresh hb (to_lower_case_word w)
  have := insert_word_for_same hrep (to_lower_case_word w) (to_lower_case_word w) [] rfl hcount
  simp only [List.length_nil, Nat.zero_add] at this
  simp only [ZDDictionary.insert_word, this, bind_ok, pure_eq_ok, hbool]

/-- C8 (witness): the claim at the new dictionary and the word "card". -/
theorem C8_insert_word_idempotent_witness :
    Reachable ⟨newTree⟩ ∧
    ∃ d1 b, (ZDDictionary.mk newTree).insert_word "card".toList = .ok (d1, b) ∧
      d1.insert_word "card".toList = .ok (d1, b) :=
  ⟨Reachable.new new_eq, C8_insert_word_idempotent (Reachable.new new_eq) "card".toList⟩

/-- C5 (counterexample): with only "cartoon" inserted into a new dictionary,
`find_word("car")` is true but `find_word("c")` is false; and `insert_word("1abc")`
returns true, yet `find_word("1")` for its prefix "1" is false. -/
theorem C5_counterexample_short_prefix :
    (do let d ← ZDDictionary.new
        let (d, inserted) ← d.insert_word "cartoon".toList
        let car ← d.find_word "car".toList
        let c ← d.find_word "c".toList
        pure (inserted, car, c) : Except Fault (Bool × Bool × Bool)) =
      .ok (true, true, false) ∧
    (do let d ← ZDDictionary.new
        let (d, inserted) ← d.insert_word "1abc".toList
        let one ← d.find_word "1".toList
        pure (inserted, one) : Except Fault (Bool × Bool)) = .ok (true, false) := by
  constructor <;> decide!

/-- C5 (amended): in every reachable state, for every word `w` and every prefix `p` of
`w` whose case-folded form has at least one character after its first letter
`a`..`z`: `insert_word(w)` returns true, and after it and any further calls of
`insert_word` (and no `remove_word`), `find_word(p)` returns true. -/
theorem C5_prefix_found {d : ZDDictionary} (h : Reachable d) (w p pre rest : List Char)
    (c : Char) (hp : p <+: w) (hsplit : to_lower_case_word p = pre ++ c :: rest)
    (hpre : ∀ x ∈ pre, x ∉ FrenchAlphabet) (hc : c ∈ FrenchAlphabet) (hrest : rest ≠ []) :
    ∃ d1, d.insert_word w = .ok (d1, true) ∧
      ∀ ws, ∃ d2, d1.insert_all ws = .ok d2 ∧ d2.find_word p = .ok true := by
  obtain ⟨T, hT⟩ := h.rep
  obtain ⟨tail, htail⟩ : ∃ tail, to_lower_case_word w = pre ++ c :: (rest ++ tail) := by
    obtain ⟨q, rfl⟩ := hp
    exact ⟨to_lower_case_word q, by
      simp only [to_lower_case_word, List.map_append] at hsplit ⊢
      rw [hsplit]; simp⟩
  have hnone : ∀ T2 : Forest, T2.topData = FrenchAlphabet → ∀ y ∈ pre, T2.findChar y = none :=
    fun T2 h2 y hy => Forest.findChar_eq_none.mpr (by rw [h2]; exact hpre y hy)
  have hsome : ∃ x, T.findChar c = some x := by
    cases hf : T.findChar c with
    | some x => exact ⟨x, rfl⟩
    | none => exact absurd (hT.letters ▸ hc) (Forest.findChar_eq_none.mp hf)
  obtain ⟨x, hx⟩ := hsome
  have hxt := Forest.findChar_mem_tops hx
  obtain ⟨d1, he, hrep, _⟩ := insert_word_spec hT w
  have hins : T.insertWord d.m_internalTree.fresh (to_lower_case_word w) =
      (T.setChild x (Forest.grow (rest ++ tail) (T.child x) d.m_internalTree.fresh), true) := by
    rw [htail, Forest.insertWord_skip _ _ _ _ (hnone T hT.letters)]
    simp [Forest.insertWord, hx]
  rw [hins] at he hrep
  refine ⟨d1, he, fun ws => ?_⟩
  have hb : ∀ b ∈ (T.child x).addrs, b < d.m_internalTree.fresh := by
    intro b hb
    apply hT.bound
    rw [Forest.full_addrs]
    simp [Forest.child_addrs_subset T x b hb]
  have hwalk : (Forest.walk rest ((T.setChild x
      (Forest.grow (rest ++ tail) (T.child x) d.m_internalTree.fresh)).child x)).isSome := by
    rw [Forest.child_setChild_same _ hxt, Forest.walk_isSome_iff _ _ hrest]
    exact Forest.shared_append_left _ _ _ (Forest.shared_grow _ _ _ hb)
  obtain ⟨d2, T2, h1, h2, h3, h4⟩ := insert_all_walk ws d1 _ hrep
    (by rw [Forest.findChar_setChild]; exact hx) hwalk
  refine ⟨d2, h1, ?_⟩
  rw [find_word_spec h2, hsplit]
  have := Forest.findFor_skip T2 h3 h4 pre [] (hnone T2 h2.letters)
  simpa using this

/-- C5 (witness): the amended claim at the new dictionary, the word "cartoon" and its
prefix "car". -/
theorem C5_prefix_found_witness :
    Reachable ⟨newTree⟩ ∧ "car".toList <+: "cartoon".toList ∧
    ∃ d1, (ZDDictionary.mk newTree).insert_word "cartoon".toList = .ok (d1, true) ∧
      ∀ ws, ∃ d2, d1.insert_all ws = .ok d2 ∧ d2.find_word "car".toList = .ok true :=
  ⟨Reachable.new new_eq, by decide,
    C5_prefix_found (Reachable.new new_eq) "cartoon".toList "car".toList [] "ar".toList 'c'
      (by decide) (by decide) (by simp) (by decide) (by decide)⟩

/-- C9: in every reachable state and for every word `w` whose first character is an ASCII
letter, `insert_word(w)` returns true and there is a length `L` with `1 ≤ L ≤ len(w)`
such that: the path of the first `L` characters of the case-folded `w` exists before
the call and ends at a node `e`, and no longer prefix of it has a path; exactly
`len(w) - L` cells are allocated, the cells in use afterwards being those in use before
and the `len(w) - L` new ones; every node that existed keeps its character, parent and
previous sibling (and its next sibling and first child if it had one); the new nodes
hold the remaining characters in order and form one chain, each the only child of the
one before, the first of them having parent `e`, no next sibling and the former last
child of `e` as previous sibling, and being the last child of `e` afterwards. -/
theorem C9_insert_word_growth {d : ZDDictionary} (h : Reachable d) (w : List Char) (c : Char)
    (rest : List Char) (hw : w = c :: rest) (hc : c.isAlpha = true) :
    ∃ d2 L e ne,
      d.insert_word w = .ok (d2, true) ∧
      1 ≤ L ∧ L ≤ w.length ∧
      d.m_internalTree.PathTo ((to_lower_case_word w).take L) e ∧
      (∀ j, L < j → j ≤ w.length →
        ¬ d.m_internalTree.HasPath ((to_lower_case_word w).take j)) ∧
      d2.m_internalTree.fresh = d.m_internalTree.fresh + (w.length - L) ∧
      (∀ b, (d2.m_internalTree.cells b).isSome ↔
        ((d.m_internalTree.cells b).isSome ∨
          (d.m_internalTree.fresh ≤ b ∧ b < d2.m_internalTree.fresh))) ∧
      Keeps d.m_internalTree d2.m_internalTree ∧
      d.m_internalTree.cells e = some ne ∧
      (∀ i, i < w.length - L →
        d2.m_internalTree.cells (d.m_internalTree.fresh + i) = some
          { parent := if i = 0 then some e else some (d.m_internalTree.fresh + i - 1),
            first_child :=
              if i + 1 < w.length - L then some (d.m_internalTree.fresh + i + 1) else none,
            last_child :=
              if i + 1 < w.length - L then some (d.m_internalTree.fresh + i + 1) else none,
            prev_sibling := if i = 0 then ne.last_child else none,
            next_sibling := none,
            data := (to_lower_case_word w).getD (L + i) ' ' }) ∧
      (L < w.length → ∃ ne2, d2.m_internalTree.cells e = some ne2 ∧
        ne2.last_child = some d.m_internalTree.fresh) := by
  subst hw
  obtain ⟨T, hT⟩ := h.rep
  obtain ⟨d2, he, hrep, hkeep, hfresh, _⟩ := insert_word_spec hT (c :: rest)
  have hlw : to_lower_case_word (c :: rest) = tolower c :: to_lower_case_word rest := rfl
  have hlen : (to_lower_case_word rest).length = rest.length := by simp [to_lower_case_word]
  rw [hlw] at he hrep hfresh ⊢
  generalize to_lower_case_word rest = r at he hrep hfresh hlen ⊢
  generalize d.m_internalTree = t at hT he hrep hkeep hfresh ⊢
  obtain ⟨x, hx⟩ : ∃ x, T.findChar (tolower c) = some x := by
    cases hf : T.findChar (tolower c) with
    | some x => exact ⟨x, rfl⟩
    | none => exact absurd (hT.letters ▸ tolower_letter hc) (Forest.findChar_eq_none.mp hf)
  have hxt := Forest.findChar_mem_tops hx
  simp only [Forest.insertWord, Forest.insertCount, hx] at he hrep hfresh
  have hsl := Forest.shared_le r (T.child x)
  obtain ⟨e, he0⟩ := Forest.exists_walkTo x r (T.child x)
  have ho : Owns t x (T.child x) := hT.owns_top hxt
  have hoe := Owns.walk_kids _ ho he0
  obtain ⟨ne, hne, _, hnl⟩ := hoe.live
  -- the new store
  have ho2 : Owns d2.m_internalTree x (Forest.grow r (T.child x) t.fresh) := by
    have := hrep.owns_top (x := x) (by simpa using hxt)
    rwa [Forest.child_setChild_same _ hxt] at this
  have he2 : Forest.walkTo x (r.take (Forest.shared r (T.child x)))
      (Forest.grow r (T.child x) t.fresh) = some e := by
    simp only [Forest.walkTo] at he0 ⊢
    by_cases hu : r.take (Forest.shared r (T.child x)) = []
    · simpa [hu] using he0
    · simp only [hu, if_false] at he0 ⊢
      exact Forest.walk_grow_eq _ _ _ _ _ he0
  have hoe2 := Owns.walk_kids _ ho2 he2
  rw [Forest.walkKids_grow] at hoe2
  have hsib : Sibs d2.m_internalTree.cells
      (Forest.chain (r.drop (Forest.shared r (T.child x))) t.fresh) (some e) ne.last_child := by
    have := Sibs.app_right _ _ hoe2.sibs
    rw [hnl]
    cases hl : (Forest.walkKids (r.take (Forest.shared r (T.child x))) (T.child x)).last with
    | none => simpa [hl] using this
    | some l => simpa [hl] using this
  have hcells : ∀ i, i < (c :: rest).length - (Forest.shared r (T.child x) + 1) →
      d2.m_internalTree.cells (t.fresh + i) = some
        { parent := if i = 0 then some e else some (t.fresh + i - 1),
          first_child :=
            if i + 1 < (c :: rest).length - (Forest.shared r (T.child x) + 1) then
              some (t.fresh + i + 1) else none,
          last_child :=
            if i + 1 < (c :: rest).length - (Forest.shared r (T.child x) + 1) then
              some (t.fresh + i + 1) else none,
          prev_sibling := if i = 0 then ne.last_child else none,
          next_sibling := none,
          data := (tolower c :: r).getD (Forest.shared r (T.child x) + 1 + i) ' ' } := by
    intro i hi
    simp only [List.length_cons] at hi
    have hl2 : (r.drop (Forest.shared r (T.child x))).length =
        (c :: rest).length - (Forest.shared r (T.child x) + 1) := by
      simp only [List.length_drop, List.length_cons]; omega
    have := Sibs.chain_cells _ _ _ _ hsib i (by rw [hl2]; simp only [List.length_cons]; omega)
    rw [this, hl2]
    have hd : (r.drop (Forest.shared r (T.child x))).getD i ' ' =
        (tolower c :: r).getD (Forest.shared r (T.child x) + 1 + i) ' ' := by
      have e1 : Forest.shared r (T.child x) + 1 + i = (Forest.shared r (T.child x) + i) + 1 := by
        omega
      rw [e1, List.getD_cons_succ]
      simp only [List.getD_eq_getElem?_getD, List.getElem?_drop]
    rw [hd]
  refine ⟨_, Forest.shared r (T.child x) + 1, e, ne, he, by omega,
    by simp only [List.length_cons]; omega, ?_, ?_, ?_, ?_, hkeep, hne, hcells, ?_⟩
  · -- the shared prefix has a path
    apply (hT.pathTo_iff _ _).mpr
    simp only [List.take_succ_cons, Forest.pathTo, hx]
    exact he0
  · -- no longer prefix has one
    rintro j hj1 hj2 ⟨e3, he3⟩
    obtain ⟨j, rfl⟩ : ∃ j2, j = j2 + 1 := ⟨j - 1, by omega⟩
    have hp := (hT.pathTo_iff _ _).mp he3
    simp only [List.length_cons] at hj2
    simp only [List.take_succ_cons, Forest.pathTo, hx] at hp
    have hu : r.take j ≠ [] := by
      intro h0
      have := congrArg List.length h0
      simp only [List.length_take, List.length_nil] at this
      omega
    simp only [hu, if_false] at hp
    have h1 := (Forest.walk_isSome_iff _ (T.child x) hu).mp (by rw [hp]; rfl)
    rw [Forest.shared_take, List.length_take] at h1
    omega
  · -- number of cells allocated
    rw [hfresh]; simp only [List.length_cons]; omega
  · -- the cells in use
    intro b
    constructor
    · intro hb
      by_cases hlt : b < t.fresh
      · left
        have hin : b ∈ (Forest.full d2.m_internalTree (T.setChild x
            (Forest.grow r (T.child x) t.fresh))).addrs := by
          by_contra hnot
          rw [hrep.tight b hnot] at hb
          cases hb
        have hin2 : b ∈ (Forest.full t T).addrs := by
          rw [Forest.full_addrs] at hin ⊢
          rw [hkeep.head_eq, hkeep.feet_eq] at hin
          simp only [List.mem_cons, List.mem_append, List.mem_singleton, List.mem_nil_iff,
            or_false] at hin ⊢
          rcases hin with hin | hin | hin
          · exact Or.inl hin
          · rcases Forest.mem_addrs_setChild hin with hin | hin
            · exact Or.inr (Or.inl hin)
            · rcases Forest.mem_addrs_grow _ _ _ _ hin with hin | hin
              · exact Or.inr (Or.inl (Forest.child_addrs_subset T x b hin))
              · omega
          · exact Or.inr (Or.inr hin)
        obtain ⟨n, hn⟩ := Sibs.live hT.sibs b hin2
        rw [hn]; rfl
      · right
        refine ⟨by omega, ?_⟩
        by_contra hge
        rw [hrep.clean b (by omega)] at hb
        cases hb
    · rintro (hb | ⟨hb1, hb2⟩)
      · obtain ⟨n, hn⟩ := Option.isSome_iff_exists.mp hb
        obtain ⟨n2, hn2, _⟩ := hkeep.nodes b n hn
        rw [hn2]; rfl
      · obtain ⟨i, rfl⟩ : ∃ i, b = t.fresh + i := ⟨b - t.fresh, by omega⟩
        rw [hcells i (by simp only [List.length_cons]; omega)]
        rfl
  · -- appended as last child
    intro hL
    simp only [List.length_cons] at hL
    obtain ⟨ne2, hne2, _, hl2⟩ := hoe2.live
    refine ⟨ne2, hne2, ?_⟩
    rw [hl2, Forest.last_app]
    have hdrop : r.drop (Forest.shared r (T.child x)) ≠ [] := by
      intro h0
      have := congrArg List.length h0
      simp only [List.length_drop, List.length_nil] at this
      omega
    cases hdr : r.drop (Forest.shared r (T.child x)) with
    | nil => exact absurd hdr hdrop
    | cons c2 v => simp [Forest.chain, Forest.last]

/-- C9 (witness): the claim at the new dictionary and the word "car". -/
theorem C9_insert_word_growth_witness :
    Reachable ⟨newTree⟩ ∧ ('c').isAlpha = true ∧
    ∃ d2 L e ne,
      (ZDDictionary.mk newTree).insert_word "car".toList = .ok (d2, true) ∧
      1 ≤ L ∧ L ≤ "car".toList.length ∧
      newTree.PathTo ((to_lower_case_word "car".toList).take L) e ∧
      (∀ j, L < j → j ≤ "car".toList.length →
        ¬ newTree.HasPath ((to_lower_case_word "car".toList).take j)) ∧
      d2.m_internalTree.fresh = newTree.fresh + ("car".toList.length - L) ∧
      (∀ b, (d2.m_internalTree.cells b).isSome ↔
        ((newTree.cells b).isSome ∨ (newTree.fresh ≤ b ∧ b < d2.m_internalTree.fresh))) ∧
      Keeps newTree d2.m_internalTree ∧
      newTree.cells e = some ne ∧
      (∀ i, i < "car".toList.length - L →
        d2.m_internalTree.cells (newTree.fresh + i) = some
          { parent := if i = 0 then some e else some (newTree.fresh + i - 1),
            first_child :=
              if i + 1 < "car".toList.length - L then some (newTree.fresh + i + 1) else none,
            last_child :=
              if i + 1 < "car".toList.length - L then some (newTree.fresh + i + 1) else none,
            prev_sibling := if i = 0 then ne.last_child else none,
            next_sibling := none,
            data := (to_lower_case_word "car".toList).getD (L + i) ' ' }) ∧
      (L < "car".toList.length → ∃ ne2, d2.m_internalTree.cells e = some ne2 ∧
        ne2.last_child = some newTree.fresh) :=
  ⟨Reachable.new new_eq, by decide,
    C9_insert_word_growth (Reachable.new new_eq) "car".toList 'c' "ar".toList rfl (by decide)⟩

/-- C15: the case folding of the code gives the ASCII lower-cased form of the word (the
capital letters `A` to `Z` replaced by the small letters `a` to `z`, every other
character kept); every public operation gives the same result (the same boolean and the
same tree, or the same fault) for a word and for its ASCII lower-cased form, whatever
the state and the budget; `to_lower_case_word` keeps the length and is idempotent. -/
theorem C15_case_insensitive (d : ZDDictionary) (w : List Char) (k : Int) :
    to_lower_case_word w = ascii_lower_cased w ∧
    ascii_lower_cased "Car-7Z".toList = "car-7z".toList ∧
    d.insert_word (ascii_lower_cased w) = d.insert_word w ∧
    d.remove_word (ascii_lower_cased w) = d.remove_word w ∧
    d.find_word (ascii_lower_cased w) = d.find_word w ∧
    d.find_word_approx (ascii_lower_cased w) k = d.find_word_approx w k ∧
    (to_lower_case_word w).length = w.length ∧
    to_lower_case_word (to_lower_case_word w) = to_lower_case_word w := by
  refine ⟨to_lower_case_word_eq w, by decide, ?_, ?_, ?_, ?_, to_lower_case_word_length w,
    to_lower_case_word_idem w⟩
  · simp only [← to_lower_case_word_eq, ZDDictionary.insert_word, to_lower_case_word_idem]
  · simp only [← to_lower_case_word_eq, ZDDictionary.remove_word, to_lower_case_word_idem]
  · simp only [← to_lower_case_word_eq, ZDDictionary.find_word, to_lower_case_word_idem]
  · simp only [← to_lower_case_word_eq, ZDDictionary.find_word_approx,
      to_lower_case_word_idem]

/-- C16 (failing input): on a new dictionary `find_word("dog", 2)` does not return a
boolean: the node 'd' has no child, and the deletion recovery restarts the search at
its null `first_child`, where `has_child` dereferences the null node. -/
theorem C16_approx_find_null_first_child :
    (do
      let d ← ZDDictionary.new
      d.find_word_approx "dog".toList 2 : Except Fault Bool) = .error .null_deref ∧
    (do
      let d ← ZDDictionary.new
      let n ← d.m_internalTree.read (some 5)
      pure (n.data, n.first_child) : Except Fault (Char × Option Nat)) = .ok ('d', none) := by
  constructor <;> decide!

/-- C12: in every reachable state (the exact and approximate `find_word` do not change
the tree) `head` and `feet` are the cells 0 and 1; following `next_sibling` from `head`
visits `head`, the cells 2, 3, ..., 27 and `feet`, and then ends; following
`prev_sibling` from `feet` visits them in reverse; the cells 2..27 hold 'a'..'z' in this
order. The new dictionary is one of these states, so these are the cells the
constructor allocated (an address is never handed out twice). -/
theorem C12_seeded_letters_permanent {d : ZDDictionary} (h : Reachable d) :
    d.m_internalTree.head = 0 ∧ d.m_internalTree.feet = 1 ∧
    d.m_internalTree.NextWalk (some 0) (0 :: List.range' 2 26 ++ [1]) ∧
    d.m_internalTree.PrevWalk (some 1) (1 :: (List.range' 2 26).reverse ++ [0]) ∧
    List.Forall₂ (fun a c => ∃ n, d.m_internalTree.cells a = some n ∧ n.data = c)
      (List.range' 2 26) FrenchAlphabet := by
  obtain ⟨T, hT, h1, h2, h3⟩ := h.rep_seeded
  have hn := hT.next_walk_full
  have hp := hT.prev_walk_full
  have hl := hT.top_letters
  rw [h1, h2, h3] at hn hp
  rw [h1] at hl
  exact ⟨h2, h3, hn, hp, hl⟩

/-- C12 (witness): the claim at the new dictionary, whose top-level nodes the
constructor has just created. -/
theorem C12_seeded_letters_permanent_witness :
    ZDDictionary.new = .ok ⟨newTree⟩ ∧ Reachable ⟨newTree⟩ ∧
    newTree.head = 0 ∧ newTree.feet = 1 ∧
    newTree.NextWalk (some 0) (0 :: List.range' 2 26 ++ [1]) ∧
    newTree.PrevWalk (some 1) (1 :: (List.range' 2 26).reverse ++ [0]) ∧
    List.Forall₂ (fun a c => ∃ n, newTree.cells a = some n ∧ n.data = c)
      (List.range' 2 26) FrenchAlphabet :=
  ⟨new_eq, Reachable.new new_eq, C12_seeded_letters_permanent (Reachable.new new_eq)⟩

/-- C14: in every reachable state two children of one node that hold the same character
are the same node, two top-level nodes that hold the same character are the same node,
and a character string has at most one path. -/
theorem C14_distinct_sibling_characters {d : ZDDictionary} (h : Reachable d) :
    (∀ a b1 b2 c, d.m_internalTree.IsChild a b1 c → d.m_internalTree.IsChild a b2 c →
      b1 = b2) ∧
    (∀ b1 b2 c, d.m_internalTree.IsTop b1 c → d.m_internalTree.IsTop b2 c → b1 = b2) ∧
    (∀ w e1 e2, d.m_internalTree.PathTo w e1 → d.m_internalTree.PathTo w e2 → e1 = e2) := by
  obtain ⟨T, hT⟩ := h.rep
  refine ⟨?_, ?_, ?_⟩
  · intro a b1 b2 c h1 h2
    have hlive : ∃ n, d.m_internalTree.cells a = some n := by
      obtain ⟨n, _, hn, _⟩ := h1
      exact ⟨n, hn⟩
    obtain ⟨n, hn⟩ := hlive
    have hin := hT.tree_rep.mem_of_live (b := a) (by rw [hn]; rfl)
    have ho := hT.tree_rep.owns_full hin
    have hd : (Forest.sub a (Forest.full d.m_internalTree T)).Distinct := by
      rw [Forest.full_addrs] at hin
      simp only [List.mem_cons, List.mem_append, List.mem_singleton, List.mem_nil_iff,
        or_false] at hin
      rcases hin with hin | hin | hin
      · rw [hin, hT.tree_rep.sub_head]; trivial
      · rw [hT.tree_rep.sub_full hin]; exact hT.distinct.sub a
      · rw [hin, hT.tree_rep.sub_feet]; trivial
    have e1 := (ho.isChild_iff hd b1 c).mp h1
    have e2 := (ho.isChild_iff hd b2 c).mp h2
    rw [e1] at e2
    exact Option.some.inj e2
  · intro b1 b2 c h1 h2
    have e1 := (hT.isTop_iff b1 c).mp h1
    have e2 := (hT.isTop_iff b2 c).mp h2
    rw [e1] at e2
    exact Option.some.inj e2
  · intro w e1 e2 h1 h2
    have r1 := (hT.pathTo_iff w e1).mp h1
    have r2 := (hT.pathTo_iff w e2).mp h2
    rw [r1] at r2
    exact Option.some.inj r2

/-- C14 (witness): the claim at the new dictionary. -/
theorem C14_distinct_sibling_characters_witness :
    Reachable ⟨newTree⟩ ∧
    (∀ a b1 b2 c, newTree.IsChild a b1 c → newTree.IsChild a b2 c → b1 = b2) ∧
    (∀ b1 b2 c, newTree.IsTop b1 c → newTree.IsTop b2 c → b1 = b2) ∧
    (∀ w e1 e2, newTree.PathTo w e1 → newTree.PathTo w e2 → e1 = e2) :=
  ⟨Reachable.new new_eq, C14_distinct_sibling_characters (Reachable.new new_eq)⟩

/-- C17: on a well-formed tree, `insert(position, x)` (either overload) at a node `p`
other than `head` (`p` is `feet` when `position` is null) returns the address `n` of a
cell that was free; `n` holds `x`, has no children, `next_sibling = p`, the former `prev_sibling` and
the `parent` of `p`; `p.prev_sibling = n`; the former previous sibling of `p` gets
`next_sibling = n`, or, when `p` had none, its parent gets `first_child = n`; every
other cell is unchanged. -/
theorem C17_insert_before {t : ZDTree} (hwf : t.WellFormed) (position : Option Nat) (p : Nat)
    (x : Char) (hpos : position = some p ∨ (position = none ∧ p = t.feet))
    (hh : p ≠ t.head) (hnode : (t.cells p).isSome) :
    ∃ t2 pn, t.cells p = some pn ∧ t.cells t.fresh = none ∧
      t.insert position x = .ok (t2, some t.fresh) ∧
      t.insert_move position x = .ok (t2, some t.fresh) ∧
      t2.fresh = t.fresh + 1 ∧ t2.head = t.head ∧ t2.feet = t.feet ∧
      t2.cells t.fresh = some
        { parent := pn.parent, first_child := none, last_child := none,
          prev_sibling := pn.prev_sibling, next_sibling := some p, data := x } ∧
      t2.cells p = some { pn with prev_sibling := some t.fresh } ∧
      (match pn.prev_sibling with
        | some q => ∃ nq, t.cells q = some nq ∧
            t2.cells q = some { nq with next_sibling := some t.fresh }
        | none => ∃ a na, pn.parent = some a ∧ t.cells a = some na ∧
            t2.cells a = some { na with first_child := some t.fresh }) ∧
      (∀ b, b ≠ t.fresh → b ≠ p → some b ≠ pn.prev_sibling →
        (pn.prev_sibling = none → some b ≠ pn.parent) → t2.cells b = t.cells b) := by
  obtain ⟨T, hT⟩ := hwf
  have hins : t.insert position x = t.insert (some p) x := by
    rcases hpos with h1 | ⟨h1, h2⟩
    · rw [h1]
    · rw [h1, h2, insert_none]
  have hmove : t.insert_move position x = t.insert position x := by
    apply insert_move_eq
    rcases hpos with h1 | ⟨h1, h2⟩
    · rw [h1]
      simpa using hh
    · rw [h1, ← h2]
      simpa using hh
  rw [hmove, hins]
  obtain ⟨t2, pn, h1, h2, h3, h4⟩ := hT.insert_cells x (hT.mem_of_live hnode) hh
  exact ⟨t2, pn, h1, h2, h3, h3, h4⟩

/-- C17 (witness): the claim at the tree of a new dictionary and the null position
(the new node goes before `feet`, the cell 1). -/
theorem C17_insert_before_witness :
    newTree.WellFormed ∧ (newTree.cells 1).isSome ∧
    ∃ t2 pn, newTree.cells 1 = some pn ∧ newTree.cells newTree.fresh = none ∧
      newTree.insert none 'x' = .ok (t2, some newTree.fresh) ∧
      newTree.insert_move none 'x' = .ok (t2, some newTree.fresh) ∧
      t2.fresh = newTree.fresh + 1 ∧ t2.head = newTree.head ∧ t2.feet = newTree.feet ∧
      t2.cells newTree.fresh = some
        { parent := pn.parent, first_child := none, last_child := none,
          prev_sibling := pn.prev_sibling, next_sibling := some 1, data := 'x' } ∧
      t2.cells 1 = some { pn with prev_sibling := some newTree.fresh } ∧
      (match pn.prev_sibling with
        | some q => ∃ nq, newTree.cells q = some nq ∧
            t2.cells q = some { nq with next_sibling := some newTree.fresh }
        | none => ∃ a na, pn.parent = some a ∧ newTree.cells a = some na ∧
            t2.cells a = some { na with first_child := some newTree.fresh }) ∧
      (∀ b, b ≠ newTree.fresh → b ≠ 1 → some b ≠ pn.prev_sibling →
        (pn.prev_sibling = none → some b ≠ pn.parent) → t2.cells b = newTree.cells b) :=
  ⟨⟨_, new_rep.tree_rep⟩, by decide!,
    C17_insert_before ⟨_, new_rep.tree_rep⟩ none 1 'x' (Or.inr ⟨rfl, rfl⟩) (by decide)
      (by decide!)⟩

/-- C18: on a well-formed tree, `append_child(position, x)` at a node `a` other than the
sentinels returns the address `n` of a cell that was free; `n` holds `x`, has no
children, `parent = a`, no next sibling and the former last child of `a` as previous
sibling; the former last child gets `next_sibling = n`; `a.last_child = n`, and
`a.first_child = n` if `a` had no last child (no child) and is unchanged otherwise;
every other cell is unchanged, and the children of `a`, followed from `first_child`
along `next_sibling`, are the former ones in their order and then `n`. -/
theorem C18_append_child {t : ZDTree} (hwf : t.WellFormed) (a : Nat) (x : Char)
    (hh : a ≠ t.head) (hf : a ≠ t.feet) (hnode : (t.cells a).isSome) :
    ∃ t2 na na2 kids, t.cells a = some na ∧ t.cells t.fresh = none ∧
      t.append_child (some a) x = .ok (t2, some t.fresh) ∧
      t2.fresh = t.fresh + 1 ∧ t2.head = t.head ∧ t2.feet = t.feet ∧
      t2.cells t.fresh = some
        { parent := some a, first_child := none, last_child := none,
          prev_sibling := na.last_child, next_sibling := none, data := x } ∧
      na2 = { na with
        first_child := if na.last_child = none then some t.fresh else na.first_child,
        last_child := some t.fresh } ∧
      t2.cells a = some na2 ∧
      (∀ l, na.last_child = some l → ∃ nl, t.cells l = some nl ∧
        t2.cells l = some { nl with next_sibling := some t.fresh }) ∧
      (∀ b, b ≠ t.fresh → b ≠ a → some b ≠ na.last_child → t2.cells b = t.cells b) ∧
      t.NextWalk na.first_child kids ∧ t2.NextWalk na2.first_child (kids ++ [t.fresh]) := by
  obtain ⟨T, hT⟩ := hwf
  have ha := hT.mem_of_live hnode
  have ho := hT.owns_full ha
  obtain ⟨na, hna, hfc, hlc⟩ := ho.live
  have hfree : t.cells t.fresh = none := hT.is_clean _ (le_refl _)
  obtain ⟨t3, he3, _, hr⟩ := append_child_spec ho hT.is_clean hh hf x
  have hw1 := Sibs.next_walk _ ho.sibs
  have hw2 := Sibs.next_walk _ hr.sibs
  rw [Forest.tops_app] at hw2
  simp only [Forest.tops] at hw2
  have hak : a ∉ (Forest.sub a (Forest.full t T)).addrs := (List.nodup_cons.mp ho.nodup).1
  cases hkl : (Forest.sub a (Forest.full t T)).last with
  | none =>
    have hl0 : na.last_child = none := by rw [hlc, hkl]
    obtain ⟨t2, h1, h2, h3, h4, h5, h6, h7⟩ :=
      append_child_first x hna hl0 (hT.bound a ha) hh hf
    rw [h1] at he3
    cases (Prod.mk.inj (Except.ok.inj he3)).1
    refine ⟨t3, na, _, _, hna, hfree, h1, h2, h3, h4, by rw [h5, hl0], rfl,
      by rw [h6]; simp [hl0], ?_, ?_, by rw [hfc]; exact hw1, ?_⟩
    · intro l hl; rw [hl0] at hl; cases hl
    · intro b hb1 hb2 _; exact h7 b hb1 hb2
    · simp only [hl0, if_true]
      have hnil := Forest.last_eq_none.mp hkl
      rw [hnil] at hw2 ⊢
      simpa [Forest.app, Forest.first] using hw2
  | some l =>
    have hl0 : na.last_child = some l := by rw [hlc, hkl]
    have hlt : l ∈ (Forest.sub a (Forest.full t T)).addrs :=
      Forest.tops_subset_addrs _ l (Forest.last_mem_tops hkl)
    obtain ⟨nl, hnl⟩ := Sibs.live ho.sibs l hlt
    have hla : l ≠ a := fun h2 => hak (h2 ▸ hlt)
    obtain ⟨t2, h1, h2, h3, h4, h5, h6, h7, h8⟩ :=
      append_child_more x hna hl0 hnl hla (ho.bound l (by simp [hlt])) (hT.bound a ha) hh hf
    rw [h1] at he3
    cases (Prod.mk.inj (Except.ok.inj he3)).1
    refine ⟨t3, na, _, _, hna, hfree, h1, h2, h3, h4, by rw [h5, hl0], rfl,
      by rw [h6]; simp [hl0], ?_, ?_, by rw [hfc]; exact hw1, ?_⟩
    · intro l2 hl2
      rw [hl0] at hl2
      cases Option.some.inj hl2
      exact ⟨nl, hnl, h7⟩
    · intro b hb1 hb2 hb3
      rw [hl0] at hb3
      exact h8 b hb1 hb2 (fun h => hb3 (by rw [h]))
    · simp only [hl0, reduceCtorEq, if_false]
      rw [hfc]
      rw [Forest.first_app] at hw2
      cases hk1 : (Forest.sub a (Forest.full t T)).first with
      | none =>
        rw [Forest.first_eq_none.mp hk1] at hkl
        simp [Forest.last] at hkl
      | some f => simpa [hk1] using hw2

/-- C18 (witness): the claim at the tree of a new dictionary and the node of 'd'
(cell 5). -/
theorem C18_append_child_witness :
    newTree.WellFormed ∧ (newTree.cells 5).isSome ∧
    ∃ t2 na na2 kids, newTree.cells 5 = some na ∧ newTree.cells newTree.fresh = none ∧
      newTree.append_child (some 5) 'x' = .ok (t2, some newTree.fresh) ∧
      t2.fresh = newTree.fresh + 1 ∧ t2.head = newTree.head ∧ t2.feet = newTree.feet ∧
      t2.cells newTree.fresh = some
        { parent := some 5, first_child := none, last_child := none,
          prev_sibling := na.last_child, next_sibling := none, data := 'x' } ∧
      na2 = { na with
        first_child := if na.last_child = none then some newTree.fresh else na.first_child,
        last_child := some newTree.fresh } ∧
      t2.cells 5 = some na2 ∧
      (∀ l, na.last_child = some l → ∃ nl, newTree.cells l = some nl ∧
        t2.cells l = some { nl with next_sibling := some newTree.fresh }) ∧
      (∀ b, b ≠ newTree.fresh → b ≠ 5 → some b ≠ na.last_child →
        t2.cells b = newTree.cells b) ∧
      newTree.NextWalk na.first_child kids ∧
      t2.NextWalk na2.first_child (kids ++ [newTree.fresh]) :=
  ⟨⟨_, new_rep.tree_rep⟩, by decide!,
    C18_append_child ⟨_, new_rep.tree_rep⟩ 5 'x' (by decide) (by decide) (by decide!)⟩

/-- C13: every state of a `ZDTree` that is reachable from the empty tree through calls of
`insert` (at a node of the tree other than `head`, `feet` included, or at the null
position), `append_child`, `erase` and `erase_children` (at nodes of the tree other
than the sentinels) satisfies the linkage invariant: for every node, `first_child` and
`last_child` are both null or both set, following `next_sibling` from `first_child`
ends with `last_child` and then null, every node met on the way has the node as
`parent`, and `a.next_sibling = b` holds exactly when `b.prev_sibling = a`. -/
theorem C13_linkage_invariant {t : ZDTree} (h : TreeReachable t) : t.LinkInv := by
  obtain ⟨T, hT⟩ := h.wf
  exact hT.link_inv

/-- C13 (witness): the claim at the tree made by `insert(end(), 'a')` and
`append_child` of 'b' to the new node. -/
theorem C13_linkage_invariant_witness : TreeReachable twoNodeTree ∧ twoNodeTree.LinkInv :=
  ⟨twoNodeTree_reachable, C13_linkage_invariant twoNodeTree_reachable⟩

/-- C19: on a well-formed tree, `erase(it)` at a node `n` other than the sentinels
returns; the cells it frees are exactly that of `n` and those of the descendants of `n`;
in every other cell the record is the former one with `n` unlinked (the previous sibling
of `n` gets the `next_sibling` of `n`, the next sibling its `prev_sibling`, the parent
gets the next sibling as `first_child` when `n` was the first child and the previous
sibling as `last_child` when `n` was the last, everything else is unchanged); the tree
is well-formed again; the iterator returned is the result of `operator++` with the
children skipped at `n` in the tree before the call, which is the node that follows `n`
and its descendants in the traversal from `begin()` (`feet` when none does). -/
theorem C19_erase_subtree {t : ZDTree} (hwf : t.WellFormed) (n : Nat) (hh : n ≠ t.head)
    (hf : n ≠ t.feet) (hn : (t.cells n).isSome) :
    ∃ t2 ret rn, t.cells n = some rn ∧ t.pre_incr (some n) true = .ok ret ∧
      t.erase (some n) = .ok (t2, ret) ∧ t2.WellFormed ∧
      t2.fresh = t.fresh ∧ t2.head = t.head ∧ t2.feet = t.feet ∧
      (∀ b, t2.cells b = none ↔ (t.cells b = none ∨ b = n ∨ t.Below n b)) ∧
      (∀ b, b ≠ n → ¬ t.Below n b → t2.cells b = (t.cells b).map (rn.unlink b)) ∧
      (∃ first l pre desc post r, t.begin = .ok first ∧
        ZDTree.traverse (t.fresh + 1) t first = .ok l ∧
        l ++ [t.feet] = pre ++ n :: (desc ++ r :: post) ∧
        (∀ b, b ∈ desc ↔ t.Below n b) ∧ ret = some r) := by
  obtain ⟨T, hT⟩ := hwf
  have hx := hT.mem_addrs hh hf hn
  have hxF : n ∈ (Forest.full t T).addrs := hT.mem_of_live hn
  obtain ⟨t2, ret, rn, hrn, hret, he, hfr, hhd, hft, hgx, hdead, hcells, hT2⟩ := hT.erase_node hx
  have hbelow : ∀ b, t.Below n b ↔ b ∈ (Forest.sub n T).addrs := by
    intro b
    rw [hT.below_iff hxF b, hT.sub_full hx]
  refine ⟨t2, ret, rn, hrn, hret, he, ⟨_, hT2⟩, hfr, hhd, hft, ?_, ?_, ?_⟩
  · intro b
    constructor
    · intro hb
      by_cases hbn : b = n
      · exact Or.inr (Or.inl hbn)
      · by_cases hbs : b ∈ (Forest.sub n T).addrs
        · exact Or.inr (Or.inr ((hbelow b).mpr hbs))
        · rw [hcells b hbn hbs] at hb
          cases hcb : t.cells b with
          | none => exact Or.inl rfl
          | some r => rw [hcb] at hb; cases hb
    · intro hb
      by_cases hbn : b = n
      · rw [hbn]; exact hgx
      · by_cases hbs : b ∈ (Forest.sub n T).addrs
        · exact hdead b hbs
        · rcases hb with hb | hb | hb
          · rw [hcells b hbn hbs, hb]; rfl
          · exact absurd hb hbn
          · exact absurd ((hbelow b).mp hb) hbs
  · intro b hb1 hb2
    exact hcells b hb1 (fun h => hb2 ((hbelow b).mpr h))
  · obtain ⟨first, h1, h2, _⟩ := hT.traversal
    obtain ⟨pre, post, r, hblock, hskip⟩ := hT.skip_target hx
    rw [hret] at hskip
    exact ⟨first, T.addrs, pre, (Forest.sub n T).addrs, post, r, h1, h2, hblock,
      fun b => (hbelow b).symm, Except.ok.inj hskip⟩

/-- C19 (witness): the claim at the tree with node 2 and its child 3, erasing node 2. -/
theorem C19_erase_subtree_witness :
    twoNodeTree.WellFormed ∧ (twoNodeTree.cells 2).isSome ∧
    ∃ t2 ret rn, twoNodeTree.cells 2 = some rn ∧
      twoNodeTree.pre_incr (some 2) true = .ok ret ∧
      twoNodeTree.erase (some 2) = .ok (t2, ret) ∧ t2.WellFormed ∧
      t2.fresh = twoNodeTree.fresh ∧ t2.head = twoNodeTree.head ∧
      t2.feet = twoNodeTree.feet ∧
      (∀ b, t2.cells b = none ↔
        (twoNodeTree.cells b = none ∨ b = 2 ∨ twoNodeTree.Below 2 b)) ∧
      (∀ b, b ≠ 2 → ¬ twoNodeTree.Below 2 b →
        t2.cells b = (twoNodeTree.cells b).map (rn.unlink b)) ∧
      (∃ first l pre desc post r, twoNodeTree.begin = .ok first ∧
        ZDTree.traverse (twoNodeTree.fresh + 1) twoNodeTree first = .ok l ∧
        l ++ [twoNodeTree.feet] = pre ++ 2 :: (desc ++ r :: post) ∧
        (∀ b, b ∈ desc ↔ twoNodeTree.Below 2 b) ∧ ret = some r) :=
  ⟨twoNodeTree_wf, by rfl,
    C19_erase_subtree twoNodeTree_wf 2 (by decide) (by decide) (by rfl)⟩

/-- C20: on a well-formed tree, the loop that starts at `begin()` and applies the
pre-order `operator++` (children not skipped) until it meets `end()` returns; the list
of the nodes it visits equals the recursive pre-order listing from `begin()` (a node,
then the listing of its children from the first on, then that of its next siblings);
it has no repetition, its nodes are exactly the allocated nodes other than the
sentinels, and every node is followed at once by the block of its descendants. -/
theorem C20_preorder_traversal {t : ZDTree} (hwf : t.WellFormed) :
    ∃ first l, t.begin = .ok first ∧
      ZDTree.traverse (t.fresh + 1) t first = .ok l ∧
      ZDTree.preorder (t.fresh + 1) t first = .ok l ∧
      l.Nodup ∧
      (∀ b, b ∈ l ↔ ((t.cells b).isSome ∧ b ≠ t.head ∧ b ≠ t.feet)) ∧
      (∀ a ∈ l, ∃ pre desc post, l = pre ++ a :: (desc ++ post) ∧
        ∀ b, b ∈ desc ↔ t.Below a b) := by
  obtain ⟨T, hT⟩ := hwf
  obtain ⟨first, h1, h2, h3⟩ := hT.traversal
  refine ⟨first, T.addrs, h1, h2, h3, hT.nodup_inner, hT.mem_iff, ?_⟩
  intro a ha
  obtain ⟨pre, post, hblock⟩ := Forest.addrs_block hT.nodup_inner ha
  refine ⟨pre, (Forest.sub a T).addrs, post, hblock, ?_⟩
  intro b
  have haF : a ∈ (Forest.full t T).addrs := by rw [Forest.full_addrs]; simp [ha]
  rw [hT.below_iff haF b, hT.sub_full ha]

/-- C20 (witness): the claim at the tree with node 2 and its child 3. -/
theorem C20_preorder_traversal_witness :
    twoNodeTree.WellFormed ∧
    ∃ first l, twoNodeTree.begin = .ok first ∧
      ZDTree.traverse (twoNodeTree.fresh + 1) twoNodeTree first = .ok l ∧
      ZDTree.preorder (twoNodeTree.fresh + 1) twoNodeTree first = .ok l ∧
      l.Nodup ∧
      (∀ b, b ∈ l ↔
        ((twoNodeTree.cells b).isSome ∧ b ≠ twoNodeTree.head ∧ b ≠ twoNodeTree.feet)) ∧
      (∀ a ∈ l, ∃ pre desc post, l = pre ++ a :: (desc ++ post) ∧
        ∀ b, b ∈ desc ↔ twoNodeTree.Below a b) :=
  ⟨twoNodeTree_wf, C20_preorder_traversal twoNodeTree_wf⟩

/-- C21 (failing input): on the tree of a new dictionary, which is well formed, the
private approximate `find_word` at the node of 'd' (cell 5, no child) with the word "og"
and budget 2 does not return: after the mismatch on 'o' the deletion recovery is started
at the null `first_child` of the node with budget 1, and `has_child` dereferences the
null node. With budget 1 the same call returns `(false, null, -1)`. -/
theorem C21_approx_find_not_total :
    newTree.WellFormed ∧
    newTree.cells 5 = some ⟨none, none, none, some 4, some 6, 'd'⟩ ∧
    find_word_approx newTree (some 5) "og".toList 2 = .error .null_deref ∧
    find_word_approx newTree (some 5) "og".toList 1 = .ok (false, none, -1) :=
  ⟨⟨_, new_rep.tree_rep⟩, by decide!, by decide!, by decide!⟩

/-- C22 (failing input): after "ab" and "ayz" have been inserted into a new dictionary,
the private approximate `find_word` at the node of 'a' (cell 2) with the word "xyz" and
budget 3 finds no child for 'x'; its substitution recovery, the search for "yz" at 'a'
with budget 2, succeeds with the node of 'z' (cell 30) and remaining budget 2; but its
deletion recovery, the search for "xyz" with budget 2 at the first child 'b' (cell 28,
a node without children), dereferences the null `first_child` of 'b', and so does the
whole call: no result is returned although a recovery search has succeeded. -/
theorem C22_recovery_fault_despite_success :
    (do
      let d ← ZDDictionary.new
      let d ← d.insert_all ["ab".toList, "ayz".toList]
      let mismatch ← has_child d.m_internalTree (some 2) 'x'
      let a ← d.m_internalTree.read (some 2)
      let found_sub ← find_word_approx d.m_internalTree (some 2) "yz".toList 2
      pure (mismatch.1, a.first_child, found_sub) :
        Except Fault (Bool × Option Nat × Bool × Option Nat × Int)) =
      .ok (false, some 28, true, some 30, 2) ∧
    (do
      let d ← ZDDictionary.new
      let d ← d.insert_all ["ab".toList, "ayz".toList]
      find_word_approx d.m_internalTree (some 28) "xyz".toList 2 :
        Except Fault (Bool × Option Nat × Int)) = .error .null_deref ∧
    (do
      let d ← ZDDictionary.new
      let d ← d.insert_all ["ab".toList, "ayz".toList]
      find_word_approx d.m_internalTree (some 2) "xyz".toList 3 :
        Except Fault (Bool × Option Nat × Int)) = .error .null_deref := by
  refine ⟨?_, ?_, ?_⟩ <;> decide!

/-- C23 (counterexample): in the dictionary holding "abcd" the private approximate
`find_word` at the node of 'a' (cell 2, first child 'b' in cell 28) with the word "cd"
and budget 2 finds no child for 'c' (index 0) and returns a success with the node of
'd'; the searches for the suffix "d" without the mismatched character fail both at the
node itself and at its first child, and the search at the first child for "cd", the
suffix with the mismatched character, is the one that succeeds. -/
theorem C23_counterexample_deletion_suffix :
    has_child abcdTree (some 2) 'c' = .ok (false, none) ∧
    (abcdTree.cells 2).map TreeNode.first_child = some (some 28) ∧
    find_word_approx abcdTree (some 2) "cd".toList 2 = .ok (true, some 30, 1) ∧
    find_word_approx abcdTree (some 2) "d".toList 1 = .ok (false, none, -1) ∧
    find_word_approx abcdTree (some 28) "d".toList 1 = .ok (false, none, -1) ∧
    find_word_approx abcdTree (some 28) "cd".toList 1 = .ok (true, some 30, 1) := by
  decide!

/-- C23 (amended): when the private approximate `find_word` has matched the characters
`pre` down to the node `cur` and finds no child of `cur` for the next character `c`
(budget `k > 0`), its result is the choice among three searches with budget `k - 1`: the
substitution and the addition at `cur` with the suffix `rest` after `c`, and the deletion
at the first child of `cur` with the suffix `c :: rest` that starts at the mismatched
character. -/
theorem C23_deletion_keeps_character (t : ZDTree) (node cur : Option Nat) (pre : List Char)
    (c : Char) (rest : List Char) (k : Int) (x : Option Nat) (hk : 0 < k)
    (hwalk : Matched t node pre cur) (hmis : has_child t cur c = .ok (false, x)) :
    find_word_approx t node (pre ++ c :: rest) k =
      (do
        let found_sub ← find_word_approx t cur rest (k - 1)
        let found_add ← find_word_approx t cur rest (k - 1)
        let cn ← t.read cur
        let found_del ← find_word_approx t cn.first_child (c :: rest) (k - 1)
        pure (recovery_choice found_sub found_add found_del)) :=
  find_word_approx_mismatch t c rest hk hwalk hmis

/-- C23 (witness): the amended claim at the dictionary holding "abcd", the node of 'a',
the word "cd" and budget 2. -/
theorem C23_deletion_keeps_character_witness :
    has_child abcdTree (some 2) 'c' = .ok (false, none) ∧
    find_word_approx abcdTree (some 2) ([] ++ 'c' :: ['d']) 2 =
      (do
        let found_sub ← find_word_approx abcdTree (some 2) ['d'] (2 - 1)
        let found_add ← find_word_approx abcdTree (some 2) ['d'] (2 - 1)
        let cn ← abcdTree.read (some 2)
        let found_del ← find_word_approx abcdTree cn.first_child ('c' :: ['d']) (2 - 1)
        pure (recovery_choice found_sub found_add found_del)) :=
  ⟨by decide!,
    C23_deletion_keeps_character abcdTree (some 2) (some 2) [] 'c' ['d'] 2 none (by decide) rfl
      (by decide!)⟩

/-- C24: the private approximate `find_word` with the addition recovery taken out
returns what the original returns, for every tree, node, word and budget; and at a
mismatch the result of the original is the choice among the recovery results in which
the result of the substitution search stands for that of the addition search as well
(the two are the same call). -/
theorem C24_addition_is_substitution (t : ZDTree) (node : Option Nat) (word : List Char)
    (k : Int) :
    find_word_approx_no_add t node word k = find_word_approx t node word k ∧
    ∀ (cur : Option Nat) (pre : List Char) (c : Char) (rest : List Char) (x : Option Nat),
      word = pre ++ c :: rest → 0 < k → Matched t node pre cur →
      has_child t cur c = .ok (false, x) →
      find_word_approx t node word k =
        (do
          let found_sub ← find_word_approx t cur rest (k - 1)
          let cn ← t.read cur
          let found_del ← find_word_approx t cn.first_child (c :: rest) (k - 1)
          pure (recovery_choice found_sub found_sub found_del)) := by
  refine ⟨find_word_approx_no_add_fuel_eq t _ node word k, ?_⟩
  intro cur pre c rest x hw hk hwalk hmis
  rw [hw, find_word_approx_mismatch t c rest hk hwalk hmis]
  cases find_word_approx t cur rest (k - 1) with
  | error e => rfl
  | ok rs => rfl

/-- C24 (witness): the claim at the dictionary holding "abcd", the node of 'a', the word
"cd" and budget 2, where 'c' is not a child of 'a'. -/
theorem C24_addition_is_substitution_witness :
    find_word_approx_no_add abcdTree (some 2) "cd".toList 2 =
      find_word_approx abcdTree (some 2) "cd".toList 2 ∧
    has_child abcdTree (some 2) 'c' = .ok (false, none) ∧
    find_word_approx abcdTree (some 2) "cd".toList 2 =
      (do
        let found_sub ← find_word_approx abcdTree (some 2) ['d'] (2 - 1)
        let cn ← abcdTree.read (some 2)
        let found_del ← find_word_approx abcdTree cn.first_child ('c' :: ['d']) (2 - 1)
        pure (recovery_choice found_sub found_sub found_del)) :=
  ⟨(C24_addition_is_substitution abcdTree (some 2) "cd".toList 2).1, by decide!,
    (C24_addition_is_substitution abcdTree (some 2) "cd".toList 2).2 (some 2) [] 'c' ['d'] none
      rfl (by decide) rfl (by decide!)⟩

/-- C25: in every reachable state, for every word `w` of at least two characters whose
full path (of the case-folded word) exists and ends at a node `e` that has a child,
`remove_word(w)` returns true and leaves the dictionary exactly as it was (no node is
erased, no link changed), and `find_word(w)` returns true on it. -/
theorem C25_remove_prefix_keeps_tree {d : ZDDictionary} (h : Reachable d) (w : List Char)
    (e : Nat) (n : TreeNode) (hlen : 2 ≤ w.length)
    (hpath : d.m_internalTree.PathTo (to_lower_case_word w) e)
    (hn : d.m_internalTree.cells e = some n) (hc : n.first_child ≠ none) :
    d.remove_word w = .ok (d, true) ∧ d.find_word w = .ok true := by
  obtain ⟨T, hT⟩ := h.rep
  have hp := (hT.pathTo_iff _ _).mp hpath
  generalize hlw : to_lower_case_word w = lw at hp
  have hl : lw.length = w.length := by simp [← hlw, to_lower_case_word]
  match lw, hl, hp, hlw with
  | [], hl, _, _ => simp at hl; omega
  | [c], hl, _, _ => simp at hl; omega
  | c :: c2 :: rest, _, hp, hlw =>
    simp only [Forest.pathTo] at hp
    cases hfind : T.findChar c with
    | none => simp [hfind] at hp
    | some x =>
      simp only [hfind, reduceCtorEq, if_false] at hp
      refine ⟨remove_word_prefix_kept hT w hlw hfind hp hn hc, ?_⟩
      rw [find_word_spec hT w, hlw]
      have h1 := CxxString.at_ofList [] c (c2 :: rest)
      have h2 := CxxString.erase_ofList [] c (c2 :: rest)
      simp only [List.nil_append, List.length_nil, Nat.zero_add] at h1 h2
      simp only [List.length_cons, Forest.findFor, h1, hfind, h2, hp, Option.isSome_some,
        if_true]

/-- C25 (witness): the claim at the dictionary holding "abcd" and the word "abc", whose
path ends at the node of 'c' (cell 29), the parent of the node of 'd'. -/
theorem C25_remove_prefix_keeps_tree_witness :
    Reachable ⟨abcdTree⟩ ∧ abcdTree.PathTo (to_lower_case_word "abc".toList) 29 ∧
    (abcdTree.cells 29).map TreeNode.first_child = some (some 30) ∧
    (ZDDictionary.mk abcdTree).remove_word "abc".toList = .ok (⟨abcdTree⟩, true) ∧
    (ZDDictionary.mk abcdTree).find_word "abc".toList = .ok true :=
  ⟨abcdTree_reachable, abcdTree_path, by rw [abcdTree_cells.2.2.2.1]; rfl,
    C25_remove_prefix_keeps_tree abcdTree_reachable "abc".toList 29
      ⟨some 28, some 30, some 30, none, none, 'c'⟩ (by decide) abcdTree_path
      abcdTree_cells.2.2.2.1 (by decide)⟩

/-- C26: in every reachable state and for every word `q`, `find_word(q, 1)` returns, and
it returns true exactly when `q` has at least two characters and the full path of the
case-folded `q` exists in the tree (a top-level node holding its first character, a
child of it holding the second, and so on). -/
theorem C26_budget_one_exact {d : ZDDictionary} (h : Reachable d) (q : List Char) :
    ∃ b, d.find_word_approx q 1 = .ok b ∧
      (b = true ↔ (2 ≤ q.length ∧ d.m_internalTree.HasPath (to_lower_case_word q))) := by
  obtain ⟨T, hT⟩ := h.rep
  refine ⟨_, find_word_approx_one_spec hT q, ?_⟩
  have hl : (to_lower_case_word q).length = q.length := by simp [to_lower_case_word]
  generalize to_lower_case_word q = lw at hl
  cases lw with
  | nil =>
    simp only [List.length_nil] at hl
    constructor
    · intro hb; cases hb
    · intro hq; omega
  | cons c rest =>
    simp only [List.length_cons] at hl
    cases hfind : T.findChar c with
    | none =>
      simp only [hfind]
      constructor
      · intro hb; cases hb
      · rintro ⟨_, e, he⟩
        have := (hT.pathTo_iff _ _).mp he
        simp [Forest.pathTo, hfind] at this
    | some x =>
      simp only [hfind]
      constructor
      · intro hb
        have hne := Forest.walk_ne_nil hb
        obtain ⟨e, he⟩ := Option.isSome_iff_exists.mp hb
        refine ⟨?_, e, (hT.pathTo_iff _ _).mpr (by simp [Forest.pathTo, hfind, hne, he])⟩
        cases rest with
        | nil => exact absurd rfl hne
        | cons _ _ => simp at hl; omega
      · rintro ⟨hlen, e, he⟩
        have hp := (hT.pathTo_iff _ _).mp he
        have hne : rest ≠ [] := by
          intro h0
          rw [h0] at hl
          simp at hl
          omega
        simp only [Forest.pathTo, hfind, hne, if_false] at hp
        rw [hp]
        rfl

/-- C26 (witness): the claim at the dictionary holding "abcd" and the word "abcd". -/
theorem C26_budget_one_exact_witness :
    Reachable ⟨abcdTree⟩ ∧
    ∃ b, (ZDDictionary.mk abcdTree).find_word_approx "abcd".toList 1 = .ok b ∧
      (b = true ↔ (2 ≤ "abcd".toList.length ∧
        abcdTree.HasPath (to_lower_case_word "abcd".toList))) :=
  ⟨abcdTree_reachable, C26_budget_one_exact abcdTree_reachable "abcd".toList⟩

/-- C27: with a budget `k ≤ 0`, in every reachable state the public `find_word(q, k)`
returns false for every word `q`, and the private approximate `find_word` returns
`(false, null, -1)` for every tree, node and word. -/
theorem C27_nonpositive_budget {d : ZDDictionary} (h : Reachable d) (q : List Char) (k : Int)
    (hk : k ≤ 0) :
    d.find_word_approx q k = .ok false ∧
    ∀ (t : ZDTree) (node : Option Nat) (word : List Char),
      find_word_approx t node word k = .ok (false, none, -1) := by
  obtain ⟨T, hT⟩ := h.rep
  exact ⟨find_word_approx_for_exhausted hT.begin_eq _ _ _ _ _ hk,
    fun t node word => find_word_approx_nonpos t node word hk⟩

/-- C27 (witness): the claim at the dictionary holding "abcd", the stored word "abcd"
and budget 0. -/
theorem C27_nonpositive_budget_witness :
    Reachable ⟨abcdTree⟩ ∧
    (ZDDictionary.mk abcdTree).find_word_approx "abcd".toList 0 = .ok false ∧
    ∀ (t : ZDTree) (node : Option Nat) (word : List Char),
      find_word_approx t node word 0 = .ok (false, none, -1) :=
  ⟨abcdTree_reachable, C27_nonpositive_budget abcdTree_reachable "abcd".toList 0 (by decide)⟩

/-- C29: on a well-formed tree and for every node `n` other than the sentinels,
`operator++` (children not skipped) leads from `n` to a node `s` from which `operator--`
leads back to `n`, and `operator--` leads from `n` to a node `p` from which `operator++`
leads back to `n` (`s` may be `feet`, `p` may be `head`). -/
theorem C29_incr_decr_inverse {t : ZDTree} (hwf : t.WellFormed) (n : Nat) (hh : n ≠ t.head)
    (hf : n ≠ t.feet) (hn : (t.cells n).isSome) :
    (∃ s, t.pre_incr (some n) false = .ok (some s) ∧ t.pre_decr (some s) = .ok (some n)) ∧
    (∃ p, t.pre_decr (some n) = .ok (some p) ∧ t.pre_incr (some p) false = .ok (some n)) := by
  obtain ⟨T, hT⟩ := hwf
  exact hT.neighbours (hT.mem_addrs hh hf hn)

/-- C29 (witness): the claim at the tree with node 2 and its child 3, for the node 3
(its successor is `feet`, its predecessor the node 2). -/
theorem C29_incr_decr_inverse_witness :
    twoNodeTree.WellFormed ∧ (twoNodeTree.cells 3).isSome ∧
    (∃ s, twoNodeTree.pre_incr (some 3) false = .ok (some s) ∧
      twoNodeTree.pre_decr (some s) = .ok (some 3)) ∧
    (∃ p, twoNodeTree.pre_decr (some 3) = .ok (some p) ∧
      twoNodeTree.pre_incr (some p) false = .ok (some 3)) :=
  ⟨twoNodeTree_wf, by rfl,
    C29_incr_decr_inverse twoNodeTree_wf 3 (by decide) (by decide) (by rfl)⟩

/-- C30 (failing input): after "abxyz" and "ay" have been inserted into a new
dictionary, `find_word("axyz", 2)` returns true, but `find_word("axyz", 3)` does not
return: its substitution recovery walks to the node of 'y' below 'a', which has no
child, and the deletion recovery started there with budget 1 dereferences the null
`first_child`. -/
theorem C30_more_budget_null_first_child :
    (do
      let d ← ZDDictionary.new
      let d ← d.insert_all ["abxyz".toList, "ay".toList]
      d.find_word_approx "axyz".toList 2 : Except Fault Bool) = .ok true ∧
    (do
      let d ← ZDDictionary.new
      let d ← d.insert_all ["abxyz".toList, "ay".toList]
      d.find_word_approx "axyz".toList 3 : Except Fault Bool) = .error .null_deref := by
  constructor <;> decide!

/-- C31 (failing input): in the dictionary holding "abcd" and "cd" (a reachable state)
the path of "abcd" exists and ends at the node of 'd' in cell 30, which has no child;
`remove_word("abcd")` returns true and erases the nodes of 'b', 'c' and 'd' (cells 28,
29, 30), yet `find_word("abcd")` on the state after it returns true. -/
theorem C31_removed_word_still_found :
    Reachable ⟨abcdCdTree⟩ ∧ abcdCdTree.PathTo "abcd".toList 30 ∧
    abcdCdTree.cells 30 = some ⟨some 29, none, none, none, none, 'd'⟩ ∧
    (do
      let (d2, removed) ← (ZDDictionary.mk abcdCdTree).remove_word "abcd".toList
      let after ← d2.find_word "abcd".toList
      let nodes := [28, 29, 30].map fun b => (d2.m_internalTree.cells b).map TreeNode.data
      pure (removed, after, nodes) : Except Fault (Bool × Bool × List (Option Char))) =
      .ok (true, true, [none, none, none]) :=
  ⟨abcdCdTree_reachable, abcdCdTree_path, abcdCdTree_cells.2.2.2.2.1, by decide!⟩

/-- C32: in every reachable state and for all words `v` and `w`, if `find_word(v)` is
true then `insert_word(w)` returns and `find_word(v)` is true on the state after it;
every node in use before the call is in use after it with the same character, the same
parent and the same previous sibling (so the same earlier siblings). -/
theorem C32_insert_keeps_found {d : ZDDictionary} (h : Reachable d) (v w : List Char)
    (hv : d.find_word v = .ok true) :
    ∃ d2 b, d.insert_word w = .ok (d2, b) ∧ d2.find_word v = .ok true ∧
      ∀ a n, d.m_internalTree.cells a = some n →
        ∃ n2, d2.m_internalTree.cells a = some n2 ∧ n2.data = n.data ∧
          n2.parent = n.parent ∧ n2.prev_sibling = n.prev_sibling := by
  obtain ⟨T, hT⟩ := h.rep
  obtain ⟨d2, he, hrep, hkeep, _⟩ := insert_word_spec hT w
  rw [find_word_spec hT v] at hv
  refine ⟨d2, _, he, ?_, ?_⟩
  · rw [find_word_spec hrep v]
    exact congrArg Except.ok (Forest.findFor_insertWord T _ _ _ _ _ _ (Except.ok.inj hv))
  · intro a n hn
    obtain ⟨n2, h1, h2, h3, h4, _⟩ := hkeep.nodes a n hn
    exact ⟨n2, h1, h2, h3, h4⟩

/-- C32 (witness): the claim at the dictionary holding "abcd", with `v` = "abcd" found
before the insertion of `w` = "abcz". -/
theorem C32_insert_keeps_found_witness :
    Reachable ⟨abcdTree⟩ ∧ (ZDDictionary.mk abcdTree).find_word "abcd".toList = .ok true ∧
    ∃ d2 b, (ZDDictionary.mk abcdTree).insert_word "abcz".toList = .ok (d2, b) ∧
      d2.find_word "abcd".toList = .ok true ∧
      ∀ a n, abcdTree.cells a = some n →
        ∃ n2, d2.m_internalTree.cells a = some n2 ∧ n2.data = n.data ∧
          n2.parent = n.parent ∧ n2.prev_sibling = n.prev_sibling :=
  ⟨abcdTree_reachable, by decide!,
    C32_insert_keeps_found abcdTree_reachable "abcd".toList "abcz".toList (by decide!)⟩

end Dico
